import Mathlib

/-!
# sxwm: client registry, focus and workspace switching

A shallow embedding of `src/src/sxwm.c` and of the loop of `parser` in `src/src/parser.c`.

* A C pointer `Client *` is an `Option Ptr`: `none` is `NULL`, `some p` is the address `p`.
* The C heap is a map from addresses to cells; a freed or never allocated address maps to
  `none`, and dereferencing it is a `Fault`.  `malloc` hands out the address `brk` and
  increments it, so every allocated cell lies below `brk`.
* Every function of the source that walks a list is given `brk + 1` units of fuel.  A walk
  over a `NULL`-terminated list visits each cell at most once, hence needs at most `brk`
  steps; running out of fuel therefore means that the C loop does not terminate
  (`Fault.hang`).
* Requests sent to the display server (`XMapWindow`, `XSetInputFocus`, ...) do not change the
  state of the window manager and are left out; what the server replies is an argument of the
  handler that asks.
* `defs.h` is not part of the sources: `NUM_WORKSPACES` and `MAXCLIENTS` are arguments of the
  functions that use them.
-/

namespace Sxwm

/-- An X window identifier; `None` is `0`. -/
abbrev Window := Nat

/-- The address of a heap allocated `Client`. -/
abbrev Ptr := Nat

inductive Layout where
  | TILE
  | HORIZONTAL
  | MONOCLE
deriving DecidableEq

inductive DragMode where
  | DRAG_NONE
  | DRAG_MOVE
  | DRAG_RESIZE
  | DRAG_SWAP
deriving DecidableEq

/-- The fields of `Client` that `sxwm.c` reads or writes. -/
structure Client where
  win : Window
  next : Option Ptr
  ws : Int
  mon : Int
  x : Int
  y : Int
  w : Int
  h : Int
  fixed : Bool
  floating : Bool
  fullscreen : Bool
  mapped : Bool
  custom_stack_height : Int
deriving DecidableEq

structure Monitor where
  x : Int
  y : Int
  w : Int
  h : Int
deriving DecidableEq

/-- The values of `Binding.type`: the four of the enumeration and `INVALID`, the `-1` that
`parser` stores for a command it cannot split. -/
inductive BindType where
  | TYPE_CMD
  | TYPE_FUNC
  | TYPE_CWKSP
  | TYPE_MWKSP
  | INVALID
deriving DecidableEq

/-- One entry of `user_config.binds`.  `mods` is the 32 bit pattern of the `int` field. -/
structure Binding where
  mods : Nat
  keysym : Nat
  type : BindType
  action_ws : Int
deriving DecidableEq

/-- The fields of `Config` that the modelled functions read. -/
structure Config where
  modkey : Nat
  new_win_focus : Bool
  warp_cursor : Bool
  binds : List Binding
  border_width : Int
  motion_throttle : Int
  snap_distance : Int
  gaps : Int
deriving DecidableEq

/-- What makes a C execution undefined or endless. -/
inductive Fault where
  | oob (i : Int)
  | bad_ptr (p : Option Ptr)
  | hang
  | div_zero
deriving DecidableEq

/-- The globals of `sxwm.c`. -/
structure State where
  heap : Ptr → Option Client
  brk : Ptr
  workspaces : Nat → Option Ptr
  user_config : Config
  current_ws : Int
  drag_mode : DragMode
  drag_client : Option Ptr
  swap_target : Option Ptr
  focused : Option Ptr
  mons : List Monitor
  current_monitor : Int
  global_floating : Bool
  in_ws_switch : Bool
  open_windows : Int
  drag_start_x : Int
  drag_start_y : Int
  drag_orig_x : Int
  drag_orig_y : Int
  drag_orig_w : Int
  drag_orig_h : Int
  layout : Nat → Layout
  last_motion_time : Int
  scr_width : Int
  scr_height : Int

/-- The value of `monsn`: the number of entries of `mons`. -/
def monsn (s : State) : Int := s.mons.length

/-- The globals as their initialisers leave them, with the configuration and the monitors
that `setup` installs; the screen size, which `setup` assigns as well, is left at `0`. -/
def init (cfg : Config) (mons : List Monitor) : State :=
  { heap := fun _ => none
    brk := 0
    workspaces := fun _ => none
    user_config := cfg
    current_ws := 0
    drag_mode := DragMode.DRAG_NONE
    drag_client := none
    swap_target := none
    focused := none
    mons := mons
    current_monitor := 0
    global_floating := false
    in_ws_switch := false
    open_windows := 0
    drag_start_x := 0
    drag_start_y := 0
    drag_orig_x := 0
    drag_orig_y := 0
    drag_orig_w := 0
    drag_orig_h := 0
    layout := fun _ => Layout.TILE
    last_motion_time := 0
    scr_width := 0
    scr_height := 0 }

/-- The index expression of `workspaces[i]`: inside the array or a fault. -/
def ws_index (NUM_WORKSPACES : Nat) (i : Int) : Except Fault Nat :=
  if 0 ≤ i ∧ i < NUM_WORKSPACES then Except.ok i.toNat else Except.error (Fault.oob i)

/-- Reading `*p`. -/
def deref (s : State) (p : Ptr) : Except Fault Client :=
  match s.heap p with
  | some c => Except.ok c
  | none => Except.error (Fault.bad_ptr (some p))

/-- Writing `*p = c` for an allocated `p`. -/
def put (s : State) (p : Ptr) (c : Client) : State :=
  { s with heap := Function.update s.heap p (some c) }

/-- A value of type `Client **`: `&workspaces[ws]` or `&p->next`. -/
inductive Link where
  | head (ws : Nat)
  | next (p : Ptr)
deriving DecidableEq

/-- Reading `*pa` for `Client **pa`. -/
def load (s : State) : Link → Except Fault (Option Ptr)
  | Link.head ws => Except.ok (s.workspaces ws)
  | Link.next p =>
    match s.heap p with
    | some c => Except.ok c.next
    | none => Except.error (Fault.bad_ptr (some p))

/-- Writing `*pa = v` for `Client **pa`. -/
def store (s : State) : Link → Option Ptr → Except Fault State
  | Link.head ws, v => Except.ok { s with workspaces := Function.update s.workspaces ws v }
  | Link.next p, v =>
    match s.heap p with
    | some c => Except.ok (put s p { c with next := v })
    | none => Except.error (Fault.bad_ptr (some p))

/-- The loop `while (*pa && *pa != a) pa = &(*pa)->next;` of `swap_clients`. -/
def seek (s : State) (a : Ptr) : Nat → Link → Except Fault Link
  | 0, _ => Except.error Fault.hang
  | fuel + 1, pa =>
    match load s pa with
    | Except.error e => Except.error e
    | Except.ok none => Except.ok pa
    | Except.ok (some q) => if q = a then Except.ok pa else seek s a fuel (Link.next q)

/-- The function `swap_clients` (sxwm.c 917-957). -/
def swap_clients (NUM_WORKSPACES : Nat) (s : State) (a b : Option Ptr) : Except Fault State :=
  match a, b with
  | none, _ => Except.ok s
  | some _, none => Except.ok s
  | some a, some b =>
    if a = b then Except.ok s
    else do
      let ws ← ws_index NUM_WORKSPACES s.current_ws
      let pa ← seek s a (s.brk + 1) (Link.head ws)
      let pb ← seek s b (s.brk + 1) (Link.head ws)
      let va ← load s pa
      let vb ← load s pb
      match va, vb with
      | none, _ => Except.ok s
      | some _, none => Except.ok s
      | some ta, some tb =>
        if ta = b ∧ tb = a then do
          -- if next to it swap
          let cb ← deref s b
          let tmp := cb.next
          let s1 ← store s (Link.next b) (some a)
          let s2 ← store s1 (Link.next a) tmp
          store s2 pa (some b)
        else do
          -- full swap
          let ca ← deref s ta
          let cb ← deref s tb
          let ta_next := ca.next
          let tb_next := cb.next
          let s1 ← store s pa (some tb)
          let s2 ← store s1 (Link.next tb) (if ta_next = some tb then some ta else ta_next)
          let s3 ← store s2 pb (some ta)
          store s3 (Link.next ta) (if tb_next = some ta then some tb else tb_next)

/-- The clients reached from `c` by following `next`, in order (a reading of the list for
concrete states; `none` when the walk faults or does not end within `fuel` steps). -/
def clients_from (s : State) : Nat → Option Ptr → Option (List Ptr)
  | _, none => some []
  | 0, some _ => none
  | fuel + 1, some p =>
    match s.heap p with
    | none => none
    | some c => (clients_from s fuel c.next).map (fun l => p :: l)

/-- The sequence of workspace `ws`. -/
def clients_of (s : State) (ws : Nat) : Option (List Ptr) :=
  clients_from s (s.brk + 1) (s.workspaces ws)

/-- `Chain s k l e`: reading link `k` and then the `next` fields of the cells `l` yields the
cells of `l` in order and finally `e`. -/
def Chain (s : State) : Link → List Ptr → Option Ptr → Prop
  | k, [], e => load s k = Except.ok e
  | k, p :: l, e => load s k = Except.ok (some p) ∧ Chain s (Link.next p) l e

/-- A rectangle computed by the tiling engine. -/
structure Geom where
  x : Int
  y : Int
  w : Int
  h : Int
deriving DecidableEq

/-- The tiling engine as a function: the rectangle it assigns to the client at an address,
or `none` for a client it skips. -/
abbrev Tiler := State → Ptr → Option Geom

/-- Modelled from the spec: `tile` is declared and called in `sxwm.c`, its body is not in
the sources.  Spec 4.2: the engine is a "pure function of (workspace's client sequence,
monitor state, per-monitor layout/ratio, gap, border width, reserved-edge insets) →
geometry for every visible (mapped, non-floating, non-fullscreen) client"; floating and
fullscreen clients are skipped.  The geometry is the argument `T`; retiling writes it into
`x`, `y`, `w`, `h` of the clients it applies to and touches nothing else. -/
def tile (T : Tiler) (s : State) : State :=
  { s with
    heap := fun p =>
      match s.heap p with
      | none => none
      | some c =>
        match T s p with
        | none => some c
        | some g => some { c with x := g.x, y := g.y, w := g.w, h := g.h } }

/-- Modelled from the spec: `toggle_floating` is declared and called in `sxwm.c`, its body
is not in the sources.  The spec names it among the layout toggles of 6 and, in 4.4, has
it promote the tiled subject of a drag to floating: it flips `floating` of the focused
client and retiles; without a focused client it does nothing. -/
def toggle_floating (T : Tiler) (s : State) : Except Fault State :=
  match s.focused with
  | none => Except.ok s
  | some p => do
    let c ← deref s p
    Except.ok (tile T (put s p { c with floating := !c.floating }))

/-- The loop `for (c = head; c; c = c->next) if (c->win == w) ...`: the first client with
window `w` on the list that starts at `c`. -/
def find_win (s : State) (w : Window) : Nat → Option Ptr → Except Fault (Option Ptr)
  | _, none => Except.ok none
  | 0, some _ => Except.error Fault.hang
  | fuel + 1, some p =>
    match s.heap p with
    | none => Except.error (Fault.bad_ptr (some p))
    | some c => if c.win = w then Except.ok (some p) else find_win s w fuel c.next

/-- A loop `for (c = head; c; c = c->next)` whose body only reads the client and talks to
the display server. -/
def walk (s : State) : Nat → Option Ptr → Except Fault Unit
  | _, none => Except.ok ()
  | 0, some _ => Except.error Fault.hang
  | fuel + 1, some p =>
    match s.heap p with
    | none => Except.error (Fault.bad_ptr (some p))
    | some c => walk s fuel c.next

/-- The loop `while (tail->next) tail = tail->next;`. -/
def find_tail (s : State) : Nat → Ptr → Except Fault Ptr
  | 0, _ => Except.error Fault.hang
  | fuel + 1, tail =>
    match s.heap tail with
    | none => Except.error (Fault.bad_ptr (some tail))
    | some c =>
      match c.next with
      | none => Except.ok tail
      | some n => find_tail s fuel n

/-- Reading `mons[i]`. -/
def mon_at (s : State) (i : Int) : Except Fault Monitor :=
  if 0 ≤ i then
    match s.mons.get? i.toNat with
    | some m => Except.ok m
    | none => Except.error (Fault.oob i)
  else Except.error (Fault.oob i)

/-- The loop of `add_client` over the monitors: the index of the first monitor that
contains the pointer, `0` when there is none. -/
def pointer_mon : List Monitor → Int → Int → Int → Int
  | [], _, _, _ => 0
  | m :: ms, i, root_x, root_y =>
    if root_x ≥ m.x ∧ root_x < m.x + m.w ∧ root_y ≥ m.y ∧ root_y < m.y + m.h then i
    else pointer_mon ms (i + 1) root_x root_y

/-- What `add_client` is told by `malloc` and by the display server. -/
structure AddEnv where
  malloc_ok : Bool
  wa_x : Int
  wa_y : Int
  wa_width : Int
  wa_height : Int
  pointer : Option (Int × Int)
deriving DecidableEq

/-- The insertion of the new client `c` into `workspaces[i]` in `add_client` (sxwm.c
175-184): it becomes the head of an empty list, else the successor of the tail. -/
def link_tail (s : State) (i : Nat) (c : Ptr) : Except Fault State :=
  match s.workspaces i with
  | none => Except.ok { s with workspaces := Function.update s.workspaces i (some c) }
  | some hd => do
    let tail ← find_tail s (s.brk + 1) hd
    store s (Link.next tail) (some c)

/-- The function `add_client` (sxwm.c 163-247); it returns the new state and the new
client, `none` for `NULL`. -/
def add_client (NUM_WORKSPACES : Nat) (s : State) (env : AddEnv) (w : Window) (ws : Int) :
    Except Fault (State × Option Ptr) :=
  if env.malloc_ok = false then Except.ok (s, none)
  else do
    let c := s.brk
    let s0 : State :=
      { s with
        brk := s.brk + 1
        heap := Function.update s.heap c (some
          { win := w, next := none, ws := ws, mon := 0, x := 0, y := 0, w := 0, h := 0,
            fixed := false, floating := false, fullscreen := false, mapped := false,
            custom_stack_height := 0 }) }
    let i ← ws_index NUM_WORKSPACES ws
    let s1 ← link_tail s0 i c
    let s2 := { s1 with open_windows := s1.open_windows + 1 }
    let mon :=
      match env.pointer with
      | some (root_x, root_y) => pointer_mon s2.mons 0 root_x root_y
      | none => 0
    let cc ← deref s2 c
    let floating := if s2.layout mon.toNat = Layout.MONOCLE then false
      else if s2.global_floating then true else false
    let s3 := put s2 c
      { cc with
        x := env.wa_x, y := env.wa_y, w := env.wa_width, h := env.wa_height, mon := mon,
        fixed := false, floating := floating, fullscreen := false, mapped := true,
        custom_stack_height := 0 }
    let s4 := if ws = s3.current_ws ∧ s3.focused = none then { s3 with focused := some c }
      else s3
    Except.ok (s4, some c)

/-- The window types that `hdl_map_req` tells apart in `_NET_WM_WINDOW_TYPE`. -/
inductive WType where
  | dock
  | utility
  | dialog
  | toolbar
  | splash
  | popup_menu
  | other
deriving DecidableEq

/-- The loop of `hdl_map_req` over the window types: `none` when a dock type is met first
(the handler maps the window and returns), else whether a floating type was met. -/
def scan_types : List WType → Option Bool
  | [] => some false
  | WType.dock :: _ => none
  | WType.other :: ts => scan_types ts
  | _ :: _ => some true

/-- What `hdl_map_req` is told by the display server and by `window_should_float`. -/
structure MapEnv where
  attrs_ok : Bool
  override_redirect : Bool
  width : Int
  height : Int
  types : Option (List WType)
  should_float : Bool
  transient : Bool
  fixed_size : Bool
  add : AddEnv
deriving DecidableEq

/-- The nested loops of `hdl_map_req` and `hdl_destroy_ntf` over `workspaces[ws]` for the
workspaces `wss`, in order: the first workspace that holds a client with window `w`, and
that client. -/
def find_managed (s : State) (w : Window) : List Nat → Except Fault (Option (Nat × Ptr))
  | [] => Except.ok none
  | ws :: wss =>
    match find_win s w (s.brk + 1) (s.workspaces ws) with
    | Except.error e => Except.error e
    | Except.ok (some c) => Except.ok (some (ws, c))
    | Except.ok none => find_managed s w wss

/-- The branch of `hdl_map_req` for a window that is already managed, by the client `c` of
the active workspace (sxwm.c 977-990). -/
def map_managed (s : State) (c : Ptr) : Except Fault State := do
  let cc ← deref s c
  let s1 := if cc.mapped = false then put s c { cc with mapped := true } else s
  let s2 := if s1.user_config.new_win_focus then { s1 with focused := some c } else s1
  Except.ok s2

/-- The `fixed` and `floating` flags that `hdl_map_req` gives the new client `c1` (sxwm.c
1042-1060); `should_float` is what the window type and `window_should_float` said. -/
def new_client_flags (s1 : State) (env : MapEnv) (should_float : Bool) (c1 : Client) : Client :=
  let should_float := if should_float = false ∧ env.transient then true else should_float
  let fixed_hit := should_float = false ∧ env.fixed_size
  let should_float := if fixed_hit then true else should_float
  let c2 := if fixed_hit then { c1 with fixed := true } else c1
  -- New: Override should_float in MONOCLE mode
  if s1.layout c2.mon.toNat = Layout.MONOCLE then { c2 with floating := false }
  else if should_float ∨ s1.global_floating then { c2 with floating := true }
  else c2

/-- The block "center floating windows & set border" of `hdl_map_req` (sxwm.c
1062-1074). -/
def center_floating (s1 : State) (c3 : Client) : Except Fault Client :=
  if c3.floating ∧ c3.fullscreen = false then do
    let w_ := max c3.w 64
    let h_ := max c3.h 64
    let m ← mon_at s1 c3.mon
    Except.ok { c3 with
      x := m.x + Int.tdiv (m.w - w_) 2, y := m.y + Int.tdiv (m.h - h_) 2, w := w_, h := h_ }
  else Except.ok c3

/-- The block "map & borders" of `hdl_map_req` (sxwm.c 1076-1096) for the new client
`c`, whose `floating` flag is `floating`. -/
def map_finish (T : Tiler) (s2 : State) (c : Ptr) (floating : Bool) : Except Fault State := do
  let s3 := if s2.global_floating = false ∧ floating = false then tile T s2 else s2
  let c5 ← deref s3 c
  let s4 := put s3 c { c5 with mapped := true }
  let s5 := if s4.user_config.new_win_focus then { s4 with focused := some c } else s4
  Except.ok s5

/-- What `hdl_map_req` does with the client `c` that `add_client` returned (sxwm.c
1042-1096). -/
def map_new (T : Tiler) (s1 : State) (env : MapEnv) (should_float : Bool) (c : Ptr) :
    Except Fault State := do
  let c1 ← deref s1 c
  let c3 := new_client_flags s1 env should_float c1
  let c4 ← center_floating s1 c3
  map_finish T (put s1 c c4) c c4.floating

/-- The function `hdl_map_req` (sxwm.c 959-1097). -/
def hdl_map_req (NUM_WORKSPACES : Nat) (MAXCLIENTS : Int) (T : Tiler) (s : State)
    (env : MapEnv) (w : Window) : Except Fault State :=
  if env.attrs_ok = false then Except.ok s
  else if env.override_redirect ∨ env.width ≤ 0 ∨ env.height ≤ 0 then Except.ok s
  else do
    -- check if this window is already managed on any workspace
    let found ← find_managed s w (List.range NUM_WORKSPACES)
    match found with
    | some (ws, c) => if (ws : Int) = s.current_ws then map_managed s c else Except.ok s
    | none =>
      match (match env.types with
             | some ts => scan_types ts
             | none => some false) with
      | none => Except.ok s
      | some float0 =>
        let should_float := if float0 = false then env.should_float else float0
        if s.open_windows = MAXCLIENTS then Except.ok s
        else do
          let r ← add_client NUM_WORKSPACES s env.add w s.current_ws
          match r with
          | (s1, none) => Except.ok s1
          | (s1, some c) => map_new T s1 env should_float c

/-- The function `change_workspace` (sxwm.c 249-298). -/
def change_workspace (NUM_WORKSPACES : Nat) (T : Tiler) (s : State) (ws : Int) :
    Except Fault State :=
  if ws ≥ NUM_WORKSPACES ∨ ws = s.current_ws then Except.ok s
  else do
    let s1 := { s with in_ws_switch := true }
    -- unmap those still marked mapped
    let i ← ws_index NUM_WORKSPACES s1.current_ws
    walk s1 (s1.brk + 1) (s1.workspaces i)
    let s2 := { s1 with current_ws := ws }
    -- map those still marked mapped
    let j ← ws_index NUM_WORKSPACES s2.current_ws
    walk s2 (s2.brk + 1) (s2.workspaces j)
    let s3 := tile T s2
    let s4 := { s3 with focused := none }
    let k ← ws_index NUM_WORKSPACES s4.current_ws
    let s5 ←
      match s4.workspaces k with
      | some hd => do
        let s5 := { s4 with focused := some hd }
        let _ ← deref s5 hd
        Except.ok s5
      | none => Except.ok s4
    Except.ok { s5 with in_ws_switch := false }

def LockMask : Nat := 2

def ShiftMask : Nat := 1

def Mod2Mask : Nat := 16

def Mod3Mask : Nat := 32

def Mod5Mask : Nat := 128

def Button1 : Nat := 1

def Button3 : Nat := 3

/-- The function `clean_mask` (sxwm.c 300-303) on 32 bit patterns: `~m` is
`0xFFFFFFFF ^^^ m`. -/
def clean_mask (mask : Nat) : Nat :=
  mask &&& (0xFFFFFFFF ^^^ (LockMask ||| Mod2Mask ||| Mod3Mask))

/-- The do-while loop of `focus_next`: `hd` is `workspaces[current_ws]`. -/
def focus_next_loop (s : State) (hd start : Ptr) : Nat → Ptr → Except Fault Ptr
  | 0, _ => Except.error Fault.hang
  | fuel + 1, c => do
    let cc ← deref s c
    let c1 := match cc.next with
      | some n => n
      | none => hd
    let cc1 ← deref s c1
    if cc1.mapped = false ∧ c1 ≠ start then focus_next_loop s hd start fuel c1
    else Except.ok c1

/-- The function `focus_next` (sxwm.c 382-408). -/
def focus_next (NUM_WORKSPACES : Nat) (s : State) : Except Fault State := do
  let i ← ws_index NUM_WORKSPACES s.current_ws
  match s.workspaces i with
  | none => Except.ok s
  | some hd =>
    let start := match s.focused with
      | some f => f
      | none => hd
    -- loop until we find a mapped client or return to start
    let c ← focus_next_loop s hd start (s.brk + 1) start
    let cc ← deref s c
    -- this stops invisible windows being detected or focused
    if cc.mapped = false then Except.ok s
    else Except.ok { s with focused := some c, current_monitor := cc.mon }

/-- The loop `while (p && p != c) { prev = p; p = p->next; }` of `focus_prev`: the final
`prev`. -/
def find_prev (s : State) (c : Ptr) : Nat → Option Ptr → Option Ptr → Except Fault (Option Ptr)
  | _, prev, none => Except.ok prev
  | 0, _, some _ => Except.error Fault.hang
  | fuel + 1, prev, some p =>
    if p = c then Except.ok prev
    else
      match s.heap p with
      | none => Except.error (Fault.bad_ptr (some p))
      | some cp => find_prev s c fuel (some p) cp.next

/-- The body of the do-while loop of `focus_prev` (sxwm.c 421-436): the client before `c`
on the list that starts at `hd`, or the tail of that list when there is none. -/
def prev_or_tail (s : State) (hd c : Ptr) : Except Fault Ptr := do
  let prev ← find_prev s c (s.brk + 1) none (some hd)
  match prev with
  | some q => Except.ok q
  | none =>
    -- wrap to tail
    find_tail s (s.brk + 1) hd

/-- The do-while loop of `focus_prev`: `hd` is `workspaces[current_ws]`. -/
def focus_prev_loop (s : State) (hd start : Ptr) : Nat → Ptr → Except Fault Ptr
  | 0, _ => Except.error Fault.hang
  | fuel + 1, c => do
    let c1 ← prev_or_tail s hd c
    let cc1 ← deref s c1
    if cc1.mapped = false ∧ c1 ≠ start then focus_prev_loop s hd start fuel c1
    else Except.ok c1

/-- The function `focus_prev` (sxwm.c 410-453). -/
def focus_prev (NUM_WORKSPACES : Nat) (s : State) : Except Fault State := do
  let i ← ws_index NUM_WORKSPACES s.current_ws
  match s.workspaces i with
  | none => Except.ok s
  | some hd =>
    let start := match s.focused with
      | some f => f
      | none => hd
    let c ← focus_prev_loop s hd start (s.brk + 1) start
    let cc ← deref s c
    if cc.mapped = false then Except.ok s
    else Except.ok { s with focused := some c, current_monitor := cc.mon }

/-- The loop of `focus_next_mon` and `focus_prev_mon`: the first client on the list that is
on monitor `target`, mapped and not fullscreen. -/
def find_on_mon (s : State) (target : Int) : Nat → Option Ptr → Except Fault (Option Ptr)
  | _, none => Except.ok none
  | 0, some _ => Except.error Fault.hang
  | fuel + 1, some p =>
    match s.heap p with
    | none => Except.error (Fault.bad_ptr (some p))
    | some c =>
      if c.mon = target ∧ c.mapped ∧ c.fullscreen = false then Except.ok (some p)
      else find_on_mon s target fuel c.next

/-- The expression `focused ? focused->mon : current_monitor` of `focus_next_mon` and
`focus_prev_mon`. -/
def focused_mon (s : State) : Except Fault Int :=
  match s.focused with
  | some f => do
    let cf ← deref s f
    Except.ok cf.mon
  | none => Except.ok s.current_monitor

/-- The common body of `focus_next_mon` and `focus_prev_mon`; `step` computes `target_mon`
from `current_mon`. -/
def focus_mon (NUM_WORKSPACES : Nat) (s : State) (step : Int → Int) : Except Fault State :=
  if monsn s ≤ 1 then Except.ok s
  else do
    -- use current_monitor if no focused window, otherwise use focused window's monitor
    let current_mon ← focused_mon s
    let target_mon := step current_mon
    let i ← ws_index NUM_WORKSPACES s.current_ws
    let target_client ← find_on_mon s target_mon (s.brk + 1) (s.workspaces i)
    match target_client with
    | some c => Except.ok { s with focused := some c, current_monitor := target_mon }
    | none => do
      let _ ← mon_at s target_mon
      Except.ok { s with current_monitor := target_mon }

/-- The function `focus_next_mon` (sxwm.c 455-493). -/
def focus_next_mon (NUM_WORKSPACES : Nat) (s : State) : Except Fault State :=
  focus_mon NUM_WORKSPACES s (fun current_mon => Int.tmod (current_mon + 1) (monsn s))

/-- The function `focus_prev_mon` (sxwm.c 495-533). -/
def focus_prev_mon (NUM_WORKSPACES : Nat) (s : State) : Except Fault State :=
  focus_mon NUM_WORKSPACES s (fun current_mon => Int.tmod (current_mon - 1 + monsn s) (monsn s))

/-- A button press: `w` is the window that `find_toplevel` returns. -/
structure ButtonEv where
  w : Window
  state : Nat
  button : Nat
  x_root : Int
  y_root : Int
deriving DecidableEq

/-- The assignments that start a drag session in `hdl_button`. -/
def begin_drag (s : State) (e : ButtonEv) (c : Ptr) (cc : Client) (mode : DragMode) : State :=
  { s with
    drag_client := some c
    drag_start_x := e.x_root
    drag_start_y := e.y_root
    drag_orig_x := cc.x
    drag_orig_y := cc.y
    drag_orig_w := cc.w
    drag_orig_h := cc.h
    drag_mode := mode
    focused := some c }

/-- The statement `if ((e->state & modkey) && (button 1 or 3) && !c->floating) { focused =
c; toggle_floating(); }` of `hdl_button` (sxwm.c 703-706). -/
def press_float (T : Tiler) (s : State) (e : ButtonEv) (c : Ptr) (cc : Client) :
    Except Fault State :=
  if e.state &&& s.user_config.modkey ≠ 0 ∧ (e.button = Button1 ∨ e.button = Button3) ∧
      cc.floating = false then
    toggle_floating T { s with focused := some c }
  else Except.ok s

/-- The function `hdl_button` (sxwm.c 667-744). -/
def hdl_button (NUM_WORKSPACES : Nat) (T : Tiler) (s : State) (e : ButtonEv) :
    Except Fault State :=
  if e.w = 0 then Except.ok s
  else do
    let i ← ws_index NUM_WORKSPACES s.current_ws
    let found ← find_win s e.w (s.brk + 1) (s.workspaces i)
    match found with
    | none => Except.ok s
    | some c => do
      let cc ← deref s c
      -- begin swap drag mode
      if e.state &&& s.user_config.modkey ≠ 0 ∧ e.state &&& ShiftMask ≠ 0 ∧
          e.button = Button1 ∧ cc.floating = false then
        Except.ok (begin_drag s e c cc DragMode.DRAG_SWAP)
      else do
        let s1 ← press_float T s e c cc
        if e.state &&& s1.user_config.modkey = 0 ∧ e.button = Button1 then
          Except.ok { s1 with focused := some c }
        else do
          let c1 ← deref s1 c
          if c1.floating = false then Except.ok s1
          else if c1.fixed ∧ e.button = Button3 then Except.ok s1
          else
            Except.ok (begin_drag s1 e c c1
              (if e.button = Button1 then DragMode.DRAG_MOVE else DragMode.DRAG_RESIZE))

/-- The statement `if (swap_target) { XSetWindowBorder(dpy, swap_target->win, ...);
swap_clients(drag_client, swap_target); }` of `hdl_button_release` (sxwm.c 751-755). -/
def release_swap (NUM_WORKSPACES : Nat) (s : State) : Except Fault State :=
  match s.swap_target with
  | some t => do
    let _ ← deref s t
    swap_clients NUM_WORKSPACES s s.drag_client s.swap_target
  | none => Except.ok s

/-- The statement `if (drag_mode == DRAG_SWAP) { ...; tile(); update_borders(); }` of
`hdl_button_release` (sxwm.c 750-758). -/
def release_drag (NUM_WORKSPACES : Nat) (T : Tiler) (s : State) : Except Fault State :=
  if s.drag_mode = DragMode.DRAG_SWAP then do
    let s1 ← release_swap NUM_WORKSPACES s
    Except.ok (tile T s1)
  else Except.ok s

/-- The function `hdl_button_release` (sxwm.c 746-765). -/
def hdl_button_release (NUM_WORKSPACES : Nat) (T : Tiler) (s : State) : Except Fault State := do
  let s1 ← release_drag NUM_WORKSPACES T s
  Except.ok { s1 with drag_mode := DragMode.DRAG_NONE, drag_client := none, swap_target := none }

/-- The loop `while (c && c->win != w) { prev = c; c = c->next; }` of `hdl_destroy_ntf`:
the final `prev` and `c`. -/
def scan_win (s : State) (w : Window) :
    Nat → Option Ptr → Option Ptr → Except Fault (Option Ptr × Option Ptr)
  | _, prev, none => Except.ok (prev, none)
  | 0, _, some _ => Except.error Fault.hang
  | fuel + 1, prev, some p =>
    match s.heap p with
    | none => Except.error (Fault.bad_ptr (some p))
    | some c =>
      if c.win ≠ w then scan_win s w fuel (some p) c.next else Except.ok (prev, some p)

/-- The body of `if (c) { ... return; }` in `hdl_destroy_ntf`, for the client `c` found in
workspace `ws` behind `prev`. -/
def destroy_client (T : Tiler) (s : State) (ws : Nat) (prev : Option Ptr) (c : Ptr) :
    Except Fault State := do
  let cc ← deref s c
  let s1 :=
    if s.focused = some c then
      match cc.next with
      | some n => { s with focused := some n }
      | none =>
        match prev with
        | some q => { s with focused := some q }
        | none => if (ws : Int) = s.current_ws then { s with focused := none } else s
    else s
  let s2 ←
    match prev with
    | none => Except.ok { s1 with workspaces := Function.update s1.workspaces ws cc.next }
    | some q => store s1 (Link.next q) cc.next
  -- free(c)
  let s3 := { s2 with heap := Function.update s2.heap c none }
  let s4 := { s3 with open_windows := s3.open_windows - 1 }
  if (ws : Int) = s4.current_ws then Except.ok (tile T s4) else Except.ok s4

/-- The loop of `hdl_destroy_ntf` over the workspaces `wss`. -/
def destroy_loop (T : Tiler) (s : State) (w : Window) : List Nat → Except Fault State
  | [] => Except.ok s
  | ws :: wss =>
    match scan_win s w (s.brk + 1) none (s.workspaces ws) with
    | Except.error e => Except.error e
    | Except.ok (prev, some c) => destroy_client T s ws prev c
    | Except.ok (_, none) => destroy_loop T s w wss

/-- The function `hdl_destroy_ntf` (sxwm.c 835-883). -/
def hdl_destroy_ntf (NUM_WORKSPACES : Nat) (T : Tiler) (s : State) (w : Window) :
    Except Fault State :=
  destroy_loop T s w (List.range NUM_WORKSPACES)

/-- The statement `if (!in_ws_switch) { ... c->mapped = False; ... }` of `hdl_unmap_ntf`
(sxwm.c 1212-1220). -/
def mark_unmapped (NUM_WORKSPACES : Nat) (s : State) (w : Window) : Except Fault State :=
  if s.in_ws_switch = false then do
    let i ← ws_index NUM_WORKSPACES s.current_ws
    let found ← find_win s w (s.brk + 1) (s.workspaces i)
    match found with
    | some c => do
      let cc ← deref s c
      Except.ok (put s c { cc with mapped := false })
    | none => Except.ok s
  else Except.ok s

/-- The function `hdl_unmap_ntf` (sxwm.c 1210-1225). -/
def hdl_unmap_ntf (NUM_WORKSPACES : Nat) (T : Tiler) (s : State) (w : Window) :
    Except Fault State := do
  let s1 ← mark_unmapped NUM_WORKSPACES s w
  Except.ok (tile T s1)

/-- The `_NET_CURRENT_DESKTOP` branch of `hdl_client_msg` (sxwm.c 767-774): `data0` is
`xev->xclient.data.l[0]`, a `long`, converted to `int`. -/
def hdl_client_msg_desktop (NUM_WORKSPACES : Nat) (T : Tiler) (s : State) (data0 : Int) :
    Except Fault State :=
  let ws : Int := Int.bmod data0 (2 ^ 32)
  change_workspace NUM_WORKSPACES T s ws

/-- The loop of `hdl_keypress` (sxwm.c 885-915) up to its `switch`: the binding that the
key press with keysym `ks` and modifier state `state` is dispatched to. -/
def match_binding (ks : Nat) (mods : Nat) : List Binding → Option Binding
  | [] => none
  | b :: bs => if b.keysym = ks ∧ clean_mask b.mods = mods then some b
    else match_binding ks mods bs

/-- The binding that `hdl_keypress` selects for keysym `ks` and `xkey.state = state`. -/
def hdl_keypress_select (cfg : Config) (ks : Nat) (state : Nat) : Option Binding :=
  let mods := clean_mask state
  match_binding ks mods cfg.binds

/-- The notifications and operations that drive the registry and the focus. -/
inductive Event where
  | map_req (env : MapEnv) (w : Window)
  | unmap_ntf (w : Window)
  | destroy_ntf (w : Window)
  | button (e : ButtonEv)
  | button_release
  | focus_next
  | focus_prev
  | focus_next_mon
  | focus_prev_mon
  | change_workspace (ws : Int)

/-- One handler run. -/
def handle (NUM_WORKSPACES : Nat) (MAXCLIENTS : Int) (T : Tiler) (s : State) :
    Event → Except Fault State
  | Event.map_req env w => hdl_map_req NUM_WORKSPACES MAXCLIENTS T s env w
  | Event.unmap_ntf w => hdl_unmap_ntf NUM_WORKSPACES T s w
  | Event.destroy_ntf w => hdl_destroy_ntf NUM_WORKSPACES T s w
  | Event.button e => hdl_button NUM_WORKSPACES T s e
  | Event.button_release => hdl_button_release NUM_WORKSPACES T s
  | Event.focus_next => focus_next NUM_WORKSPACES s
  | Event.focus_prev => focus_prev NUM_WORKSPACES s
  | Event.focus_next_mon => focus_next_mon NUM_WORKSPACES s
  | Event.focus_prev_mon => focus_prev_mon NUM_WORKSPACES s
  | Event.change_workspace ws => change_workspace NUM_WORKSPACES T s ws

/-- The handlers run one after the other, stopping at the first fault. -/
def run (NUM_WORKSPACES : Nat) (MAXCLIENTS : Int) (T : Tiler) (s : State) :
    List Event → Except Fault State
  | [] => Except.ok s
  | e :: es =>
    match handle NUM_WORKSPACES MAXCLIENTS T s e with
    | Except.error f => Except.error f
    | Except.ok s1 => run NUM_WORKSPACES MAXCLIENTS T s1 es

/-- A client cell for examples: window `w`, successor `n`, the given `mapped` flag. -/
def demo_client (w : Window) (n : Option Ptr) (mapped : Bool) : Client :=
  { win := w, next := n, ws := 0, mon := 0, x := 0, y := 0, w := 100, h := 100,
    fixed := false, floating := false, fullscreen := false, mapped := mapped,
    custom_stack_height := 0 }

/-- A configuration for examples: modifier `Mod4Mask`, no bindings, and the border width,
motion throttle, snap distance and gaps of `init_defaults`. -/
def demo_config : Config :=
  { modkey := 64, new_win_focus := true, warp_cursor := false, binds := [],
    border_width := 1, motion_throttle := 60, snap_distance := 5, gaps := 10 }

/-- The example of the spec: workspace 0 holds A (mapped), B (unmapped), C (mapped) at the
addresses 0, 1, 2, and A is focused. -/
def demo_state : State :=
  { init demo_config [] with
    heap := fun p =>
      match p with
      | 0 => some (demo_client 100 (some 1) true)
      | 1 => some (demo_client 101 (some 2) false)
      | 2 => some (demo_client 102 none true)
      | _ => none
    brk := 3
    workspaces := fun i =>
      match i with
      | 0 => some 0
      | _ => none
    focused := some 0 }

/-- The `mapped` flag of the client at address `p` (`false` when there is none). -/
def mapped_at (s : State) (p : Ptr) : Bool :=
  match s.heap p with
  | some c => c.mapped
  | none => false

/-- `Steps s hd c l`: starting at `c`, the assignment `c = c->next ? c->next : hd` of
`focus_next` visits the clients `l` one after the other. -/
def Steps (s : State) (hd : Ptr) : Ptr → List Ptr → Prop
  | _, [] => True
  | c, c1 :: l =>
    (∃ cc, s.heap c = some cc ∧
      (match cc.next with
        | some n => n
        | none => hd) = c1) ∧ Steps s hd c1 l

/-- The window of the client at address `p`. -/
def win_at (s : State) (p : Ptr) : Option Window :=
  (s.heap p).map Client.win

/-- `Registry N s L`: the heap of `s` holds, for every workspace `ws < N`, the
`NULL`-terminated list `L ws`; no cell is on two lists; every allocated cell lies below
`brk`. -/
structure Registry (N : Nat) (s : State) (L : Nat → List Ptr) : Prop where
  lists : ∀ ws, ws < N → Chain s (Link.head ws) (L ws) none
  disjoint : ∀ i j, i < N → j < N → i ≠ j → ∀ p, p ∈ L i → p ∉ L j
  below_brk : ∀ p c, s.heap p = some c → p < s.brk

/-- The active workspace is one of the `N` workspaces. -/
def CurOK (N : Nat) (s : State) : Prop :=
  0 ≤ s.current_ws ∧ s.current_ws < N

/-- The client `focused` points to, if any, is on the active workspace's list. -/
def FocusOK (s : State) (L : Nat → List Ptr) : Prop :=
  ∀ f, s.focused = some f → f ∈ L s.current_ws.toNat

/-- The tiling engine that assigns no geometry. -/
def no_tiler : Tiler := fun _ _ => none

/-- The registry of `demo_state`: the three clients on workspace 0. -/
def demo_lists : Nat → List Ptr
  | 0 => [0, 1, 2]
  | _ => []

/-- A map request for a plain window `w`, 640x480, with the pointer on no monitor. -/
def demo_map_env : MapEnv :=
  { attrs_ok := true, override_redirect := false, width := 640, height := 480,
    types := none, should_float := false, transient := false, fixed_size := false,
    add := { malloc_ok := true, wa_x := 0, wa_y := 0, wa_width := 640, wa_height := 480,
             pointer := none } }

/-- The value `hdl_destroy_ntf` leaves in `focused` when it removes the client `c` of
workspace `ws` that stood between `l1` and `l2`: the successor of `c` if `c` was focused
and has one, else its predecessor, else `NULL` on the active workspace (on another
workspace `focused` is left alone); the old value when `c` was not focused. -/
def focus_after_remove (s : State) (ws : Nat) (l1 : List Ptr) (c : Ptr) (l2 : List Ptr) :
    Option Ptr :=
  if s.focused = some c then
    match l2.head? with
    | some n => some n
    | none =>
      match l1.getLast? with
      | some q => some q
      | none => if (ws : Int) = s.current_ws then none else some c
  else s.focused

/-- What is left when the client `c`, found in workspace `ws` between `l1` and `l2`, has
been removed from the registry `L` of `s`. -/
structure Removed (N : Nat) (s : State) (L : Nat → List Ptr) (ws : Nat) (l1 : List Ptr)
    (c : Ptr) (l2 : List Ptr) (s1 : State) : Prop where
  registry : Registry N s1 (Function.update L ws (l1 ++ l2))
  freed : s1.heap c = none
  win : ∀ p, p ≠ c → win_at s1 p = win_at s p
  mapped : ∀ p, p ≠ c → mapped_at s1 p = mapped_at s p
  focus : s1.focused = focus_after_remove s ws l1 c l2
  cur : s1.current_ws = s.current_ws
  brk : s1.brk = s.brk
  drag : s1.drag_mode = s.drag_mode ∧ s1.drag_client = s.drag_client ∧
    s1.swap_target = s.swap_target
  count : s1.open_windows = s.open_windows - 1
  guard : s1.in_ws_switch = s.in_ws_switch

/-- What `add_client` leaves when it has put a new client with window `w` at the tail of
workspace `ws` of the registry `L` of `s`: the new client is the cell at `s.brk`. -/
structure Added (N : Nat) (s : State) (L : Nat → List Ptr) (ws : Nat) (w : Window)
    (s1 : State) : Prop where
  registry : Registry N s1 (Function.update L ws (L ws ++ [s.brk]))
  win_new : win_at s1 s.brk = some w
  mapped_new : mapped_at s1 s.brk = true
  win : ∀ p, p ≠ s.brk → win_at s1 p = win_at s p
  mapped : ∀ p, p ≠ s.brk → mapped_at s1 p = mapped_at s p
  focus : s1.focused =
    if (ws : Int) = s.current_ws ∧ s.focused = none then some s.brk else s.focused
  cur : s1.current_ws = s.current_ws
  brk : s1.brk = s.brk + 1
  drag : s1.drag_mode = s.drag_mode ∧ s1.drag_client = s.drag_client ∧
    s1.swap_target = s.swap_target
  count : s1.open_windows = s.open_windows + 1
  guard : s1.in_ws_switch = s.in_ws_switch
  config : s1.user_config = s.user_config

/-- The two registry operations: `add_client` and the removal done by `hdl_destroy_ntf`. -/
inductive RegOp where
  | add (env : AddEnv) (w : Window) (ws : Int)
  | remove (w : Window)

/-- One registry operation. -/
def apply_op (NUM_WORKSPACES : Nat) (T : Tiler) (s : State) : RegOp → Except Fault State
  | RegOp.add env w ws => do
    let r ← add_client NUM_WORKSPACES s env w ws
    Except.ok r.1
  | RegOp.remove w => hdl_destroy_ntf NUM_WORKSPACES T s w

/-- A sequence of registry operations, stopping at the first fault. -/
def run_ops (NUM_WORKSPACES : Nat) (T : Tiler) (s : State) : List RegOp → Except Fault State
  | [] => Except.ok s
  | op :: ops =>
    match apply_op NUM_WORKSPACES T s op with
    | Except.error f => Except.error f
    | Except.ok s1 => run_ops NUM_WORKSPACES T s1 ops

/-- Every add of the sequence is one that `hdl_map_req` makes: at the time of the call the
window is on no list (the search of `hdl_map_req` finds nothing) and the workspace is
inside the array. -/
def Guarded (NUM_WORKSPACES : Nat) (T : Tiler) : State → List RegOp → Prop
  | _, [] => True
  | s, op :: ops =>
    (match op with
      | RegOp.add _ w ws =>
        find_managed s w (List.range NUM_WORKSPACES) = Except.ok none ∧
          0 ≤ ws ∧ ws < NUM_WORKSPACES
      | RegOp.remove _ => True) ∧
    ∀ s1, apply_op NUM_WORKSPACES T s op = Except.ok s1 → Guarded NUM_WORKSPACES T s1 ops

/-- No window handle occurs twice in the registry: two list entries with the same window
are the same entry of the same list. -/
def DistinctHandles (N : Nat) (s : State) (L : Nat → List Ptr) : Prop :=
  ∀ i j p q, i < N → j < N → p ∈ L i → q ∈ L j → win_at s p = win_at s q → i = j ∧ p = q

/-- What `add_client` is told when `malloc` succeeds and the window is 640x480 at the
origin. -/
def demo_add_env : AddEnv :=
  { malloc_ok := true, wa_x := 0, wa_y := 0, wa_width := 640, wa_height := 480, pointer := none }

/-- The invariant of the registry and the focus: the heap holds one `NULL`-terminated list
per workspace, no cell is on two lists, the active workspace exists, and `focused`, when
set, points to a client on the active workspace's list. -/
def Inv (N : Nat) (s : State) : Prop :=
  ∃ L, Registry N s L ∧ CurOK N s ∧ FocusOK s L

/-- The loads, `brk`, the active workspace and the configuration of `s1` are those of
`s`. -/
def SameLinks (s s1 : State) : Prop :=
  (∀ k, load s1 k = load s k) ∧ s1.brk = s.brk ∧ s1.current_ws = s.current_ws ∧
    s1.user_config = s.user_config

/-- Modelled from the spec: the macro `UDIST` comes from `defs.h`, which is not in the
sources.  Spec 4.4 uses it to tell whether an edge "lands within `snap_distance` of a
screen boundary": it is the distance between two coordinates. -/
def UDIST (a b : Int) : Int := (a - b).natAbs

/-- A pointer motion: `time`, `x_root` and `y_root` of the `XMotionEvent`, and the `child`
window that `XQueryPointer` reports.  `time` is an `unsigned long`, taken as 64 bits wide. -/
structure MotionEv where
  time : Nat
  x_root : Int
  y_root : Int
  child : Window
deriving DecidableEq

/-- The loop of the `DRAG_SWAP` branch of `hdl_motion` (sxwm.c 1117-1125): the first client
on the list that is not the subject of the drag, is not floating and has window `child`. -/
def find_swap_target (s : State) (child : Window) : Nat → Option Ptr → Except Fault (Option Ptr)
  | _, none => Except.ok none
  | 0, some _ => Except.error Fault.hang
  | fuel + 1, some p =>
    match s.heap p with
    | none => Except.error (Fault.bad_ptr (some p))
    | some c =>
      if some p = s.drag_client ∨ c.floating then find_swap_target s child fuel c.next
      else if c.win = child then Except.ok (some p)
      else find_swap_target s child fuel c.next

/-- The `DRAG_SWAP` branch of `hdl_motion` (sxwm.c 1109-1141). -/
def motion_swap (NUM_WORKSPACES : Nat) (s : State) (e : MotionEv) : Except Fault State := do
  let i ← ws_index NUM_WORKSPACES s.current_ws
  let new_target ← find_swap_target s e.child (s.brk + 1) (s.workspaces i)
  Except.ok { s with swap_target := new_target }

/-- The edge snapping of one axis in the `DRAG_MOVE` branch of `hdl_motion` (sxwm.c
1153-1158 for x, 1160-1165 for y): `n` is the new coordinate, `outer` the size with the
border on both sides, `scr` the size of the screen. -/
def snap_axis (snap_distance : Int) (n outer scr : Int) : Int :=
  if UDIST n 0 ≤ snap_distance then 0
  else if UDIST (n + outer) scr ≤ snap_distance then scr - outer
  else n

/-- The statement `if (!drag_client->floating && (UDIST(nx, drag_client->x) > snap_distance
|| UDIST(ny, drag_client->y) > snap_distance)) toggle_floating();` of `hdl_motion` (sxwm.c
1167-1170). -/
def move_promote (T : Tiler) (s : State) (cc : Client) (nx ny : Int) : Except Fault State :=
  if cc.floating = false ∧ (UDIST nx cc.x > s.user_config.snap_distance ∨
      UDIST ny cc.y > s.user_config.snap_distance) then toggle_floating T s
  else Except.ok s

/-- The `DRAG_MOVE` branch of `hdl_motion` (sxwm.c 1144-1175) for the subject `c`. -/
def motion_move (T : Tiler) (s : State) (e : MotionEv) (c : Ptr) : Except Fault State := do
  let dx := e.x_root - s.drag_start_x
  let dy := e.y_root - s.drag_start_y
  let nx := s.drag_orig_x + dx
  let ny := s.drag_orig_y + dy
  let cc ← deref s c
  let outer_w := cc.w + 2 * s.user_config.border_width
  let outer_h := cc.h + 2 * s.user_config.border_width
  let nx := snap_axis s.user_config.snap_distance nx outer_w s.scr_width
  let ny := snap_axis s.user_config.snap_distance ny outer_h s.scr_height
  let s1 ← move_promote T s cc nx ny
  let c1 ← deref s1 c
  Except.ok (put s1 c { c1 with x := nx, y := ny })

/-- The `DRAG_RESIZE` branch of `hdl_motion` (sxwm.c 1177-1185) for the subject `c`. -/
def motion_resize (s : State) (e : MotionEv) (c : Ptr) : Except Fault State := do
  let dx := e.x_root - s.drag_start_x
  let dy := e.y_root - s.drag_start_y
  let nw := s.drag_orig_w + dx
  let nh := s.drag_orig_h + dy
  let cc ← deref s c
  Except.ok (put s c { cc with w := if nw < 20 then 20 else nw, h := if nh < 20 then 20 else nh })

/-- What `hdl_motion` does with a motion that passed its guard (sxwm.c 1109-1185); `c` is
`drag_client`. -/
def drag_motion (NUM_WORKSPACES : Nat) (T : Tiler) (s : State) (e : MotionEv) (c : Ptr) :
    Except Fault State :=
  match s.drag_mode with
  | DragMode.DRAG_SWAP => motion_swap NUM_WORKSPACES s e
  | DragMode.DRAG_MOVE => motion_move T s e c
  | DragMode.DRAG_RESIZE => motion_resize s e c
  | DragMode.DRAG_NONE => Except.ok s

/-- The value of `e->time - last_motion_time`: the `long` is converted to `unsigned long`
and the difference is taken modulo `2 ^ 64`. -/
def motion_elapsed (s : State) (e : MotionEv) : Nat :=
  (((e.time : Int) - s.last_motion_time) % 2 ^ 64).toNat

/-- The value of `(long unsigned int)user_config.motion_throttle`. -/
def throttle_ul (s : State) : Nat :=
  (s.user_config.motion_throttle % 2 ^ 64).toNat

/-- The conversion of an `unsigned long` to `long` in `last_motion_time = e->time`: the
values from `2 ^ 63` on wrap to the negative ones. -/
def long_of_ulong (t : Nat) : Int :=
  if t < 2 ^ 63 then (t : Int) else (t : Int) - 2 ^ 64

/-- The function `hdl_motion` (sxwm.c 1099-1186).  The right operand of `||` in the guard
is evaluated only when a drag session is active; its division faults when
`motion_throttle` is `0`. -/
def hdl_motion (NUM_WORKSPACES : Nat) (T : Tiler) (s : State) (e : MotionEv) :
    Except Fault State :=
  match s.drag_client with
  | none => Except.ok s
  | some c =>
    if s.drag_mode = DragMode.DRAG_NONE then Except.ok s
    else if throttle_ul s = 0 then Except.error Fault.div_zero
    else if motion_elapsed s e ≤ 1000 / throttle_ul s then Except.ok s
    else
      drag_motion NUM_WORKSPACES T { s with last_motion_time := long_of_ulong e.time } e c

/-- The block `if (focused->floating) { ... }` of `move_next_mon` and `move_prev_mon` (sxwm.c
548-567 and 593-612): the client `c` centred on the monitor `m` and kept inside it. -/
def recenter (m : Monitor) (c : Client) : Client :=
  let mx := m.x
  let my := m.y
  let mw := m.w
  let mh := m.h
  let x := mx + Int.tdiv (mw - c.w) 2
  let y := my + Int.tdiv (mh - c.h) 2
  -- ensure window stays within monitor bounds
  let x := if x < mx then mx else x
  let y := if y < my then my else y
  let x := if x + c.w > mx + mw then mx + mw - c.w else x
  let y := if y + c.h > my + mh then my + mh - c.h else y
  { c with x := x, y := y }

/-- The statement `if (focused->floating) { ... }` of `move_next_mon` and `move_prev_mon`
for the focused client `f`, whose cell holds `cf`. -/
def move_recenter (s : State) (f : Ptr) (cf : Client) : Except Fault State :=
  if cf.floating then do
    let m ← mon_at s cf.mon
    Except.ok (put s f (recenter m cf))
  else Except.ok s

/-- The common body of `move_next_mon` and `move_prev_mon`; `step` computes `target_mon`
from `focused->mon`. -/
def move_mon (T : Tiler) (s : State) (step : Int → Int) : Except Fault State :=
  match s.focused with
  | none => Except.ok s
  | some f =>
    if monsn s ≤ 1 then Except.ok s
    else do
      let cf ← deref s f
      let target_mon := step cf.mon
      -- update window's monitor assignment
      let cf1 := { cf with mon := target_mon }
      let s1 := { put s f cf1 with current_monitor := target_mon }
      let s2 ← move_recenter s1 f cf1
      -- retile to update layouts on both monitors
      Except.ok (tile T s2)

/-- The function `move_next_mon` (sxwm.c 535-578). -/
def move_next_mon (T : Tiler) (s : State) : Except Fault State :=
  move_mon T s (fun mon => Int.tmod (mon + 1) (monsn s))

/-- The function `move_prev_mon` (sxwm.c 580-623). -/
def move_prev_mon (T : Tiler) (s : State) : Except Fault State :=
  move_mon T s (fun mon => Int.tmod (mon - 1 + monsn s) (monsn s))

/-- A `DRAG_MOVE` session on a 1920x1080 screen: the subject, at address 0, is the only
client; it is floating and 100x100.  The drag started with the pointer at (0, 0) and the
window at (1000, 500). -/
def demo_move_state : State :=
  { init demo_config [] with
    heap := fun p =>
      match p with
      | 0 => some { demo_client 100 none true with floating := true }
      | _ => none
    brk := 1
    workspaces := fun i =>
      match i with
      | 0 => some 0
      | _ => none
    focused := some 0
    drag_mode := DragMode.DRAG_MOVE
    drag_client := some 0
    drag_orig_x := 1000
    drag_orig_y := 500
    drag_orig_w := 100
    drag_orig_h := 100
    scr_width := 1920
    scr_height := 1080 }

/-- The registry of `demo_move_state`. -/
def demo_move_lists : Nat → List Ptr
  | 0 => [0]
  | _ => []

/-- The test `c->mon == target_mon && c->mapped && !c->fullscreen` of `focus_next_mon` and
`focus_prev_mon` for the client at address `p` (`false` when there is none). -/
def on_mon (s : State) (target : Int) (p : Ptr) : Bool :=
  match s.heap p with
  | some c => decide (c.mon = target) && c.mapped && !c.fullscreen
  | none => false

/-- The example of the spec for `focus_next_mon`: the clients of `demo_state`, all on
monitor 0, and two monitors side by side. -/
def demo_two_mons : State :=
  { demo_state with mons := [⟨0, 0, 1920, 1080⟩, ⟨1920, 0, 1920, 1080⟩] }

/-- `Back s hd c l`: starting at `c`, the body of the do-while loop of `focus_prev` (the
client before, or the tail when there is none) visits the clients `l` one after the
other. -/
def Back (s : State) (hd : Ptr) : Ptr → List Ptr → Prop
  | _, [] => True
  | c, c1 :: l => prev_or_tail s hd c = Except.ok c1 ∧ Back s hd c1 l

/-- A `DRAG_SWAP` session in `demo_state`: the subject is A, the pending target is C. -/
def demo_swap_state : State :=
  { demo_state with
    drag_mode := DragMode.DRAG_SWAP
    drag_client := some 0
    swap_target := some 2 }

/-- The number of clients on the lists of the workspaces below `n`. -/
def managed (L : Nat → List Ptr) : Nat → Nat
  | 0 => 0
  | n + 1 => managed L n + (L n).length

/-- The links, `brk` and the client counter of `s1` are those of `s`. -/
def Keeps (s s1 : State) : Prop :=
  (∀ k, load s1 k = load s k) ∧ s1.brk = s.brk ∧ s1.open_windows = s.open_windows

/-- The counter `open_windows` is the number of clients on the lists of the registry and
does not exceed the cap `M`. -/
def Counted (N : Nat) (M : Int) (s : State) : Prop :=
  ∃ L, Registry N s L ∧ s.open_windows = managed L N ∧ s.open_windows ≤ M

/-- Whether `hdl_map_req` sends `XMapWindow(dpy, w)` for the window of the request (sxwm.c
959-1097); `hdl_map_req` above yields the state only.  The window is mapped when the
request is passed through (override-redirect, no size, a dock), when its client of the
active workspace was unmapped, and at the end of the branch that adds a client. -/
def hdl_map_req_maps (NUM_WORKSPACES : Nat) (MAXCLIENTS : Int) (T : Tiler) (s : State)
    (env : MapEnv) (w : Window) : Except Fault Bool :=
  if env.attrs_ok = false then Except.ok false
  else if env.override_redirect ∨ env.width ≤ 0 ∨ env.height ≤ 0 then Except.ok true
  else do
    let found ← find_managed s w (List.range NUM_WORKSPACES)
    match found with
    | some (ws, c) =>
      if (ws : Int) = s.current_ws then do
        let cc ← deref s c
        Except.ok (!cc.mapped)
      else Except.ok false
    | none =>
      match (match env.types with
             | some ts => scan_types ts
             | none => some false) with
      | none => Except.ok true
      | some float0 =>
        let should_float := if float0 = false then env.should_float else float0
        if s.open_windows = MAXCLIENTS then Except.ok false
        else do
          let r ← add_client NUM_WORKSPACES s env.add w s.current_ws
          match r with
          | (_, none) => Except.ok false
          | (s1, some c) => do
            let _ ← map_new T s1 env should_float c
            Except.ok true

/-- A map request for a window that announces the dock type. -/
def demo_dock_env : MapEnv :=
  { demo_map_env with types := some [WType.dock] }

/-- The state after one map request for the plain window 100 in the initial state: one
client, on workspace 0. -/
def demo_one_client : State :=
  match run 9 1 no_tiler (init demo_config []) [Event.map_req demo_map_env 100] with
  | Except.ok s => s
  | Except.error _ => init demo_config []

/-- The registry of `demo_one_client`. -/
def demo_one_list : Nat → List Ptr
  | 0 => [0]
  | _ => []

def ControlMask : Nat := 4

def Mod1Mask : Nat := 8

def Mod4Mask : Nat := 64

def NoSymbol : Nat := 0

/-- What `parser` makes of the action of a `bind` or `call` line: a quoted command of a
`bind` line, with the outcome of `build_argv`, or the name of a function. -/
inductive RcAct where
  | cmd (argv_ok : Bool)
  | func
deriving DecidableEq

/-- What `sscanf` makes of the action of a `workspace` line. -/
inductive RcWsAct where
  | move (n : Int)
  | swap (n : Int)
  | invalid
deriving DecidableEq

/-- A line of the configuration file as `parser` (parser.c 199-394) tells them apart, with
what `strip`, `atoi`, `parse_mods`, `parse_combo`, `strdup` and `sscanf` return for it.
`skip` is an empty line, a comment or a line without `:`; `other` is a line whose key
writes none of the fields of `Config` above and whose allocations succeed;
`alloc_failed` is a `should_float` or `exec` line whose `strdup` fails.  The combination
of a `bind`, `call` or `workspace` line is `none` when the line has no second `:`. -/
inductive RcLine where
  | skip
  | mod_key (m : Nat)
  | gaps (n : Int)
  | border_width (n : Int)
  | new_win_focus (b : Bool)
  | warp_cursor (b : Bool)
  | motion_throttle (n : Int)
  | snap_distance (n : Int)
  | other
  | alloc_failed
  | bind (combo : Option (Nat × Nat)) (act : RcAct)
  | workspace (combo : Option (Nat × Nat)) (act : RcWsAct)
deriving DecidableEq

/-- The index of the first entry with the combination `(mods, ks)`: the first loop of
`alloc_bind`. -/
def find_bind (mods ks : Nat) : List Binding → Nat → Option Nat
  | [], _ => none
  | b :: bs, i => if b.mods = mods ∧ b.keysym = ks then some i else find_bind mods ks bs (i + 1)

/-- The function `alloc_bind` (parser.c 86-100): the index of the entry for the
combination and the configuration, `none` for `NULL`.  `stale i` is what the slot `i` of
the array `binds` holds when it is handed out. -/
def alloc_bind (stale : Nat → Binding) (cfg : Config) (mods ks : Nat) : Option (Nat × Config) :=
  match find_bind mods ks cfg.binds 0 with
  | some i => some (i, cfg)
  | none =>
    if cfg.binds.length ≥ 256 then none
    else
      some (cfg.binds.length,
        { cfg with binds := cfg.binds ++ [{ stale cfg.binds.length with mods := mods, keysym := ks }] })

/-- Writing through the pointer that `alloc_bind` returned: the entry at index `i` becomes
`f` of it. -/
def write_bind (f : Binding → Binding) : List Binding → Nat → List Binding
  | [], _ => []
  | b :: bs, 0 => f b :: bs
  | b :: bs, i + 1 => b :: write_bind f bs i

/-- The assignments `b->type = ...; b->action... = ...` of `parser` for the entry at index
`i`. -/
def store_bind (cfg : Config) (i : Nat) (f : Binding → Binding) : Config :=
  { cfg with binds := write_bind f cfg.binds i }

/-- How the body of the loop of `parser` is left: on to the next line (the end of the body
or `continue`), by `break`, or by `goto cleanup_file`. -/
inductive RcStep where
  | next (cfg : Config)
  | stop (cfg : Config)
  | fail (cfg : Config)

/-- The body of the loop `while (fgets(line, sizeof line, f))` of `parser` (parser.c
199-394) for one line. -/
def parse_line (NUM_WORKSPACES : Nat) (stale : Nat → Binding) (cfg : Config) : RcLine → RcStep
  | RcLine.skip => RcStep.next cfg
  | RcLine.mod_key m =>
    if m &&& (Mod1Mask ||| Mod4Mask ||| ShiftMask ||| ControlMask) ≠ 0 then
      RcStep.next { cfg with modkey := m }
    else RcStep.next cfg
  | RcLine.gaps n => RcStep.next { cfg with gaps := n }
  | RcLine.border_width n => RcStep.next { cfg with border_width := n }
  | RcLine.new_win_focus b => RcStep.next { cfg with new_win_focus := b }
  | RcLine.warp_cursor b => RcStep.next { cfg with warp_cursor := b }
  | RcLine.motion_throttle n => RcStep.next { cfg with motion_throttle := n }
  | RcLine.snap_distance n => RcStep.next { cfg with snap_distance := n }
  | RcLine.other => RcStep.next cfg
  | RcLine.alloc_failed => RcStep.fail cfg
  | RcLine.bind none _ => RcStep.next cfg
  | RcLine.bind (some (mods, ks)) act =>
    if ks = NoSymbol then RcStep.next cfg
    else
      match alloc_bind stale cfg mods ks with
      | none =>
        -- too many binds
        RcStep.fail cfg
      | some (i, cfg1) =>
        match act with
        | RcAct.cmd argv_ok =>
          RcStep.next (store_bind cfg1 i
            (fun b => { b with type := if argv_ok then BindType.TYPE_CMD else BindType.INVALID }))
        | RcAct.func =>
          RcStep.next (store_bind cfg1 i (fun b => { b with type := BindType.TYPE_FUNC }))
  | RcLine.workspace none _ => RcStep.next cfg
  | RcLine.workspace (some (mods, ks)) act =>
    if ks = NoSymbol then RcStep.next cfg
    else
      match alloc_bind stale cfg mods ks with
      | none =>
        -- too many binds
        RcStep.stop cfg
      | some (i, cfg1) =>
        match act with
        | RcWsAct.move n =>
          if n ≥ 1 ∧ n ≤ NUM_WORKSPACES then
            RcStep.next (store_bind cfg1 i
              (fun b => { b with type := BindType.TYPE_CWKSP, action_ws := n - 1 }))
          else RcStep.next cfg1
        | RcWsAct.swap n =>
          if n ≥ 1 ∧ n ≤ NUM_WORKSPACES then
            RcStep.next (store_bind cfg1 i
              (fun b => { b with type := BindType.TYPE_MWKSP, action_ws := n - 1 }))
          else RcStep.next cfg1
        | RcWsAct.invalid => RcStep.next cfg1

/-- The inner loop `for (int j = i + 1; j < cfg->bindsn; j++)` of `remap_and_dedupe_binds`
(parser.c 51-57) for the entry `bi` at index `i`; the argument holds the entries from index
`j` on.  An entry with the combination of `bi` is overwritten by the `memmove` of the
entries behind it, and `bindsn--; j--` make the next round look at the same index. -/
def dedupe_row (bi : Binding) : List Binding → List Binding
  | [] => []
  | bj :: rest =>
    if bi.mods = bj.mods ∧ bi.keysym = bj.keysym then dedupe_row bi rest
    else bj :: dedupe_row bi rest

/-- The outer loop `for (int i = 0; i < cfg->bindsn; i++)` of `remap_and_dedupe_binds`
(parser.c 50-58); the argument holds the entries from index `i` on.  `bindsn` never grows,
so the loop runs at most as many rounds as the table has entries when it starts: that is
the fuel; out of fuel the entries not yet looked at are left as they are. -/
def dedupe_from : Nat → List Binding → List Binding
  | _, [] => []
  | 0, bi :: rest => bi :: rest
  | fuel + 1, bi :: rest => bi :: dedupe_from fuel (dedupe_row bi rest)

/-- The function `remap_and_dedupe_binds` (parser.c 48-60); the table is the first `bindsn`
entries of `binds`. -/
def remap_and_dedupe_binds (cfg : Config) : Config :=
  { cfg with binds := dedupe_from cfg.binds.length cfg.binds }

/-- The function `parser` (parser.c 139-404) from its loop on, for a configuration file
that was found and opened: the configuration it leaves and the value it returns, `0` or
`-1`. -/
def parser (NUM_WORKSPACES : Nat) (stale : Nat → Binding) (cfg : Config) :
    List RcLine → Config × Int
  | [] => (remap_and_dedupe_binds cfg, 0)
  | l :: ls =>
    match parse_line NUM_WORKSPACES stale cfg l with
    | RcStep.next cfg1 => parser NUM_WORKSPACES stale cfg1 ls
    | RcStep.stop cfg1 => (remap_and_dedupe_binds cfg1, 0)
    | RcStep.fail cfg1 => (cfg1, -1)

/-- A slot of `binds` that was never written. -/
def demo_stale : Nat → Binding := fun _ => ⟨0, 0, BindType.TYPE_CMD, 0⟩

/-- The bindings `mod + k` for the keysyms `k` from `1` to `n`, each to a function. -/
def demo_binds (n : Nat) : List Binding :=
  (List.range n).map (fun k => ⟨64, k + 1, BindType.TYPE_FUNC, 0⟩)

/-- A configuration whose binding table is full: 256 bindings. -/
def demo_full_config : Config :=
  { demo_config with binds := demo_binds 256 }

/-- The tiling engine assigns no geometry to a floating client (spec 4.2: "Floating/
fullscreen clients are skipped"). -/
def SkipsFloating (T : Tiler) : Prop :=
  ∀ s p c, s.heap p = some c → c.floating = true → T s p = none

/-- The floating client of `demo_move_state`, focused, with no drag session and two
monitors side by side. -/
def demo_float_mons : State :=
  { demo_move_state with
    drag_mode := DragMode.DRAG_NONE
    drag_client := none
    mons := [⟨0, 0, 1920, 1080⟩, ⟨1920, 0, 1920, 1080⟩] }

/-- The clients of `demo_state` with every `mapped` flag cleared. -/
def demo_hidden : State :=
  { demo_state with
    heap := fun p => (demo_state.heap p).map (fun c => { c with mapped := false }) }

/-- The key combination of a binding: what `alloc_bind` and `remap_and_dedupe_binds`
compare. -/
def combo (b : Binding) : Nat × Nat := (b.mods, b.keysym)

/-- The specification of `remap_and_dedupe_binds`: the entries of the table that share
their combination with no entry in front of them, that is the first occurrence of each
combination, in the order of the table.  `earlier` holds the entries in front. -/
def first_occurrences (earlier : List Binding) : List Binding → List Binding
  | [] => []
  | b :: bs =>
    if earlier.any (fun a => decide (combo a = combo b)) then
      first_occurrences (earlier ++ [b]) bs
    else b :: first_occurrences (earlier ++ [b]) bs

/-- The array `guards` of `grab_keys` (sxwm.c 638-645). -/
def guards : List Nat :=
  [0, LockMask, Mod2Mask, LockMask ||| Mod2Mask, Mod5Mask, LockMask ||| Mod5Mask,
    Mod2Mask ||| Mod5Mask, LockMask ||| Mod2Mask ||| Mod5Mask]

/-- The loop of `grab_keys` (sxwm.c 648-664) over the bindings: the `XGrabKey` requests it
sends, each with the keysym that the key code stands for and the modifiers.  `keycode` is
`XKeysymToKeycode`; a key code `0` means that the keysym is on no key. -/
def grab_keys_loop (cfg : Config) (keycode : Nat → Nat) : List Binding → List (Nat × Nat)
  | [] => []
  | b :: bs =>
    if (b.type = BindType.TYPE_CWKSP ∧ b.mods ≠ cfg.modkey) ∨
        (b.type = BindType.TYPE_MWKSP ∧ b.mods ≠ (cfg.modkey ||| ShiftMask)) then
      grab_keys_loop cfg keycode bs
    else if keycode b.keysym = 0 then grab_keys_loop cfg keycode bs
    else guards.map (fun g => (b.keysym, b.mods ||| g)) ++ grab_keys_loop cfg keycode bs

/-- The function `grab_keys` (sxwm.c 636-665): the key grabs it installs, as pairs of the
keysym of the grabbed key and the modifiers of the grab. -/
def grab_keys (cfg : Config) (keycode : Nat → Nat) : List (Nat × Nat) :=
  grab_keys_loop cfg keycode cfg.binds

/-- A configuration with the single binding `mod + Return` to a function. -/
def demo_return_config : Config :=
  { demo_config with binds := [⟨Mod4Mask, 65293, BindType.TYPE_FUNC, 0⟩] }

/-- The function `init_defaults` (sxwm.c 1310-1329), for the fields of `Config` above: the
configuration it leaves in `default_config`. -/
def init_defaults : Config :=
  { modkey := Mod4Mask, gaps := 10, border_width := 1, motion_throttle := 60,
    snap_distance := 5, binds := [], new_win_focus := true, warp_cursor := true }

/-- The three border colours of the configuration, named by the field that holds them. -/
inductive BorderCol where
  | border_foc_col
  | border_ufoc_col
  | border_swap_col
deriving DecidableEq

/-- The `XSetWindowBorder` requests of the `DRAG_SWAP` branch of `hdl_motion` (sxwm.c
1109-1141), in the order they are sent: the window and the colour.  `motion_swap` above
yields the state only.  `last_swap_target` is a local variable of `hdl_motion` that every
call sets to `NULL`. -/
def motion_swap_borders (NUM_WORKSPACES : Nat) (s : State) (e : MotionEv) :
    Except Fault (List (Window × BorderCol)) := do
  let i ← ws_index NUM_WORKSPACES s.current_ws
  let last_swap_target : Option Ptr := none
  let new_target ← find_swap_target s e.child (s.brk + 1) (s.workspaces i)
  if new_target ≠ last_swap_target then do
    let restored ←
      match last_swap_target with
      | some l => do
        let cl ← deref s l
        Except.ok [(cl.win,
          if last_swap_target = s.focused then BorderCol.border_foc_col
          else BorderCol.border_ufoc_col)]
      | none => Except.ok []
    let highlighted ←
      match new_target with
      | some t => do
        let ct ← deref s t
        Except.ok [(ct.win, BorderCol.border_swap_col)]
      | none => Except.ok []
    Except.ok (restored ++ highlighted)
  else Except.ok []

/-- The border colour of the window `w` after the requests `rs`, when it was `c0`
before. -/
def border_after (rs : List (Window × BorderCol)) (w : Window) (c0 : BorderCol) : BorderCol :=
  rs.foldl (fun c r => if r.1 = w then r.2 else c) c0

/-- A `DRAG_SWAP` session as `hdl_button` starts it: the clients A, B, C of `demo_state`
(windows 100, 101, 102), all mapped and tiled; the subject A is focused and no target is
pending. -/
def demo_swap_start : State :=
  { demo_state with
    heap := fun p => (demo_state.heap p).map (fun c => { c with mapped := true })
    drag_mode := DragMode.DRAG_SWAP
    drag_client := some 0 }

/-- The link that holds the successor of the last cell of `l`, when `l` is entered
through link `k`. -/
def link_after : Link → List Ptr → Link
  | k, [] => k
  | _, p :: l => link_after (Link.next p) l

/-- The state with every list link blanked: two states with the same `erase_links` differ
in nothing but `workspaces[..]` and the `next` fields of allocated cells. -/
def erase_links (s : State) : State :=
  { s with
    heap := fun p => (s.heap p).map (fun c => { c with next := none })
    workspaces := fun _ => none }

/-! ## Lemmas and theorems -/

theorem link_after_append (k : Link) (l1 l2 : List Ptr) :
    link_after k (l1 ++ l2) = link_after (link_after k l1) l2 := by
  induction l1 generalizing k with
  | nil => rfl
  | cons p l ih => simp [link_after, ih]

theorem link_after_concat (k : Link) (l : List Ptr) (q : Ptr) :
    link_after k (l ++ [q]) = Link.next q := by
  simp [link_after_append, link_after]

theorem load_next (s : State) (p : Ptr) (c : Client) (h : s.heap p = some c) :
    load s (Link.next p) = Except.ok c.next := by
  simp [load, h]

theorem load_next_ok (s : State) (p : Ptr) (v : Option Ptr)
    (h : load s (Link.next p) = Except.ok v) : ∃ c, s.heap p = some c ∧ c.next = v := by
  unfold load at h
  cases hp : s.heap p with
  | none => simp [hp] at h
  | some c => simp [hp] at h; exact ⟨c, rfl, h⟩

theorem deref_of_load (s : State) (p : Ptr) (v : Option Ptr)
    (h : load s (Link.next p) = Except.ok v) : ∃ c, deref s p = Except.ok c ∧ c.next = v := by
  obtain ⟨c, hc, hv⟩ := load_next_ok s p v h
  exact ⟨c, by simp [deref, hc], hv⟩

/-- A store through a readable link succeeds, changes what that link holds and nothing
else. -/
theorem store_ok (s : State) (k : Link) (v0 v : Option Ptr) (h : load s k = Except.ok v0) :
    ∃ s1, store s k v = Except.ok s1 ∧
      (∀ k1, load s1 k1 = if k1 = k then Except.ok v else load s k1) ∧
      erase_links s1 = erase_links s := by
  cases k with
  | head ws =>
    refine ⟨_, rfl, ?_, ?_⟩
    · intro k1
      cases k1 with
      | head ws1 =>
        by_cases hw : ws1 = ws
        · subst hw; simp [load]
        · simp [load, hw, Function.update_noteq hw]
      | next p => simp [load]
    · simp [erase_links]
  | next p =>
    obtain ⟨c, hc, -⟩ := load_next_ok s p v0 h
    refine ⟨put s p { c with next := v }, by simp [store, hc], ?_, ?_⟩
    · intro k1
      cases k1 with
      | head ws1 => simp [load, put]
      | next p1 =>
        by_cases hp : p1 = p
        · subst hp; simp [load, put]
        · simp [load, put, hp, Function.update_noteq hp]
    · simp only [erase_links, put]
      congr 1
      funext p1
      by_cases hp : p1 = p
      · subst hp; simp [hc]
      · simp [Function.update_noteq hp]

theorem Chain_append (s : State) (l1 : List Ptr) (p : Ptr) (l2 : List Ptr) (k : Link)
    (e : Option Ptr) :
    Chain s k (l1 ++ p :: l2) e ↔ Chain s k l1 (some p) ∧ Chain s (Link.next p) l2 e := by
  induction l1 generalizing k with
  | nil => simp [Chain]
  | cons q l ih => simp [Chain, ih, and_assoc]

theorem Chain_concat (s : State) (l : List Ptr) (q : Ptr) (k : Link) (e : Option Ptr) :
    Chain s k (l ++ [q]) e ↔ Chain s k l (some q) ∧ load s (Link.next q) = Except.ok e := by
  rw [Chain_append]; simp [Chain]

theorem Chain_load_last (s : State) (l : List Ptr) (k : Link) (e : Option Ptr)
    (h : Chain s k l e) : load s (link_after k l) = Except.ok e := by
  induction l generalizing k with
  | nil => exact h
  | cons p l ih => exact ih _ h.2

/-- A chain only depends on what its own links hold; its entry link may be exchanged for
another link that holds the same. -/
theorem Chain_move (s s1 : State) (l : List Ptr) (k k1 : Link) (e : Option Ptr)
    (h : Chain s k l e) (hk : load s1 k1 = load s k)
    (hl : ∀ p ∈ l, load s1 (Link.next p) = load s (Link.next p)) : Chain s1 k1 l e := by
  induction l generalizing k k1 with
  | nil => simpa [Chain, hk] using h
  | cons p l ih =>
    refine ⟨by rw [hk]; exact h.1, ih _ _ h.2 (hl p (by simp)) ?_⟩
    intro q hq
    exact hl q (by simp [hq])

theorem Chain_functional (s : State) (l l1 : List Ptr) (k : Link)
    (h : Chain s k l none) (h1 : Chain s k l1 none) : l = l1 := by
  induction l generalizing k l1 with
  | nil =>
    cases l1 with
    | nil => rfl
    | cons p l1 => simp [Chain] at h h1; rw [h] at h1; simp at h1
  | cons p l ih =>
    cases l1 with
    | nil => simp [Chain] at h h1; rw [h1] at h; simp at h
    | cons p1 l1 =>
      obtain ⟨hp, ht⟩ := h
      obtain ⟨hp1, ht1⟩ := h1
      rw [hp] at hp1
      simp at hp1
      subst hp1
      rw [ih _ _ ht ht1]

theorem Chain_not_mem_entry (s : State) (l : List Ptr) (a : Ptr)
    (h : Chain s (Link.next a) l none) : a ∉ l := by
  intro ha
  obtain ⟨l1, l2, rfl⟩ := List.append_of_mem ha
  have h2 := ((Chain_append s l1 a l2 _ none).1 h).2
  have := congrArg List.length (Chain_functional s _ _ _ h h2)
  simp at this
  omega

theorem Chain_nodup (s : State) (l : List Ptr) (k : Link) (h : Chain s k l none) :
    l.Nodup := by
  induction l generalizing k with
  | nil => simp
  | cons p l ih => exact List.nodup_cons.2 ⟨Chain_not_mem_entry s l p h.2, ih _ h.2⟩

theorem Chain_allocated (s : State) (l : List Ptr) (k : Link) (e : Option Ptr)
    (h : Chain s k l e) : ∀ p ∈ l, ∃ c, s.heap p = some c := by
  induction l generalizing k with
  | nil => simp
  | cons q l ih =>
    intro p hp
    rcases List.mem_cons.1 hp with rfl | hp
    · cases l with
      | nil => obtain ⟨c, hc, -⟩ := load_next_ok s p e h.2; exact ⟨c, hc⟩
      | cons r l => obtain ⟨c, hc, -⟩ := load_next_ok s p _ h.2.1; exact ⟨c, hc⟩
    · exact ih _ h.2 p hp

theorem nodup_length_le (l : List Ptr) (n : Nat) (hn : l.Nodup) (hl : ∀ p ∈ l, p < n) :
    l.length ≤ n := by
  have h1 : l.toFinset ⊆ Finset.range n := by
    intro p hp
    simp at hp
    simpa using hl p hp
  have h2 := Finset.card_le_card h1
  rw [List.toFinset_card_of_nodup hn] at h2
  simpa using h2

theorem Chain_length (s : State) (l : List Ptr) (k : Link)
    (h : Chain s k l none) (hb : ∀ p c, s.heap p = some c → p < s.brk) : l.length ≤ s.brk := by
  apply nodup_length_le l _ (Chain_nodup s l k h)
  intro p hp
  obtain ⟨c, hc⟩ := Chain_allocated s l k none h p hp
  exact hb p c hc

theorem seek_spec (s : State) (a : Ptr) (l : List Ptr) (k : Link) (e : Option Ptr) (fuel : Nat)
    (h : Chain s k l e) (ha : a ∉ l) (he : e = some a ∨ e = none) (hf : l.length < fuel) :
    seek s a fuel k = Except.ok (link_after k l) := by
  induction l generalizing k fuel with
  | nil =>
    cases fuel with
    | zero => simp at hf
    | succ f =>
      simp only [Chain] at h
      rcases he with rfl | rfl <;> simp [seek, h, link_after]
  | cons p l ih =>
    cases fuel with
    | zero => simp at hf
    | succ f =>
      have hpa : p ≠ a := fun hpa => ha (by simp [hpa])
      simp only [seek, h.1, link_after, if_neg hpa]
      exact ih _ _ h.2 (fun hm => ha (by simp [hm])) (by simpa using hf)

theorem link_after_cons_mem (k : Link) (p : Ptr) (l : List Ptr) :
    ∃ q, q ∈ p :: l ∧ link_after k (p :: l) = Link.next q := by
  induction l generalizing k p with
  | nil => exact ⟨p, by simp, rfl⟩
  | cons r l ih =>
    obtain ⟨q, hq, h⟩ := ih (Link.next p) r
    exact ⟨q, List.mem_cons_of_mem _ hq, h⟩

theorem link_after_mem (k : Link) (l : List Ptr) :
    link_after k l = k ∨ ∃ q, q ∈ l ∧ link_after k l = Link.next q := by
  cases l with
  | nil => exact Or.inl rfl
  | cons p l => exact Or.inr (link_after_cons_mem k p l)

/-- Redirecting the last link of a chain: all other links of the chain hold what they held. -/
theorem Chain_redirect (s s1 : State) (l : List Ptr) (k : Link) (e e1 : Option Ptr)
    (h : Chain s k l e) (hk : ∀ p ∈ l, k ≠ Link.next p) (hn : l.Nodup)
    (hk1 : k ≠ link_after k l → load s1 k = load s k)
    (hl : ∀ p ∈ l, Link.next p ≠ link_after k l → load s1 (Link.next p) = load s (Link.next p))
    (he : load s1 (link_after k l) = Except.ok e1) : Chain s1 k l e1 := by
  induction l generalizing k with
  | nil => exact he
  | cons p l ih =>
    obtain ⟨q, hq, hlast⟩ := link_after_cons_mem k p l
    have hne : k ≠ link_after k (p :: l) := by rw [hlast]; exact hk q hq
    refine ⟨by rw [hk1 hne]; exact h.1, ?_⟩
    have hn2 := List.nodup_cons.1 hn
    apply ih _ h.2
    · intro r hr hpr
      injection hpr with hpr
      exact hn2.1 (hpr ▸ hr)
    · exact hn2.2
    · exact hl p (by simp)
    · intro r hr
      exact hl r (by simp [hr])
    · exact he

/-- The straight-line part of `swap_clients`, once both clients have been found. -/
theorem swap_exec (N : Nat) (s : State) (ws : Nat) (a b : Ptr) (pa pb : Link)
    (x y : Option Ptr) (hab : a ≠ b)
    (hws : ws_index N s.current_ws = Except.ok ws)
    (hpa : seek s a (s.brk + 1) (Link.head ws) = Except.ok pa)
    (hpb : seek s b (s.brk + 1) (Link.head ws) = Except.ok pb)
    (hla : load s pa = Except.ok (some a)) (hlb : load s pb = Except.ok (some b))
    (hx : load s (Link.next a) = Except.ok x) (hy : load s (Link.next b) = Except.ok y) :
    ∃ s4, swap_clients N s (some a) (some b) = Except.ok s4 ∧
      erase_links s4 = erase_links s ∧
      ∀ k, load s4 k =
        if k = Link.next a then Except.ok (if y = some a then some b else y)
        else if k = pb then Except.ok (some a)
        else if k = Link.next b then Except.ok (if x = some b then some a else x)
        else if k = pa then Except.ok (some b)
        else load s k := by
  obtain ⟨ca, hca, hcax⟩ := deref_of_load s a x hx
  obtain ⟨cb, hcb, hcby⟩ := deref_of_load s b y hy
  obtain ⟨s1, hs1, hl1, he1⟩ := store_ok s pa (some a) (some b) hla
  have hb1 : load s1 (Link.next b) = Except.ok (if Link.next b = pa then some b else y) := by
    rw [hl1]; split <;> simp [hy]
  obtain ⟨s2, hs2, hl2, he2⟩ := store_ok s1 (Link.next b) _
    (if x = some b then some a else x) hb1
  have hb2 : ∃ v, load s2 pb = Except.ok v := by
    rw [hl2, hl1]
    split
    · exact ⟨_, rfl⟩
    · split
      · exact ⟨_, rfl⟩
      · exact ⟨_, hlb⟩
  obtain ⟨v2, hv2⟩ := hb2
  obtain ⟨s3, hs3, hl3, he3⟩ := store_ok s2 pb v2 (some a) hv2
  have hb3 : ∃ v, load s3 (Link.next a) = Except.ok v := by
    rw [hl3, hl2, hl1]
    split
    · exact ⟨_, rfl⟩
    · split
      · exact ⟨_, rfl⟩
      · split
        · exact ⟨_, rfl⟩
        · exact ⟨_, hx⟩
  obtain ⟨v3, hv3⟩ := hb3
  obtain ⟨s4, hs4, hl4, he4⟩ := store_ok s3 (Link.next a) v3
    (if y = some a then some b else y) hv3
  refine ⟨s4, ?_, by rw [he4, he3, he2, he1], ?_⟩
  · have hba : ¬ (a = b ∧ b = a) := fun h => hab h.1
    simp [swap_clients, hab, hws, hpa, hpb, hla, hlb, bind, Except.bind, hca, hcb, hs1,
      hcax, hcby, hs2, hs3, hs4]
  · intro k
    rw [hl4, hl3, hl2, hl1]

/-- Swapping `a` with a later client `b`: `a` is the first argument. -/
theorem swap_fwd (N : Nat) (s : State) (ws : Nat) (a b : Ptr) (l1 l2 l3 : List Ptr)
    (hws : ws_index N s.current_ws = Except.ok ws)
    (hb : ∀ p c, s.heap p = some c → p < s.brk)
    (h : Chain s (Link.head ws) (l1 ++ a :: (l2 ++ b :: l3)) none) :
    ∃ s4, swap_clients N s (some a) (some b) = Except.ok s4 ∧
      erase_links s4 = erase_links s ∧
      Chain s4 (Link.head ws) (l1 ++ b :: (l2 ++ a :: l3)) none ∧
      ∀ k, k ≠ Link.head ws → (∀ p ∈ l1 ++ a :: (l2 ++ b :: l3), k ≠ Link.next p) →
        load s4 k = load s k := by
  have hn := Chain_nodup s _ _ h
  have hlen := Chain_length s _ _ h hb
  obtain ⟨h1, h23⟩ := (Chain_append s l1 a _ _ _).1 h
  obtain ⟨h2, h3⟩ := (Chain_append s l2 b _ _ _).1 h23
  have h12 : Chain s (Link.head ws) (l1 ++ a :: l2) (some b) :=
    (Chain_append s l1 a _ _ _).2 ⟨h1, h2⟩
  simp only [List.nodup_append, List.nodup_cons, List.mem_append, List.mem_cons,
    List.disjoint_cons_right, List.disjoint_append_right, not_or] at hn
  obtain ⟨hn1, ⟨⟨ha2, hab, ha3⟩, hn2, ⟨hb3, hn3⟩, hb2, hd23⟩, ha1, hd12, hb1, hd13⟩ := hn
  simp only [List.length_append, List.length_cons] at hlen
  have hpa := seek_spec s a l1 (Link.head ws) (some a) (s.brk + 1) h1 ha1 (Or.inl rfl)
    (by omega)
  have hpb := seek_spec s b (l1 ++ a :: l2) (Link.head ws) (some b) (s.brk + 1) h12
    (by simp [hb1, Ne.symm hab, hb2]) (Or.inl rfl) (by simp; omega)
  have hla := Chain_load_last s _ _ _ h1
  have hlb := Chain_load_last s _ _ _ h12
  have hpbeq : link_after (Link.head ws) (l1 ++ a :: l2) = link_after (Link.next a) l2 := by
    rw [link_after_append]; rfl
  rw [hpbeq] at hpb hlb
  obtain ⟨x, hx⟩ : ∃ x, load s (Link.next a) = Except.ok x := by
    cases l2 with
    | nil => exact ⟨_, h2⟩
    | cons r l2 => exact ⟨_, h2.1⟩
  obtain ⟨y, hy⟩ : ∃ y, load s (Link.next b) = Except.ok y := by
    cases l3 with
    | nil => exact ⟨_, h3⟩
    | cons r l3 => exact ⟨_, h3.1⟩
  have hya : y ≠ some a := by
    rintro rfl
    cases l3 with
    | nil => simp [Chain, hy] at h3
    | cons r l3 =>
      have := h3.1
      rw [hy] at this
      simp at this
      exact ha3 (by simp [this])
  obtain ⟨s4, hs4, he4, hL⟩ := swap_exec N s ws a b _ _ x y hab hws hpa hpb hla hlb hx hy
  simp only [if_neg hya] at hL
  have hpa_c : link_after (Link.head ws) l1 = Link.head ws ∨
      ∃ q, q ∈ l1 ∧ link_after (Link.head ws) l1 = Link.next q := link_after_mem _ _
  have hpb_c : (l2 = [] ∧ link_after (Link.next a) l2 = Link.next a) ∨
      ∃ q, q ∈ l2 ∧ link_after (Link.next a) l2 = Link.next q := by
    cases l2 with
    | nil => exact Or.inl ⟨rfl, rfl⟩
    | cons r l2 => exact Or.inr (link_after_cons_mem _ _ _)
  refine ⟨s4, hs4, he4, ?_, ?_⟩
  · refine (Chain_append s4 l1 b _ _ _).2 ⟨?_, (Chain_append s4 l2 a _ _ _).2 ⟨?_, ?_⟩⟩
    · -- the part before `a` now ends in `b`
      have hpa_ne : link_after (Link.head ws) l1 ≠ Link.next a ∧
          link_after (Link.head ws) l1 ≠ link_after (Link.next a) l2 ∧
          link_after (Link.head ws) l1 ≠ Link.next b := by
        rcases hpa_c with hc | ⟨q, hq, hc⟩ <;> rcases hpb_c with ⟨-, hc2⟩ | ⟨q2, hq2, hc2⟩ <;>
          rw [hc, hc2]
        · simp
        · simp
        · have h1 : q ≠ a := by rintro rfl; exact ha1 hq
          have h2 : q ≠ b := by rintro rfl; exact hb1 hq
          simp [h1, h2]
        · have h1 : q ≠ a := by rintro rfl; exact ha1 hq
          have h2 : q ≠ b := by rintro rfl; exact hb1 hq
          have h3 : q ≠ q2 := by rintro rfl; exact hd12 hq hq2
          simp [h1, h2, h3]
      apply Chain_redirect s s4 l1 _ (some a) (some b) h1 (by simp) hn1
      · intro hne
        rw [hL]
        rcases hpb_c with ⟨-, hc2⟩ | ⟨q2, hq2, hc2⟩ <;> simp [hc2, hne]
      · intro p hp hne
        rw [hL]
        have hpa1 : p ≠ a := by rintro rfl; exact ha1 hp
        have hpb1 : p ≠ b := by rintro rfl; exact hb1 hp
        rcases hpb_c with ⟨-, hc2⟩ | ⟨q2, hq2, hc2⟩
        · simp [hc2, hne, hpa1, hpb1]
        · have : p ≠ q2 := by rintro rfl; exact hd12 hp hq2
          simp [hc2, hne, hpa1, hpb1, this]
      · rw [hL]
        simp [hpa_ne.1, hpa_ne.2.1, hpa_ne.2.2]
    · -- the part between the two, entered through `b` and ending in `a`
      cases l2 with
      | nil =>
        simp only [Chain] at h2 ⊢
        rw [hx] at h2
        injection h2 with h2
        rw [hL]
        simp [link_after, Ne.symm hab, h2]
      | cons r l2 =>
        obtain ⟨q, hq, hc2⟩ := link_after_cons_mem (Link.next a) r l2
        have hqa : q ≠ a := by rintro rfl; exact ha2 hq
        have hqb : q ≠ b := by rintro rfl; exact hb2 hq
        have hxr : x = some r := by
          have := h2.1
          rw [hx] at this
          injection this
        have hrb : r ≠ b := by rintro rfl; exact hb2 (by simp)
        have hn2c := List.nodup_cons.1 hn2
        refine ⟨?_, ?_⟩
        · rw [hL, hc2]
          simp [Ne.symm hab, Ne.symm hqb, hxr, hrb]
        · have hlast : link_after (Link.next r) l2 = Link.next q := hc2
          have hpa_ne : Link.next q ≠ link_after (Link.head ws) l1 := by
            rcases hpa_c with hc | ⟨q1, hq1, hc⟩ <;> rw [hc] <;> simp
            rintro rfl; exact hd12 hq1 hq
          apply Chain_redirect s s4 l2 _ (some b) (some a) h2.2
          · intro p hp hpr
            injection hpr with hpr
            exact hn2c.1 (hpr ▸ hp)
          · exact hn2c.2
          · intro hne
            rw [hlast] at hne
            have hra : r ≠ a := by rintro rfl; exact ha2 (by simp)
            have hr1 : Link.next r ≠ link_after (Link.head ws) l1 := by
              rcases hpa_c with hc | ⟨q1, hq1, hc⟩ <;> rw [hc] <;> simp
              rintro rfl; exact hd12 hq1 (by simp)
            rw [hL, hc2]
            simp [hra, hrb, hne, hr1]
          · intro p hp hne
            rw [hlast] at hne
            have hpa1 : p ≠ a := by rintro rfl; exact ha2 (by simp [hp])
            have hpb1 : p ≠ b := by rintro rfl; exact hb2 (by simp [hp])
            have hp1 : Link.next p ≠ link_after (Link.head ws) l1 := by
              rcases hpa_c with hc | ⟨q1, hq1, hc⟩ <;> rw [hc] <;> simp
              rintro rfl; exact hd12 hq1 (by simp [hp])
            rw [hL, hc2]
            simp [hpa1, hpb1, hne, hp1]
          · rw [hlast, hL, hc2]
            simp [hqa]
    · -- the part after `b`, now entered through `a`
      apply Chain_move s s4 l3 _ _ none h3
      · rw [hL, hy]; simp
      · intro p hp
        have hpa1 : p ≠ a := by rintro rfl; exact ha3 hp
        have hpb1 : p ≠ b := by rintro rfl; exact hb3 hp
        have hp1 : Link.next p ≠ link_after (Link.head ws) l1 := by
          rcases hpa_c with hc | ⟨q1, hq1, hc⟩ <;> rw [hc] <;> simp
          rintro rfl; exact hd13 hq1 hp
        have hp2 : Link.next p ≠ link_after (Link.next a) l2 := by
          rcases hpb_c with ⟨-, hc2⟩ | ⟨q2, hq2, hc2⟩ <;> rw [hc2] <;> simp [hpa1]
          rintro rfl; exact hd23 hq2 hp
        rw [hL]
        simp [hpa1, hpb1, hp1, hp2]
  · intro k hk hkl
    have hka : k ≠ Link.next a := hkl a (by simp)
    have hkb : k ≠ Link.next b := hkl b (by simp)
    have hk1 : k ≠ link_after (Link.head ws) l1 := by
      rcases hpa_c with hc | ⟨q1, hq1, hc⟩ <;> rw [hc]
      · exact hk
      · exact hkl q1 (by simp [hq1])
    have hk2 : k ≠ link_after (Link.next a) l2 := by
      rcases hpb_c with ⟨-, hc2⟩ | ⟨q2, hq2, hc2⟩ <;> rw [hc2]
      · exact hka
      · exact hkl q2 (by simp [hq2])
    rw [hL]
    simp [hka, hkb, hk1, hk2]

/-- Swapping `a` with an earlier client `b`: `a` is the first argument. -/
theorem swap_bwd (N : Nat) (s : State) (ws : Nat) (a b : Ptr) (l1 l2 l3 : List Ptr)
    (hws : ws_index N s.current_ws = Except.ok ws)
    (hb : ∀ p c, s.heap p = some c → p < s.brk)
    (h : Chain s (Link.head ws) (l1 ++ b :: (l2 ++ a :: l3)) none) :
    ∃ s4, swap_clients N s (some a) (some b) = Except.ok s4 ∧
      erase_links s4 = erase_links s ∧
      Chain s4 (Link.head ws) (l1 ++ a :: (l2 ++ b :: l3)) none ∧
      ∀ k, k ≠ Link.head ws → (∀ p ∈ l1 ++ b :: (l2 ++ a :: l3), k ≠ Link.next p) →
        load s4 k = load s k := by
  have hn := Chain_nodup s _ _ h
  have hlen := Chain_length s _ _ h hb
  obtain ⟨h1, h23⟩ := (Chain_append s l1 b _ _ _).1 h
  obtain ⟨h2, h3⟩ := (Chain_append s l2 a _ _ _).1 h23
  have h12 : Chain s (Link.head ws) (l1 ++ b :: l2) (some a) :=
    (Chain_append s l1 b _ _ _).2 ⟨h1, h2⟩
  simp only [List.nodup_append, List.nodup_cons, List.mem_append, List.mem_cons,
    List.disjoint_cons_right, List.disjoint_append_right, not_or] at hn
  obtain ⟨hn1, ⟨⟨hb2, hba, hb3⟩, hn2, ⟨ha3, hn3⟩, ha2, hd23⟩, hb1, hd12, ha1, hd13⟩ := hn
  have hab : a ≠ b := fun e => hba e.symm
  simp only [List.length_append, List.length_cons] at hlen
  have hpb := seek_spec s b l1 (Link.head ws) (some b) (s.brk + 1) h1 hb1 (Or.inl rfl)
    (by omega)
  have hpa := seek_spec s a (l1 ++ b :: l2) (Link.head ws) (some a) (s.brk + 1) h12
    (by simp [ha1, hab, ha2]) (Or.inl rfl) (by simp; omega)
  have hlb := Chain_load_last s _ _ _ h1
  have hla := Chain_load_last s _ _ _ h12
  have hpaeq : link_after (Link.head ws) (l1 ++ b :: l2) = link_after (Link.next b) l2 := by
    rw [link_after_append]; rfl
  rw [hpaeq] at hpa hla
  obtain ⟨y, hy⟩ : ∃ y, load s (Link.next b) = Except.ok y := by
    cases l2 with
    | nil => exact ⟨_, h2⟩
    | cons r l2 => exact ⟨_, h2.1⟩
  obtain ⟨x, hx⟩ : ∃ x, load s (Link.next a) = Except.ok x := by
    cases l3 with
    | nil => exact ⟨_, h3⟩
    | cons r l3 => exact ⟨_, h3.1⟩
  have hxb : x ≠ some b := by
    rintro rfl
    cases l3 with
    | nil => simp [Chain, hx] at h3
    | cons r l3 =>
      have := h3.1
      rw [hx] at this
      simp at this
      exact hb3 (by simp [this])
  obtain ⟨s4, hs4, he4, hL⟩ := swap_exec N s ws a b _ _ x y hab hws hpa hpb hla hlb hx hy
  simp only [if_neg hxb] at hL
  have hpb_c : link_after (Link.head ws) l1 = Link.head ws ∨
      ∃ q, q ∈ l1 ∧ link_after (Link.head ws) l1 = Link.next q := link_after_mem _ _
  have hpa_c : (l2 = [] ∧ link_after (Link.next b) l2 = Link.next b) ∨
      ∃ q, q ∈ l2 ∧ link_after (Link.next b) l2 = Link.next q := by
    cases l2 with
    | nil => exact Or.inl ⟨rfl, rfl⟩
    | cons r l2 => exact Or.inr (link_after_cons_mem _ _ _)
  refine ⟨s4, hs4, he4, ?_, ?_⟩
  · refine (Chain_append s4 l1 a _ _ _).2 ⟨?_, (Chain_append s4 l2 b _ _ _).2 ⟨?_, ?_⟩⟩
    · -- the part before `b` now ends in `a`
      apply Chain_redirect s s4 l1 _ (some b) (some a) h1 (by simp) hn1
      · intro hne
        rw [hL]
        rcases hpa_c with ⟨-, hc2⟩ | ⟨q2, hq2, hc2⟩ <;> simp [hc2, hne]
      · intro p hp hne
        rw [hL]
        have hpa1 : p ≠ a := by rintro rfl; exact ha1 hp
        have hpb1 : p ≠ b := by rintro rfl; exact hb1 hp
        rcases hpa_c with ⟨-, hc2⟩ | ⟨q2, hq2, hc2⟩
        · simp [hc2, hne, hpa1, hpb1]
        · have : p ≠ q2 := by rintro rfl; exact hd12 hp hq2
          simp [hc2, hne, hpa1, hpb1, this]
      · rw [hL]
        rcases hpb_c with hc | ⟨q, hq, hc⟩
        · simp [hc]
        · have h1 : q ≠ a := by rintro rfl; exact ha1 hq
          simp [hc, h1]
    · -- the part between the two, entered through `a` and ending in `b`
      cases l2 with
      | nil =>
        simp only [Chain] at h2 ⊢
        rw [hy] at h2
        injection h2 with h2
        rw [hL]
        simp [h2]
      | cons r l2 =>
        obtain ⟨q, hq, hc2⟩ := link_after_cons_mem (Link.next b) r l2
        have hqa : q ≠ a := by rintro rfl; exact ha2 hq
        have hqb : q ≠ b := by rintro rfl; exact hb2 hq
        have hyr : y = some r := by
          have := h2.1
          rw [hy] at this
          injection this
        have hra : r ≠ a := by rintro rfl; exact ha2 (by simp)
        have hrb : r ≠ b := by rintro rfl; exact hb2 (by simp)
        have hn2c := List.nodup_cons.1 hn2
        refine ⟨?_, ?_⟩
        · rw [hL]
          simp [hyr, hra]
        · have hlast : link_after (Link.next r) l2 = Link.next q := hc2
          have hq1 : Link.next q ≠ link_after (Link.head ws) l1 := by
            rcases hpb_c with hc | ⟨q1, hq1, hc⟩ <;> rw [hc] <;> simp
            rintro rfl; exact hd12 hq1 hq
          apply Chain_redirect s s4 l2 _ (some a) (some b) h2.2
          · intro p hp hpr
            injection hpr with hpr
            exact hn2c.1 (hpr ▸ hp)
          · exact hn2c.2
          · intro hne
            rw [hlast] at hne
            have hr1 : Link.next r ≠ link_after (Link.head ws) l1 := by
              rcases hpb_c with hc | ⟨q1, hq1, hc⟩ <;> rw [hc] <;> simp
              rintro rfl; exact hd12 hq1 (by simp)
            rw [hL, hc2]
            simp [hra, hrb, hne, hr1]
          · intro p hp hne
            rw [hlast] at hne
            have hpa1 : p ≠ a := by rintro rfl; exact ha2 (by simp [hp])
            have hpb1 : p ≠ b := by rintro rfl; exact hb2 (by simp [hp])
            have hp1 : Link.next p ≠ link_after (Link.head ws) l1 := by
              rcases hpb_c with hc | ⟨q1, hq1, hc⟩ <;> rw [hc] <;> simp
              rintro rfl; exact hd12 hq1 (by simp [hp])
            rw [hL, hc2]
            simp [hpa1, hpb1, hne, hp1]
          · rw [hlast, hL, hc2]
            simp [hqa, hqb, hq1]
    · -- the part after `a`, now entered through `b`
      apply Chain_move s s4 l3 _ _ none h3
      · rw [hL, hx]
        have hb1 : Link.next b ≠ link_after (Link.head ws) l1 := by
          rcases hpb_c with hc | ⟨q1, hq1, hc⟩ <;> rw [hc] <;> simp
          rintro rfl; exact hb1 hq1
        simp [Ne.symm hab, hb1]
      · intro p hp
        have hpa1 : p ≠ a := by rintro rfl; exact ha3 hp
        have hpb1 : p ≠ b := by rintro rfl; exact hb3 hp
        have hp1 : Link.next p ≠ link_after (Link.head ws) l1 := by
          rcases hpb_c with hc | ⟨q1, hq1, hc⟩ <;> rw [hc] <;> simp
          rintro rfl; exact hd13 hq1 hp
        have hp2 : Link.next p ≠ link_after (Link.next b) l2 := by
          rcases hpa_c with ⟨-, hc2⟩ | ⟨q2, hq2, hc2⟩ <;> rw [hc2] <;> simp [hpb1]
          rintro rfl; exact hd23 hq2 hp
        rw [hL]
        simp [hpa1, hpb1, hp1, hp2]
  · intro k hk hkl
    have hka : k ≠ Link.next a := hkl a (by simp)
    have hkb : k ≠ Link.next b := hkl b (by simp)
    have hk1 : k ≠ link_after (Link.head ws) l1 := by
      rcases hpb_c with hc | ⟨q1, hq1, hc⟩ <;> rw [hc]
      · exact hk
      · exact hkl q1 (by simp [hq1])
    have hk2 : k ≠ link_after (Link.next b) l2 := by
      rcases hpa_c with ⟨-, hc2⟩ | ⟨q2, hq2, hc2⟩ <;> rw [hc2]
      · exact hkb
      · exact hkl q2 (by simp [hq2])
    rw [hL]
    simp [hka, hkb, hk1, hk2]

theorem Chain_no_self (s : State) (l : List Ptr) (k : Link) (p : Ptr) (c : Client)
    (h : Chain s k l none) (hp : p ∈ l) (hc : s.heap p = some c) : c.next ≠ some p := by
  intro hself
  obtain ⟨l1, l2, rfl⟩ := List.append_of_mem hp
  have h2 := ((Chain_append s l1 p l2 _ none).1 h).2
  have hl := load_next s p c hc
  rw [hself] at hl
  cases l2 with
  | nil => simp [Chain, hl] at h2
  | cons r l2 =>
    have h3 := h2.1
    rw [hl] at h3
    simp at h3
    subst h3
    exact Chain_not_mem_entry s _ _ h2 (by simp)

/-- A client that is not on the active list is not found, and nothing is written. -/
theorem swap_noop (N : Nat) (s : State) (ws : Nat) (a b : Ptr) (l : List Ptr)
    (hws : ws_index N s.current_ws = Except.ok ws)
    (hb : ∀ p c, s.heap p = some c → p < s.brk)
    (h : Chain s (Link.head ws) l none) (hm : a ∉ l ∨ b ∉ l) :
    swap_clients N s (some a) (some b) = Except.ok s := by
  have hlen := Chain_length s _ _ h hb
  have hend := Chain_load_last s _ _ _ h
  have key : ∀ c, c ∈ l → ∃ pc, seek s c (s.brk + 1) (Link.head ws) = Except.ok pc ∧
      load s pc = Except.ok (some c) := by
    intro c hc
    obtain ⟨l1, l2, rfl, hc1⟩ := List.eq_append_cons_of_mem hc
    have h1 := ((Chain_append s l1 c l2 _ none).1 h).1
    refine ⟨_, seek_spec s c l1 _ (some c) _ h1 hc1 (Or.inl rfl) ?_, Chain_load_last s _ _ _ h1⟩
    simp at hlen
    omega
  have key2 : ∀ c, c ∉ l → seek s c (s.brk + 1) (Link.head ws) =
      Except.ok (link_after (Link.head ws) l) := fun c hc =>
    seek_spec s c l _ none _ h hc (Or.inr rfl) (by omega)
  by_cases hab : a = b
  · simp [swap_clients, hab]
  · by_cases ha : a ∈ l
    · have hbn : b ∉ l := hm.resolve_left (fun hh => hh ha)
      obtain ⟨pa, hpa, hla⟩ := key a ha
      simp [swap_clients, hab, hws, hpa, key2 b hbn, hla, hend, bind, Except.bind]
    · by_cases hbm : b ∈ l
      · obtain ⟨pb, hpb, hlb⟩ := key b hbm
        simp [swap_clients, hab, hws, hpb, key2 a ha, hlb, hend, bind, Except.bind]
      · simp [swap_clients, hab, hws, key2 a ha, key2 b hbm, hend, bind, Except.bind]

theorem split_at_index (l : List Ptr) (i : Nat) (a : Ptr) (h : l[i]? = some a) :
    ∃ l1 l2, l = l1 ++ a :: l2 ∧ l1.length = i := by
  induction l generalizing i with
  | nil => simp at h
  | cons x l ih =>
    cases i with
    | zero => simp at h; subst h; exact ⟨[], l, rfl, rfl⟩
    | succ i =>
      simp at h
      obtain ⟨l1, l2, rfl, hlen⟩ := ih i h
      exact ⟨x :: l1, l2, rfl, by simp [hlen]⟩

theorem set_at_length (l1 l2 : List Ptr) (a b : Ptr) :
    (l1 ++ a :: l2).set l1.length b = l1 ++ b :: l2 := by
  induction l1 with
  | nil => rfl
  | cons x l ih => simp [ih]

theorem set_past_length (l1 l2 : List Ptr) (n : Nat) (b : Ptr) :
    (l1 ++ l2).set (l1.length + n) b = l1 ++ l2.set n b := by
  induction l1 with
  | nil => simp
  | cons x l ih =>
    have : (x :: l).length + n = (l.length + n) + 1 := by simp; omega
    rw [this]
    simp [ih]

/-- Two positions `i < j` of a list cut it in three; exchanging the two entries is the list
operation `set` at both places. -/
theorem split_two (l : List Ptr) (i j : Nat) (a b : Ptr) (hij : i < j)
    (hi : l[i]? = some a) (hj : l[j]? = some b) :
    ∃ l1 l2 l3, l = l1 ++ a :: (l2 ++ b :: l3) ∧ (l2 = [] ↔ j = i + 1) ∧
      (l.set i b).set j a = l1 ++ b :: (l2 ++ a :: l3) ∧
      (l.set j a).set i b = l1 ++ b :: (l2 ++ a :: l3) := by
  obtain ⟨l1, r, rfl, hlen⟩ := split_at_index l i a hi
  obtain ⟨n, rfl⟩ : ∃ n, j = i + 1 + n := ⟨j - i - 1, by omega⟩
  have hj2 : r[n]? = some b := by
    have : (l1 ++ a :: r)[l1.length + (1 + n)]? = some b := by
      rw [hlen, ← Nat.add_assoc]; exact hj
    rw [List.getElem?_append_right (by omega)] at this
    simpa [Nat.add_comm 1 n] using this
  obtain ⟨l2, l3, rfl, hlen2⟩ := split_at_index r n b hj2
  refine ⟨l1, l2, l3, rfl, ?_, ?_, ?_⟩
  · constructor
    · intro h; subst h; simp at hlen2; omega
    · intro h
      have : n = 0 := by omega
      rw [this] at hlen2
      exact List.length_eq_zero.1 hlen2
  · subst hlen
    rw [set_at_length]
    have e1 : l1.length + 1 + n = l1.length + (1 + l2.length) := by omega
    rw [e1, set_past_length]
    have e2 : (b :: (l2 ++ b :: l3)).set (1 + l2.length) a = b :: (l2 ++ a :: l3) := by
      rw [Nat.add_comm]
      simp [set_at_length]
    rw [e2]
  · subst hlen
    have e1 : l1.length + 1 + n = l1.length + (1 + l2.length) := by omega
    rw [e1, set_past_length]
    have e2 : (a :: (l2 ++ b :: l3)).set (1 + l2.length) a = a :: (l2 ++ a :: l3) := by
      rw [Nat.add_comm]
      simp [set_at_length]
    rw [e2, set_at_length]

theorem demo_below_brk : ∀ p c, demo_state.heap p = some c → p < demo_state.brk := by
  intro p c h
  match p with
  | 0 => decide
  | 1 => decide
  | 2 => decide
  | n + 3 => simp [demo_state] at h

theorem demo_chain : Chain demo_state (Link.head 0) [0, 1, 2] none :=
  ⟨rfl, rfl, rfl, rfl⟩

/-- C1: when A is immediately followed by B on the active workspace's list,
`swap_clients(A, B)` and `swap_clients(B, A)` both return, and both leave the list with B
immediately followed by A at that place: same length, every other client where it was, no
duplicate, no client linked to itself, the list still ending in `NULL`; nothing but list
links is written. -/
theorem swap_clients_adjacent (N : Nat) (s : State) (ws : Nat) (a b : Ptr) (l1 l3 : List Ptr)
    (hws : ws_index N s.current_ws = Except.ok ws)
    (hb : ∀ p c, s.heap p = some c → p < s.brk)
    (h : Chain s (Link.head ws) (l1 ++ a :: b :: l3) none) :
    ∃ s1 s2, swap_clients N s (some a) (some b) = Except.ok s1 ∧
      swap_clients N s (some b) (some a) = Except.ok s2 ∧
      ∀ r, r = s1 ∨ r = s2 →
        Chain r (Link.head ws) (l1 ++ b :: a :: l3) none ∧
        (l1 ++ b :: a :: l3).length = (l1 ++ a :: b :: l3).length ∧
        (l1 ++ b :: a :: l3).Nodup ∧
        (∀ p c, p ∈ l1 ++ b :: a :: l3 → r.heap p = some c → c.next ≠ some p) ∧
        erase_links r = erase_links s := by
  obtain ⟨s1, hs1, he1, hc1, -⟩ := swap_fwd N s ws a b l1 [] l3 hws hb h
  obtain ⟨s2, hs2, he2, hc2, -⟩ := swap_bwd N s ws b a l1 [] l3 hws hb h
  refine ⟨s1, s2, hs1, hs2, ?_⟩
  rintro r (rfl | rfl)
  · exact ⟨hc1, by simp, Chain_nodup _ _ _ hc1,
      fun p c hp hc => Chain_no_self _ _ _ p c hc1 hp hc, he1⟩
  · exact ⟨hc2, by simp, Chain_nodup _ _ _ hc2,
      fun p c hp hc => Chain_no_self _ _ _ p c hc2 hp hc, he2⟩

theorem swap_clients_adjacent_witness :
    ∃ s1 s2, swap_clients 9 demo_state (some 0) (some 1) = Except.ok s1 ∧
      swap_clients 9 demo_state (some 1) (some 0) = Except.ok s2 ∧
      ∀ r, r = s1 ∨ r = s2 →
        Chain r (Link.head 0) ([] ++ 1 :: 0 :: [2]) none ∧
        ([] ++ 1 :: 0 :: [2]).length = ([] ++ 0 :: 1 :: [2]).length ∧
        ([] ++ 1 :: 0 :: [2]).Nodup ∧
        (∀ p c, p ∈ [] ++ 1 :: 0 :: [2] → r.heap p = some c → c.next ≠ some p) ∧
        erase_links r = erase_links demo_state :=
  swap_clients_adjacent 9 demo_state 0 0 1 [] [2] rfl demo_below_brk demo_chain

/-- C2: for two members A and B of the active workspace's list at positions that are not
next to each other, `swap_clients(A, B)` returns and leaves the list with A at the former
index of B, B at the former index of A and every other client at its index; and when A or
B is `NULL`, when A equals B, or when one of them is not on the active workspace's list,
`swap_clients` returns the state as it was. -/
theorem swap_clients_exchange (N : Nat) (s : State) (ws : Nat) (l : List Ptr)
    (hws : ws_index N s.current_ws = Except.ok ws)
    (hb : ∀ p c, s.heap p = some c → p < s.brk)
    (h : Chain s (Link.head ws) l none) :
    (∀ a b i j, l[i]? = some a → l[j]? = some b → i + 1 < j ∨ j + 1 < i →
      ∃ s1, swap_clients N s (some a) (some b) = Except.ok s1 ∧
        Chain s1 (Link.head ws) ((l.set i b).set j a) none ∧
        ((l.set i b).set j a).length = l.length ∧
        erase_links s1 = erase_links s) ∧
    (∀ x y : Option Ptr,
      x = none ∨ y = none ∨ x = y ∨ (∀ a, x = some a → a ∉ l) ∨ (∀ b, y = some b → b ∉ l) →
      swap_clients N s x y = Except.ok s) := by
  constructor
  · intro a b i j hi hj hij
    rcases hij with hij | hij
    · obtain ⟨l1, l2, l3, rfl, -, hset, -⟩ := split_two l i j a b (by omega) hi hj
      obtain ⟨s1, hs1, he1, hc1, -⟩ := swap_fwd N s ws a b l1 l2 l3 hws hb h
      exact ⟨s1, hs1, by rw [hset]; exact hc1, by simp, he1⟩
    · obtain ⟨l1, l2, l3, rfl, -, -, hset⟩ := split_two l j i b a (by omega) hj hi
      obtain ⟨s1, hs1, he1, hc1, -⟩ := swap_bwd N s ws a b l1 l2 l3 hws hb h
      exact ⟨s1, hs1, by rw [hset]; exact hc1, by simp, he1⟩
  · intro x y hxy
    cases x with
    | none => simp [swap_clients]
    | some a =>
      cases y with
      | none => simp [swap_clients]
      | some b =>
        rcases hxy with hx | hx | hx | hx | hx
        · simp at hx
        · simp at hx
        · simp at hx; simp [swap_clients, hx]
        · exact swap_noop N s ws a b l hws hb h (Or.inl (hx a rfl))
        · exact swap_noop N s ws a b l hws hb h (Or.inr (hx b rfl))

theorem swap_clients_exchange_witness :
    (∀ a b i j, [0, 1, 2][i]? = some a → [0, 1, 2][j]? = some b → i + 1 < j ∨ j + 1 < i →
      ∃ s1, swap_clients 9 demo_state (some a) (some b) = Except.ok s1 ∧
        Chain s1 (Link.head 0) (([0, 1, 2].set i b).set j a) none ∧
        (([0, 1, 2].set i b).set j a).length = [0, 1, 2].length ∧
        erase_links s1 = erase_links demo_state) ∧
    (∀ x y : Option Ptr,
      x = none ∨ y = none ∨ x = y ∨ (∀ a, x = some a → a ∉ [0, 1, 2]) ∨
        (∀ b, y = some b → b ∉ [0, 1, 2]) →
      swap_clients 9 demo_state x y = Except.ok demo_state) :=
  swap_clients_exchange 9 demo_state 0 [0, 1, 2] rfl demo_below_brk demo_chain

theorem Steps_of_Chain (s : State) (hd : Ptr) (l : List Ptr) (c : Ptr) (e : Option Ptr)
    (h : Chain s (Link.next c) l e) : Steps s hd c l := by
  induction l generalizing c with
  | nil => trivial
  | cons c1 l ih =>
    obtain ⟨cc, hcc, hn⟩ := load_next_ok s c _ h.1
    exact ⟨⟨cc, hcc, by rw [hn]⟩, ih _ h.2⟩

theorem Steps_append (s : State) (hd : Ptr) (l1 : List Ptr) (c1 : Ptr) (l2 : List Ptr) (c : Ptr) :
    Steps s hd c (l1 ++ c1 :: l2) ↔
      Steps s hd c (l1 ++ [c1]) ∧ Steps s hd c1 l2 := by
  induction l1 generalizing c with
  | nil => simp [Steps]
  | cons x l ih => simp [Steps, ih, and_assoc]

theorem Steps_wrap (s : State) (hd : Ptr) (l : List Ptr) (c : Ptr)
    (h : Chain s (Link.next c) l none) : Steps s hd c (l ++ [hd]) := by
  induction l generalizing c with
  | nil =>
    obtain ⟨cc, hcc, hn⟩ := load_next_ok s c _ h
    exact ⟨⟨cc, hcc, by rw [hn]⟩, trivial⟩
  | cons c1 l ih =>
    obtain ⟨cc, hcc, hn⟩ := load_next_ok s c _ h.1
    exact ⟨⟨cc, hcc, by rw [hn]⟩, ih _ h.2⟩

/-- The do-while loop of `focus_next` along a walk that ends at `start`: it stops at the
first mapped client, or else at `start`. -/
theorem focus_next_loop_spec (s : State) (hd start : Ptr) (rest : List Ptr) (c : Ptr)
    (fuel : Nat) (hst : Steps s hd c rest)
    (hne : ∀ x ∈ rest.dropLast, x ≠ start) (hlast : rest.getLast? = some start)
    (hal : ∀ x ∈ rest, ∃ cx, s.heap x = some cx) (hf : rest.length ≤ fuel) :
    focus_next_loop s hd start fuel c =
      Except.ok ((rest.find? (mapped_at s)).getD start) := by
  induction rest generalizing c fuel with
  | nil => simp at hlast
  | cons c1 rest ih =>
    cases fuel with
    | zero => simp at hf
    | succ f =>
      obtain ⟨⟨cc, hcc, hstep⟩, hst2⟩ := hst
      obtain ⟨cc1, hcc1⟩ := hal c1 (by simp)
      have hm : mapped_at s c1 = cc1.mapped := by simp [mapped_at, hcc1]
      simp only [focus_next_loop, deref, hcc, bind, Except.bind, hstep, hcc1]
      by_cases hcont : cc1.mapped = false ∧ c1 ≠ start
      · rw [if_pos hcont]
        have hrest : rest ≠ [] := by
          rintro rfl
          simp at hlast
          exact hcont.2 hlast
        rw [ih c1 f hst2]
        · simp [List.find?, hm, hcont.1]
        · intro x hx
          apply hne
          rw [List.dropLast_cons_of_ne_nil hrest]
          exact List.mem_cons_of_mem _ hx
        · cases rest with
          | nil => exact absurd rfl hrest
          | cons r rest => simpa [List.getLast?_cons_cons] using hlast
        · intro x hx; exact hal x (List.mem_cons_of_mem _ hx)
        · simpa using hf
      · rw [if_neg hcont]
        by_cases hmp : cc1.mapped = true
        · simp [List.find?, hm, hmp]
        · have hc1 : c1 = start := by
            by_contra hx
            exact hcont ⟨by simpa using hmp, hx⟩
          have hrest : rest = [] := by
            by_contra hr
            apply hne c1 _ hc1
            rw [List.dropLast_cons_of_ne_nil hr]
            simp
          subst hrest
          have hmf : mapped_at s c1 = false := by rw [hm]; simpa using hmp
          subst hc1
          simp [List.find?, hmf]

/-- The walk of `focus_next`, from the client after the start round to the start itself,
with the state it leaves. -/
theorem focus_next_core (N : Nat) (s : State) (i : Nat) (l1 : List Ptr) (start : Ptr)
    (l2 : List Ptr)
    (hws : ws_index N s.current_ws = Except.ok i)
    (hb : ∀ p c, s.heap p = some c → p < s.brk)
    (h : Chain s (Link.head i) (l1 ++ start :: l2) none)
    (hstart : s.focused = some start ∨ (s.focused = none ∧ l1 = [])) :
    ∃ s1, focus_next N s = Except.ok s1 ∧
      (∀ c, (l2 ++ l1 ++ [start]).find? (mapped_at s) = some c →
        ∃ cc, s.heap c = some cc ∧
          s1 = { s with focused := some c, current_monitor := cc.mon }) ∧
      ((l2 ++ l1 ++ [start]).find? (mapped_at s) = none → s1 = s) := by
  have hn := Chain_nodup s _ _ h
  have hlen := Chain_length s _ _ h hb
  have hall := Chain_allocated s _ _ _ h
  obtain ⟨h1, h2⟩ := (Chain_append s l1 start l2 _ _).1 h
  -- the head of the list
  obtain ⟨hd, hhd, hsteps⟩ : ∃ hd, s.workspaces i = some hd ∧
      (l1 = [] → hd = start) ∧ Steps s hd start (l2 ++ l1 ++ [start]) := by
    cases l1 with
    | nil =>
      refine ⟨start, ?_, fun _ => rfl, ?_⟩
      · have := h1
        simp only [Chain, load] at this
        injection this
      · simpa using Steps_wrap s start l2 start h2
    | cons hd l1 =>
      refine ⟨hd, ?_, by simp, ?_⟩
      · have := h1.1
        simp only [load] at this
        injection this
      · have hx : ∃ e, load s (Link.next start) = Except.ok e := by
          cases l2 with
          | nil => exact ⟨_, h2⟩
          | cons r l2 => exact ⟨_, h2.1⟩
        obtain ⟨e, he⟩ := hx
        have h3 : Chain s (Link.next hd) (l1 ++ [start]) e :=
          (Chain_concat s l1 start _ e).2 ⟨h1.2, he⟩
        have h4 := Steps_of_Chain s hd _ _ _ h3
        have h5 := Steps_wrap s hd l2 start h2
        have : l2 ++ hd :: l1 ++ [start] = l2 ++ hd :: (l1 ++ [start]) := by simp
        rw [this]
        exact (Steps_append s hd l2 hd _ start).2 ⟨h5, h4⟩
  have hstart2 : (match s.focused with
      | some f => f
      | none => hd) = start := by
    rcases hstart with hf | ⟨hf, hl⟩
    · rw [hf]
    · rw [hf]; exact hsteps.1 hl
  have hmem : ∀ x, x ∈ l2 ++ l1 ++ [start] → x ∈ l1 ++ start :: l2 := by
    intro x hx
    simp at hx ⊢
    tauto
  have hloop := focus_next_loop_spec s hd start (l2 ++ l1 ++ [start]) start (s.brk + 1)
    hsteps.2
    (by
      rw [List.dropLast_concat]
      intro x hx hxs
      subst hxs
      simp only [List.nodup_append, List.nodup_cons] at hn
      rcases List.mem_append.1 hx with hx | hx
      · exact hn.2.1.1 hx
      · exact hn.2.2 hx (by simp))
    (by simp)
    (fun x hx => hall x (hmem x hx))
    (by simp at hlen ⊢; omega)
  obtain ⟨cs, hcs⟩ := hall start (by simp)
  cases hfind : (l2 ++ l1 ++ [start]).find? (mapped_at s) with
  | none =>
    rw [hfind] at hloop
    have hms : mapped_at s start = false := by
      have := List.find?_eq_none.1 hfind start (by simp)
      simpa using this
    have hcm : cs.mapped = false := by simpa [mapped_at, hcs] using hms
    refine ⟨s, ?_, by simp, fun _ => rfl⟩
    simp [focus_next, hws, hhd, hstart2, hloop, bind, Except.bind, deref, hcs, hcm]
  | some c =>
    rw [hfind] at hloop
    have hcm := List.find?_some hfind
    obtain ⟨cc, hcc⟩ := hall c (hmem c (List.mem_of_find?_eq_some hfind))
    have hcm2 : cc.mapped = true := by simpa [mapped_at, hcc] using hcm
    refine ⟨{ s with focused := some c, current_monitor := cc.mon }, ?_, ?_, by simp⟩
    · simp [focus_next, hws, hhd, hstart2, hloop, bind, Except.bind, deref, hcc, hcm2]
    · intro c1 hc1
      injection hc1 with hc1
      subst hc1
      exact ⟨cc, hcc, rfl⟩

/-- C3: on a non-empty active workspace whose walk starts at the focused client (at the
head when nothing is focused), `focus_next` returns; it walks forward from the client
after the start, from the tail on to the head, and up to the start itself, and sets
`focused` (and `current_monitor`) to the first mapped client on that walk; when the walk
is back at the start and has met no mapped client, the state is unchanged. -/
theorem focus_next_spec (N : Nat) (s : State) (i : Nat) (l1 : List Ptr) (start : Ptr)
    (l2 : List Ptr)
    (hws : ws_index N s.current_ws = Except.ok i)
    (hb : ∀ p c, s.heap p = some c → p < s.brk)
    (h : Chain s (Link.head i) (l1 ++ start :: l2) none)
    (hstart : s.focused = some start ∨ (s.focused = none ∧ l1 = [])) :
    ∃ s1, focus_next N s = Except.ok s1 ∧
      (∀ c, (l2 ++ l1 ++ [start]).find? (mapped_at s) = some c →
        ∃ cc, s.heap c = some cc ∧
          s1 = { s with focused := some c, current_monitor := cc.mon }) ∧
      ((l2 ++ l1 ++ [start]).find? (mapped_at s) = none → s1 = s) :=
  focus_next_core N s i l1 start l2 hws hb h hstart

/-- The example of the spec: with clients A (mapped), B (unmapped), C (mapped) and A
focused, `focus_next` focuses C. -/
theorem focus_next_spec_witness :
    ∃ s1, focus_next 9 demo_state = Except.ok s1 ∧ s1.focused = some 2 := by
  obtain ⟨s1, h1, h2, -⟩ :=
    focus_next_spec 9 demo_state 0 [] 0 [1, 2] rfl demo_below_brk demo_chain (Or.inl rfl)
  obtain ⟨cc, -, hs⟩ := h2 2 (by decide)
  exact ⟨s1, h1, by rw [hs]⟩

theorem and_or_right (x y z : Nat) : (x ||| y) &&& z = (x &&& z) ||| (y &&& z) := by
  rw [Nat.and_comm, Nat.and_or_distrib_left, Nat.and_comm z x, Nat.and_comm z y]

/-- The three lock bits are masked out, whichever of them are set. -/
theorem clean_mask_lock (state : Nat) (caps num scroll : Bool) :
    clean_mask (state ||| ((if caps then LockMask else 0) ||| (if num then Mod2Mask else 0) |||
      (if scroll then Mod3Mask else 0))) = clean_mask state := by
  unfold clean_mask
  rw [and_or_right]
  have h0 : ((if caps then LockMask else 0) ||| (if num then Mod2Mask else 0) |||
      (if scroll then Mod3Mask else 0)) &&&
      (0xFFFFFFFF ^^^ (LockMask ||| Mod2Mask ||| Mod3Mask)) = 0 := by
    cases caps <;> cases num <;> cases scroll <;> decide
  rw [h0]
  simp

theorem clean_mask_idem (mask : Nat) : clean_mask (clean_mask mask) = clean_mask mask := by
  unfold clean_mask
  rw [Nat.and_assoc, Nat.and_self]

theorem match_binding_some (ks mods : Nat) (bs : List Binding) (b : Binding) :
    match_binding ks mods bs = some b ↔
      ∃ front back, bs = front ++ b :: back ∧
        (b.keysym = ks ∧ clean_mask b.mods = mods) ∧
        ∀ x ∈ front, ¬ (x.keysym = ks ∧ clean_mask x.mods = mods) := by
  induction bs with
  | nil => simp [match_binding]
  | cons x bs ih =>
    by_cases hx : x.keysym = ks ∧ clean_mask x.mods = mods
    · simp only [match_binding, if_pos hx]
      constructor
      · intro h
        injection h with h
        subst h
        exact ⟨[], bs, rfl, hx, by simp⟩
      · rintro ⟨front, back, hl, hb, hf⟩
        cases front with
        | nil => simp at hl; rw [hl.1]
        | cons y front =>
          simp at hl
          exact absurd hx (hl.1 ▸ hf y (by simp))
    · simp only [match_binding, if_neg hx, ih]
      constructor
      · rintro ⟨front, back, hl, hb, hf⟩
        refine ⟨x :: front, back, by simp [hl], hb, ?_⟩
        intro y hy
        rcases List.mem_cons.1 hy with rfl | hy
        · exact hx
        · exact hf y hy
      · rintro ⟨front, back, hl, hb, hf⟩
        cases front with
        | nil => simp at hl; exact absurd hb (hl.1 ▸ hx)
        | cons y front =>
          simp at hl
          exact ⟨front, back, hl.2, hb, fun z hz => hf z (by simp [hz])⟩

theorem match_binding_none (ks mods : Nat) (bs : List Binding) :
    match_binding ks mods bs = none ↔
      ∀ x ∈ bs, ¬ (x.keysym = ks ∧ clean_mask x.mods = mods) := by
  induction bs with
  | nil => simp [match_binding]
  | cons x bs ih =>
    by_cases hx : x.keysym = ks ∧ clean_mask x.mods = mods
    · simp only [match_binding, if_pos hx]
      constructor
      · intro h; cases h
      · intro h; exact absurd hx (h x (by simp))
    · simp only [match_binding, if_neg hx, ih]
      constructor
      · intro h y hy
        rcases List.mem_cons.1 hy with rfl | hy
        · exact hx
        · exact h y hy
      · intro h y hy
        exact h y (by simp [hy])

/-- C10: for every binding table, keysym and modifier state, setting any combination of
the lock bits `LockMask`, `Mod2Mask`, `Mod3Mask` in the state does not change which
binding `hdl_keypress` selects; the selected binding is the first of the table, in table
order, with that keysym whose cleaned modifiers equal the cleaned state, and none is
selected exactly when no entry matches; `clean_mask` is idempotent. -/
theorem keypress_lock_independent (cfg : Config) (k state : Nat) (caps num scroll : Bool) :
    hdl_keypress_select cfg k
        (state ||| ((if caps then LockMask else 0) ||| (if num then Mod2Mask else 0) |||
          (if scroll then Mod3Mask else 0))) =
      hdl_keypress_select cfg k state ∧
    (∀ b, hdl_keypress_select cfg k state = some b ↔
      ∃ front back, cfg.binds = front ++ b :: back ∧
        (b.keysym = k ∧ clean_mask b.mods = clean_mask state) ∧
        ∀ x ∈ front, ¬ (x.keysym = k ∧ clean_mask x.mods = clean_mask state)) ∧
    (hdl_keypress_select cfg k state = none ↔
      ∀ x ∈ cfg.binds, ¬ (x.keysym = k ∧ clean_mask x.mods = clean_mask state)) ∧
    clean_mask (clean_mask state) = clean_mask state := by
  refine ⟨?_, ?_, ?_, clean_mask_idem state⟩
  · simp only [hdl_keypress_select, clean_mask_lock]
  · intro b
    exact match_binding_some k (clean_mask state) cfg.binds b
  · exact match_binding_none k (clean_mask state) cfg.binds

/-- A table with two bindings for the same key: with Caps Lock and Num Lock on, mod4+q is
still dispatched to the first of them. -/
theorem keypress_lock_independent_witness :
    hdl_keypress_select
        { demo_config with binds :=
            [⟨64, 113, BindType.TYPE_FUNC, 0⟩, ⟨64 ||| 16, 113, BindType.TYPE_CMD, 0⟩] }
        113 (64 ||| (2 ||| 16 ||| 0)) =
      some ⟨64, 113, BindType.TYPE_FUNC, 0⟩ := by
  have h := (keypress_lock_independent
    { demo_config with binds :=
        [⟨64, 113, BindType.TYPE_FUNC, 0⟩, ⟨64 ||| 16, 113, BindType.TYPE_CMD, 0⟩] }
    113 64 true true false).1
  simp only [LockMask, Mod2Mask, Mod3Mask, if_true, Bool.false_eq_true, if_false] at h
  rw [h]
  decide

@[simp] theorem tile_brk (T : Tiler) (s : State) : (tile T s).brk = s.brk := rfl

@[simp] theorem tile_workspaces (T : Tiler) (s : State) :
    (tile T s).workspaces = s.workspaces := rfl

@[simp] theorem tile_current_ws (T : Tiler) (s : State) :
    (tile T s).current_ws = s.current_ws := rfl

@[simp] theorem tile_focused (T : Tiler) (s : State) : (tile T s).focused = s.focused := rfl

@[simp] theorem tile_in_ws_switch (T : Tiler) (s : State) :
    (tile T s).in_ws_switch = s.in_ws_switch := rfl

@[simp] theorem tile_drag_mode (T : Tiler) (s : State) :
    (tile T s).drag_mode = s.drag_mode := rfl

@[simp] theorem tile_drag_client (T : Tiler) (s : State) :
    (tile T s).drag_client = s.drag_client := rfl

@[simp] theorem tile_swap_target (T : Tiler) (s : State) :
    (tile T s).swap_target = s.swap_target := rfl

@[simp] theorem tile_user_config (T : Tiler) (s : State) :
    (tile T s).user_config = s.user_config := rfl

@[simp] theorem tile_open_windows (T : Tiler) (s : State) :
    (tile T s).open_windows = s.open_windows := rfl

@[simp] theorem put_brk (s : State) (p : Ptr) (c : Client) : (put s p c).brk = s.brk := rfl

@[simp] theorem put_workspaces (s : State) (p : Ptr) (c : Client) :
    (put s p c).workspaces = s.workspaces := rfl

@[simp] theorem put_current_ws (s : State) (p : Ptr) (c : Client) :
    (put s p c).current_ws = s.current_ws := rfl

@[simp] theorem put_focused (s : State) (p : Ptr) (c : Client) :
    (put s p c).focused = s.focused := rfl

@[simp] theorem put_user_config (s : State) (p : Ptr) (c : Client) :
    (put s p c).user_config = s.user_config := rfl

theorem load_tile (T : Tiler) (s : State) (k : Link) : load (tile T s) k = load s k := by
  cases k with
  | head ws => rfl
  | next p =>
    simp only [load, tile]
    cases hp : s.heap p with
    | none => rfl
    | some c => cases hT : T s p <;> rfl

theorem mapped_tile (T : Tiler) (s : State) (p : Ptr) :
    (((tile T s).heap p).map Client.mapped) = (s.heap p).map Client.mapped := by
  simp only [tile]
  cases hp : s.heap p with
  | none => rfl
  | some c => cases hT : T s p <;> rfl

theorem win_tile (T : Tiler) (s : State) (p : Ptr) : win_at (tile T s) p = win_at s p := by
  simp only [tile, win_at]
  cases hp : s.heap p with
  | none => rfl
  | some c => cases hT : T s p <;> rfl

theorem load_put (s : State) (p : Ptr) (c c1 : Client) (hc : s.heap p = some c)
    (hn : c1.next = c.next) (k : Link) : load (put s p c1) k = load s k := by
  cases k with
  | head ws => rfl
  | next q =>
    by_cases hq : q = p
    · subst hq; simp [load, put, hc, hn]
    · simp [load, put, Function.update_noteq hq]

theorem Chain_congr (s s1 : State) (l : List Ptr) (k : Link) (e : Option Ptr)
    (hl : ∀ k, load s1 k = load s k) (h : Chain s k l e) : Chain s1 k l e :=
  Chain_move s s1 l k k e h (hl k) (fun _ _ => hl _)

theorem allocated_of_load (s s1 : State) (hl : ∀ k, load s1 k = load s k) (p : Ptr)
    (c : Client) (h : s1.heap p = some c) : ∃ c0, s.heap p = some c0 := by
  have h1 := load_next s1 p c h
  rw [hl] at h1
  obtain ⟨c0, hc0, -⟩ := load_next_ok s p _ h1
  exact ⟨c0, hc0⟩

/-- A change that leaves every link and `brk` alone leaves the registry alone. -/
theorem Registry_congr (N : Nat) (s s1 : State) (L : Nat → List Ptr)
    (hreg : Registry N s L) (hl : ∀ k, load s1 k = load s k) (hb : s1.brk = s.brk) :
    Registry N s1 L := by
  refine ⟨fun ws h => Chain_congr s s1 _ _ _ hl (hreg.lists ws h), hreg.disjoint, ?_⟩
  intro p c hc
  obtain ⟨c0, hc0⟩ := allocated_of_load s s1 hl p c hc
  rw [hb]
  exact hreg.below_brk p c0 hc0

theorem Registry_length (N : Nat) (s : State) (L : Nat → List Ptr) (hreg : Registry N s L)
    (ws : Nat) (h : ws < N) : (L ws).length ≤ s.brk :=
  Chain_length s _ _ (hreg.lists ws h) hreg.below_brk

theorem ws_index_ok (N : Nat) (i : Int) (h : 0 ≤ i ∧ i < N) :
    ws_index N i = Except.ok i.toNat ∧ i.toNat < N ∧ ((i.toNat : Nat) : Int) = i := by
  refine ⟨by simp [ws_index, h], by omega, by omega⟩

theorem ws_index_inv (N : Nat) (i : Int) (n : Nat) (h : ws_index N i = Except.ok n) :
    0 ≤ i ∧ i < N ∧ n = i.toNat := by
  unfold ws_index at h
  split at h
  · injection h with h
    omega
  · cases h

/-- The value a link holds is the head of the chain behind it. -/
theorem Chain_head (s : State) (l : List Ptr) (k : Link) (e : Option Ptr)
    (h : Chain s k l e) : load s k = Except.ok ((l.head?).or e) := by
  cases l with
  | nil => simpa [Chain] using h
  | cons p l => simpa using h.1

theorem walk_spec (s : State) (l : List Ptr) (k : Link) (v : Option Ptr) (fuel : Nat)
    (h : Chain s k l none) (hv : load s k = Except.ok v) (hf : l.length ≤ fuel) :
    walk s fuel v = Except.ok () := by
  induction l generalizing k v fuel with
  | nil =>
    simp only [Chain] at h
    rw [h] at hv
    injection hv with hv
    subst hv
    cases fuel <;> rfl
  | cons p l ih =>
    rw [h.1] at hv
    injection hv with hv
    subst hv
    cases fuel with
    | zero => simp at hf
    | succ f =>
      obtain ⟨e, he⟩ : ∃ e, load s (Link.next p) = Except.ok e := ⟨_, Chain_head s l _ _ h.2⟩
      obtain ⟨c, hc, hn⟩ := load_next_ok s p e he
      simp only [walk, hc]
      exact ih _ _ f h.2 (by rw [← hn] at he; exact he) (by simpa using hf)

/-- The search for a window on a list: the first client with that window, if there is
one. -/
theorem find_win_spec (s : State) (w : Window) (l : List Ptr) (k : Link) (v : Option Ptr)
    (fuel : Nat) (h : Chain s k l none) (hv : load s k = Except.ok v) (hf : l.length ≤ fuel) :
    find_win s w fuel v = Except.ok (l.find? (fun p => win_at s p = some w)) := by
  induction l generalizing k v fuel with
  | nil =>
    simp only [Chain] at h
    rw [h] at hv
    injection hv with hv
    subst hv
    cases fuel <;> rfl
  | cons p l ih =>
    rw [h.1] at hv
    injection hv with hv
    subst hv
    cases fuel with
    | zero => simp at hf
    | succ f =>
      obtain ⟨e, he⟩ : ∃ e, load s (Link.next p) = Except.ok e := ⟨_, Chain_head s l _ _ h.2⟩
      obtain ⟨c, hc, hn⟩ := load_next_ok s p e he
      simp only [find_win, hc]
      by_cases hw : c.win = w
      · simp [List.find?, win_at, hc, hw]
      · rw [if_neg hw, ih _ _ f h.2 (by rw [← hn] at he; exact he) (by simpa using hf)]
        simp [List.find?, win_at, hc, hw]

/-- On a registry, `change_workspace` to a workspace inside the array returns: the walks
over the outgoing and the incoming list end, the target becomes the active workspace, its
head (if any) the focused client, and nothing but geometry, `current_ws` and `focused`
has changed. -/
theorem change_workspace_ok (N : Nat) (T : Tiler) (s : State) (L : Nat → List Ptr) (ws : Int)
    (hreg : Registry N s L) (hcur : CurOK N s) (hws : 0 ≤ ws ∧ ws < N)
    (hne : ws ≠ s.current_ws) :
    change_workspace N T s ws = Except.ok
      { tile T { s with in_ws_switch := true, current_ws := ws } with
        focused := (L ws.toNat).head?, in_ws_switch := false } := by
  obtain ⟨hi, hiN, -⟩ := ws_index_ok N s.current_ws hcur
  obtain ⟨hj, hjN, -⟩ := ws_index_ok N ws hws
  have hge : ¬ (ws ≥ (N : Int) ∨ ws = s.current_ws) := by
    rintro (h | h)
    · omega
    · exact hne h
  have hw1 : walk { s with in_ws_switch := true } (s.brk + 1) (s.workspaces s.current_ws.toNat)
      = Except.ok () := by
    apply walk_spec _ (L s.current_ws.toNat) (Link.head s.current_ws.toNat)
    · exact Chain_congr s _ _ _ _ (fun k => by cases k <;> rfl) (hreg.lists _ hiN)
    · rfl
    · have := Registry_length N s L hreg _ hiN
      show (L s.current_ws.toNat).length ≤ s.brk + 1
      omega
  have hw2 : walk { s with in_ws_switch := true, current_ws := ws } (s.brk + 1)
      (s.workspaces ws.toNat) = Except.ok () := by
    apply walk_spec _ (L ws.toNat) (Link.head ws.toNat)
    · exact Chain_congr s _ _ _ _ (fun k => by cases k <;> rfl) (hreg.lists _ hjN)
    · rfl
    · have := Registry_length N s L hreg _ hjN
      show (L ws.toNat).length ≤ s.brk + 1
      omega
  have hhead := Chain_head s _ _ _ (hreg.lists _ hjN)
  simp only [load, Option.or_none] at hhead
  injection hhead with hhead
  simp only [change_workspace, if_neg hge, bind, Except.bind, hi, hw1]
  simp only [tile_current_ws, tile_workspaces, hj, hw2]
  have htw : (tile T { s with in_ws_switch := true, current_ws := ws }).workspaces ws.toNat
      = s.workspaces ws.toNat := rfl
  cases hl : L ws.toNat with
  | nil =>
    rw [hl] at hhead
    simp only [List.head?] at hhead
    rw [hhead]
    rfl
  | cons hd l =>
    rw [hl] at hhead
    simp only [List.head?] at hhead
    obtain ⟨c, hc⟩ := Chain_allocated s _ _ _ (hreg.lists _ hjN) hd (by simp [hl])
    have hc2 : ∃ c2, (tile T { s with in_ws_switch := true, current_ws := ws }).heap hd
        = some c2 := by
      simp only [tile, hc]
      cases T _ hd <;> exact ⟨_, rfl⟩
    obtain ⟨c2, hc2⟩ := hc2
    rw [hhead]
    simp only [deref, hc2, List.head?]

/-- C9: on a registry whose guard is clear (as it is between two handlers),
`change_workspace` to any workspace inside the array returns, leaves the `mapped` flag of
every client on the heap as it was, makes the target the active workspace and ends with
`in_ws_switch` clear; and `hdl_unmap_ntf`, run in a state `s0` whose guard is set, returns
and leaves every `mapped` flag as it was, whatever window `w` the notification names. -/
theorem change_workspace_keeps_mapped (N : Nat) (T : Tiler) (s : State) (L : Nat → List Ptr)
    (ws : Int) (s0 : State) (w : Window)
    (hreg : Registry N s L) (hcur : CurOK N s) (hguard : s.in_ws_switch = false)
    (hws : 0 ≤ ws ∧ ws < N) (hs0 : s0.in_ws_switch = true) :
    (∃ s1, change_workspace N T s ws = Except.ok s1 ∧
      (∀ p, (s1.heap p).map Client.mapped = (s.heap p).map Client.mapped) ∧
      s1.current_ws = ws ∧ s1.in_ws_switch = false) ∧
    (∃ s2, hdl_unmap_ntf N T s0 w = Except.ok s2 ∧
      ∀ p, (s2.heap p).map Client.mapped = (s0.heap p).map Client.mapped) := by
  constructor
  · by_cases hne : ws = s.current_ws
    · exact ⟨s, by simp [change_workspace, hne], fun _ => rfl, hne.symm, hguard⟩
    · refine ⟨_, change_workspace_ok N T s L ws hreg hcur hws hne, ?_, rfl, rfl⟩
      intro p
      exact mapped_tile T _ p
  · refine ⟨tile T s0, by simp [hdl_unmap_ntf, mark_unmapped, hs0, bind, Except.bind], ?_⟩
    intro p
    exact mapped_tile T _ p

theorem demo_registry : Registry 9 demo_state demo_lists := by
  refine ⟨?_, ?_, demo_below_brk⟩
  · intro ws _
    match ws with
    | 0 => exact demo_chain
    | n + 1 => exact rfl
  · intro i j _ _ hij p hp
    match i, j with
    | 0, 0 => exact absurd rfl hij
    | 0, m + 1 => simp [demo_lists]
    | n + 1, _ => simp [demo_lists] at hp

theorem change_workspace_keeps_mapped_witness :
    (∃ s1, change_workspace 9 no_tiler demo_state 1 = Except.ok s1 ∧
      (∀ p, (s1.heap p).map Client.mapped = (demo_state.heap p).map Client.mapped) ∧
      s1.current_ws = 1 ∧ s1.in_ws_switch = false) ∧
    (∃ s2, hdl_unmap_ntf 9 no_tiler { demo_state with in_ws_switch := true } 100
        = Except.ok s2 ∧
      ∀ p, (s2.heap p).map Client.mapped =
        (({ demo_state with in_ws_switch := true } : State).heap p).map Client.mapped) :=
  change_workspace_keeps_mapped 9 no_tiler demo_state demo_lists 1
    { demo_state with in_ws_switch := true } 100 demo_registry
    (by simp [CurOK, demo_state, init]) rfl (by decide) rfl

/-- C7 (the code at the failing input): a window is mapped, a swap drag is started on it
with modifier+shift+button 1, and its destroy notification arrives.  The handlers return,
the client is freed, and the drag session is still there: `drag_mode` is `DRAG_SWAP` and
`drag_client` still holds the address of the freed client. -/
theorem destroy_leaves_drag_session :
    (run 9 256 no_tiler (init demo_config [])
        [Event.map_req demo_map_env 100,
         Event.button { w := 100, state := 65, button := 1, x_root := 10, y_root := 10 },
         Event.destroy_ntf 100]).toOption.map
      (fun s => (s.drag_mode, s.drag_client, s.heap 0, s.workspaces 0)) =
    some (DragMode.DRAG_SWAP, some 0, none, none) := by
  rfl

/-- C8 (the code at the failing input): a `_NET_CURRENT_DESKTOP` client message with
`data.l[0] = -1` reaches `change_workspace(-1)`; `-1 >= NUM_WORKSPACES` is false and
`-1 == current_ws` is false, so the call does not return early: it goes on to read
`workspaces[-1]`. -/
theorem change_workspace_negative :
    hdl_client_msg_desktop 9 no_tiler (init demo_config []) (-1) =
      Except.error (Fault.oob (-1)) ∧
    change_workspace 9 no_tiler (init demo_config []) (-1) ≠
      Except.ok (init demo_config []) := by
  constructor
  · rfl
  · intro h
    have h2 : change_workspace 9 no_tiler (init demo_config []) (-1) =
        Except.error (Fault.oob (-1)) := rfl
    rw [h2] at h
    cases h

theorem link_after_getLast (k : Link) (l : List Ptr) :
    link_after k l = match l.getLast? with
      | some q => Link.next q
      | none => k := by
  induction l generalizing k with
  | nil => rfl
  | cons p l ih =>
    cases l with
    | nil => rfl
    | cons r l =>
      rw [link_after, ih, List.getLast?_cons_cons]
      obtain ⟨q, hq⟩ : ∃ q, (r :: l).getLast? = some q :=
        ⟨(r :: l).getLast (by simp), List.getLast?_eq_getLast _ _⟩
      rw [hq]

theorem scan_win_none (s : State) (w : Window) (l : List Ptr) (k : Link) (v : Option Ptr)
    (fuel : Nat) (prev : Option Ptr) (h : Chain s k l none) (hv : load s k = Except.ok v)
    (hf : l.length ≤ fuel) (hno : ∀ p ∈ l, win_at s p ≠ some w) :
    ∃ q, scan_win s w fuel prev v = Except.ok (q, none) := by
  induction l generalizing k v fuel prev with
  | nil =>
    simp only [Chain] at h
    rw [h] at hv
    injection hv with hv
    subst hv
    exact ⟨prev, by cases fuel <;> rfl⟩
  | cons p l ih =>
    rw [h.1] at hv
    injection hv with hv
    subst hv
    cases fuel with
    | zero => simp at hf
    | succ f =>
      obtain ⟨e, he⟩ : ∃ e, load s (Link.next p) = Except.ok e := ⟨_, Chain_head s l _ _ h.2⟩
      obtain ⟨c, hc, hn⟩ := load_next_ok s p e he
      have hw : c.win ≠ w := by
        have := hno p (by simp)
        simpa [win_at, hc] using this
      simp only [scan_win, hc, if_pos hw]
      exact ih _ _ f _ h.2 (by rw [← hn] at he; exact he) (by simpa using hf)
        (fun q hq => hno q (by simp [hq]))

theorem scan_win_found (s : State) (w : Window) (l1 : List Ptr) (c : Ptr) (l2 : List Ptr)
    (k : Link) (v : Option Ptr) (fuel : Nat) (prev : Option Ptr)
    (h : Chain s k (l1 ++ c :: l2) none) (hv : load s k = Except.ok v)
    (hf : l1.length < fuel) (hno : ∀ p ∈ l1, win_at s p ≠ some w)
    (hc : win_at s c = some w) :
    scan_win s w fuel prev v = Except.ok ((l1.getLast?).or prev, some c) := by
  induction l1 generalizing k v fuel prev with
  | nil =>
    have h1 : load s k = Except.ok (some c) := h.1
    rw [h1] at hv
    injection hv with hv
    subst hv
    cases fuel with
    | zero => simp at hf
    | succ f =>
      obtain ⟨e, he⟩ : ∃ e, load s (Link.next c) = Except.ok e := ⟨_, Chain_head s l2 _ _ h.2⟩
      obtain ⟨cc, hcc, -⟩ := load_next_ok s c e he
      have hw : cc.win = w := by simpa [win_at, hcc] using hc
      simp [scan_win, hcc, hw]
  | cons p l ih =>
    have h1 : load s k = Except.ok (some p) := h.1
    rw [h1] at hv
    injection hv with hv
    subst hv
    cases fuel with
    | zero => simp at hf
    | succ f =>
      have h2 : Chain s (Link.next p) (l ++ c :: l2) none := h.2
      obtain ⟨e, he⟩ : ∃ e, load s (Link.next p) = Except.ok e := ⟨_, Chain_head s _ _ _ h2⟩
      obtain ⟨cp, hcp, hn⟩ := load_next_ok s p e he
      have hw : cp.win ≠ w := by
        have := hno p (by simp)
        simpa [win_at, hcp] using this
      simp only [scan_win, hcp, if_pos hw]
      rw [ih _ _ f (some p) h2 (by rw [← hn] at he; exact he) (by simpa using hf)
        (fun q hq => hno q (by simp [hq]))]
      cases l with
      | nil => simp
      | cons r l =>
        rw [List.getLast?_cons_cons]
        obtain ⟨q, hq⟩ : ∃ q, (r :: l).getLast? = some q :=
          ⟨(r :: l).getLast (by simp), List.getLast?_eq_getLast _ _⟩
        rw [hq]
        simp

/-- Taking `c` out of a chain: the link that led to `c` is made to hold what `c->next`
holds. -/
theorem Chain_unlink (s s2 : State) (k : Link) (l1 : List Ptr) (c : Ptr) (l2 : List Ptr)
    (cnext : Option Ptr)
    (h : Chain s k (l1 ++ c :: l2) none) (hk : ∀ p ∈ l1 ++ c :: l2, k ≠ Link.next p)
    (hc : load s (Link.next c) = Except.ok cnext)
    (hl : ∀ k1, load s2 k1 = if k1 = link_after k l1 then Except.ok cnext else load s k1) :
    Chain s2 k (l1 ++ l2) none := by
  have hn := Chain_nodup s _ _ h
  obtain ⟨h1, h2⟩ := (Chain_append s l1 c l2 _ _).1 h
  simp only [List.nodup_append, List.nodup_cons] at hn
  obtain ⟨hn1, ⟨hc2, hn2⟩, hd⟩ := hn
  have hK : link_after k l1 = k ∨ ∃ q, q ∈ l1 ∧ link_after k l1 = Link.next q :=
    link_after_mem k l1
  have h1' : Chain s2 k l1 cnext := by
    apply Chain_redirect s s2 l1 k (some c) cnext h1 (fun p hp => hk p (by simp [hp])) hn1
    · intro hne; rw [hl, if_neg hne]
    · intro p _ hne; rw [hl, if_neg hne]
    · rw [hl, if_pos rfl]
  have hframe : ∀ p ∈ l2, load s2 (Link.next p) = load s (Link.next p) := by
    intro p hp
    rw [hl, if_neg]
    rcases hK with hK | ⟨q, hq, hK⟩ <;> rw [hK]
    · exact fun e => hk p (by simp [hp]) e.symm
    · intro e
      injection e with e
      subst e
      exact hd hq (by simp [hp])
  cases l2 with
  | nil =>
    simp only [Chain] at h2
    rw [hc] at h2
    injection h2 with h2
    subst h2
    simpa using h1'
  | cons r l2 =>
    have h3 := h2.1
    rw [hc] at h3
    injection h3 with h3
    subst h3
    refine (Chain_append s2 l1 r l2 _ _).2 ⟨h1', ?_⟩
    exact Chain_move s s2 l2 _ _ none h2.2 (hframe r (by simp))
      (fun p hp => hframe p (by simp [hp]))

/-- The registry after one workspace's list has been rebuilt from cells of its own and
cells that were on no list, the links of the other lists holding what they held. -/
theorem Registry_update (N : Nat) (s s1 : State) (L : Nat → List Ptr) (ws : Nat)
    (l1 : List Ptr) (hreg : Registry N s L)
    (hchain : Chain s1 (Link.head ws) l1 none)
    (hsub : ∀ p ∈ l1, p ∈ L ws ∨ ∀ j, j < N → p ∉ L j)
    (hframe : ∀ j, j < N → j ≠ ws → load s1 (Link.head j) = load s (Link.head j) ∧
      ∀ p ∈ L j, load s1 (Link.next p) = load s (Link.next p))
    (hb : ∀ p c, s1.heap p = some c → p < s1.brk) :
    Registry N s1 (Function.update L ws l1) := by
  refine ⟨?_, ?_, hb⟩
  · intro j hj
    by_cases hjw : j = ws
    · subst hjw; simpa using hchain
    · rw [Function.update_noteq hjw]
      exact Chain_move s s1 _ _ _ none (hreg.lists j hj) (hframe j hj hjw).1
        (hframe j hj hjw).2
  · intro i j hi hj hij p hp hp2
    by_cases hiw : i = ws
    · subst hiw
      have hjw : j ≠ i := fun e => hij e.symm
      rw [Function.update_same] at hp
      rw [Function.update_noteq hjw] at hp2
      rcases hsub p hp with h | h
      · exact hreg.disjoint i j hi hj hij p h hp2
      · exact h j hj hp2
    · rw [Function.update_noteq hiw] at hp
      by_cases hjw : j = ws
      · subst hjw
        rw [Function.update_same] at hp2
        rcases hsub p hp2 with h | h
        · exact hreg.disjoint i j hi hj hij p hp h
        · exact h i hi hp
      · rw [Function.update_noteq hjw] at hp2
        exact hreg.disjoint i j hi hj hij p hp hp2

theorem bind_ok {α β : Type} (a : α) (f : α → Except Fault β) :
    (Except.ok a : Except Fault α) >>= f = f a := rfl

theorem bind_error {α β : Type} (e : Fault) (f : α → Except Fault β) :
    (Except.error e : Except Fault α) >>= f = Except.error e := rfl

theorem mapped_at_tile (T : Tiler) (s : State) (p : Ptr) :
    mapped_at (tile T s) p = mapped_at s p := by
  simp only [tile, mapped_at]
  cases hp : s.heap p with
  | none => rfl
  | some c => cases hT : T s p <;> rfl

theorem heap_tile_none (T : Tiler) (s : State) (p : Ptr) (h : s.heap p = none) :
    (tile T s).heap p = none := by
  simp [tile, h]

theorem heap_tile_some (T : Tiler) (s : State) (p : Ptr) (c : Client)
    (h : (tile T s).heap p = some c) : ∃ c0, s.heap p = some c0 := by
  simp only [tile] at h
  cases hp : s.heap p with
  | none => simp [hp] at h
  | some c0 => exact ⟨c0, rfl⟩

theorem win_at_of_erase (s s1 : State) (h : erase_links s1 = erase_links s) (p : Ptr) :
    win_at s1 p = win_at s p := by
  have h1 := congrFun (congrArg State.heap h) p
  simp only [erase_links] at h1
  have h2 := congrArg (Option.map Client.win) h1
  simp only [Option.map_map] at h2
  exact h2

theorem mapped_at_of_erase (s s1 : State) (h : erase_links s1 = erase_links s) (p : Ptr) :
    mapped_at s1 p = mapped_at s p := by
  have h1 := congrFun (congrArg State.heap h) p
  simp only [erase_links] at h1
  have h2 := congrArg (Option.map Client.mapped) h1
  simp only [Option.map_map] at h2
  have h3 : (s1.heap p).map Client.mapped = (s.heap p).map Client.mapped := h2
  simp only [mapped_at]
  cases h1p : s1.heap p <;> cases hp : s.heap p <;> simp [h1p, hp] at h3 ⊢
  exact h3

theorem allocated_of_erase (s s1 : State) (h : erase_links s1 = erase_links s) (p : Ptr)
    (c : Client) (hc : s1.heap p = some c) : ∃ c0, s.heap p = some c0 := by
  have h1 := congrFun (congrArg State.heap h) p
  simp only [erase_links] at h1
  cases hp : s.heap p with
  | none => simp [hc, hp] at h1
  | some c0 => exact ⟨c0, rfl⟩

/-- Two states with the same `erase_links` agree on every global but `workspaces`. -/
theorem fields_of_erase (s s1 : State) (h : erase_links s1 = erase_links s) :
    s1.brk = s.brk ∧ s1.current_ws = s.current_ws ∧ s1.focused = s.focused ∧
    s1.drag_mode = s.drag_mode ∧ s1.drag_client = s.drag_client ∧
    s1.swap_target = s.swap_target ∧ s1.open_windows = s.open_windows ∧
    s1.in_ws_switch = s.in_ws_switch ∧ s1.user_config = s.user_config ∧
    s1.mons = s.mons ∧ s1.current_monitor = s.current_monitor := by
  refine ⟨?_, ?_, ?_, ?_, ?_, ?_, ?_, ?_, ?_, ?_, ?_⟩
  · have := congrArg State.brk h; exact this
  · have := congrArg State.current_ws h; exact this
  · have := congrArg State.focused h; exact this
  · have := congrArg State.drag_mode h; exact this
  · have := congrArg State.drag_client h; exact this
  · have := congrArg State.swap_target h; exact this
  · have := congrArg State.open_windows h; exact this
  · have := congrArg State.in_ws_switch h; exact this
  · have := congrArg State.user_config h; exact this
  · have := congrArg State.mons h; exact this
  · have := congrArg State.current_monitor h; exact this

theorem Removed_tile (N : Nat) (T : Tiler) (s : State) (L : Nat → List Ptr) (ws : Nat)
    (l1 : List Ptr) (c : Ptr) (l2 : List Ptr) (s1 : State)
    (h : Removed N s L ws l1 c l2 s1) : Removed N s L ws l1 c l2 (tile T s1) where
  registry := Registry_congr N s1 _ _ h.registry (load_tile T s1) rfl
  freed := heap_tile_none T s1 c h.freed
  win := fun p hp => by rw [win_tile, h.win p hp]
  mapped := fun p hp => by rw [mapped_at_tile, h.mapped p hp]
  focus := h.focus
  cur := h.cur
  brk := h.brk
  drag := h.drag
  count := h.count
  guard := h.guard

/-- The body of `hdl_destroy_ntf` for the client `c` found between `l1` and `l2` on the
list of workspace `ws`. -/
theorem destroy_client_spec (N : Nat) (T : Tiler) (s : State) (L : Nat → List Ptr) (ws : Nat)
    (l1 : List Ptr) (c : Ptr) (l2 : List Ptr)
    (hreg : Registry N s L) (hws : ws < N) (hl : L ws = l1 ++ c :: l2) :
    ∃ s1, destroy_client T s ws l1.getLast? c = Except.ok s1 ∧
      Removed N s L ws l1 c l2 s1 := by
  have hch := hreg.lists ws hws
  rw [hl] at hch
  have hn := Chain_nodup s _ _ hch
  obtain ⟨cc, hcc⟩ := Chain_allocated s _ _ _ hch c (by simp)
  obtain ⟨h1, h2⟩ := (Chain_append s l1 c l2 _ _).1 hch
  have hcn : cc.next = l2.head? := by
    have := Chain_head s _ _ _ h2
    rw [load_next s c cc hcc] at this
    injection this with this
    simpa using this
  -- the focus update
  obtain ⟨sf, hsfdef⟩ : ∃ sf : State, sf = { s with focused := focus_after_remove s ws l1 c l2 } :=
    ⟨_, rfl⟩
  have hsf : (if s.focused = some c then
        match cc.next with
        | some n => { s with focused := some n }
        | none =>
          match l1.getLast? with
          | some q => { s with focused := some q }
          | none => if (ws : Int) = s.current_ws then { s with focused := none } else s
      else s) = sf := by
    rw [hsfdef]
    unfold focus_after_remove
    rw [hcn]
    by_cases hf : s.focused = some c
    · simp only [if_pos hf]
      cases l2.head? with
      | some n => rfl
      | none =>
        cases l1.getLast? with
        | some q => rfl
        | none =>
          by_cases hw : (ws : Int) = s.current_ws
          · simp only [if_pos hw]
          · simp only [if_neg hw]
            cases s
            simp only at hf
            simp only [hf]
    · simp only [if_neg hf]
  -- the unlink is a store through the link that leads to `c`
  have hK : load s (link_after (Link.head ws) l1) = Except.ok (some c) :=
    Chain_load_last s _ _ _ h1
  have hloadsf : ∀ k1, load sf k1 = load s k1 := by
    intro k1; rw [hsfdef]; cases k1 <;> rfl
  obtain ⟨s2, hs2, hl2, he2⟩ := store_ok sf
    (link_after (Link.head ws) l1) (some c) cc.next (by rw [hloadsf]; exact hK)
  have hunlink : (match l1.getLast? with
      | none => Except.ok { sf with workspaces := Function.update sf.workspaces ws cc.next }
      | some q => store sf (Link.next q) cc.next) = Except.ok s2 := by
    rw [← hs2, link_after_getLast]
    cases l1.getLast? <;> rfl
  have hl2' : ∀ k1, load s2 k1 =
      if k1 = link_after (Link.head ws) l1 then Except.ok cc.next else load s k1 := by
    intro k1
    rw [hl2, hloadsf]
  have hF : s2.brk = s.brk ∧ s2.current_ws = s.current_ws ∧
      s2.focused = focus_after_remove s ws l1 c l2 ∧
      s2.drag_mode = s.drag_mode ∧ s2.drag_client = s.drag_client ∧
      s2.swap_target = s.swap_target ∧ s2.open_windows = s.open_windows ∧
      s2.in_ws_switch = s.in_ws_switch := by
    have hF := fields_of_erase _ s2 he2
    rw [hsfdef] at hF
    exact ⟨hF.1, hF.2.1, hF.2.2.1, hF.2.2.2.1, hF.2.2.2.2.1, hF.2.2.2.2.2.1,
      hF.2.2.2.2.2.2.1, hF.2.2.2.2.2.2.2.1⟩
  have hwin2 : ∀ p, win_at s2 p = win_at s p := by
    intro p; rw [win_at_of_erase _ s2 he2 p, hsfdef]; rfl
  have hmap2 : ∀ p, mapped_at s2 p = mapped_at s p := by
    intro p; rw [mapped_at_of_erase _ s2 he2 p, hsfdef]; rfl
  have hall2 : ∀ p c1, s2.heap p = some c1 → ∃ c0, s.heap p = some c0 := by
    intro p c1 hc1
    obtain ⟨c0, hc0⟩ := allocated_of_erase _ s2 he2 p c1 hc1
    rw [hsfdef] at hc0
    exact ⟨c0, hc0⟩
  have hchain2 : Chain s2 (Link.head ws) (l1 ++ l2) none :=
    Chain_unlink s s2 _ l1 c l2 cc.next hch (by simp) (load_next s c cc hcc) hl2'
  have hc12 : c ∉ l1 ++ l2 := by
    simp only [List.nodup_append, List.nodup_cons] at hn
    intro hc
    rcases List.mem_append.1 hc with hc | hc
    · exact hn.2.2 hc (by simp)
    · exact hn.2.1.1 hc
  have hsub : ∀ p, p ∈ l1 ++ l2 → p ∈ L ws := by
    intro p hp
    rw [hl]
    simp at hp ⊢
    tauto
  -- the state after `free(c)` and `open_windows--`
  have hX : Removed N s L ws l1 c l2
      { s2 with heap := Function.update s2.heap c none, open_windows := s2.open_windows - 1 } := by
    have hload : ∀ k1, k1 ≠ Link.next c →
        load ({ s2 with heap := Function.update s2.heap c none,
                        open_windows := s2.open_windows - 1 } : State) k1 = load s2 k1 := by
      intro k1 hk1
      cases k1 with
      | head j => rfl
      | next p =>
        have : p ≠ c := fun e => hk1 (by rw [e])
        simp [load, Function.update_noteq this]
    refine ⟨?_, by simp, ?_, ?_, ?_, ?_, ?_, ?_, ?_, ?_⟩
    · apply Registry_update N s _ L ws (l1 ++ l2) hreg
      · apply Chain_move s2 _ _ _ _ none hchain2 (hload _ (by simp))
        intro p hp
        exact hload _ (fun e => hc12 (by injection e with e; rw [← e]; exact hp))
      · intro p hp; exact Or.inl (hsub p hp)
      · intro j hj hjw
        have hcj : ∀ p ∈ L j, p ≠ c := by
          intro p hp e
          exact hreg.disjoint j ws hj hws hjw p hp (by rw [hl, e]; simp)
        have hKj : ∀ p ∈ L j, Link.next p ≠ link_after (Link.head ws) l1 := by
          intro p hp e
          rcases link_after_mem (Link.head ws) l1 with hK | ⟨q, hq, hK⟩
          · rw [hK] at e; cases e
          · rw [hK] at e
            injection e with e
            exact hreg.disjoint j ws hj hws hjw p hp (by rw [hl, e]; simp [hq])
        refine ⟨?_, ?_⟩
        · rw [hload _ (by simp), hl2', if_neg]
          intro e
          rcases link_after_mem (Link.head ws) l1 with hK | ⟨q, hq, hK⟩
          · rw [hK] at e; injection e with e; exact hjw e
          · rw [hK] at e; cases e
        · intro p hp
          rw [hload _ (fun e => hcj p hp (by injection e)), hl2', if_neg (hKj p hp)]
      · intro p c1 hc1
        by_cases hpc : p = c
        · subst hpc; simp at hc1
        · simp only [Function.update_noteq hpc] at hc1
          obtain ⟨c0, hc0⟩ := hall2 p c1 hc1
          show p < s2.brk
          rw [show s2.brk = s.brk from hF.1]
          exact hreg.below_brk p c0 hc0
    · intro p hp
      have : win_at ({ s2 with
          heap := Function.update s2.heap c none
          open_windows := s2.open_windows - 1 } : State) p = win_at s2 p := by
        simp [win_at, Function.update_noteq hp]
      rw [this, hwin2]
    · intro p hp
      have : mapped_at ({ s2 with
          heap := Function.update s2.heap c none
          open_windows := s2.open_windows - 1 } : State) p = mapped_at s2 p := by
        simp [mapped_at, Function.update_noteq hp]
      rw [this, hmap2]
    · exact hF.2.2.1
    · exact hF.2.1
    · exact hF.1
    · exact ⟨hF.2.2.2.1, hF.2.2.2.2.1, hF.2.2.2.2.2.1⟩
    · show s2.open_windows - 1 = s.open_windows - 1
      rw [show s2.open_windows = s.open_windows from hF.2.2.2.2.2.2.1]
    · exact hF.2.2.2.2.2.2.2
  have hcur2 : s2.current_ws = s.current_ws := hF.2.1
  simp only [destroy_client, deref, hcc, bind_ok]
  rw [hsf]
  cases hlast : l1.getLast? with
  | none =>
    rw [hlast] at hunlink
    simp only at hunlink
    injection hunlink with hunlink
    subst hunlink
    simp only []
    split
    · exact ⟨_, rfl, Removed_tile N T s L ws l1 c l2 _ hX⟩
    · exact ⟨_, rfl, hX⟩
  | some q =>
    rw [hlast] at hunlink
    simp only at hunlink
    simp only [hunlink, bind_ok]
    split
    · exact ⟨_, rfl, Removed_tile N T s L ws l1 c l2 _ hX⟩
    · exact ⟨_, rfl, hX⟩

theorem range_split (N ws : Nat) (h : ws < N) :
    ∃ rest, List.range N = List.range ws ++ ws :: rest := by
  induction N with
  | zero => omega
  | succ n ih =>
    rw [List.range_succ]
    by_cases hn : ws = n
    · subst hn; exact ⟨[], rfl⟩
    · obtain ⟨rest, hr⟩ := ih (by omega)
      exact ⟨rest ++ [n], by rw [hr]; simp⟩

theorem destroy_loop_skip (N : Nat) (T : Tiler) (s : State) (L : Nat → List Ptr) (w : Window)
    (hreg : Registry N s L) (front rest : List Nat)
    (hfront : ∀ j ∈ front, j < N ∧ ∀ p ∈ L j, win_at s p ≠ some w) :
    destroy_loop T s w (front ++ rest) = destroy_loop T s w rest := by
  induction front with
  | nil => rfl
  | cons j front ih =>
    obtain ⟨hj, hno⟩ := hfront j (by simp)
    obtain ⟨q, hq⟩ := scan_win_none s w (L j) (Link.head j) (s.workspaces j) (s.brk + 1) none
      (hreg.lists j hj) rfl (by have := Registry_length N s L hreg j hj; omega) hno
    simp only [List.cons_append, destroy_loop, hq]
    exact ih (fun i hi => hfront i (by simp [hi]))

/-- A destroy notification for the window of `c`, the first client with that window in
the lowest workspace that has one. -/
theorem hdl_destroy_found (N : Nat) (T : Tiler) (s : State) (L : Nat → List Ptr) (w : Window)
    (ws : Nat) (l1 : List Ptr) (c : Ptr) (l2 : List Ptr)
    (hreg : Registry N s L) (hws : ws < N) (hl : L ws = l1 ++ c :: l2)
    (hw : win_at s c = some w) (hfirst : ∀ p ∈ l1, win_at s p ≠ some w)
    (hlow : ∀ j, j < ws → ∀ p ∈ L j, win_at s p ≠ some w) :
    ∃ s1, hdl_destroy_ntf N T s w = Except.ok s1 ∧ Removed N s L ws l1 c l2 s1 := by
  obtain ⟨rest, hr⟩ := range_split N ws hws
  obtain ⟨s1, hs1, hrem⟩ := destroy_client_spec N T s L ws l1 c l2 hreg hws hl
  refine ⟨s1, ?_, hrem⟩
  have hch := hreg.lists ws hws
  rw [hl] at hch
  have hlen := Registry_length N s L hreg ws hws
  rw [hl] at hlen
  simp only [List.length_append, List.length_cons] at hlen
  have hscan := scan_win_found s w l1 c l2 (Link.head ws) (s.workspaces ws) (s.brk + 1) none
    hch rfl (by omega) hfirst hw
  unfold hdl_destroy_ntf
  rw [hr, destroy_loop_skip N T s L w hreg _ _
    (fun j hj => ⟨by have := List.mem_range.1 hj; omega, hlow j (List.mem_range.1 hj)⟩)]
  simp only [destroy_loop, hscan, Option.or_none]
  exact hs1

/-- A destroy notification for a window that no client has. -/
theorem hdl_destroy_absent (N : Nat) (T : Tiler) (s : State) (L : Nat → List Ptr) (w : Window)
    (hreg : Registry N s L) (hno : ∀ j, j < N → ∀ p ∈ L j, win_at s p ≠ some w) :
    hdl_destroy_ntf N T s w = Except.ok s := by
  unfold hdl_destroy_ntf
  have := destroy_loop_skip N T s L w hreg (List.range N) []
    (fun j hj => ⟨List.mem_range.1 hj, hno j (List.mem_range.1 hj)⟩)
  rw [List.append_nil] at this
  rw [this]
  rfl

/-- C6: when a destroy notification removes the client `c` (the first client with the
window, found in workspace `ws` between `l1` and `l2`), the handler returns; the list of
`ws` is afterwards `l1 ++ l2`, that is the old list with exactly `c` deleted and the order
kept, the other lists are untouched and `c` is freed; if `c` was focused, `focused`
becomes the successor of `c` if there is one, else its predecessor if there is one, else
`NULL`, the last only when `ws` is the active workspace; if `c` was not focused,
`focused` is unchanged; and, `focused` being on the active list beforehand, it does not
reference `c` afterwards. -/
theorem hdl_destroy_ntf_removes (N : Nat) (T : Tiler) (s : State) (L : Nat → List Ptr)
    (w : Window) (ws : Nat) (l1 : List Ptr) (c : Ptr) (l2 : List Ptr)
    (hreg : Registry N s L) (hcur : CurOK N s) (hfoc : FocusOK s L)
    (hws : ws < N) (hl : L ws = l1 ++ c :: l2)
    (hw : win_at s c = some w) (hfirst : ∀ p ∈ l1, win_at s p ≠ some w)
    (hlow : ∀ j, j < ws → ∀ p ∈ L j, win_at s p ≠ some w) :
    ∃ s1, hdl_destroy_ntf N T s w = Except.ok s1 ∧
      Registry N s1 (Function.update L ws (l1 ++ l2)) ∧
      s1.heap c = none ∧
      (s.focused = some c →
        s1.focused =
          match l2.head? with
          | some n => some n
          | none =>
            match l1.getLast? with
            | some q => some q
            | none => if (ws : Int) = s.current_ws then none else some c) ∧
      (s.focused ≠ some c → s1.focused = s.focused) ∧
      s1.focused ≠ some c := by
  obtain ⟨s1, hs1, hrem⟩ := hdl_destroy_found N T s L w ws l1 c l2 hreg hws hl hw hfirst hlow
  have hfo := hrem.focus
  unfold focus_after_remove at hfo
  have hn := Chain_nodup s _ _ (hreg.lists ws hws)
  rw [hl] at hn
  simp only [List.nodup_append, List.nodup_cons] at hn
  refine ⟨s1, hs1, hrem.registry, hrem.freed, ?_, ?_, ?_⟩
  · intro hf; rw [hfo, if_pos hf]
  · intro hf; rw [hfo, if_neg hf]
  · by_cases hf : s.focused = some c
    · rw [hfo, if_pos hf]
      have hcw : (ws : Int) = s.current_ws := by
        have hc1 := hfoc c hf
        obtain ⟨-, hiN, hcast⟩ := ws_index_ok N s.current_ws hcur
        by_contra hne
        have hne2 : s.current_ws.toNat ≠ ws := fun e => hne (by rw [← e]; exact hcast)
        exact hreg.disjoint _ ws hiN hws hne2 c hc1 (by rw [hl]; simp)
      cases hh : l2.head? with
      | some n =>
        intro e
        injection e with e
        subst e
        exact hn.2.1.1 (List.mem_of_mem_head? hh)
      | none =>
        cases hg : l1.getLast? with
        | some q =>
          intro e
          injection e with e
          subst e
          exact hn.2.2 (List.mem_of_mem_getLast? hg) (by simp)
        | none => simp [hcw]
    · rw [hfo, if_neg hf]; exact hf

theorem demo_focus : FocusOK demo_state demo_lists := by
  intro f hf
  have : f = 0 := by
    have h : demo_state.focused = some 0 := rfl
    rw [h] at hf
    injection hf with hf
    exact hf.symm
  subst this
  decide

/-- The destroy notification for the window of A in the example deletes A from the list
and moves the focus to B. -/
theorem hdl_destroy_ntf_removes_witness :
    ∃ s1, hdl_destroy_ntf 9 no_tiler demo_state 100 = Except.ok s1 ∧
      Registry 9 s1 (Function.update demo_lists 0 ([] ++ [1, 2])) ∧
      s1.focused = some 1 ∧ s1.focused ≠ some 0 := by
  obtain ⟨s1, h1, h2, -, h3, -, h4⟩ :=
    hdl_destroy_ntf_removes 9 no_tiler demo_state demo_lists 100 0 [] 0 [1, 2]
      demo_registry (by simp [CurOK, demo_state, init]) demo_focus (by decide) rfl rfl
      (by simp) (by omega)
  exact ⟨s1, h1, h2, h3 rfl, h4⟩

theorem find_tail_spec (s : State) (l : List Ptr) (p : Ptr) (fuel : Nat)
    (h : Chain s (Link.next p) l none) (hf : l.length < fuel) :
    ∃ q, find_tail s fuel p = Except.ok q ∧ link_after (Link.next p) l = Link.next q := by
  induction l generalizing p fuel with
  | nil =>
    cases fuel with
    | zero => simp at hf
    | succ f =>
      obtain ⟨c, hc, hn⟩ := load_next_ok s p _ h
      exact ⟨p, by simp [find_tail, hc, hn], rfl⟩
  | cons r l ih =>
    cases fuel with
    | zero => simp at hf
    | succ f =>
      obtain ⟨c, hc, hn⟩ := load_next_ok s p _ h.1
      obtain ⟨q, hq, hlink⟩ := ih r f h.2 (by simpa using hf)
      exact ⟨q, by simp [find_tail, hc, hn, hq], hlink⟩

theorem Added_tile (N : Nat) (T : Tiler) (s : State) (L : Nat → List Ptr) (ws : Nat)
    (w : Window) (s1 : State) (h : Added N s L ws w s1) : Added N s L ws w (tile T s1) where
  registry := Registry_congr N s1 _ _ h.registry (load_tile T s1) rfl
  win_new := by rw [win_tile, h.win_new]
  mapped_new := by rw [mapped_at_tile, h.mapped_new]
  win := fun p hp => by rw [win_tile, h.win p hp]
  mapped := fun p hp => by rw [mapped_at_tile, h.mapped p hp]
  focus := h.focus
  cur := h.cur
  brk := h.brk
  drag := h.drag
  count := h.count
  guard := h.guard
  config := h.config

/-- The function `add_client` on a registry, for a workspace inside the array: a fresh
cell is appended to the list of that workspace. -/
theorem add_client_spec (N : Nat) (s : State) (L : Nat → List Ptr) (env : AddEnv)
    (w : Window) (ws : Int)
    (hreg : Registry N s L) (hws : 0 ≤ ws ∧ ws < N) (hok : env.malloc_ok = true) :
    ∃ s1, add_client N s env w ws = Except.ok (s1, some s.brk) ∧
      Added N s L ws.toNat w s1 := by
  obtain ⟨hi, hiN, hcast⟩ := ws_index_ok N ws hws
  have hfresh : s.heap s.brk = none := by
    cases h : s.heap s.brk with
    | none => rfl
    | some c => exact absurd (hreg.below_brk _ c h) (Nat.lt_irrefl _)
  have hch := hreg.lists _ hiN
  have hlen := Registry_length N s L hreg _ hiN
  have hall := Chain_allocated s _ _ _ hch
  have hnotin : ∀ j, j < N → s.brk ∉ L j := by
    intro j hj hm
    obtain ⟨c, hc⟩ := Chain_allocated s _ _ _ (hreg.lists j hj) _ hm
    rw [hfresh] at hc
    cases hc
  -- the state after `malloc` and the first three assignments
  obtain ⟨s0, hs0def⟩ : ∃ s0 : State, s0 =
      { s with
        brk := s.brk + 1
        heap := Function.update s.heap s.brk (some
          { win := w, next := none, ws := ws, mon := 0, x := 0, y := 0, w := 0, h := 0,
            fixed := false, floating := false, fullscreen := false, mapped := false,
            custom_stack_height := 0 }) } := ⟨_, rfl⟩
  have hload0 : ∀ k, load s0 k =
      if k = Link.next s.brk then Except.ok none else load s k := by
    intro k
    rw [hs0def]
    cases k with
    | head j => simp [load]
    | next p =>
      by_cases hp : p = s.brk
      · subst hp; simp [load]
      · simp [load, hp, Function.update_noteq hp]
  have hne_links : ∀ k, (k = Link.head ws.toNat ∨ ∃ p, p ∈ L ws.toNat ∧ k = Link.next p) →
      k ≠ Link.next s.brk := by
    rintro k (rfl | ⟨p, hp, rfl⟩) e
    · cases e
    · injection e with e
      exact hnotin _ hiN (e ▸ hp)
  have hch0 : Chain s0 (Link.head ws.toNat) (L ws.toNat) none := by
    apply Chain_move s s0 _ _ _ none hch
    · rw [hload0, if_neg (hne_links _ (Or.inl rfl))]
    · intro p hp
      rw [hload0, if_neg (hne_links _ (Or.inr ⟨p, hp, rfl⟩))]
  have hKload : load s0 (link_after (Link.head ws.toNat) (L ws.toNat)) = Except.ok none :=
    Chain_load_last s0 _ _ _ hch0
  obtain ⟨s1, hs1, hl1, he1⟩ := store_ok s0 _ none (some s.brk) hKload
  -- the insertion is that store
  have hins : link_tail s0 ws.toNat s.brk = Except.ok s1 := by
    rw [← hs1]
    unfold link_tail
    cases hL : L ws.toNat with
    | nil =>
      rw [hL] at hch0
      have h0 : s0.workspaces ws.toNat = none := by
        have := hch0
        simp only [Chain, load] at this
        injection this
      rw [h0]
      rfl
    | cons hd l =>
      rw [hL] at hch0
      have h0 : s0.workspaces ws.toNat = some hd := by
        have := hch0.1
        simp only [load] at this
        injection this
      have hb0 : s0.brk = s.brk + 1 := by rw [hs0def]
      obtain ⟨q, hq, hlink⟩ := find_tail_spec s0 l hd (s0.brk + 1) hch0.2
        (by rw [hb0]; rw [hL] at hlen; simp at hlen; omega)
      rw [h0]
      simp only [hq, bind_ok]
      show store s0 (Link.next q) (some s.brk) = store s0 (link_after (Link.next hd) l) _
      rw [hlink]
  have hF := fields_of_erase _ s1 he1
  rw [hs0def] at hF
  have hb1 : s1.brk = s.brk + 1 := hF.1
  have hK_ne : link_after (Link.head ws.toNat) (L ws.toNat) ≠ Link.next s.brk := by
    apply hne_links
    rcases link_after_mem (Link.head ws.toNat) (L ws.toNat) with h | ⟨q, hq, h⟩
    · exact Or.inl h
    · exact Or.inr ⟨q, hq, h⟩
  have hload1 : ∀ k, load s1 k =
      if k = link_after (Link.head ws.toNat) (L ws.toNat) then Except.ok (some s.brk)
      else if k = Link.next s.brk then Except.ok none else load s k := by
    intro k; rw [hl1, hload0]
  obtain ⟨c1, hc1, hc1n⟩ : ∃ c1, s1.heap s.brk = some c1 ∧ c1.next = none := by
    have := hload1 (Link.next s.brk)
    rw [if_neg (Ne.symm hK_ne), if_pos rfl] at this
    exact load_next_ok s1 _ _ this
  have hc1w : c1.win = w := by
    have := win_at_of_erase _ s1 he1 s.brk
    rw [hs0def] at this
    simpa [win_at, hc1] using this
  have hwin1 : ∀ p, p ≠ s.brk → win_at s1 p = win_at s p := by
    intro p hp
    rw [win_at_of_erase _ s1 he1 p, hs0def]
    simp [win_at, Function.update_noteq hp]
  have hmap1 : ∀ p, p ≠ s.brk → mapped_at s1 p = mapped_at s p := by
    intro p hp
    rw [mapped_at_of_erase _ s1 he1 p, hs0def]
    simp [mapped_at, Function.update_noteq hp]
  have hall1 : ∀ p c, s1.heap p = some c → p = s.brk ∨ ∃ c0, s.heap p = some c0 := by
    intro p c hc
    obtain ⟨c0, hc0⟩ := allocated_of_erase _ s1 he1 p c hc
    rw [hs0def] at hc0
    by_cases hp : p = s.brk
    · exact Or.inl hp
    · simp only [Function.update_noteq hp] at hc0
      exact Or.inr ⟨c0, hc0⟩
  -- the registry after the insertion
  have hreg1 : Registry N s1 (Function.update L ws.toNat (L ws.toNat ++ [s.brk])) := by
    apply Registry_update N s s1 L ws.toNat _ hreg
    · apply (Chain_concat s1 _ _ _ _).2
      refine ⟨?_, ?_⟩
      · apply Chain_redirect s0 s1 _ _ none (some s.brk) hch0 (by simp)
          (Chain_nodup s _ _ hch)
        · intro hne; rw [hl1, if_neg hne]
        · intro p _ hne; rw [hl1, if_neg hne]
        · rw [hl1, if_pos rfl]
      · rw [hload1, if_neg (Ne.symm hK_ne), if_pos rfl]
    · intro p hp
      rcases List.mem_append.1 hp with hp | hp
      · exact Or.inl hp
      · simp at hp; subst hp; exact Or.inr hnotin
    · intro j hj hjw
      have hKj : ∀ k, (k = Link.head j ∨ ∃ p, p ∈ L j ∧ k = Link.next p) →
          k ≠ link_after (Link.head ws.toNat) (L ws.toNat) ∧ k ≠ Link.next s.brk := by
        rintro k hk
        constructor
        · rcases link_after_mem (Link.head ws.toNat) (L ws.toNat) with h | ⟨q, hq, h⟩ <;> rw [h]
          · rcases hk with rfl | ⟨p, -, rfl⟩
            · intro e; injection e with e; exact hjw e
            · intro e; cases e
          · rcases hk with rfl | ⟨p, hp, rfl⟩
            · intro e; cases e
            · intro e
              injection e with e
              subst e
              exact hreg.disjoint j _ hj hiN hjw p hp hq
        · rcases hk with rfl | ⟨p, hp, rfl⟩
          · intro e; cases e
          · intro e
            injection e with e
            exact hnotin j hj (e ▸ hp)
      refine ⟨?_, ?_⟩
      · obtain ⟨h1, h2⟩ := hKj _ (Or.inl rfl)
        rw [hload1, if_neg h1, if_neg h2]
      · intro p hp
        obtain ⟨h1, h2⟩ := hKj _ (Or.inr ⟨p, hp, rfl⟩)
        rw [hload1, if_neg h1, if_neg h2]
    · intro p c hc
      rw [hb1]
      rcases hall1 p c hc with hp | ⟨c0, hc0⟩
      · exact Nat.lt_succ_of_le (Nat.le_of_eq hp)
      · exact Nat.lt_succ_of_lt (hreg.below_brk p c0 hc0)
  -- the remaining assignments
  have hderef : deref { s1 with open_windows := s1.open_windows + 1 } s.brk = Except.ok c1 := by
    simp [deref, hc1]
  have hX : ∀ (c2 : Client) (foc : Option Ptr), c2.next = none → c2.win = w →
      c2.mapped = true →
      foc = (if ws = s.current_ws ∧ s.focused = none then some s.brk else s.focused) →
      Added N s L ws.toNat w
        { put { s1 with open_windows := s1.open_windows + 1 } s.brk c2 with focused := foc } := by
    intro c2 foc hn2 hw2 hm2 hfoc
    have hload2 : ∀ k, load ({ put { s1 with open_windows := s1.open_windows + 1 } s.brk c2 with
        focused := foc } : State) k = load s1 k := by
      intro k
      have : load ({ put { s1 with open_windows := s1.open_windows + 1 } s.brk c2 with
          focused := foc } : State) k
          = load (put { s1 with open_windows := s1.open_windows + 1 } s.brk c2) k := by
        cases k <;> rfl
      rw [this, load_put { s1 with open_windows := s1.open_windows + 1 } s.brk c1 c2 hc1
        (by rw [hn2, hc1n]) k]
      cases k <;> rfl
    refine ⟨Registry_congr N s1 _ _ hreg1 hload2 rfl, ?_, ?_, ?_, ?_, ?_, ?_,
      ?_, ?_, ?_, ?_, ?_⟩
    · simp [win_at, put, hw2]
    · simp [mapped_at, put, hm2]
    · intro p hp
      rw [← hwin1 p hp]
      simp [win_at, put, Function.update_noteq hp]
    · intro p hp
      rw [← hmap1 p hp]
      simp [mapped_at, put, Function.update_noteq hp]
    · rw [hfoc, hcast]
    · exact hF.2.1
    · exact hF.1
    · exact ⟨hF.2.2.2.1, hF.2.2.2.2.1, hF.2.2.2.2.2.1⟩
    · show s1.open_windows + 1 = s.open_windows + 1
      rw [show s1.open_windows = s.open_windows from hF.2.2.2.2.2.2.1]
    · exact hF.2.2.2.2.2.2.2.1
    · exact hF.2.2.2.2.2.2.2.2.1
  have hcur1 : s1.current_ws = s.current_ws := hF.2.1
  have hfoc1 : s1.focused = s.focused := hF.2.2.1
  simp only [add_client, hok, hi, bind_ok, Bool.true_eq_false, if_false]
  rw [← hs0def, hins, bind_ok, hderef, bind_ok]
  simp only [put_current_ws, put_focused]
  by_cases hfc : ws = s.current_ws ∧ s.focused = none
  · have h1 : ws = s1.current_ws ∧ s1.focused = none :=
      ⟨hfc.1.trans hcur1.symm, hfoc1.trans hfc.2⟩
    rw [if_pos h1]
    refine ⟨_, rfl, ?_⟩
    refine hX _ _ ?_ ?_ ?_ ?_
    · exact hc1n
    · exact hc1w
    · rfl
    · rw [if_pos hfc]
  · have h1 : ¬ (ws = s1.current_ws ∧ s1.focused = none) := by
      intro h
      exact hfc ⟨h.1.trans hcur1, hfoc1.symm.trans h.2⟩
    rw [if_neg h1]
    refine ⟨_, rfl, ?_⟩
    refine hX _ s1.focused ?_ ?_ ?_ ?_
    · exact hc1n
    · exact hc1w
    · rfl
    · rw [if_neg hfc]; exact hfoc1

theorem find_managed_spec (N : Nat) (s : State) (L : Nat → List Ptr) (w : Window)
    (hreg : Registry N s L) (wss : List Nat) (hw : ∀ j ∈ wss, j < N) :
    ∃ r, find_managed s w wss = Except.ok r ∧
      match r with
      | none => ∀ j ∈ wss, ∀ p ∈ L j, win_at s p ≠ some w
      | some (ws, c) => ws ∈ wss ∧ c ∈ L ws ∧ win_at s c = some w := by
  induction wss with
  | nil => exact ⟨none, rfl, by simp⟩
  | cons j wss ih =>
    have hj := hw j (by simp)
    have hfw := find_win_spec s w (L j) (Link.head j) (s.workspaces j) (s.brk + 1)
      (hreg.lists j hj) rfl (by have := Registry_length N s L hreg j hj; omega)
    cases hfind : (L j).find? (fun p => win_at s p = some w) with
    | some c =>
      refine ⟨some (j, c), by simp [find_managed, hfw, hfind], by simp,
        List.mem_of_find?_eq_some hfind, ?_⟩
      simpa using List.find?_some hfind
    | none =>
      obtain ⟨r, hr, hspec⟩ := ih (fun i hi => hw i (by simp [hi]))
      refine ⟨r, by simp [find_managed, hfw, hfind, hr], ?_⟩
      have hnone : ∀ p ∈ L j, win_at s p ≠ some w := by
        intro p hp
        have := List.find?_eq_none.1 hfind p hp
        simpa using this
      cases r with
      | none =>
        intro i hi p hp
        rcases List.mem_cons.1 hi with rfl | hi
        · exact hnone p hp
        · exact hspec i hi p hp
      | some r =>
        obtain ⟨ws, c⟩ := r
        exact ⟨List.mem_cons_of_mem _ hspec.1, hspec.2⟩

theorem first_in_list (l : List Ptr) (P : Ptr → Prop) (h : ∃ p, p ∈ l ∧ P p) :
    ∃ l1 c l2, l = l1 ++ c :: l2 ∧ P c ∧ ∀ p ∈ l1, ¬ P p := by
  induction l with
  | nil => obtain ⟨p, hp, -⟩ := h; simp at hp
  | cons x l ih =>
    by_cases hx : P x
    · exact ⟨[], x, l, rfl, hx, by simp⟩
    · obtain ⟨p, hp, hP⟩ := h
      have hpl : p ∈ l := by
        rcases List.mem_cons.1 hp with rfl | hp
        · exact absurd hP hx
        · exact hp
      obtain ⟨l1, c, l2, hl, hc, hl1⟩ := ih ⟨p, hpl, hP⟩
      refine ⟨x :: l1, c, l2, by rw [hl]; rfl, hc, ?_⟩
      intro q hq
      rcases List.mem_cons.1 hq with rfl | hq
      · exact hx
      · exact hl1 q hq

/-- The client a destroy notification for `w` removes, if any client has window `w`. -/
theorem first_owner (N : Nat) (s : State) (L : Nat → List Ptr) (w : Window)
    (h : ∃ j, j < N ∧ ∃ p, p ∈ L j ∧ win_at s p = some w) :
    ∃ ws l1 c l2, ws < N ∧ L ws = l1 ++ c :: l2 ∧ win_at s c = some w ∧
      (∀ p ∈ l1, win_at s p ≠ some w) ∧ ∀ j, j < ws → ∀ p ∈ L j, win_at s p ≠ some w := by
  classical
  have hex : ∃ j, j < N ∧ ∃ p, p ∈ L j ∧ win_at s p = some w := h
  obtain ⟨hws, hp⟩ := Nat.find_spec hex
  obtain ⟨l1, c, l2, hl, hc, hl1⟩ := first_in_list (L (Nat.find hex)) _ hp
  refine ⟨Nat.find hex, l1, c, l2, hws, hl, hc, hl1, ?_⟩
  intro j hj p hpj hwp
  exact Nat.find_min hex hj ⟨by omega, p, hpj, hwp⟩

theorem DistinctHandles_removed (N : Nat) (s s1 : State) (L : Nat → List Ptr) (ws : Nat)
    (l1 : List Ptr) (c : Ptr) (l2 : List Ptr) (hd : DistinctHandles N s L) (hws : ws < N)
    (hl : L ws = l1 ++ c :: l2) (hn : (l1 ++ c :: l2).Nodup)
    (h : Removed N s L ws l1 c l2 s1) :
    DistinctHandles N s1 (Function.update L ws (l1 ++ l2)) := by
  have hsub : ∀ i p, i < N → p ∈ Function.update L ws (l1 ++ l2) i → p ∈ L i ∧ p ≠ c := by
    intro i p hiN hp
    by_cases hi : i = ws
    · subst hi
      rw [Function.update_same] at hp
      simp only [List.nodup_append, List.nodup_cons] at hn
      rw [hl]
      rcases List.mem_append.1 hp with hp | hp
      · exact ⟨by simp [hp], fun e => hn.2.2 hp (by simp [e])⟩
      · exact ⟨by simp [hp], fun e => hn.2.1.1 (e ▸ hp)⟩
    · rw [Function.update_noteq hi] at hp
      refine ⟨hp, fun e => ?_⟩
      subst e
      exact hi (hd i ws p p hiN hws hp (by rw [hl]; simp) rfl).1
  intro i j p q hi hj hp hq hw
  obtain ⟨hp1, hp2⟩ := hsub i p hi hp
  obtain ⟨hq1, hq2⟩ := hsub j q hj hq
  rw [h.win p hp2, h.win q hq2] at hw
  exact hd i j p q hi hj hp1 hq1 hw

theorem DistinctHandles_added (N : Nat) (s s1 : State) (L : Nat → List Ptr) (ws : Nat)
    (w : Window) (hreg : Registry N s L) (hd : DistinctHandles N s L)
    (hnew : ∀ j, j < N → ∀ p ∈ L j, win_at s p ≠ some w)
    (h : Added N s L ws w s1) :
    DistinctHandles N s1 (Function.update L ws (L ws ++ [s.brk])) := by
  have hfresh : ∀ j, j < N → s.brk ∉ L j := by
    intro j hj hm
    obtain ⟨c, hc⟩ := Chain_allocated s _ _ _ (hreg.lists j hj) _ hm
    exact absurd (hreg.below_brk _ c hc) (Nat.lt_irrefl _)
  have hsub : ∀ i p, i < N → p ∈ Function.update L ws (L ws ++ [s.brk]) i →
      (p ∈ L i ∧ p ≠ s.brk) ∨ (i = ws ∧ p = s.brk) := by
    intro i p hiN hp
    by_cases hi : i = ws
    · subst hi
      rw [Function.update_same] at hp
      rcases List.mem_append.1 hp with hp | hp
      · exact Or.inl ⟨hp, fun e => hfresh i hiN (e ▸ hp)⟩
      · exact Or.inr ⟨rfl, by simpa using hp⟩
    · rw [Function.update_noteq hi] at hp
      exact Or.inl ⟨hp, fun e => hfresh i hiN (e ▸ hp)⟩
  intro i j p q hi hj hp hq hw
  rcases hsub i p hi hp with ⟨hp1, hp2⟩ | ⟨hi1, hp1⟩ <;>
    rcases hsub j q hj hq with ⟨hq1, hq2⟩ | ⟨hj1, hq1⟩
  · rw [h.win p hp2, h.win q hq2] at hw
    exact hd i j p q hi hj hp1 hq1 hw
  · rw [h.win p hp2, hq1, h.win_new] at hw
    exact absurd hw (hnew i hi p hp1)
  · rw [h.win q hq2, hp1, h.win_new] at hw
    exact absurd hw.symm (hnew j hj q hq1)
  · exact ⟨hi1.trans hj1.symm, hp1.trans hq1.symm⟩

/-- Registry operations keep the registry well formed and the handles distinct, as long as
every add is for an unregistered window and an existing workspace. -/
theorem run_ops_invariant (N : Nat) (T : Tiler) (ops : List RegOp) (s : State)
    (L : Nat → List Ptr) (hreg : Registry N s L) (hd : DistinctHandles N s L)
    (hg : Guarded N T s ops) :
    ∃ s1 L1, run_ops N T s ops = Except.ok s1 ∧ Registry N s1 L1 ∧
      DistinctHandles N s1 L1 := by
  induction ops generalizing s L with
  | nil => exact ⟨s, L, rfl, hreg, hd⟩
  | cons op ops ih =>
    obtain ⟨hpre, hrest⟩ := hg
    cases op with
    | add env w ws =>
      obtain ⟨hfm, hws⟩ := hpre
      obtain ⟨r, hr, hspec⟩ := find_managed_spec N s L w hreg (List.range N)
        (fun j hj => List.mem_range.1 hj)
      rw [hfm] at hr
      injection hr with hr
      subst hr
      have hnew : ∀ j, j < N → ∀ p ∈ L j, win_at s p ≠ some w :=
        fun j hj => hspec j (List.mem_range.2 hj)
      by_cases hm : env.malloc_ok = true
      · obtain ⟨s1, hs1, hadd⟩ := add_client_spec N s L env w ws hreg hws hm
        have hap : apply_op N T s (RegOp.add env w ws) = Except.ok s1 := by
          simp [apply_op, hs1, bind_ok]
        obtain ⟨s2, L2, h2, hreg2, hd2⟩ := ih s1 _ hadd.registry
          (DistinctHandles_added N s s1 L _ w hreg hd hnew hadd)
          (hrest s1 hap)
        exact ⟨s2, L2, by simp [run_ops, hap, h2], hreg2, hd2⟩
      · have hap : apply_op N T s (RegOp.add env w ws) = Except.ok s := by
          simp [apply_op, add_client, hm, bind_ok]
        obtain ⟨s2, L2, h2, hreg2, hd2⟩ := ih s L hreg hd (hrest s hap)
        exact ⟨s2, L2, by simp [run_ops, hap, h2], hreg2, hd2⟩
    | remove w =>
      by_cases hex : ∃ j, j < N ∧ ∃ p, p ∈ L j ∧ win_at s p = some w
      · obtain ⟨ws, l1, c, l2, hws, hl, hc, hl1, hlow⟩ := first_owner N s L w hex
        obtain ⟨s1, hs1, hrem⟩ := hdl_destroy_found N T s L w ws l1 c l2 hreg hws hl hc hl1 hlow
        have hn := Chain_nodup s _ _ (hreg.lists ws hws)
        rw [hl] at hn
        obtain ⟨s2, L2, h2, hreg2, hd2⟩ := ih s1 _ hrem.registry
          (DistinctHandles_removed N s s1 L ws l1 c l2 hd hws hl hn hrem) (hrest s1 hs1)
        exact ⟨s2, L2, by simp [run_ops, apply_op, hs1, h2], hreg2, hd2⟩
      · have hno : ∀ j, j < N → ∀ p ∈ L j, win_at s p ≠ some w := by
          intro j hj p hp hw
          exact hex ⟨j, hj, p, hp, hw⟩
        have hs1 := hdl_destroy_absent N T s L w hreg hno
        obtain ⟨s2, L2, h2, hreg2, hd2⟩ := ih s L hreg hd (hrest s hs1)
        exact ⟨s2, L2, by simp [run_ops, apply_op, hs1, h2], hreg2, hd2⟩

theorem init_registry (N : Nat) (cfg : Config) (mons : List Monitor) :
    Registry N (init cfg mons) (fun _ => []) :=
  ⟨fun _ _ => rfl, fun _ _ _ _ _ p hp => by simp at hp, fun p c h => by simp [init] at h⟩

/-- C5 as stated fails on the code: `add_client` does not look for the window, so adding
window 7 twice to the empty registry leaves workspace 0 with two clients, both with
window 7. -/
theorem add_client_twice_duplicates :
    (run_ops 9 no_tiler (init demo_config [])
        [RegOp.add demo_add_env 7 0, RegOp.add demo_add_env 7 0]).toOption.map
      (fun s => (clients_of s 0, win_at s 0, win_at s 1)) =
    some (some [0, 1], some 7, some 7) := by
  rfl

/-- C5, amended: for every finite sequence of `add_client` calls and destroy
notifications applied to the empty registry in which every add is for a window that is on
no list at that time (what `hdl_map_req` checks before it calls `add_client`) and for a
workspace inside the array, all operations return, every workspace list ends in `NULL`
(is acyclic) and has no client twice, no client is on two lists, and no window handle
occurs twice, neither on one list nor on two. -/
theorem registry_ops_no_duplicates (N : Nat) (T : Tiler) (cfg : Config) (mons : List Monitor)
    (ops : List RegOp) (hg : Guarded N T (init cfg mons) ops) :
    ∃ s L, run_ops N T (init cfg mons) ops = Except.ok s ∧
      (∀ ws, ws < N → Chain s (Link.head ws) (L ws) none ∧ (L ws).Nodup) ∧
      (∀ i j, i < N → j < N → i ≠ j → ∀ p, p ∈ L i → p ∉ L j) ∧
      DistinctHandles N s L := by
  obtain ⟨s, L, hs, hreg, hd⟩ := run_ops_invariant N T ops (init cfg mons) (fun _ => [])
    (init_registry N cfg mons) (fun i j p q _ _ hp => by simp at hp) hg
  exact ⟨s, L, hs, fun ws h => ⟨hreg.lists ws h, Chain_nodup s _ _ (hreg.lists ws h)⟩,
    hreg.disjoint, hd⟩

theorem registry_ops_no_duplicates_witness :
    ∃ s L, run_ops 9 no_tiler (init demo_config [])
        [RegOp.add demo_add_env 7 0, RegOp.add demo_add_env 8 0, RegOp.remove 7] = Except.ok s ∧
      (∀ ws, ws < 9 → Chain s (Link.head ws) (L ws) none ∧ (L ws).Nodup) ∧
      (∀ i j, i < 9 → j < 9 → i ≠ j → ∀ p, p ∈ L i → p ∉ L j) ∧
      DistinctHandles 9 s L :=
  registry_ops_no_duplicates 9 no_tiler demo_config []
    [RegOp.add demo_add_env 7 0, RegOp.add demo_add_env 8 0, RegOp.remove 7]
    (by
      refine ⟨⟨rfl, by decide, by decide⟩, ?_⟩
      intro s1 h1
      have e1 : apply_op 9 no_tiler (init demo_config []) (RegOp.add demo_add_env 7 0)
          = Except.ok s1 := h1
      refine ⟨⟨?_, by decide, by decide⟩, ?_⟩
      · have : apply_op 9 no_tiler (init demo_config []) (RegOp.add demo_add_env 7 0) =
            Except.ok _ := rfl
        rw [this] at e1
        injection e1 with e1
        subst e1
        rfl
      · intro s2 _
        exact ⟨trivial, fun _ _ => trivial⟩)

theorem bind_eq_ok {α β : Type} {x : Except Fault α} {f : α → Except Fault β} {b : β}
    (h : x >>= f = Except.ok b) : ∃ a, x = Except.ok a ∧ f a = Except.ok b := by
  cases x with
  | error e => cases h
  | ok a => exact ⟨a, rfl, h⟩

theorem deref_ok {s : State} {p : Ptr} {c : Client} (h : deref s p = Except.ok c) :
    s.heap p = some c := by
  unfold deref at h
  cases hp : s.heap p with
  | none => simp [hp] at h
  | some c0 => simp [hp] at h; rw [h]

/-- A state that holds in every link what `s` holds, with the same `brk` and active
workspace, and whose focus is on the active list, satisfies the invariant. -/
theorem Inv_frame (N : Nat) (s s1 : State) (L : Nat → List Ptr)
    (hreg : Registry N s L) (hcur : CurOK N s)
    (hl : ∀ k, load s1 k = load s k) (hb : s1.brk = s.brk)
    (hc : s1.current_ws = s.current_ws)
    (hf : ∀ f, s1.focused = some f → f ∈ L s.current_ws.toNat) : Inv N s1 := by
  refine ⟨L, Registry_congr N s s1 L hreg hl hb, ?_, ?_⟩
  · unfold CurOK; rw [hc]; exact hcur
  · intro f hf1; rw [hc]; exact hf f hf1

theorem SameLinks_refl (s : State) : SameLinks s s := ⟨fun _ => rfl, rfl, rfl, rfl⟩

theorem SameLinks_trans {s s1 s2 : State} (h1 : SameLinks s s1) (h2 : SameLinks s1 s2) :
    SameLinks s s2 :=
  ⟨fun k => (h2.1 k).trans (h1.1 k), h2.2.1.trans h1.2.1, h2.2.2.1.trans h1.2.2.1,
    h2.2.2.2.trans h1.2.2.2⟩

theorem SameLinks_tile (T : Tiler) (s : State) : SameLinks s (tile T s) :=
  ⟨load_tile T s, rfl, rfl, rfl⟩

theorem SameLinks_put (s : State) (p : Ptr) (c c1 : Client) (hc : s.heap p = some c)
    (hn : c1.next = c.next) : SameLinks s (put s p c1) :=
  ⟨load_put s p c c1 hc hn, rfl, rfl, rfl⟩

theorem Inv_same (N : Nat) (s s1 : State) (L : Nat → List Ptr)
    (hreg : Registry N s L) (hcur : CurOK N s) (h : SameLinks s s1)
    (hf : ∀ f, s1.focused = some f → f ∈ L s.current_ws.toNat) : Inv N s1 :=
  Inv_frame N s s1 L hreg hcur h.1 h.2.1 h.2.2.1 hf

theorem mark_unmapped_same (N : Nat) (s s1 : State) (w : Window)
    (h : mark_unmapped N s w = Except.ok s1) : SameLinks s s1 ∧ s1.focused = s.focused := by
  unfold mark_unmapped at h
  split at h
  · obtain ⟨i, -, h⟩ := bind_eq_ok h
    obtain ⟨found, -, h⟩ := bind_eq_ok h
    cases found with
    | none =>
      injection h with h
      subst h
      exact ⟨SameLinks_refl s, rfl⟩
    | some c =>
      obtain ⟨cc, hcc, h⟩ := bind_eq_ok h
      injection h with h
      subst h
      exact ⟨SameLinks_put s c cc _ (deref_ok hcc) rfl, rfl⟩
  · injection h with h
    subst h
    exact ⟨SameLinks_refl s, rfl⟩

theorem hdl_unmap_ntf_inv (N : Nat) (T : Tiler) (s s1 : State) (w : Window)
    (hinv : Inv N s) (h : hdl_unmap_ntf N T s w = Except.ok s1) : Inv N s1 := by
  obtain ⟨L, hreg, hcur, hfoc⟩ := hinv
  unfold hdl_unmap_ntf at h
  obtain ⟨a, ha, h⟩ := bind_eq_ok h
  injection h with h
  subst h
  obtain ⟨hs, hf⟩ := mark_unmapped_same N s a w ha
  refine Inv_same N s _ L hreg hcur (SameLinks_trans hs (SameLinks_tile T a)) ?_
  intro f hf1
  exact hfoc f (by rw [← hf]; exact hf1)

theorem find_on_mon_mem (s : State) (t : Int) (l : List Ptr) (k : Link) (v : Option Ptr)
    (fuel : Nat) (c : Ptr) (h : Chain s k l none) (hv : load s k = Except.ok v)
    (hr : find_on_mon s t fuel v = Except.ok (some c)) : c ∈ l := by
  induction l generalizing k v fuel with
  | nil =>
    simp only [Chain] at h
    rw [h] at hv
    injection hv with hv
    subst hv
    cases fuel <;> simp [find_on_mon] at hr
  | cons p l ih =>
    rw [h.1] at hv
    injection hv with hv
    subst hv
    cases fuel with
    | zero => simp [find_on_mon] at hr
    | succ f =>
      obtain ⟨e, he⟩ : ∃ e, load s (Link.next p) = Except.ok e := ⟨_, Chain_head s l _ _ h.2⟩
      obtain ⟨cp, hcp, hn⟩ := load_next_ok s p e he
      simp only [find_on_mon, hcp] at hr
      split at hr
      · injection hr with hr
        injection hr with hr
        subst hr
        simp
      · exact List.mem_cons_of_mem _ (ih _ _ f h.2 (by rw [← hn] at he; exact he) hr)

theorem focus_mon_inv (N : Nat) (s s1 : State) (step : Int → Int)
    (hinv : Inv N s) (h : focus_mon N s step = Except.ok s1) : Inv N s1 := by
  obtain ⟨L, hreg, hcur, hfoc⟩ := hinv
  obtain ⟨hi, hiN, -⟩ := ws_index_ok N s.current_ws hcur
  unfold focus_mon at h
  split at h
  · injection h with h
    subst h
    exact ⟨L, hreg, hcur, hfoc⟩
  · obtain ⟨cm, -, h⟩ := bind_eq_ok h
    obtain ⟨i, hi2, h⟩ := bind_eq_ok h
    rw [hi] at hi2
    injection hi2 with hi2
    subst hi2
    obtain ⟨tc, htc, h⟩ := bind_eq_ok h
    cases tc with
    | some c =>
      injection h with h
      subst h
      have hc := find_on_mon_mem s _ _ (Link.head s.current_ws.toNat) _ _ c
        (hreg.lists _ hiN) rfl htc
      refine Inv_same N s _ L hreg hcur ?_ ?_
      · exact ⟨fun k => by cases k <;> rfl, rfl, rfl, rfl⟩
      · intro f hf
        injection hf with hf
        subst hf
        exact hc
    | none =>
      obtain ⟨m, -, h⟩ := bind_eq_ok h
      injection h with h
      subst h
      refine Inv_same N s _ L hreg hcur ?_ hfoc
      exact ⟨fun k => by cases k <;> rfl, rfl, rfl, rfl⟩

theorem focus_next_inv (N : Nat) (s s1 : State)
    (hinv : Inv N s) (h : focus_next N s = Except.ok s1) : Inv N s1 := by
  obtain ⟨L, hreg, hcur, hfoc⟩ := hinv
  obtain ⟨hi, hiN, -⟩ := ws_index_ok N s.current_ws hcur
  have hch := hreg.lists _ hiN
  cases hL : L s.current_ws.toNat with
  | nil =>
    rw [hL] at hch
    have h0 : s.workspaces s.current_ws.toNat = none := by
      have := hch
      simp only [Chain, load] at this
      injection this
    simp only [focus_next, hi, bind_ok, h0] at h
    injection h with h
    subst h
    exact ⟨L, hreg, hcur, hfoc⟩
  | cons hd l =>
    -- the list cut at the start of the walk
    obtain ⟨l1, start, l2, hsplit, hstart⟩ : ∃ l1 start l2,
        L s.current_ws.toNat = l1 ++ start :: l2 ∧
        (s.focused = some start ∨ (s.focused = none ∧ l1 = [])) := by
      cases hf : s.focused with
      | none => exact ⟨[], hd, l, by rw [hL]; rfl, Or.inr ⟨rfl, rfl⟩⟩
      | some f =>
        obtain ⟨l1, l2, hl⟩ := List.append_of_mem (hfoc f hf)
        exact ⟨l1, f, l2, hl, Or.inl rfl⟩
    rw [hsplit] at hch
    obtain ⟨s2, hs2, hsome, hnone⟩ :=
      focus_next_core N s _ l1 start l2 hi hreg.below_brk hch hstart
    rw [hs2] at h
    injection h with h
    subst h
    cases hfind : (l2 ++ l1 ++ [start]).find? (mapped_at s) with
    | none =>
      rw [hnone hfind]
      exact ⟨L, hreg, hcur, hfoc⟩
    | some c =>
      obtain ⟨cc, -, hs⟩ := hsome c hfind
      rw [hs]
      refine Inv_same N s _ L hreg hcur ?_ ?_
      · exact ⟨fun k => by cases k <;> rfl, rfl, rfl, rfl⟩
      · intro f hf
        injection hf with hf
        subst hf
        have := List.mem_of_find?_eq_some hfind
        rw [hsplit]
        simp at this ⊢
        tauto

theorem find_prev_mem (s : State) (c : Ptr) (l : List Ptr) (k : Link) (v : Option Ptr)
    (fuel : Nat) (prev r : Option Ptr) (h : Chain s k l none) (hv : load s k = Except.ok v)
    (hr : find_prev s c fuel prev v = Except.ok r) :
    r = prev ∨ ∃ q, q ∈ l ∧ r = some q := by
  induction l generalizing k v fuel prev with
  | nil =>
    simp only [Chain] at h
    rw [h] at hv
    injection hv with hv
    subst hv
    left
    cases fuel <;> simp [find_prev] at hr <;> exact hr.symm
  | cons p l ih =>
    rw [h.1] at hv
    injection hv with hv
    subst hv
    cases fuel with
    | zero => simp [find_prev] at hr
    | succ f =>
      obtain ⟨e, he⟩ : ∃ e, load s (Link.next p) = Except.ok e := ⟨_, Chain_head s l _ _ h.2⟩
      obtain ⟨cp, hcp, hn⟩ := load_next_ok s p e he
      simp only [find_prev] at hr
      split at hr
      · injection hr with hr
        exact Or.inl hr.symm
      · simp only [hcp] at hr
        rcases ih _ _ f _ h.2 (by rw [← hn] at he; exact he) hr with h1 | ⟨q, hq, h1⟩
        · exact Or.inr ⟨p, by simp, h1⟩
        · exact Or.inr ⟨q, List.mem_cons_of_mem _ hq, h1⟩

theorem prev_or_tail_mem (s : State) (i : Nat) (l : List Ptr) (hd c c1 : Ptr)
    (hb : ∀ p c, s.heap p = some c → p < s.brk)
    (h : Chain s (Link.head i) l none) (hhd : s.workspaces i = some hd)
    (hr : prev_or_tail s hd c = Except.ok c1) : c1 ∈ l := by
  unfold prev_or_tail at hr
  obtain ⟨prev, hprev, hr⟩ := bind_eq_ok hr
  have hv : load s (Link.head i) = Except.ok (some hd) := by simp [load, hhd]
  cases prev with
  | some q =>
    injection hr with hr
    subst hr
    rcases find_prev_mem s c l _ _ _ _ _ h hv hprev with h1 | ⟨q1, hq1, h1⟩
    · cases h1
    · injection h1 with h1
      subst h1
      exact hq1
  | none =>
    cases l with
    | nil =>
      simp only [Chain] at h
      rw [h] at hv
      cases hv
    | cons x l =>
      have hx : x = hd := by
        have := h.1
        rw [hv] at this
        injection this with this
        injection this with this
        exact this.symm
      subst hx
      have hlen := Chain_length s _ _ h hb
      obtain ⟨q, hq, hlink⟩ := find_tail_spec s l x (s.brk + 1) h.2
        (by simp at hlen; omega)
      have hr2 : find_tail s (s.brk + 1) x = Except.ok c1 := hr
      rw [hq] at hr2
      injection hr2 with hr2
      subst hr2
      rcases link_after_mem (Link.next x) l with h1 | ⟨q1, hq1, h1⟩
      · rw [h1] at hlink
        injection hlink with hlink
        subst hlink
        simp
      · rw [h1] at hlink
        injection hlink with hlink
        subst hlink
        exact List.mem_cons_of_mem _ hq1

theorem focus_prev_loop_mem (s : State) (i : Nat) (l : List Ptr) (hd start : Ptr)
    (hb : ∀ p c, s.heap p = some c → p < s.brk)
    (h : Chain s (Link.head i) l none) (hhd : s.workspaces i = some hd)
    (fuel : Nat) (c c1 : Ptr)
    (hr : focus_prev_loop s hd start fuel c = Except.ok c1) : c1 ∈ l := by
  induction fuel generalizing c with
  | zero => simp [focus_prev_loop] at hr
  | succ f ih =>
    unfold focus_prev_loop at hr
    obtain ⟨c2, hc2, hr⟩ := bind_eq_ok hr
    obtain ⟨cc2, -, hr⟩ := bind_eq_ok hr
    split at hr
    · exact ih c2 hr
    · injection hr with hr
      subst hr
      exact prev_or_tail_mem s i l hd c c2 hb h hhd hc2

theorem focus_prev_inv (N : Nat) (s s1 : State)
    (hinv : Inv N s) (h : focus_prev N s = Except.ok s1) : Inv N s1 := by
  obtain ⟨L, hreg, hcur, hfoc⟩ := hinv
  obtain ⟨hi, hiN, -⟩ := ws_index_ok N s.current_ws hcur
  have hch := hreg.lists _ hiN
  unfold focus_prev at h
  obtain ⟨i, hi2, h⟩ := bind_eq_ok h
  rw [hi] at hi2
  injection hi2 with hi2
  subst hi2
  cases hhd : s.workspaces s.current_ws.toNat with
  | none =>
    simp only [hhd] at h
    injection h with h
    subst h
    exact ⟨L, hreg, hcur, hfoc⟩
  | some hd =>
    simp only [hhd] at h
    obtain ⟨c, hc, h⟩ := bind_eq_ok h
    obtain ⟨cc, -, h⟩ := bind_eq_ok h
    have hcm := focus_prev_loop_mem s _ _ hd _ hreg.below_brk hch hhd _ _ c hc
    split at h
    · injection h with h
      subst h
      exact ⟨L, hreg, hcur, hfoc⟩
    · injection h with h
      subst h
      refine Inv_same N s _ L hreg hcur ?_ ?_
      · exact ⟨fun k => by cases k <;> rfl, rfl, rfl, rfl⟩
      · intro f hf
        injection hf with hf
        subst hf
        exact hcm

theorem change_workspace_inv (N : Nat) (T : Tiler) (s s1 : State) (ws : Int)
    (hinv : Inv N s) (h : change_workspace N T s ws = Except.ok s1) : Inv N s1 := by
  obtain ⟨L, hreg, hcur, hfoc⟩ := hinv
  by_cases hg : ws ≥ (N : Int) ∨ ws = s.current_ws
  · simp only [change_workspace, if_pos hg] at h
    injection h with h
    subst h
    exact ⟨L, hreg, hcur, hfoc⟩
  · have hlt : ws < N := by
      by_contra hx
      exact hg (Or.inl (by omega))
    have hne : ws ≠ s.current_ws := fun e => hg (Or.inr e)
    by_cases h0 : 0 ≤ ws
    · rw [change_workspace_ok N T s L ws hreg hcur ⟨h0, hlt⟩ hne] at h
      injection h with h
      subst h
      obtain ⟨-, hjN, -⟩ := ws_index_ok N ws ⟨h0, hlt⟩
      refine ⟨L, ?_, ⟨h0, hlt⟩, ?_⟩
      · refine Registry_congr N s _ L hreg (fun k => ?_) rfl
        have : load ({ tile T { s with in_ws_switch := true, current_ws := ws } with
            focused := (L ws.toNat).head?, in_ws_switch := false } : State) k
            = load (tile T { s with in_ws_switch := true, current_ws := ws }) k := by
          cases k <;> rfl
        rw [this, load_tile]
        cases k <;> rfl
      · intro f hf
        exact List.mem_of_mem_head? hf
    · exfalso
      obtain ⟨hi, hiN, -⟩ := ws_index_ok N s.current_ws hcur
      have hw1 : walk { s with in_ws_switch := true } (s.brk + 1)
          (s.workspaces s.current_ws.toNat) = Except.ok () := by
        apply walk_spec _ (L s.current_ws.toNat) (Link.head s.current_ws.toNat)
        · exact Chain_congr s _ _ _ _ (fun k => by cases k <;> rfl) (hreg.lists _ hiN)
        · rfl
        · have := Registry_length N s L hreg _ hiN
          show (L s.current_ws.toNat).length ≤ s.brk + 1
          omega
      have hj : ws_index N ws = Except.error (Fault.oob ws) := by
        simp [ws_index, h0]
      simp only [change_workspace, if_neg hg, bind, Except.bind, hi, hw1] at h
      simp only [hj] at h
      cases h

theorem hdl_destroy_ntf_inv (N : Nat) (T : Tiler) (s s1 : State) (w : Window)
    (hinv : Inv N s) (h : hdl_destroy_ntf N T s w = Except.ok s1) : Inv N s1 := by
  obtain ⟨L, hreg, hcur, hfoc⟩ := hinv
  by_cases hex : ∃ j, j < N ∧ ∃ p, p ∈ L j ∧ win_at s p = some w
  · obtain ⟨ws, l1, c, l2, hws, hl, hc, hl1, hlow⟩ := first_owner N s L w hex
    obtain ⟨s2, hs2, hrem⟩ := hdl_destroy_found N T s L w ws l1 c l2 hreg hws hl hc hl1 hlow
    rw [hs2] at h
    injection h with h
    subst h
    obtain ⟨-, hiN, hcast⟩ := ws_index_ok N s.current_ws hcur
    have hn := Chain_nodup s _ _ (hreg.lists ws hws)
    rw [hl] at hn
    simp only [List.nodup_append, List.nodup_cons] at hn
    refine ⟨_, hrem.registry, ?_, ?_⟩
    · unfold CurOK; rw [hrem.cur]; exact hcur
    · intro f hf
      rw [hrem.cur]
      rw [hrem.focus] at hf
      unfold focus_after_remove at hf
      by_cases hcw : s.current_ws.toNat = ws
      · -- the client was on the active list
        rw [hcw, Function.update_same]
        by_cases hfc : s.focused = some c
        · rw [if_pos hfc] at hf
          cases hh : l2.head? with
          | some n =>
            rw [hh] at hf
            injection hf with hf
            subst hf
            exact List.mem_append_right _ (List.mem_of_mem_head? hh)
          | none =>
            rw [hh] at hf
            cases hg : l1.getLast? with
            | some q =>
              rw [hg] at hf
              injection hf with hf
              subst hf
              exact List.mem_append_left _ (List.mem_of_mem_getLast? hg)
            | none =>
              rw [hg] at hf
              have : (ws : Int) = s.current_ws := by rw [← hcw]; exact hcast
              simp [this] at hf
        · rw [if_neg hfc] at hf
          have hm := hfoc f hf
          rw [hcw, hl] at hm
          have hne : f ≠ c := fun e => hfc (by rw [hf, e])
          simp at hm ⊢
          tauto
      · -- the client was on another list, so it was not focused
        rw [Function.update_noteq hcw]
        have hfc : s.focused ≠ some c := by
          intro hfc
          exact hreg.disjoint _ ws hiN hws hcw c (hfoc c hfc) (by rw [hl]; simp)
        rw [if_neg hfc] at hf
        exact hfoc f hf
  · have hno : ∀ j, j < N → ∀ p ∈ L j, win_at s p ≠ some w := by
      intro j hj p hp hw
      exact hex ⟨j, hj, p, hp, hw⟩
    rw [hdl_destroy_absent N T s L w hreg hno] at h
    injection h with h
    subst h
    exact ⟨L, hreg, hcur, hfoc⟩

theorem toggle_floating_same (T : Tiler) (s s1 : State)
    (h : toggle_floating T s = Except.ok s1) : SameLinks s s1 ∧ s1.focused = s.focused := by
  unfold toggle_floating at h
  cases hf : s.focused with
  | none =>
    simp only [hf] at h
    injection h with h
    subst h
    exact ⟨SameLinks_refl s, hf⟩
  | some p =>
    simp only [hf] at h
    obtain ⟨c, hc, h⟩ := bind_eq_ok h
    injection h with h
    subst h
    refine ⟨SameLinks_trans ?_ (SameLinks_tile T _), hf⟩
    exact SameLinks_put s p c _ (deref_ok hc) rfl

theorem press_float_same (T : Tiler) (s s1 : State) (e : ButtonEv) (c : Ptr) (cc : Client)
    (h : press_float T s e c cc = Except.ok s1) :
    SameLinks s s1 ∧ (s1.focused = s.focused ∨ s1.focused = some c) := by
  unfold press_float at h
  split at h
  · obtain ⟨hs, hf⟩ := toggle_floating_same T _ s1 h
    refine ⟨?_, Or.inr hf⟩
    exact SameLinks_trans ⟨fun k => by cases k <;> rfl, rfl, rfl, rfl⟩ hs
  · injection h with h
    subst h
    exact ⟨SameLinks_refl s, Or.inl rfl⟩

theorem begin_drag_same (s : State) (e : ButtonEv) (c : Ptr) (cc : Client) (mode : DragMode) :
    SameLinks s (begin_drag s e c cc mode) ∧ (begin_drag s e c cc mode).focused = some c :=
  ⟨⟨fun k => by cases k <;> rfl, rfl, rfl, rfl⟩, rfl⟩

theorem hdl_button_inv (N : Nat) (T : Tiler) (s s1 : State) (e : ButtonEv)
    (hinv : Inv N s) (h : hdl_button N T s e = Except.ok s1) : Inv N s1 := by
  obtain ⟨L, hreg, hcur, hfoc⟩ := hinv
  obtain ⟨hi, hiN, -⟩ := ws_index_ok N s.current_ws hcur
  unfold hdl_button at h
  split at h
  · injection h with h
    subst h
    exact ⟨L, hreg, hcur, hfoc⟩
  · obtain ⟨i, hi2, h⟩ := bind_eq_ok h
    rw [hi] at hi2
    injection hi2 with hi2
    subst hi2
    obtain ⟨found, hfound, h⟩ := bind_eq_ok h
    rw [find_win_spec s e.w _ (Link.head s.current_ws.toNat) _ _ (hreg.lists _ hiN) rfl
      (by have := Registry_length N s L hreg _ hiN; omega)] at hfound
    injection hfound with hfound
    cases found with
    | none =>
      injection h with h
      subst h
      exact ⟨L, hreg, hcur, hfoc⟩
    | some c =>
      have hcm : c ∈ L s.current_ws.toNat := List.mem_of_find?_eq_some hfound
      obtain ⟨cc, hcc, h⟩ := bind_eq_ok h
      have key : ∀ s2 : State, SameLinks s s2 →
          (s2.focused = s.focused ∨ s2.focused = some c) → Inv N s2 := by
        intro s2 hs hf
        refine Inv_same N s s2 L hreg hcur hs ?_
        intro f hf2
        rcases hf with hf | hf
        · exact hfoc f (by rw [← hf]; exact hf2)
        · rw [hf] at hf2
          injection hf2 with hf2
          subst hf2
          exact hcm
      split at h
      · injection h with h
        subst h
        exact key _ (begin_drag_same s e c cc _).1 (Or.inr (begin_drag_same s e c cc _).2)
      · obtain ⟨s2, hs2, h⟩ := bind_eq_ok h
        obtain ⟨hsame, hfo⟩ := press_float_same T s s2 e c cc hs2
        split at h
        · injection h with h
          subst h
          exact key _ (SameLinks_trans hsame ⟨fun k => by cases k <;> rfl, rfl, rfl, rfl⟩)
            (Or.inr rfl)
        · obtain ⟨c1, -, h⟩ := bind_eq_ok h
          split at h
          · injection h with h
            subst h
            exact key _ hsame hfo
          · split at h
            · injection h with h
              subst h
              exact key _ hsame hfo
            · injection h with h
              subst h
              exact key _ (SameLinks_trans hsame (begin_drag_same s2 e c c1 _).1)
                (Or.inr (begin_drag_same s2 e c c1 _).2)

theorem two_mem_split (l : List Ptr) (a b : Ptr) (ha : a ∈ l) (hb : b ∈ l) (hab : a ≠ b) :
    (∃ l1 l2 l3, l = l1 ++ a :: (l2 ++ b :: l3)) ∨
    (∃ l1 l2 l3, l = l1 ++ b :: (l2 ++ a :: l3)) := by
  obtain ⟨x, y, rfl⟩ := List.append_of_mem ha
  rcases List.mem_append.1 hb with hbx | hby
  · obtain ⟨x1, x2, rfl⟩ := List.append_of_mem hbx
    exact Or.inr ⟨x1, x2, y, by simp⟩
  · rcases List.mem_cons.1 hby with e | hby
    · exact absurd e.symm hab
    · obtain ⟨y1, y2, rfl⟩ := List.append_of_mem hby
      exact Or.inl ⟨x, y1, y2, rfl⟩

/-- The registry after `swap_clients`: the active list holds the same clients, the other
lists and everything but list links are untouched. -/
theorem swap_clients_reg (N : Nat) (s s1 : State) (L : Nat → List Ptr) (a b : Option Ptr)
    (hreg : Registry N s L) (hcur : CurOK N s)
    (h : swap_clients N s a b = Except.ok s1) :
    ∃ L1, Registry N s1 L1 ∧
      (∀ p, p ∈ L1 s.current_ws.toNat ↔ p ∈ L s.current_ws.toNat) ∧
      s1.current_ws = s.current_ws ∧ s1.focused = s.focused := by
  obtain ⟨hi, hiN, -⟩ := ws_index_ok N s.current_ws hcur
  have hch := hreg.lists _ hiN
  have same : swap_clients N s a b = Except.ok s →
      ∃ L1, Registry N s1 L1 ∧
        (∀ p, p ∈ L1 s.current_ws.toNat ↔ p ∈ L s.current_ws.toNat) ∧
        s1.current_ws = s.current_ws ∧ s1.focused = s.focused := by
    intro h0
    rw [h0] at h
    injection h with h
    subst h
    exact ⟨L, hreg, fun _ => Iff.rfl, rfl, rfl⟩
  have moved : ∀ (l1 : List Ptr) (s4 : State),
      swap_clients N s a b = Except.ok s4 → erase_links s4 = erase_links s →
      Chain s4 (Link.head s.current_ws.toNat) l1 none →
      (∀ p, p ∈ l1 ↔ p ∈ L s.current_ws.toNat) →
      (∀ k, k ≠ Link.head s.current_ws.toNat →
        (∀ p ∈ L s.current_ws.toNat, k ≠ Link.next p) → load s4 k = load s k) →
      ∃ L1, Registry N s1 L1 ∧
        (∀ p, p ∈ L1 s.current_ws.toNat ↔ p ∈ L s.current_ws.toNat) ∧
        s1.current_ws = s.current_ws ∧ s1.focused = s.focused := by
    intro l1 s4 hs4 he4 hc4 hperm hfr
    rw [hs4] at h
    injection h with h
    subst h
    have hF := fields_of_erase s s4 he4
    refine ⟨Function.update L s.current_ws.toNat l1, ?_, ?_, hF.2.1, hF.2.2.1⟩
    · apply Registry_update N s s4 L _ l1 hreg hc4
      · intro p hp; exact Or.inl ((hperm p).1 hp)
      · intro j hj hjw
        refine ⟨?_, ?_⟩
        · apply hfr
          · intro e; injection e with e; exact hjw e
          · intro p _ e; cases e
        · intro p hp
          apply hfr
          · intro e; cases e
          · intro q hq e
            injection e with e
            subst e
            exact hreg.disjoint j _ hj hiN hjw p hp hq
      · intro p c hc
        obtain ⟨c0, hc0⟩ := allocated_of_erase s s4 he4 p c hc
        rw [hF.1]
        exact hreg.below_brk p c0 hc0
    · intro p
      rw [Function.update_same]
      exact hperm p
  cases a with
  | none => exact same (by simp [swap_clients])
  | some a =>
    cases b with
    | none => exact same (by simp [swap_clients])
    | some b =>
      by_cases hab : a = b
      · exact same (by simp [swap_clients, hab])
      · by_cases ha : a ∈ L s.current_ws.toNat
        · by_cases hb : b ∈ L s.current_ws.toNat
          · rcases two_mem_split _ a b ha hb hab with ⟨l1, l2, l3, hl⟩ | ⟨l1, l2, l3, hl⟩
            · rw [hl] at hch
              obtain ⟨s4, hs4, he4, hc4, hfr⟩ :=
                swap_fwd N s _ a b l1 l2 l3 hi hreg.below_brk hch
              apply moved _ s4 hs4 he4 hc4
              · intro p; rw [hl]; simp; tauto
              · intro k hk hkl
                exact hfr k hk (by rw [← hl]; exact hkl)
            · rw [hl] at hch
              obtain ⟨s4, hs4, he4, hc4, hfr⟩ :=
                swap_bwd N s _ a b l1 l2 l3 hi hreg.below_brk hch
              apply moved _ s4 hs4 he4 hc4
              · intro p; rw [hl]; simp; tauto
              · intro k hk hkl
                exact hfr k hk (by rw [← hl]; exact hkl)
          · exact same (swap_noop N s _ a b _ hi hreg.below_brk hch (Or.inr hb))
        · exact same (swap_noop N s _ a b _ hi hreg.below_brk hch (Or.inl ha))

theorem hdl_button_release_inv (N : Nat) (T : Tiler) (s s1 : State)
    (hinv : Inv N s) (h : hdl_button_release N T s = Except.ok s1) : Inv N s1 := by
  obtain ⟨L, hreg, hcur, hfoc⟩ := hinv
  unfold hdl_button_release at h
  obtain ⟨s2, hs2, h⟩ := bind_eq_ok h
  injection h with h
  subst h
  have key : ∀ s3 : State, Inv N s3 →
      Inv N { s3 with drag_mode := DragMode.DRAG_NONE, drag_client := none,
                      swap_target := none } := by
    rintro s3 ⟨L3, hreg3, hcur3, hfoc3⟩
    refine Inv_same N s3 _ L3 hreg3 hcur3 ?_ hfoc3
    exact ⟨fun k => by cases k <;> rfl, rfl, rfl, rfl⟩
  apply key
  unfold release_drag at hs2
  split at hs2
  · obtain ⟨s3, hs3, hs2⟩ := bind_eq_ok hs2
    injection hs2 with hs2
    subst hs2
    have h3 : Inv N s3 := by
      unfold release_swap at hs3
      cases ht : s.swap_target with
      | none =>
        simp only [ht] at hs3
        injection hs3 with hs3
        subst hs3
        exact ⟨L, hreg, hcur, hfoc⟩
      | some t =>
        simp only [ht] at hs3
        obtain ⟨ct, -, hs3⟩ := bind_eq_ok hs3
        obtain ⟨L1, hreg1, hperm, hc1, hf1⟩ :=
          swap_clients_reg N s s3 L _ _ hreg hcur hs3
        refine ⟨L1, hreg1, ?_, ?_⟩
        · unfold CurOK; rw [hc1]; exact hcur
        · intro f hf
          rw [hc1]
          rw [hf1] at hf
          exact (hperm f).2 (hfoc f hf)
    obtain ⟨L3, hreg3, hcur3, hfoc3⟩ := h3
    exact Inv_same N s3 _ L3 hreg3 hcur3 (SameLinks_tile T s3) hfoc3
  · injection hs2 with hs2
    subst hs2
    exact ⟨L, hreg, hcur, hfoc⟩

theorem map_managed_same (s s1 : State) (c : Ptr) (h : map_managed s c = Except.ok s1) :
    SameLinks s s1 ∧ (s1.focused = s.focused ∨ s1.focused = some c) := by
  unfold map_managed at h
  obtain ⟨cc, hcc, h⟩ := bind_eq_ok h
  have hput := SameLinks_put s c cc { cc with mapped := true } (deref_ok hcc) rfl
  have hfoc : ∀ x : State, SameLinks x { x with focused := some c } :=
    fun x => ⟨fun k => by cases k <;> rfl, rfl, rfl, rfl⟩
  by_cases hm : cc.mapped = false <;> by_cases hn : s.user_config.new_win_focus = true
  · simp only [if_pos hm, put_user_config, if_pos hn] at h
    injection h with h
    subst h
    exact ⟨SameLinks_trans hput (hfoc _), Or.inr rfl⟩
  · simp only [if_pos hm, put_user_config, if_neg hn] at h
    injection h with h
    subst h
    exact ⟨hput, Or.inl rfl⟩
  · simp only [if_neg hm, if_pos hn] at h
    injection h with h
    subst h
    exact ⟨hfoc _, Or.inr rfl⟩
  · simp only [if_neg hm, if_neg hn] at h
    injection h with h
    subst h
    exact ⟨SameLinks_refl s, Or.inl rfl⟩

theorem new_client_flags_next (s1 : State) (env : MapEnv) (sf : Bool) (c1 : Client) :
    (new_client_flags s1 env sf c1).next = c1.next := by
  unfold new_client_flags
  simp only []
  split_ifs <;> rfl

theorem center_floating_next (s1 : State) (c3 c4 : Client)
    (h : center_floating s1 c3 = Except.ok c4) : c4.next = c3.next := by
  unfold center_floating at h
  split at h
  · obtain ⟨m, -, h⟩ := bind_eq_ok h
    injection h with h
    subst h
    rfl
  · injection h with h
    subst h
    rfl

theorem map_finish_same (T : Tiler) (s2 s5 : State) (c : Ptr) (fl : Bool)
    (h : map_finish T s2 c fl = Except.ok s5) :
    SameLinks s2 s5 ∧ (s5.focused = s2.focused ∨ s5.focused = some c) := by
  unfold map_finish at h
  obtain ⟨c5, hc5, h⟩ := bind_eq_ok h
  have hfoc : ∀ x : State, SameLinks x { x with focused := some c } :=
    fun x => ⟨fun k => by cases k <;> rfl, rfl, rfl, rfl⟩
  by_cases ht : s2.global_floating = false ∧ fl = false <;>
    by_cases hn : s2.user_config.new_win_focus = true
  · simp only [if_pos ht] at hc5 h
    simp only [put_user_config, tile_user_config, if_pos hn] at h
    injection h with h
    subst h
    have h4 := SameLinks_put _ c c5 { c5 with mapped := true } (deref_ok hc5) rfl
    exact ⟨SameLinks_trans (SameLinks_tile T s2) (SameLinks_trans h4 (hfoc _)), Or.inr rfl⟩
  · simp only [if_pos ht] at hc5 h
    simp only [put_user_config, tile_user_config, if_neg hn] at h
    injection h with h
    subst h
    have h4 := SameLinks_put _ c c5 { c5 with mapped := true } (deref_ok hc5) rfl
    exact ⟨SameLinks_trans (SameLinks_tile T s2) h4, Or.inl rfl⟩
  · simp only [if_neg ht] at hc5 h
    simp only [put_user_config, if_pos hn] at h
    injection h with h
    subst h
    have h4 := SameLinks_put _ c c5 { c5 with mapped := true } (deref_ok hc5) rfl
    exact ⟨SameLinks_trans h4 (hfoc _), Or.inr rfl⟩
  · simp only [if_neg ht] at hc5 h
    simp only [put_user_config, if_neg hn] at h
    injection h with h
    subst h
    have h4 := SameLinks_put _ c c5 { c5 with mapped := true } (deref_ok hc5) rfl
    exact ⟨h4, Or.inl rfl⟩

theorem map_new_same (T : Tiler) (s1 s5 : State) (env : MapEnv) (sf : Bool) (c : Ptr)
    (h : map_new T s1 env sf c = Except.ok s5) :
    SameLinks s1 s5 ∧ (s5.focused = s1.focused ∨ s5.focused = some c) := by
  unfold map_new at h
  obtain ⟨c1, hc1, h⟩ := bind_eq_ok h
  obtain ⟨c4, hc4, h⟩ := bind_eq_ok h
  obtain ⟨hs, hf⟩ := map_finish_same T _ s5 c _ h
  have hput := SameLinks_put s1 c c1 c4 (deref_ok hc1)
    (by rw [center_floating_next s1 _ c4 hc4, new_client_flags_next])
  exact ⟨SameLinks_trans hput hs, hf⟩

theorem hdl_map_req_inv (N : Nat) (M : Int) (T : Tiler) (s s1 : State) (env : MapEnv)
    (w : Window) (hinv : Inv N s) (h : hdl_map_req N M T s env w = Except.ok s1) :
    Inv N s1 := by
  obtain ⟨L, hreg, hcur, hfoc⟩ := hinv
  obtain ⟨-, hiN, hcast⟩ := ws_index_ok N s.current_ws hcur
  have stay : (Except.ok s : Except Fault State) = Except.ok s1 → Inv N s1 := by
    intro h0
    injection h0 with h0
    subst h0
    exact ⟨L, hreg, hcur, hfoc⟩
  unfold hdl_map_req at h
  split at h
  · exact stay h
  · split at h
    · exact stay h
    · obtain ⟨found, hfound, h⟩ := bind_eq_ok h
      obtain ⟨r, hr, hspec⟩ := find_managed_spec N s L w hreg (List.range N)
        (fun j hj => List.mem_range.1 hj)
      rw [hr] at hfound
      injection hfound with hfound
      subst hfound
      cases r with
      | some r =>
        obtain ⟨ws, c⟩ := r
        simp only at h hspec
        split at h
        · rename_i hwc
          obtain ⟨hs, hf⟩ := map_managed_same s s1 c h
          have hws : s.current_ws.toNat = ws := by omega
          refine Inv_same N s s1 L hreg hcur hs ?_
          intro f hf2
          rcases hf with hf | hf
          · exact hfoc f (by rw [← hf]; exact hf2)
          · rw [hf] at hf2
            injection hf2 with hf2
            subst hf2
            rw [hws]
            exact hspec.2.1
        · exact stay h
      | none =>
        simp only at h
        split at h
        · exact stay h
        · split at h
          · exact stay h
          · obtain ⟨r, hr, h⟩ := bind_eq_ok h
            by_cases hm : env.add.malloc_ok = true
            · obtain ⟨sA, hsA, hadd⟩ := add_client_spec N s L env.add w s.current_ws hreg hcur hm
              rw [hsA] at hr
              injection hr with hr
              subst hr
              simp only at h
              obtain ⟨hs, hf⟩ := map_new_same T sA s1 env _ _ h
              have hcurA : CurOK N sA := by unfold CurOK; rw [hadd.cur]; exact hcur
              refine Inv_same N sA s1 _ hadd.registry hcurA hs ?_
              intro f hf2
              rw [hadd.cur, Function.update_same]
              rcases hf with hf | hf
              · rw [hf, hadd.focus] at hf2
                split at hf2
                · injection hf2 with hf2
                  subst hf2
                  simp
                · exact List.mem_append_left _ (hfoc f hf2)
              · rw [hf] at hf2
                injection hf2 with hf2
                subst hf2
                simp
            · have : add_client N s env.add w s.current_ws = Except.ok (s, none) := by
                simp [add_client, hm]
              rw [this] at hr
              injection hr with hr
              subst hr
              exact stay h

/-- Every handler keeps the invariant. -/
theorem handle_inv (N : Nat) (M : Int) (T : Tiler) (s s1 : State) (e : Event)
    (hinv : Inv N s) (h : handle N M T s e = Except.ok s1) : Inv N s1 := by
  cases e with
  | map_req env w => exact hdl_map_req_inv N M T s s1 env w hinv h
  | unmap_ntf w => exact hdl_unmap_ntf_inv N T s s1 w hinv h
  | destroy_ntf w => exact hdl_destroy_ntf_inv N T s s1 w hinv h
  | button e => exact hdl_button_inv N T s s1 e hinv h
  | button_release => exact hdl_button_release_inv N T s s1 hinv h
  | focus_next => exact focus_next_inv N s s1 hinv h
  | focus_prev => exact focus_prev_inv N s s1 hinv h
  | focus_next_mon => exact focus_mon_inv N s s1 _ hinv h
  | focus_prev_mon => exact focus_mon_inv N s s1 _ hinv h
  | change_workspace ws => exact change_workspace_inv N T s s1 ws hinv h

theorem run_inv (N : Nat) (M : Int) (T : Tiler) (evs : List Event) (s s1 : State)
    (hinv : Inv N s) (h : run N M T s evs = Except.ok s1) : Inv N s1 := by
  induction evs generalizing s with
  | nil =>
    injection h with h
    subst h
    exact hinv
  | cons e evs ih =>
    simp only [run] at h
    cases he : handle N M T s e with
    | error f => rw [he] at h; cases h
    | ok s2 =>
      rw [he] at h
      exact ih s2 (handle_inv N M T s s2 e hinv he) h

/-- C4 as stated fails on the code: a window is mapped and focused, then its unmap
notification arrives; `hdl_unmap_ntf` clears the `mapped` flag and leaves `focused` on the
client. -/
theorem focused_client_unmapped :
    (run 9 256 no_tiler (init demo_config [])
        [Event.map_req demo_map_env 100, Event.unmap_ntf 100]).toOption.map
      (fun s => (s.focused, mapped_at s 0, clients_of s 0)) =
    some (some 0, false, some [0]) := by
  rfl

/-- C4, amended: in every state reached from the initial state through the handlers (map
request, unmap notification, destroy notification, button press and release, `focus_next`,
`focus_prev`, `focus_next_mon`, `focus_prev_mon`, `change_workspace`), the active
workspace is inside the array and `focused` is either unset or points to a client on the
active workspace's list. -/
theorem focused_on_active_list (N : Nat) (M : Int) (T : Tiler) (cfg : Config)
    (mons : List Monitor) (evs : List Event) (s : State) (hN : 0 < N)
    (h : run N M T (init cfg mons) evs = Except.ok s) :
    0 ≤ s.current_ws ∧ s.current_ws < N ∧
    (s.focused = none ∨
      ∃ f l, s.focused = some f ∧ Chain s (Link.head s.current_ws.toNat) l none ∧ f ∈ l) := by
  have h0 : Inv N (init cfg mons) :=
    ⟨fun _ => [], init_registry N cfg mons, ⟨by simp [init], by simp [init]; exact hN⟩,
      fun f hf => by simp [init] at hf⟩
  obtain ⟨L, hreg, hcur, hfoc⟩ := run_inv N M T evs _ s h0 h
  refine ⟨hcur.1, hcur.2, ?_⟩
  cases hf : s.focused with
  | none => exact Or.inl rfl
  | some f =>
    exact Or.inr ⟨f, _, rfl, hreg.lists _ (ws_index_ok N s.current_ws hcur).2.1, hfoc f hf⟩

theorem focused_on_active_list_witness :
    ∃ s, run 9 256 no_tiler (init demo_config [])
        [Event.map_req demo_map_env 100, Event.unmap_ntf 100] = Except.ok s ∧
      0 ≤ s.current_ws ∧ s.current_ws < (9 : Nat) ∧
      (s.focused = none ∨
        ∃ f l, s.focused = some f ∧ Chain s (Link.head s.current_ws.toNat) l none ∧ f ∈ l) :=
  ⟨_, rfl, focused_on_active_list 9 256 no_tiler demo_config []
    [Event.map_req demo_map_env 100, Event.unmap_ntf 100] _ (by decide) rfl⟩

@[simp] theorem tile_last_motion_time (T : Tiler) (s : State) :
    (tile T s).last_motion_time = s.last_motion_time := rfl

@[simp] theorem put_last_motion_time (s : State) (p : Ptr) (c : Client) :
    (put s p c).last_motion_time = s.last_motion_time := rfl

theorem heap_tile_alloc (T : Tiler) (s : State) (p : Ptr) (c : Client)
    (h : s.heap p = some c) : ∃ c1, (tile T s).heap p = some c1 := by
  simp only [tile, h]
  cases T s p <;> exact ⟨_, rfl⟩

theorem heap_put_alloc (s : State) (q : Ptr) (cq : Client) (p : Ptr) (c : Client)
    (h : s.heap p = some c) : ∃ c1, (put s q cq).heap p = some c1 := by
  by_cases hp : p = q
  · subst hp
    exact ⟨cq, by simp [put]⟩
  · exact ⟨c, by simp [put, Function.update_noteq hp, h]⟩

/-- When `focused` is unset or points to an allocated client, `toggle_floating` returns; it
frees no client and leaves `last_motion_time` alone. -/
theorem toggle_floating_total (T : Tiler) (s : State)
    (hfoc : ∀ f, s.focused = some f → ∃ cf, s.heap f = some cf) :
    ∃ s1, toggle_floating T s = Except.ok s1 ∧ s1.last_motion_time = s.last_motion_time ∧
      ∀ p c, s.heap p = some c → ∃ c1, s1.heap p = some c1 := by
  cases hf : s.focused with
  | none => exact ⟨s, by simp [toggle_floating, hf], rfl, fun p c h => ⟨c, h⟩⟩
  | some f =>
    obtain ⟨cf, hcf⟩ := hfoc f hf
    refine ⟨tile T (put s f { cf with floating := !cf.floating }), ?_, rfl, ?_⟩
    · simp [toggle_floating, hf, deref, hcf, bind, Except.bind]
    · intro p c hp
      obtain ⟨c1, hc1⟩ := heap_put_alloc s f { cf with floating := !cf.floating } p c hp
      exact heap_tile_alloc T _ p c1 hc1

theorem move_promote_total (T : Tiler) (s : State) (cc : Client) (nx ny : Int)
    (hfoc : ∀ f, s.focused = some f → ∃ cf, s.heap f = some cf) :
    ∃ s1, move_promote T s cc nx ny = Except.ok s1 ∧
      s1.last_motion_time = s.last_motion_time ∧
      (∀ p c, s.heap p = some c → ∃ c1, s1.heap p = some c1) ∧
      (cc.floating = true → s1 = s) := by
  unfold move_promote
  by_cases h : cc.floating = false ∧ (UDIST nx cc.x > s.user_config.snap_distance ∨
      UDIST ny cc.y > s.user_config.snap_distance)
  · rw [if_pos h]
    obtain ⟨s1, h1, h2, h3⟩ := toggle_floating_total T s hfoc
    exact ⟨s1, h1, h2, h3, fun hf => by rw [h.1] at hf; cases hf⟩
  · rw [if_neg h]
    exact ⟨s, rfl, rfl, fun p c h => ⟨c, h⟩, fun _ => rfl⟩

/-- The `DRAG_MOVE` branch returns and leaves the snapped position in the subject. -/
theorem motion_move_spec (T : Tiler) (s : State) (e : MotionEv) (c : Ptr) (cc : Client)
    (hcc : s.heap c = some cc)
    (hfoc : ∀ f, s.focused = some f → ∃ cf, s.heap f = some cf) :
    ∃ s1 c1, motion_move T s e c = Except.ok s1 ∧ s1.heap c = some c1 ∧
      s1.last_motion_time = s.last_motion_time ∧
      c1.x = snap_axis s.user_config.snap_distance
        (s.drag_orig_x + (e.x_root - s.drag_start_x))
        (cc.w + 2 * s.user_config.border_width) s.scr_width ∧
      c1.y = snap_axis s.user_config.snap_distance
        (s.drag_orig_y + (e.y_root - s.drag_start_y))
        (cc.h + 2 * s.user_config.border_width) s.scr_height ∧
      (cc.floating = true → s1 = put s c { cc with x := c1.x, y := c1.y }) := by
  obtain ⟨nx, hnx⟩ : ∃ nx, nx = snap_axis s.user_config.snap_distance
      (s.drag_orig_x + (e.x_root - s.drag_start_x))
      (cc.w + 2 * s.user_config.border_width) s.scr_width := ⟨_, rfl⟩
  obtain ⟨ny, hny⟩ : ∃ ny, ny = snap_axis s.user_config.snap_distance
      (s.drag_orig_y + (e.y_root - s.drag_start_y))
      (cc.h + 2 * s.user_config.border_width) s.scr_height := ⟨_, rfl⟩
  obtain ⟨s1, hs1, hlm, hal, hfl⟩ := move_promote_total T s cc nx ny hfoc
  obtain ⟨c1, hc1⟩ := hal c cc hcc
  refine ⟨put s1 c { c1 with x := nx, y := ny }, { c1 with x := nx, y := ny }, ?_,
    by simp [put], hlm, hnx, hny, ?_⟩
  · simp only [motion_move, deref, hcc, bind_ok]
    rw [← hnx, ← hny, hs1, bind_ok]
    simp only [hc1, bind_ok]
  · intro hf
    have hs := hfl hf
    subst hs
    rw [hcc] at hc1
    injection hc1 with hc1
    subst hc1
    rfl

theorem motion_resize_spec (s : State) (e : MotionEv) (c : Ptr) (cc : Client)
    (hcc : s.heap c = some cc) :
    ∃ s1, motion_resize s e c = Except.ok s1 ∧
      s1.last_motion_time = s.last_motion_time := by
  refine ⟨put s c { cc with
    w := if s.drag_orig_w + (e.x_root - s.drag_start_x) < 20 then 20
      else s.drag_orig_w + (e.x_root - s.drag_start_x),
    h := if s.drag_orig_h + (e.y_root - s.drag_start_y) < 20 then 20
      else s.drag_orig_h + (e.y_root - s.drag_start_y) }, ?_, rfl⟩
  simp only [motion_resize, deref, hcc, bind_ok]

theorem find_swap_target_total (s : State) (child : Window) (l : List Ptr) (k : Link)
    (v : Option Ptr) (fuel : Nat) (h : Chain s k l none) (hv : load s k = Except.ok v)
    (hf : l.length ≤ fuel) : ∃ r, find_swap_target s child fuel v = Except.ok r := by
  induction l generalizing k v fuel with
  | nil =>
    simp only [Chain] at h
    rw [h] at hv
    injection hv with hv
    subst hv
    exact ⟨none, by cases fuel <;> rfl⟩
  | cons p l ih =>
    rw [h.1] at hv
    injection hv with hv
    subst hv
    cases fuel with
    | zero => simp at hf
    | succ f =>
      obtain ⟨e, he⟩ : ∃ e, load s (Link.next p) = Except.ok e := ⟨_, Chain_head s l _ _ h.2⟩
      obtain ⟨c, hc, hn⟩ := load_next_ok s p e he
      have hrec := ih _ _ f h.2 (by rw [← hn] at he; exact he) (by simpa using hf)
      simp only [find_swap_target, hc]
      by_cases h1 : some p = s.drag_client ∨ c.floating = true
      · rw [if_pos h1]
        exact hrec
      · rw [if_neg h1]
        by_cases h2 : c.win = child
        · rw [if_pos h2]
          exact ⟨_, rfl⟩
        · rw [if_neg h2]
          exact hrec

theorem motion_swap_total (N : Nat) (s : State) (L : Nat → List Ptr) (e : MotionEv)
    (hreg : Registry N s L) (hcur : CurOK N s) :
    ∃ s1, motion_swap N s e = Except.ok s1 ∧ s1.last_motion_time = s.last_motion_time := by
  obtain ⟨hi, hiN, -⟩ := ws_index_ok N s.current_ws hcur
  obtain ⟨r, hr⟩ := find_swap_target_total s e.child _ _ _ (s.brk + 1)
    (hreg.lists _ hiN) rfl (Nat.le_succ_of_le (Registry_length N s L hreg _ hiN))
  refine ⟨{ s with swap_target := r }, ?_, rfl⟩
  simp only [motion_swap, hi, bind_ok]
  rw [hr, bind_ok]

/-- Every branch of `drag_motion` returns on a well-formed state and leaves
`last_motion_time` alone. -/
theorem drag_motion_total (N : Nat) (T : Tiler) (s : State) (L : Nat → List Ptr)
    (e : MotionEv) (c : Ptr) (cc : Client)
    (hreg : Registry N s L) (hcur : CurOK N s) (hcc : s.heap c = some cc)
    (hfoc : ∀ f, s.focused = some f → ∃ cf, s.heap f = some cf) :
    ∃ s1, drag_motion N T s e c = Except.ok s1 ∧
      s1.last_motion_time = s.last_motion_time := by
  unfold drag_motion
  cases s.drag_mode with
  | DRAG_NONE => exact ⟨s, rfl, rfl⟩
  | DRAG_SWAP => exact motion_swap_total N s L e hreg hcur
  | DRAG_RESIZE => exact motion_resize_spec s e c cc hcc
  | DRAG_MOVE =>
    obtain ⟨s1, c1, h1, -, h2, -, -, -⟩ := motion_move_spec T s e c cc hcc hfoc
    exact ⟨s1, h1, h2⟩

theorem UDIST_abs (a b : Int) : UDIST a b = |a - b| := by
  unfold UDIST
  exact Int.natCast_natAbs _

theorem snap_axis_spec (snap n outer scr : Int) :
    (|n| ≤ snap → snap_axis snap n outer scr = 0) ∧
    (snap < |n| → |n + outer - scr| ≤ snap → snap_axis snap n outer scr + outer = scr) ∧
    (snap < |n| → snap < |n + outer - scr| → snap_axis snap n outer scr = n) := by
  unfold snap_axis
  rw [UDIST_abs, UDIST_abs, sub_zero]
  refine ⟨fun h => by rw [if_pos h], fun h1 h2 => ?_, fun h1 h2 => ?_⟩
  · rw [if_neg (not_le.2 h1), if_pos h2]
    ring
  · rw [if_neg (not_le.2 h1), if_neg (not_le.2 h2)]

theorem demo_move_registry : Registry 9 demo_move_state demo_move_lists := by
  refine ⟨?_, ?_, ?_⟩
  · intro ws _
    match ws with
    | 0 => exact ⟨rfl, rfl⟩
    | n + 1 => exact rfl
  · intro i j _ _ hij p hp
    match i, j with
    | 0, 0 => exact absurd rfl hij
    | 0, m + 1 => simp [demo_move_lists]
    | n + 1, _ => simp [demo_move_lists] at hp
  · intro p c h
    match p with
    | 0 => decide
    | n + 1 => simp [demo_move_state] at h

/-- The guard of `hdl_motion` on a state with a positive throttle rate. -/
theorem hdl_motion_guard (N : Nat) (T : Tiler) (s : State) (e : MotionEv) (c : Ptr)
    (hdc : s.drag_client = some c) (hmode : s.drag_mode ≠ DragMode.DRAG_NONE)
    (hthr : throttle_ul s ≠ 0) :
    hdl_motion N T s e =
      if motion_elapsed s e ≤ 1000 / throttle_ul s then Except.ok s
      else drag_motion N T { s with last_motion_time := long_of_ulong e.time } e c := by
  unfold hdl_motion
  simp only [hdc]
  rw [if_neg hmode, if_neg hthr]

/-- C11 as stated fails on the code: with `snap_distance = 5`, screen width 1920 and the
border width 1 of `init_defaults`, a floating 100 pixel wide window is dragged so that
`x + w` lands at 1917; the motion ends with `x = 1818`, that is `x + w = 1918`, because the
code snaps the edge of the border, `x + w + 2 * border_width`, to 1920. -/
theorem move_snap_counts_border :
    demo_move_state.drag_orig_x + ((817 : Int) - demo_move_state.drag_start_x) + 100 = 1917 ∧
    (hdl_motion 9 no_tiler demo_move_state ⟨100, 817, 0, 0⟩).toOption.bind
      (fun s => (s.heap 0).map (fun c => (c.x, c.w, c.x + c.w))) = some (1818, 100, 1918) := by
  constructor
  · decide
  · rfl

/-- C11, amended: in `DRAG_MOVE` mode a motion that passes the throttle makes `hdl_motion`
return with the subject at the position origin + pointer delta, snapped on each axis by
itself: when the left (top) edge lands within `snap_distance` of 0 the coordinate is 0;
else, when the outer right (bottom) edge, the coordinate plus the size plus twice the
border width, lands within `snap_distance` of the screen width (height), that outer edge
is exactly the screen width (height); else the coordinate is origin + delta.  A floating
subject changes in nothing but `x` and `y`. -/
theorem hdl_motion_move_snap (N : Nat) (T : Tiler) (s : State) (e : MotionEv) (c : Ptr)
    (cc : Client)
    (hmode : s.drag_mode = DragMode.DRAG_MOVE) (hdc : s.drag_client = some c)
    (hcc : s.heap c = some cc)
    (hfoc : ∀ f, s.focused = some f → ∃ cf, s.heap f = some cf)
    (hthr : throttle_ul s ≠ 0) (hpass : 1000 / throttle_ul s < motion_elapsed s e) :
    ∃ s1 c1, hdl_motion N T s e = Except.ok s1 ∧ s1.heap c = some c1 ∧
      (∀ snap nx ow, snap = s.user_config.snap_distance →
        nx = s.drag_orig_x + (e.x_root - s.drag_start_x) →
        ow = cc.w + 2 * s.user_config.border_width →
        (|nx| ≤ snap → c1.x = 0) ∧
        (snap < |nx| → |nx + ow - s.scr_width| ≤ snap → c1.x + ow = s.scr_width) ∧
        (snap < |nx| → snap < |nx + ow - s.scr_width| → c1.x = nx)) ∧
      (∀ snap ny oh, snap = s.user_config.snap_distance →
        ny = s.drag_orig_y + (e.y_root - s.drag_start_y) →
        oh = cc.h + 2 * s.user_config.border_width →
        (|ny| ≤ snap → c1.y = 0) ∧
        (snap < |ny| → |ny + oh - s.scr_height| ≤ snap → c1.y + oh = s.scr_height) ∧
        (snap < |ny| → snap < |ny + oh - s.scr_height| → c1.y = ny)) ∧
      (cc.floating = true → c1 = { cc with x := c1.x, y := c1.y }) := by
  obtain ⟨s0, hs0⟩ : ∃ s0 : State,
      s0 = { s with last_motion_time := long_of_ulong e.time } := ⟨_, rfl⟩
  have hcc0 : s0.heap c = some cc := by rw [hs0]; exact hcc
  have hfoc0 : ∀ f, s0.focused = some f → ∃ cf, s0.heap f = some cf := by
    rw [hs0]; exact hfoc
  obtain ⟨s1, c1, h1, h2, -, hx, hy, hfl⟩ := motion_move_spec T s0 e c cc hcc0 hfoc0
  refine ⟨s1, c1, ?_, h2, ?_, ?_, ?_⟩
  · rw [hdl_motion_guard N T s e c hdc (by rw [hmode]; decide) hthr,
      if_neg (Nat.not_le.2 hpass), ← hs0]
    have hm : s0.drag_mode = DragMode.DRAG_MOVE := by rw [hs0]; exact hmode
    unfold drag_motion
    rw [hm]
    exact h1
  · intro snap nx ow hsnap hnx how
    have hx0 : c1.x = snap_axis snap nx ow s.scr_width := by
      rw [hx, hsnap, hnx, how, hs0]
    rw [hx0]
    exact snap_axis_spec snap nx ow s.scr_width
  · intro snap ny oh hsnap hny hoh
    have hy0 : c1.y = snap_axis snap ny oh s.scr_height := by
      rw [hy, hsnap, hny, hoh, hs0]
    rw [hy0]
    exact snap_axis_spec snap ny oh s.scr_height
  · intro hf
    have h3 := hfl hf
    rw [h3] at h2
    simp only [put, Function.update_same] at h2
    injection h2 with h2
    rw [← h2]

/-- The example of the spec, with the border counted: `snap_distance = 5`, screen width
1920, border width 1; the outer right edge of the window lands at 1917 and ends at 1920
exactly. -/
theorem hdl_motion_move_snap_witness :
    ∃ s1 c1, hdl_motion 9 no_tiler demo_move_state ⟨100, 815, 0, 0⟩ = Except.ok s1 ∧
      s1.heap 0 = some c1 ∧ c1.x + (100 + 2 * 1) = 1920 ∧ c1.y = 500 ∧ c1.w = 100 := by
  obtain ⟨s1, c1, h1, h2, hx, hy, hfl⟩ :=
    hdl_motion_move_snap 9 no_tiler demo_move_state ⟨100, 815, 0, 0⟩ 0
      { demo_client 100 none true with floating := true } rfl rfl rfl
      (fun f hf => ⟨{ demo_client 100 none true with floating := true }, by
        injection hf with hf
        subst hf
        rfl⟩)
      (by decide) (by decide)
  refine ⟨s1, c1, h1, h2, ?_, ?_, ?_⟩
  · exact (hx 5 1815 102 rfl (by decide) (by decide)).2.1 (by decide) (by decide)
  · exact (hy 5 500 102 rfl (by decide) (by decide)).2.2 (by decide) (by decide)
  · rw [hfl rfl]
    rfl

theorem motion_elapsed_ordered (s : State) (e : MotionEv) (t0 : Nat)
    (ht0 : s.last_motion_time = t0) (hle : t0 ≤ e.time) (htime : e.time < 2 ^ 63) :
    motion_elapsed s e = e.time - t0 ∧ long_of_ulong e.time = e.time := by
  constructor
  · unfold motion_elapsed
    rw [ht0]
    omega
  · unfold long_of_ulong
    rw [if_pos htime]

theorem throttle_ul_pos (s : State) (hz : Nat) (hhz : s.user_config.motion_throttle = hz)
    (hlt : hz < 2 ^ 64) : throttle_ul s = hz := by
  unfold throttle_ul
  rw [hhz]
  omega

/-- C12 as stated fails on the code.  With `last_motion_time = 500` and the default rate 60,
an event with time 100 is processed and its time recorded, although `100 - 500` is not
greater than `1000 / 60`: the code takes the difference in `unsigned long`.  With the rate
`-60` and `last_motion_time = 100`, an event with time 100 leaves the state unchanged,
although `100 - 100` is greater than `1000 / -60 = -16`: the code converts the rate to
`unsigned long`, and the quotient is 0. -/
theorem motion_time_difference_unsigned :
    (hdl_motion 9 no_tiler { demo_move_state with last_motion_time := 500 }
        ⟨100, 815, 0, 0⟩).toOption.map (fun s => s.last_motion_time) = some 100 ∧
    ¬ ((100 : Int) - 500 > Int.tdiv 1000 60) ∧
    hdl_motion 9 no_tiler
        { demo_move_state with
          user_config := { demo_config with motion_throttle := -60 }
          last_motion_time := 100 } ⟨100, 815, 0, 0⟩ =
      Except.ok
        { demo_move_state with
          user_config := { demo_config with motion_throttle := -60 }
          last_motion_time := 100 } ∧
    (100 : Int) - 100 > Int.tdiv 1000 (-60) := by
  refine ⟨rfl, by decide, rfl, by decide⟩

/-- The time that `hdl_motion` records differs from `last_motion_time` whenever the
difference taken in `unsigned long` is not 0. -/
theorem long_of_ulong_ne (s : State) (e : MotionEv) (h : 0 < motion_elapsed s e) :
    long_of_ulong e.time ≠ s.last_motion_time := by
  intro heq
  unfold motion_elapsed at h
  unfold long_of_ulong at heq
  split at heq <;> omega

/-- C12, amended: without a drag session `hdl_motion` returns the state unchanged.  With
one, on a well-formed state, the division by the rate 0 is undefined; for every other rate
`hdl_motion` returns, and the event is processed exactly when `e->time -
last_motion_time`, the difference taken in `unsigned long`, is greater than `1000 /
motion_throttle`, the rate converted to `unsigned long`: then the branch of the drag mode
runs on the state that holds the event's time in `last_motion_time`, and that time is
there afterwards, another one than before; otherwise the whole state is unchanged.  The
difference is the plain one when `last_motion_time` is not after the event's time, and
`2 ^ 64` minus the distance when it is; the quotient is the plain one for a positive rate
and 0 for a negative one. -/
theorem hdl_motion_throttle (N : Nat) (T : Tiler) (s : State) (L : Nat → List Ptr)
    (e : MotionEv)
    (hreg : Registry N s L) (hcur : CurOK N s)
    (hdrag : ∀ c, s.drag_client = some c → ∃ cc, s.heap c = some cc)
    (hfoc : ∀ f, s.focused = some f → ∃ cf, s.heap f = some cf) :
    (s.drag_mode = DragMode.DRAG_NONE ∨ s.drag_client = none →
      hdl_motion N T s e = Except.ok s) ∧
    (∀ c, s.drag_mode ≠ DragMode.DRAG_NONE → s.drag_client = some c →
      (throttle_ul s = 0 → hdl_motion N T s e = Except.error Fault.div_zero) ∧
      (throttle_ul s ≠ 0 →
        ∃ s1, hdl_motion N T s e = Except.ok s1 ∧
          (motion_elapsed s e ≤ 1000 / throttle_ul s → s1 = s) ∧
          (1000 / throttle_ul s < motion_elapsed s e →
            drag_motion N T { s with last_motion_time := long_of_ulong e.time } e c =
              Except.ok s1 ∧
            s1.last_motion_time = long_of_ulong e.time) ∧
          (s1.last_motion_time ≠ s.last_motion_time ↔
            1000 / throttle_ul s < motion_elapsed s e))) ∧
    (∀ t0 : Nat, s.last_motion_time = t0 → t0 ≤ e.time → e.time < 2 ^ 64 →
      motion_elapsed s e = e.time - t0) ∧
    (∀ t0 : Nat, s.last_motion_time = t0 → e.time < t0 → t0 < 2 ^ 63 →
      motion_elapsed s e = 2 ^ 64 - (t0 - e.time)) ∧
    (e.time < 2 ^ 63 → long_of_ulong e.time = e.time) ∧
    (∀ hz : Nat, s.user_config.motion_throttle = hz → hz < 2 ^ 64 → throttle_ul s = hz) ∧
    (∀ hz : Nat, s.user_config.motion_throttle = -(hz : Int) → 0 < hz → hz ≤ 2 ^ 31 →
      throttle_ul s = 2 ^ 64 - hz ∧ 1000 / throttle_ul s = 0) := by
  refine ⟨?_, ?_, ?_, ?_, ?_, ?_, ?_⟩
  · rintro (h | h)
    · unfold hdl_motion
      cases s.drag_client with
      | none => rfl
      | some c => simp only [if_pos h]
    · unfold hdl_motion
      rw [h]
  · intro c hmode hdc
    constructor
    · intro ht
      unfold hdl_motion
      simp only [hdc]
      rw [if_neg hmode, if_pos ht]
    · intro hthr
      have hg := hdl_motion_guard N T s e c hdc hmode hthr
      by_cases hel : motion_elapsed s e ≤ 1000 / throttle_ul s
      · rw [if_pos hel] at hg
        exact ⟨s, hg, fun _ => rfl, fun hp => absurd hp (Nat.not_lt.2 hel),
          ⟨fun h => absurd rfl h, fun hp => absurd hp (Nat.not_lt.2 hel)⟩⟩
      · rw [if_neg hel] at hg
        obtain ⟨cc, hcc⟩ := hdrag c hdc
        obtain ⟨s0, hs0⟩ : ∃ s0 : State,
            s0 = { s with last_motion_time := long_of_ulong e.time } := ⟨_, rfl⟩
        have hreg0 : Registry N s0 L := by
          rw [hs0]
          exact Registry_congr N s _ L hreg (fun k => by cases k <;> rfl) rfl
        have hcur0 : CurOK N s0 := by rw [hs0]; exact hcur
        have hcc0 : s0.heap c = some cc := by rw [hs0]; exact hcc
        have hfoc0 : ∀ f, s0.focused = some f → ∃ cf, s0.heap f = some cf := by
          rw [hs0]; exact hfoc
        obtain ⟨s1, h1, hlm⟩ := drag_motion_total N T s0 L e c cc hreg0 hcur0 hcc0 hfoc0
        have hlm1 : s1.last_motion_time = long_of_ulong e.time := by
          rw [hlm, hs0]
        have hpos : 0 < motion_elapsed s e :=
          Nat.lt_of_le_of_lt (Nat.zero_le _) (Nat.not_le.1 hel)
        rw [← hs0] at hg
        refine ⟨s1, by rw [hg, h1], fun h => absurd h hel, ?_, ?_⟩
        · intro _
          rw [← hs0]
          exact ⟨h1, hlm1⟩
        · refine ⟨fun _ => Nat.not_le.1 hel, fun _ => ?_⟩
          rw [hlm1]
          exact long_of_ulong_ne s e hpos
  · intro t0 ht0 hle hlt
    unfold motion_elapsed
    rw [ht0]
    omega
  · intro t0 ht0 hlt h63
    unfold motion_elapsed
    rw [ht0]
    omega
  · intro h
    unfold long_of_ulong
    rw [if_pos h]
  · intro hz hhz hlt
    exact throttle_ul_pos s hz hhz hlt
  · intro hz hhz hpos hle
    have h1 : throttle_ul s = 2 ^ 64 - hz := by
      unfold throttle_ul
      rw [hhz]
      omega
    refine ⟨h1, ?_⟩
    rw [h1]
    apply Nat.div_eq_of_lt
    omega

/-- In a `DRAG_MOVE` session with the rate 60: a motion 100 ms after the last processed
one is processed and its time recorded; one 16 ms after it (`1000 / 60 = 16`) leaves the
state unchanged; and one with a time 400 ms before `last_motion_time` is processed, the
difference being `2 ^ 64 - 400`. -/
theorem hdl_motion_throttle_witness :
    (∃ s1, hdl_motion 9 no_tiler demo_move_state ⟨100, 815, 0, 0⟩ = Except.ok s1 ∧
      s1.last_motion_time = 100) ∧
    hdl_motion 9 no_tiler demo_move_state ⟨16, 815, 0, 0⟩ = Except.ok demo_move_state ∧
    (∃ s1, hdl_motion 9 no_tiler { demo_move_state with last_motion_time := 500 }
        ⟨100, 815, 0, 0⟩ = Except.ok s1 ∧ s1.last_motion_time = 100) := by
  have hfoc : ∀ f, demo_move_state.focused = some f → ∃ cf, demo_move_state.heap f = some cf :=
    fun f hf => ⟨{ demo_client 100 none true with floating := true }, by
      injection hf with hf
      subst hf
      rfl⟩
  have hcur : CurOK 9 demo_move_state := by simp [CurOK, demo_move_state, init]
  have hthr : throttle_ul demo_move_state = 60 := by decide
  refine ⟨?_, ?_, ?_⟩
  · obtain ⟨-, h, h0, -⟩ := hdl_motion_throttle 9 no_tiler demo_move_state demo_move_lists
      ⟨100, 815, 0, 0⟩ demo_move_registry hcur hfoc hfoc
    obtain ⟨s1, h1, -, h2, -⟩ := (h 0 (by decide) rfl).2 (by rw [hthr]; decide)
    have hel := h0 0 rfl (by decide) (by decide)
    exact ⟨s1, h1, (h2 (by rw [hthr, hel]; decide)).2⟩
  · obtain ⟨-, h, h0, -⟩ := hdl_motion_throttle 9 no_tiler demo_move_state demo_move_lists
      ⟨16, 815, 0, 0⟩ demo_move_registry hcur hfoc hfoc
    obtain ⟨s1, h1, h2, -⟩ := (h 0 (by decide) rfl).2 (by rw [hthr]; decide)
    have hel := h0 0 rfl (by decide) (by decide)
    rw [h1, h2 (by rw [hthr, hel]; decide)]
  · have hreg : Registry 9 { demo_move_state with last_motion_time := 500 } demo_move_lists :=
      Registry_congr 9 demo_move_state _ demo_move_lists demo_move_registry
        (fun k => by cases k <;> rfl) rfl
    obtain ⟨-, h, -, h0, -⟩ := hdl_motion_throttle 9 no_tiler
      { demo_move_state with last_motion_time := 500 } demo_move_lists
      ⟨100, 815, 0, 0⟩ hreg hcur hfoc hfoc
    obtain ⟨s1, h1, -, h2, -⟩ := (h 0 (by decide) rfl).2 (by
      have : throttle_ul { demo_move_state with last_motion_time := 500 } = 60 := hthr
      rw [this]; decide)
    have hel := h0 500 rfl (by decide) (by decide)
    have hthr2 : throttle_ul { demo_move_state with last_motion_time := 500 } = 60 := hthr
    exact ⟨s1, h1, (h2 (by rw [hthr2, hel]; decide)).2⟩

theorem find_on_mon_spec (s : State) (t : Int) (l : List Ptr) (k : Link) (v : Option Ptr)
    (fuel : Nat) (h : Chain s k l none) (hv : load s k = Except.ok v) (hf : l.length ≤ fuel) :
    find_on_mon s t fuel v = Except.ok (l.find? (on_mon s t)) := by
  induction l generalizing k v fuel with
  | nil =>
    simp only [Chain] at h
    rw [h] at hv
    injection hv with hv
    subst hv
    cases fuel <;> rfl
  | cons p l ih =>
    rw [h.1] at hv
    injection hv with hv
    subst hv
    cases fuel with
    | zero => simp at hf
    | succ f =>
      obtain ⟨e, he⟩ : ∃ e, load s (Link.next p) = Except.ok e := ⟨_, Chain_head s l _ _ h.2⟩
      obtain ⟨c, hc, hn⟩ := load_next_ok s p e he
      simp only [find_on_mon, hc]
      by_cases hw : c.mon = t ∧ c.mapped = true ∧ c.fullscreen = false
      · rw [if_pos hw]
        simp [List.find?, on_mon, hc, hw.1, hw.2.1, hw.2.2]
      · rw [if_neg hw, ih _ _ f h.2 (by rw [← hn] at he; exact he) (by simpa using hf)]
        have : on_mon s t p = false := by
          simp only [on_mon, hc]
          by_contra hx
          apply hw
          simpa using hx
        simp [List.find?, this]

theorem mon_at_ok (s : State) (i : Int) (h0 : 0 ≤ i) (h1 : i < monsn s) :
    ∃ m, mon_at s i = Except.ok m := by
  unfold mon_at
  rw [if_pos h0]
  have hlt : i.toNat < s.mons.length := by
    unfold monsn at h1
    omega
  rw [List.get?_eq_get hlt]
  exact ⟨_, rfl⟩

/-- The common body of `focus_next_mon` and `focus_prev_mon` on a registry, for a step
that lands on a monitor. -/
theorem focus_mon_spec (N : Nat) (s : State) (L : Nat → List Ptr) (step : Int → Int)
    (m : Int) (hreg : Registry N s L) (hcur : CurOK N s)
    (hm : (∃ f cf, s.focused = some f ∧ s.heap f = some cf ∧ cf.mon = m) ∨
      (s.focused = none ∧ s.current_monitor = m))
    (hmany : 1 < monsn s) (h0 : 0 ≤ step m) (h1 : step m < monsn s) :
    ∃ s1, focus_mon N s step = Except.ok s1 ∧
      (∀ c, (L s.current_ws.toNat).find? (on_mon s (step m)) = some c →
        s1 = { s with focused := some c, current_monitor := step m }) ∧
      ((L s.current_ws.toNat).find? (on_mon s (step m)) = none →
        s1 = { s with current_monitor := step m }) := by
  obtain ⟨hi, hiN, -⟩ := ws_index_ok N s.current_ws hcur
  have hfm : focused_mon s = Except.ok m := by
    unfold focused_mon
    rcases hm with ⟨f, cf, hf, hcf, hmon⟩ | ⟨hf, hmon⟩
    · simp only [hf, deref, hcf, bind_ok]
      rw [hmon]
    · simp only [hf]
      rw [hmon]
  have hfind := find_on_mon_spec s (step m) _ _ _ (s.brk + 1) (hreg.lists _ hiN) rfl
    (Nat.le_succ_of_le (Registry_length N s L hreg _ hiN))
  obtain ⟨mm, hmm⟩ := mon_at_ok s (step m) h0 h1
  unfold focus_mon
  rw [if_neg (not_le.2 hmany), hfm, bind_ok]
  simp only [hi, bind_ok]
  rw [hfind, bind_ok]
  cases hr : (L s.current_ws.toNat).find? (on_mon s (step m)) with
  | some c =>
    refine ⟨_, rfl, fun c1 hc1 => ?_, fun h => by cases h⟩
    injection hc1 with hc1
    rw [hc1]
  | none =>
    rw [hmm, bind_ok]
    exact ⟨_, rfl, fun c1 hc1 => (by cases hc1), fun _ => rfl⟩

/-- C13: with at most one monitor `focus_next_mon` changes nothing.  With more than one,
on a registry and for `m` the monitor of the focused client (`current_monitor` when
nothing is focused), it returns with `current_monitor = (m + 1) mod monitor_count`; the
first client of the active workspace's list that is on that monitor, mapped and not
fullscreen becomes `focused`, and when there is none `focused` is left as it was. -/
theorem focus_next_mon_spec (N : Nat) (s : State) (L : Nat → List Ptr) (m : Int)
    (hreg : Registry N s L) (hcur : CurOK N s)
    (hm : (∃ f cf, s.focused = some f ∧ s.heap f = some cf ∧ cf.mon = m) ∨
      (s.focused = none ∧ s.current_monitor = m))
    (hm0 : 0 ≤ m) :
    (monsn s ≤ 1 → focus_next_mon N s = Except.ok s) ∧
    (1 < monsn s →
      ∃ s1, focus_next_mon N s = Except.ok s1 ∧
        s1.current_monitor = (m + 1) % monsn s ∧
        (∀ c, (L s.current_ws.toNat).find? (on_mon s ((m + 1) % monsn s)) = some c →
          s1 = { s with focused := some c, current_monitor := (m + 1) % monsn s }) ∧
        ((L s.current_ws.toNat).find? (on_mon s ((m + 1) % monsn s)) = none →
          s1 = { s with current_monitor := (m + 1) % monsn s })) := by
  constructor
  · intro h
    unfold focus_next_mon focus_mon
    rw [if_pos h]
  · intro hmany
    have hstep : Int.tmod (m + 1) (monsn s) = (m + 1) % monsn s :=
      Int.tmod_eq_emod (by omega) (by omega)
    have h0 : 0 ≤ (m + 1) % monsn s := Int.emod_nonneg _ (by omega)
    have h1 : (m + 1) % monsn s < monsn s := Int.emod_lt_of_pos _ (by omega)
    obtain ⟨s1, hs1, hsome, hnone⟩ := focus_mon_spec N s L
      (fun current_mon => Int.tmod (current_mon + 1) (monsn s)) m hreg hcur hm hmany
      (by simp only [hstep]; exact h0) (by simp only [hstep]; exact h1)
    simp only [hstep] at hsome hnone
    refine ⟨s1, hs1, ?_, hsome, hnone⟩
    cases hr : (L s.current_ws.toNat).find? (on_mon s ((m + 1) % monsn s)) with
    | some c => rw [hsome c hr]
    | none => rw [hnone hr]

theorem demo_two_mons_registry : Registry 9 demo_two_mons demo_lists :=
  Registry_congr 9 demo_state demo_two_mons demo_lists demo_registry
    (fun k => by cases k <;> rfl) rfl

/-- The example of the spec: two monitors, all clients on monitor 0, A focused;
`focus_next_mon` moves `current_monitor` to 1 and leaves `focused` on A. -/
theorem focus_next_mon_spec_witness :
    focus_next_mon 9 demo_two_mons = Except.ok { demo_two_mons with current_monitor := 1 } ∧
    ({ demo_two_mons with current_monitor := 1 } : State).focused = demo_two_mons.focused := by
  obtain ⟨s1, h1, -, -, h2⟩ :=
    (focus_next_mon_spec 9 demo_two_mons demo_lists 0 demo_two_mons_registry
      (by simp [CurOK, demo_two_mons, demo_state, init])
      (Or.inl ⟨0, demo_client 100 (some 1) true, rfl, rfl, rfl⟩) (by decide)).2 (by decide)
  refine ⟨?_, rfl⟩
  rw [h1, h2 (by decide)]
  rfl

theorem getLast_cons_or (p : Ptr) (la : List Ptr) (prev : Option Ptr) :
    ((p :: la).getLast?).or prev = (la.getLast?).or (some p) := by
  cases la with
  | nil => rfl
  | cons r la =>
    rw [List.getLast?_cons_cons]
    obtain ⟨q, hq⟩ : ∃ q, (r :: la).getLast? = some q :=
      ⟨(r :: la).getLast (by simp), List.getLast?_eq_getLast _ _⟩
    rw [hq]
    rfl

/-- The search of `focus_prev` for the client before `c`: the last client in front of `c`,
or the initial `prev` when `c` is the first. -/
theorem find_prev_spec (s : State) (c : Ptr) (la lb : List Ptr) (k : Link) (v : Option Ptr)
    (fuel : Nat) (prev e : Option Ptr) (h : Chain s k (la ++ c :: lb) e) (hc : c ∉ la)
    (hv : load s k = Except.ok v) (hf : la.length < fuel) :
    find_prev s c fuel prev v = Except.ok ((la.getLast?).or prev) := by
  induction la generalizing k v fuel prev with
  | nil =>
    have h1 : load s k = Except.ok (some c) := h.1
    rw [h1] at hv
    injection hv with hv
    subst hv
    cases fuel with
    | zero => simp at hf
    | succ f =>
      simp only [find_prev]
      rw [if_pos trivial]
      rfl
  | cons p la ih =>
    have h1 : load s k = Except.ok (some p) := h.1
    rw [h1] at hv
    injection hv with hv
    subst hv
    have hpc : p ≠ c := fun hx => hc (by rw [hx]; simp)
    cases fuel with
    | zero => simp at hf
    | succ f =>
      obtain ⟨e1, he1⟩ : ∃ e1, load s (Link.next p) = Except.ok e1 :=
        ⟨_, Chain_head s _ _ _ h.2⟩
      obtain ⟨cp, hcp, hn⟩ := load_next_ok s p e1 he1
      simp only [find_prev]
      rw [if_neg hpc]
      simp only [hcp]
      rw [ih (Link.next p) cp.next f (some p) h.2 (fun hx => hc (List.mem_cons_of_mem _ hx))
        (by rw [hn]; exact he1) (by simpa using hf)]
      rw [getLast_cons_or]

/-- The body of the loop of `focus_prev` on a list: the client before `c`, and the tail of
the list when `c` is its head. -/
theorem prev_or_tail_spec (s : State) (i : Nat) (la : List Ptr) (c : Ptr) (lb : List Ptr)
    (hd : Ptr) (hb : ∀ p c, s.heap p = some c → p < s.brk)
    (h : Chain s (Link.head i) (la ++ c :: lb) none) (hhd : s.workspaces i = some hd) :
    prev_or_tail s hd c = Except.ok ((la.getLast?).getD ((lb.getLast?).getD c)) := by
  have hn := Chain_nodup s _ _ h
  have hlen := Chain_length s _ _ h hb
  have hc : c ∉ la := by
    simp only [List.nodup_append, List.nodup_cons] at hn
    intro hx
    exact hn.2.2 hx (by simp)
  have hv : load s (Link.head i) = Except.ok (some hd) := by simp [load, hhd]
  have hfp := find_prev_spec s c la lb _ _ (s.brk + 1) none none h hc hv
    (by simp at hlen; omega)
  unfold prev_or_tail
  rw [hfp, bind_ok]
  cases hla : la.getLast? with
  | some q => rfl
  | none =>
    have hnil : la = [] := List.getLast?_eq_none_iff.1 hla
    subst hnil
    have hx : hd = c := by
      have h1 : load s (Link.head i) = Except.ok (some c) := h.1
      rw [hv] at h1
      injection h1 with h1
      injection h1
    subst hx
    obtain ⟨q, hq, hlink⟩ := find_tail_spec s lb hd (s.brk + 1) h.2
      (by simp at hlen; omega)
    rw [link_after_getLast] at hlink
    show find_tail s (s.brk + 1) hd = _
    rw [hq]
    cases hlb : lb.getLast? with
    | none =>
      rw [hlb] at hlink
      injection hlink with hlink
      rw [hlink]
      rfl
    | some t =>
      rw [hlb] at hlink
      injection hlink with hlink
      rw [hlink]
      rfl

theorem Back_append (s : State) (hd : Ptr) (x y : List Ptr) (c : Ptr) :
    Back s hd c (x ++ y) ↔ Back s hd c x ∧ Back s hd ((x.getLast?).getD c) y := by
  induction x generalizing c with
  | nil => simp [Back]
  | cons a x ih =>
    have : ((a :: x).getLast?).getD c = (x.getLast?).getD a := by
      cases x with
      | nil => rfl
      | cons r x =>
        rw [List.getLast?_cons_cons]
        obtain ⟨q, hq⟩ : ∃ q, (r :: x).getLast? = some q :=
          ⟨(r :: x).getLast (by simp), List.getLast?_eq_getLast _ _⟩
        rw [hq]
        rfl
    rw [List.cons_append, this]
    simp only [Back]
    rw [ih, and_assoc]

/-- Walking back from `c` visits the clients in front of `c`, last one first. -/
theorem Back_left (s : State) (i : Nat) (hd : Ptr)
    (hb : ∀ p c, s.heap p = some c → p < s.brk) (hhd : s.workspaces i = some hd)
    (la : List Ptr) (c : Ptr) (lb : List Ptr)
    (h : Chain s (Link.head i) (la ++ c :: lb) none) : Back s hd c la.reverse := by
  induction la using List.reverseRecOn generalizing c lb with
  | nil => trivial
  | append_singleton la q ih =>
    rw [List.reverse_append]
    simp only [List.reverse_cons, List.reverse_nil, List.nil_append, List.singleton_append]
    refine ⟨?_, ?_⟩
    · rw [prev_or_tail_spec s i (la ++ [q]) c lb hd hb h hhd]
      simp
    · apply ih q (c :: lb)
      simpa using h

/-- The walk of `focus_prev` from `start`: back to the head, on from the tail, and up to
`start` itself. -/
theorem Back_round (s : State) (i : Nat) (hd : Ptr)
    (hb : ∀ p c, s.heap p = some c → p < s.brk) (hhd : s.workspaces i = some hd)
    (l1 : List Ptr) (start : Ptr) (l2 : List Ptr)
    (h : Chain s (Link.head i) (l1 ++ start :: l2) none) :
    Back s hd start (l1.reverse ++ (l2.reverse ++ [start])) := by
  rw [Back_append]
  refine ⟨Back_left s i hd hb hhd l1 start l2 h, ?_⟩
  -- the head of the list
  have hhead : ((l1.reverse).getLast?).getD start = hd := by
    have h1 := Chain_head s _ _ _ h
    simp only [load, hhd] at h1
    injection h1 with h1
    cases l1 with
    | nil =>
      simp at h1
      simp [h1]
    | cons a l1 =>
      simp at h1
      simp [h1]
  rw [hhead]
  -- the list seen from its head
  obtain ⟨lt, hlt⟩ : ∃ lt, l1 ++ start :: l2 = hd :: lt := by
    cases l1 with
    | nil =>
      simp at hhead
      exact ⟨l2, by simp [hhead]⟩
    | cons a l1 =>
      simp at hhead
      exact ⟨l1 ++ start :: l2, by simp [hhead]⟩
  have hwrap : prev_or_tail s hd hd = Except.ok ((lt.getLast?).getD hd) := by
    have h0 : Chain s (Link.head i) ([] ++ hd :: lt) none := by
      rw [List.nil_append, ← hlt]
      exact h
    exact prev_or_tail_spec s i [] hd lt hd hb h0 hhd
  induction l2 using List.reverseRecOn with
  | nil =>
    simp only [List.reverse_nil, List.nil_append]
    refine ⟨?_, trivial⟩
    rw [hwrap]
    have : (hd :: lt).getLast? = some start := by
      rw [← hlt]
      simp
    cases lt with
    | nil =>
      simp at this
      simp [this]
    | cons r lt =>
      rw [List.getLast?_cons_cons] at this
      rw [this]
      rfl
  | append_singleton l2 t _ =>
    rw [List.reverse_append]
    simp only [List.reverse_cons, List.reverse_nil, List.nil_append, List.singleton_append,
      List.cons_append]
    refine ⟨?_, ?_⟩
    · rw [hwrap]
      have : (hd :: lt).getLast? = some t := by
        have hre : l1 ++ start :: (l2 ++ [t]) = (l1 ++ start :: l2) ++ [t] := by simp
        rw [← hlt, hre, List.getLast?_concat]
      cases lt with
      | nil =>
        simp at this
        simp [this]
      | cons r lt =>
        rw [List.getLast?_cons_cons] at this
        rw [this]
        rfl
    · have h2 : Chain s (Link.head i) ((l1 ++ start :: l2) ++ t :: []) none := by
        simpa using h
      have h3 := Back_left s i hd hb hhd (l1 ++ start :: l2) t [] h2
      rw [List.reverse_append, List.reverse_cons] at h3
      exact ((Back_append s hd _ _ t).1 h3).1

/-- The do-while loop of `focus_prev` along a walk that ends at `start`: it stops at the
first mapped client, or else at `start`. -/
theorem focus_prev_loop_spec (s : State) (hd start : Ptr) (rest : List Ptr) (c : Ptr)
    (fuel : Nat) (hst : Back s hd c rest)
    (hne : ∀ x ∈ rest.dropLast, x ≠ start) (hlast : rest.getLast? = some start)
    (hal : ∀ x ∈ rest, ∃ cx, s.heap x = some cx) (hf : rest.length ≤ fuel) :
    focus_prev_loop s hd start fuel c =
      Except.ok ((rest.find? (mapped_at s)).getD start) := by
  induction rest generalizing c fuel with
  | nil => simp at hlast
  | cons c1 rest ih =>
    cases fuel with
    | zero => simp at hf
    | succ f =>
      obtain ⟨hstep, hst2⟩ := hst
      obtain ⟨cc1, hcc1⟩ := hal c1 (by simp)
      have hm : mapped_at s c1 = cc1.mapped := by simp [mapped_at, hcc1]
      unfold focus_prev_loop
      rw [hstep, bind_ok]
      simp only [deref, hcc1, bind_ok]
      by_cases hcont : cc1.mapped = false ∧ c1 ≠ start
      · rw [if_pos hcont]
        have hrest : rest ≠ [] := by
          rintro rfl
          simp at hlast
          exact hcont.2 hlast
        rw [ih c1 f hst2]
        · simp [List.find?, hm, hcont.1]
        · intro x hx
          apply hne
          rw [List.dropLast_cons_of_ne_nil hrest]
          exact List.mem_cons_of_mem _ hx
        · cases rest with
          | nil => exact absurd rfl hrest
          | cons r rest => simpa [List.getLast?_cons_cons] using hlast
        · intro x hx; exact hal x (List.mem_cons_of_mem _ hx)
        · simpa using hf
      · rw [if_neg hcont]
        by_cases hmp : cc1.mapped = true
        · simp [List.find?, hm, hmp]
        · have hc1 : c1 = start := by
            by_contra hx
            exact hcont ⟨by simpa using hmp, hx⟩
          have hrest : rest = [] := by
            by_contra hr
            apply hne c1 _ hc1
            rw [List.dropLast_cons_of_ne_nil hr]
            simp
          subst hrest
          have hmf : mapped_at s c1 = false := by rw [hm]; simpa using hmp
          subst hc1
          simp [List.find?, hmf]

/-- C14: on a non-empty active workspace whose walk starts at the focused client (at the
head when nothing is focused), `focus_prev` returns; it walks backward from the client
before the start, from the head on to the tail, and up to the start itself, and sets
`focused` (and `current_monitor`) to the first mapped client on that walk; when the walk
is back at the start and has met no mapped client, the state is unchanged. -/
theorem focus_prev_spec (N : Nat) (s : State) (i : Nat) (l1 : List Ptr) (start : Ptr)
    (l2 : List Ptr)
    (hws : ws_index N s.current_ws = Except.ok i)
    (hb : ∀ p c, s.heap p = some c → p < s.brk)
    (h : Chain s (Link.head i) (l1 ++ start :: l2) none)
    (hstart : s.focused = some start ∨ (s.focused = none ∧ l1 = [])) :
    ∃ s1, focus_prev N s = Except.ok s1 ∧
      (∀ c, (l1.reverse ++ (l2.reverse ++ [start])).find? (mapped_at s) = some c →
        ∃ cc, s.heap c = some cc ∧
          s1 = { s with focused := some c, current_monitor := cc.mon }) ∧
      ((l1.reverse ++ (l2.reverse ++ [start])).find? (mapped_at s) = none → s1 = s) := by
  have hn := Chain_nodup s _ _ h
  have hlen := Chain_length s _ _ h hb
  have hall := Chain_allocated s _ _ _ h
  -- the head of the list
  obtain ⟨hd, hhd, hfirst⟩ : ∃ hd, s.workspaces i = some hd ∧ (l1 = [] → hd = start) := by
    have h1 := Chain_head s _ _ _ h
    simp only [load] at h1
    injection h1 with h1
    cases l1 with
    | nil => exact ⟨start, by simpa using h1, fun _ => rfl⟩
    | cons a l1 => exact ⟨a, by simpa using h1, by simp⟩
  have hstart2 : (match s.focused with
      | some f => f
      | none => hd) = start := by
    rcases hstart with hf | ⟨hf, hl⟩
    · rw [hf]
    · rw [hf]; exact hfirst hl
  have hmem : ∀ x, x ∈ l1.reverse ++ (l2.reverse ++ [start]) → x ∈ l1 ++ start :: l2 := by
    intro x hx
    simp at hx ⊢
    tauto
  have hloop := focus_prev_loop_spec s hd start (l1.reverse ++ (l2.reverse ++ [start])) start
    (s.brk + 1) (Back_round s i hd hb hhd l1 start l2 h)
    (by
      rw [← List.append_assoc, List.dropLast_concat]
      intro x hx hxs
      subst hxs
      simp only [List.nodup_append, List.nodup_cons] at hn
      rcases List.mem_append.1 hx with hx | hx
      · exact hn.2.2 (List.mem_reverse.1 hx) (by simp)
      · exact hn.2.1.1 (List.mem_reverse.1 hx))
    (by rw [← List.append_assoc, List.getLast?_concat])
    (fun x hx => hall x (hmem x hx))
    (by simp at hlen ⊢; omega)
  obtain ⟨cs, hcs⟩ := hall start (by simp)
  cases hfind : (l1.reverse ++ (l2.reverse ++ [start])).find? (mapped_at s) with
  | none =>
    rw [hfind] at hloop
    have hms : mapped_at s start = false := by
      have := List.find?_eq_none.1 hfind start (by simp)
      simpa using this
    have hcm : cs.mapped = false := by simpa [mapped_at, hcs] using hms
    refine ⟨s, ?_, by simp, fun _ => rfl⟩
    simp [focus_prev, hws, hhd, hstart2, hloop, bind, Except.bind, deref, hcs, hcm]
  | some c =>
    rw [hfind] at hloop
    have hcm := List.find?_some hfind
    obtain ⟨cc, hcc⟩ := hall c (hmem c (List.mem_of_find?_eq_some hfind))
    have hcm2 : cc.mapped = true := by simpa [mapped_at, hcc] using hcm
    refine ⟨{ s with focused := some c, current_monitor := cc.mon }, ?_, ?_, by simp⟩
    · simp [focus_prev, hws, hhd, hstart2, hloop, bind, Except.bind, deref, hcc, hcm2]
    · intro c1 hc1
      injection hc1 with hc1
      subst hc1
      exact ⟨cc, hcc, rfl⟩

/-- With clients A (mapped), B (unmapped), C (mapped) and A focused, `focus_prev` wraps
from the head to the tail and focuses C. -/
theorem focus_prev_spec_witness :
    ∃ s1, focus_prev 9 demo_state = Except.ok s1 ∧ s1.focused = some 2 := by
  obtain ⟨s1, h1, h2, -⟩ :=
    focus_prev_spec 9 demo_state 0 [] 0 [1, 2] rfl demo_below_brk demo_chain (Or.inl rfl)
  obtain ⟨cc, -, hs⟩ := h2 2 (by decide)
  exact ⟨s1, h1, by rw [hs]⟩

theorem heap_tile_fields (T : Tiler) (s : State) (p : Ptr) (c : Client)
    (h : s.heap p = some c) :
    ∃ c1, (tile T s).heap p = some c1 ∧ c1.floating = c.floating ∧ c1.fixed = c.fixed := by
  simp only [tile, h]
  cases T s p <;> exact ⟨_, rfl, rfl, rfl⟩

/-- The promotion step of `hdl_button` for the client `c` under the pointer: it returns,
and `c` is floating afterwards exactly when it was before or the step applied. -/
theorem press_float_eval (T : Tiler) (s : State) (e : ButtonEv) (c : Ptr) (cc : Client)
    (hcc : s.heap c = some cc) :
    ∃ sa ca, press_float T s e c cc = Except.ok sa ∧ sa.heap c = some ca ∧
      ca.fixed = cc.fixed ∧
      (ca.floating = true ↔ cc.floating = true ∨
        (e.state &&& s.user_config.modkey ≠ 0 ∧ (e.button = Button1 ∨ e.button = Button3))) ∧
      sa.user_config = s.user_config ∧ sa.drag_mode = s.drag_mode := by
  unfold press_float
  by_cases h : e.state &&& s.user_config.modkey ≠ 0 ∧ (e.button = Button1 ∨ e.button = Button3) ∧
      cc.floating = false
  · rw [if_pos h]
    obtain ⟨c1, hc1, hfl, hfx⟩ := heap_tile_fields T
      (put { s with focused := some c } c { cc with floating := !cc.floating }) c
      { cc with floating := !cc.floating } (by simp [put])
    refine ⟨_, c1, ?_, hc1, hfx, ?_, rfl, rfl⟩
    · simp only [toggle_floating, deref, hcc, bind_ok]
    · rw [hfl]
      simp [h.1, h.2.1, h.2.2]
  · rw [if_neg h]
    refine ⟨s, cc, rfl, hcc, rfl, ?_, rfl, rfl⟩
    constructor
    · exact fun hf => Or.inl hf
    · rintro (hf | ⟨h1, h2⟩)
      · exact hf
      · by_contra hx
        exact h ⟨h1, h2, by simpa using hx⟩

/-- C15 as stated fails on the code: the client A of `demo_state` is not floating; a press
of the primary button on it with only the modifier held makes it floating and enters
`DRAG_MOVE`. -/
theorem press_promotes_tiled_client :
    (demo_state.heap 0).map Client.floating = some false ∧
    (hdl_button 9 no_tiler demo_state ⟨100, 64, 1, 10, 10⟩).toOption.map
        (fun s => (s.drag_mode, s.drag_client, (s.heap 0).map Client.floating)) =
      some (DragMode.DRAG_MOVE, some 0, some true) :=
  ⟨rfl, rfl⟩

/-- C15, amended: a button press over the window of a client `c` of the active workspace,
with no drag session open, makes `hdl_button` return, and
* `DRAG_SWAP` is entered exactly when the modifier and shift are held, the button is the
  primary one and `c` is not floating;
* otherwise a non-floating `c` is first made floating when the modifier is held and the
  button is the primary or the secondary one; `c` is floating afterwards exactly when it
  was before or this applied;
* `DRAG_MOVE` is entered exactly when the modifier is held, the button is the primary one
  and the press is not the one that enters `DRAG_SWAP`;
* `DRAG_RESIZE` is entered exactly when the button is not the primary one, `c` is then
  floating, and not both `c` is fixed and the button is the secondary one;
* on every entry `drag_client` is `c` and the pointer position and the geometry of `c`
  are captured. -/
theorem hdl_button_session (N : Nat) (T : Tiler) (s : State) (L : Nat → List Ptr)
    (e : ButtonEv) (c : Ptr) (cc : Client)
    (hreg : Registry N s L) (hcur : CurOK N s) (hw : e.w ≠ 0)
    (hfind : (L s.current_ws.toNat).find? (fun p => win_at s p = some e.w) = some c)
    (hcc : s.heap c = some cc) (hnone : s.drag_mode = DragMode.DRAG_NONE) :
    ∃ s1 c1, hdl_button N T s e = Except.ok s1 ∧ s1.heap c = some c1 ∧
      (s1.drag_mode = DragMode.DRAG_SWAP ↔
        e.state &&& s.user_config.modkey ≠ 0 ∧ e.state &&& ShiftMask ≠ 0 ∧
          e.button = Button1 ∧ cc.floating = false) ∧
      (c1.floating = true ↔ cc.floating = true ∨
        (e.state &&& s.user_config.modkey ≠ 0 ∧ (e.button = Button1 ∨ e.button = Button3) ∧
          ¬(e.state &&& ShiftMask ≠ 0 ∧ e.button = Button1))) ∧
      (s1.drag_mode = DragMode.DRAG_MOVE ↔
        e.state &&& s.user_config.modkey ≠ 0 ∧ e.button = Button1 ∧
          ¬(e.state &&& ShiftMask ≠ 0 ∧ cc.floating = false)) ∧
      (s1.drag_mode = DragMode.DRAG_RESIZE ↔
        e.button ≠ Button1 ∧ c1.floating = true ∧ ¬(cc.fixed = true ∧ e.button = Button3)) ∧
      (s1.drag_mode ≠ DragMode.DRAG_NONE →
        s1.drag_client = some c ∧ s1.drag_start_x = e.x_root ∧ s1.drag_start_y = e.y_root ∧
        s1.drag_orig_x = c1.x ∧ s1.drag_orig_y = c1.y ∧ s1.drag_orig_w = c1.w ∧
        s1.drag_orig_h = c1.h) := by
  obtain ⟨hi, hiN, -⟩ := ws_index_ok N s.current_ws hcur
  have hfw := find_win_spec s e.w _ _ _ (s.brk + 1) (hreg.lists _ hiN) rfl
    (Nat.le_succ_of_le (Registry_length N s L hreg _ hiN))
  rw [hfind] at hfw
  unfold hdl_button
  rw [if_neg hw]
  simp only [hi, bind_ok]
  rw [hfw, bind_ok]
  simp only [deref, hcc, bind_ok]
  by_cases hsw : e.state &&& s.user_config.modkey ≠ 0 ∧ e.state &&& ShiftMask ≠ 0 ∧
      e.button = Button1 ∧ cc.floating = false
  · rw [if_pos hsw]
    refine ⟨_, cc, rfl, hcc, ?_, ?_, ?_, ?_, ?_⟩
    · simp [begin_drag, hsw]
    · simp [hsw.2.1, hsw.2.2.1, hsw.2.2.2]
    · simp [begin_drag, hsw.2.1, hsw.2.2.2]
    · simp [begin_drag, hsw.2.2.1]
    · intro _
      exact ⟨rfl, rfl, rfl, rfl, rfl, rfl, rfl⟩
  · rw [if_neg hsw]
    obtain ⟨sa, ca, hpa, hca, hfix, hfl, hcfg, hdm⟩ := press_float_eval T s e c cc hcc
    rw [hpa, bind_ok, hcfg]
    have hfl2 : ca.floating = true ↔ cc.floating = true ∨
        (e.state &&& s.user_config.modkey ≠ 0 ∧ (e.button = Button1 ∨ e.button = Button3) ∧
          ¬(e.state &&& ShiftMask ≠ 0 ∧ e.button = Button1)) := by
      rw [hfl]
      constructor
      · rintro (h | ⟨h1, h2⟩)
        · exact Or.inl h
        · by_cases hf : cc.floating = true
          · exact Or.inl hf
          · exact Or.inr ⟨h1, h2, fun hx => hsw ⟨h1, hx.1, hx.2, by simpa using hf⟩⟩
      · rintro (h | ⟨h1, h2, -⟩)
        · exact Or.inl h
        · exact Or.inr ⟨h1, h2⟩
    by_cases hfr : e.state &&& s.user_config.modkey = 0 ∧ e.button = Button1
    · rw [if_pos hfr]
      refine ⟨_, ca, rfl, hca, ?_, hfl2, ?_, ?_, ?_⟩
      · simp [hdm, hnone, hfr.1]
      · simp [hdm, hnone, hfr.1]
      · simp [hdm, hnone, hfr.2]
      · intro hx
        exact absurd (by simp [hdm, hnone]) hx
    · rw [if_neg hfr]
      simp only [hca, bind_ok]
      by_cases hnf : ca.floating = false
      · rw [if_pos hnf]
        have hmv : ¬(e.state &&& s.user_config.modkey ≠ 0 ∧ e.button = Button1 ∧
            ¬(e.state &&& ShiftMask ≠ 0 ∧ cc.floating = false)) := by
          rintro ⟨h1, h2, h3⟩
          have : ca.floating = true := hfl.2 (Or.inr ⟨h1, Or.inl h2⟩)
          rw [hnf] at this
          cases this
        refine ⟨sa, ca, rfl, hca, ?_, hfl2, ?_, ?_, ?_⟩
        · simp only [hdm, hnone]
          exact ⟨fun h => (by cases h), fun h => absurd h hsw⟩
        · simp only [hdm, hnone]
          exact ⟨fun h => (by cases h), fun h => absurd h hmv⟩
        · simp only [hdm, hnone]
          exact ⟨fun h => (by cases h), fun h => by rw [hnf] at h; cases h.2.1⟩
        · intro hx
          exact absurd (by rw [hdm, hnone]) hx
      · rw [if_neg hnf]
        have hft : ca.floating = true := by simpa using hnf
        by_cases hfx : ca.fixed = true ∧ e.button = Button3
        · rw [if_pos hfx]
          have hb : e.button ≠ Button1 := by rw [hfx.2]; decide
          refine ⟨sa, ca, rfl, hca, ?_, hfl2, ?_, ?_, ?_⟩
          · simp only [hdm, hnone]
            exact ⟨fun h => (by cases h), fun h => absurd h hsw⟩
          · simp only [hdm, hnone]
            exact ⟨fun h => (by cases h), fun h => absurd h.2.1 hb⟩
          · simp only [hdm, hnone]
            exact ⟨fun h => (by cases h), fun h => absurd ⟨hfix ▸ hfx.1, hfx.2⟩ h.2.2⟩
          · intro hx
            exact absurd (by rw [hdm, hnone]) hx
        · rw [if_neg hfx]
          have hfx2 : ¬(cc.fixed = true ∧ e.button = Button3) := by
            rw [← hfix]
            exact hfx
          by_cases hb : e.button = Button1
          · rw [if_pos hb]
            have hmod : e.state &&& s.user_config.modkey ≠ 0 := fun hx => hfr ⟨hx, hb⟩
            refine ⟨_, ca, rfl, hca, ?_, hfl2, ?_, ?_, ?_⟩
            · simp only [begin_drag]
              exact ⟨fun h => (by cases h), fun h => absurd h hsw⟩
            · simp only [begin_drag, true_iff]
              exact ⟨hmod, hb, fun hx => hsw ⟨hmod, hx.1, hb, hx.2⟩⟩
            · simp only [begin_drag]
              exact ⟨fun h => (by cases h), fun h => absurd hb h.1⟩
            · intro _
              exact ⟨rfl, rfl, rfl, rfl, rfl, rfl, rfl⟩
          · rw [if_neg hb]
            refine ⟨_, ca, rfl, hca, ?_, hfl2, ?_, ?_, ?_⟩
            · simp only [begin_drag]
              exact ⟨fun h => (by cases h), fun h => absurd h hsw⟩
            · simp only [begin_drag]
              exact ⟨fun h => (by cases h), fun h => absurd h.2.1 hb⟩
            · simp only [begin_drag, true_iff]
              exact ⟨hb, hft, hfx2⟩
            · intro _
              exact ⟨rfl, rfl, rfl, rfl, rfl, rfl, rfl⟩

/-- The presses on the tiled client A of `demo_state`: with the modifier and the primary
button A is promoted and moved, with no modifier and the secondary button nothing is
entered and A stays tiled. -/
theorem hdl_button_session_witness :
    (∃ s1 c1, hdl_button 9 no_tiler demo_state ⟨100, 64, 1, 10, 10⟩ = Except.ok s1 ∧
      s1.heap 0 = some c1 ∧ s1.drag_mode = DragMode.DRAG_MOVE ∧ c1.floating = true ∧
      s1.drag_client = some 0) ∧
    (∃ s1 c1, hdl_button 9 no_tiler demo_state ⟨100, 0, 3, 10, 10⟩ = Except.ok s1 ∧
      s1.heap 0 = some c1 ∧ s1.drag_mode ≠ DragMode.DRAG_MOVE ∧
      s1.drag_mode ≠ DragMode.DRAG_RESIZE ∧ c1.floating ≠ true) := by
  constructor
  · obtain ⟨s1, c1, h1, h2, -, h3, h4, -, h5⟩ :=
      hdl_button_session 9 no_tiler demo_state demo_lists ⟨100, 64, 1, 10, 10⟩ 0
        (demo_client 100 (some 1) true) demo_registry (by simp [CurOK, demo_state, init])
        (by decide) (by decide) rfl rfl
    have hm : s1.drag_mode = DragMode.DRAG_MOVE := h4.2 (by decide)
    exact ⟨s1, c1, h1, h2, hm, h3.2 (by decide), (h5 (by rw [hm]; decide)).1⟩
  · obtain ⟨s1, c1, h1, h2, -, h3, h4, h5, -⟩ :=
      hdl_button_session 9 no_tiler demo_state demo_lists ⟨100, 0, 3, 10, 10⟩ 0
        (demo_client 100 (some 1) true) demo_registry (by simp [CurOK, demo_state, init])
        (by decide) (by decide) rfl rfl
    have hf : c1.floating ≠ true := fun hx => by
      have := h3.1 hx
      revert this
      decide
    exact ⟨s1, c1, h1, h2, fun hx => by have := h4.1 hx; revert this; decide,
      fun hx => hf (h5.1 hx).2.1, hf⟩

theorem nodup_index_unique (l : List Ptr) (hn : l.Nodup) (i j : Nat) (a : Ptr)
    (hi : l[i]? = some a) (hj : l[j]? = some a) : i = j := by
  have key := List.nodup_iff_getElem?_ne_getElem?.1 hn
  have hil : i < l.length := by
    by_contra hx
    rw [List.getElem?_eq_none (by omega)] at hi
    cases hi
  have hjl : j < l.length := by
    by_contra hx
    rw [List.getElem?_eq_none (by omega)] at hj
    cases hj
  rcases Nat.lt_trichotomy i j with h | h | h
  · exact absurd (hi.trans hj.symm) (key i j h hjl)
  · exact h
  · exact absurd (hj.trans hi.symm) (key j i h hil)

theorem set_same (l : List Ptr) (i : Nat) (a : Ptr) (hi : l[i]? = some a) :
    l.set i a = l := by
  obtain ⟨l1, l2, rfl, hlen⟩ := split_at_index l i a hi
  rw [← hlen, set_at_length]

/-- The registry after `swap_clients(a, b)` for the clients at the positions `i` and `j`
of the active workspace's list. -/
theorem swap_at (N : Nat) (s : State) (L : Nat → List Ptr) (a b : Ptr) (i j : Nat)
    (hreg : Registry N s L) (hcur : CurOK N s)
    (hi : (L s.current_ws.toNat)[i]? = some a) (hj : (L s.current_ws.toNat)[j]? = some b) :
    ∃ s1, swap_clients N s (some a) (some b) = Except.ok s1 ∧
      erase_links s1 = erase_links s ∧
      Registry N s1 (Function.update L s.current_ws.toNat
        (((L s.current_ws.toNat).set i b).set j a)) := by
  obtain ⟨hw, hwN, -⟩ := ws_index_ok N s.current_ws hcur
  have hch := hreg.lists _ hwN
  have moved : ∀ (l1 : List Ptr) (s4 : State),
      erase_links s4 = erase_links s →
      Chain s4 (Link.head s.current_ws.toNat) l1 none →
      (∀ p, p ∈ l1 ↔ p ∈ L s.current_ws.toNat) →
      (∀ k, k ≠ Link.head s.current_ws.toNat →
        (∀ p ∈ L s.current_ws.toNat, k ≠ Link.next p) → load s4 k = load s k) →
      Registry N s4 (Function.update L s.current_ws.toNat l1) := by
    intro l1 s4 he4 hc4 hperm hfr
    have hF := fields_of_erase s s4 he4
    apply Registry_update N s s4 L _ l1 hreg hc4
    · intro p hp; exact Or.inl ((hperm p).1 hp)
    · intro j hj hjw
      refine ⟨?_, ?_⟩
      · apply hfr
        · intro e; injection e with e; exact hjw e
        · intro p _ e; cases e
      · intro p hp
        apply hfr
        · intro e; cases e
        · intro q hq e
          injection e with e
          subst e
          exact hreg.disjoint j _ hj hwN hjw p hp hq
    · intro p c hc
      obtain ⟨c0, hc0⟩ := allocated_of_erase s s4 he4 p c hc
      rw [hF.1]
      exact hreg.below_brk p c0 hc0
  rcases Nat.lt_trichotomy i j with hij | hij | hij
  · obtain ⟨l1, l2, l3, hl, -, hset, -⟩ := split_two _ i j a b hij hi hj
    rw [hl] at hch
    obtain ⟨s4, hs4, he4, hc4, hfr⟩ := swap_fwd N s _ a b l1 l2 l3 hw hreg.below_brk hch
    refine ⟨s4, hs4, he4, ?_⟩
    rw [hset]
    apply moved _ s4 he4 hc4
    · intro p; rw [hl]; simp; tauto
    · intro k hk hkl
      exact hfr k hk (by rw [← hl]; exact hkl)
  · subst hij
    have hab : a = b := by
      rw [hi] at hj
      injection hj
    subst hab
    refine ⟨s, by simp [swap_clients], rfl, ?_⟩
    rw [set_same _ i a hi, set_same _ i a hi, Function.update_eq_self]
    exact hreg
  · obtain ⟨l1, l2, l3, hl, -, -, hset⟩ := split_two _ j i b a hij hj hi
    rw [hl] at hch
    obtain ⟨s4, hs4, he4, hc4, hfr⟩ := swap_bwd N s _ a b l1 l2 l3 hw hreg.below_brk hch
    refine ⟨s4, hs4, he4, ?_⟩
    rw [hset]
    apply moved _ s4 he4 hc4
    · intro p; rw [hl]; simp; tauto
    · intro k hk hkl
      exact hfr k hk (by rw [← hl]; exact hkl)

/-- On a registry `swap_clients` returns for every pair of arguments: members of the
active list are exchanged, anything else leaves the state as it was. -/
theorem swap_total (N : Nat) (s : State) (L : Nat → List Ptr) (x y : Option Ptr)
    (hreg : Registry N s L) (hcur : CurOK N s) :
    ∃ s1, swap_clients N s x y = Except.ok s1 ∧ erase_links s1 = erase_links s ∧
      (∀ a b i j, x = some a → y = some b → (L s.current_ws.toNat)[i]? = some a →
        (L s.current_ws.toNat)[j]? = some b →
        Registry N s1 (Function.update L s.current_ws.toNat
          (((L s.current_ws.toNat).set i b).set j a))) ∧
      (x = none ∨ y = none ∨ (∀ a, x = some a → a ∉ L s.current_ws.toNat) ∨
        (∀ b, y = some b → b ∉ L s.current_ws.toNat) → s1 = s) := by
  obtain ⟨hw, hwN, -⟩ := ws_index_ok N s.current_ws hcur
  have hch := hreg.lists _ hwN
  have hn := Chain_nodup s _ _ hch
  -- the outcome when nothing is exchanged
  have same : swap_clients N s x y = Except.ok s →
      (x = none ∨ y = none ∨ (∀ a, x = some a → a ∉ L s.current_ws.toNat) ∨
        (∀ b, y = some b → b ∉ L s.current_ws.toNat)) →
      ∃ s1, swap_clients N s x y = Except.ok s1 ∧ erase_links s1 = erase_links s ∧
      (∀ a b i j, x = some a → y = some b → (L s.current_ws.toNat)[i]? = some a →
        (L s.current_ws.toNat)[j]? = some b →
        Registry N s1 (Function.update L s.current_ws.toNat
          (((L s.current_ws.toNat).set i b).set j a))) ∧
      (x = none ∨ y = none ∨ (∀ a, x = some a → a ∉ L s.current_ws.toNat) ∨
        (∀ b, y = some b → b ∉ L s.current_ws.toNat) → s1 = s) := by
    intro h0 hwhy
    refine ⟨s, h0, rfl, ?_, fun _ => rfl⟩
    intro a b i j hx hy hi hj
    rcases hwhy with h | h | h | h
    · rw [hx] at h; cases h
    · rw [hy] at h; cases h
    · exact absurd (List.mem_iff_getElem?.2 ⟨i, hi⟩) (h a hx)
    · exact absurd (List.mem_iff_getElem?.2 ⟨j, hj⟩) (h b hy)
  cases x with
  | none => exact same (by simp [swap_clients]) (Or.inl rfl)
  | some a =>
    cases y with
    | none => exact same (by simp [swap_clients]) (Or.inr (Or.inl rfl))
    | some b =>
      by_cases ha : a ∈ L s.current_ws.toNat
      · by_cases hb : b ∈ L s.current_ws.toNat
        · obtain ⟨i0, hi0⟩ := List.mem_iff_getElem?.1 ha
          obtain ⟨j0, hj0⟩ := List.mem_iff_getElem?.1 hb
          obtain ⟨s1, h1, he1, hr1⟩ := swap_at N s L a b i0 j0 hreg hcur hi0 hj0
          refine ⟨s1, h1, he1, ?_, ?_⟩
          · intro a1 b1 i j hx hy hi hj
            injection hx with hx
            injection hy with hy
            subst hx
            subst hy
            rw [nodup_index_unique _ hn i i0 _ hi hi0, nodup_index_unique _ hn j j0 _ hj hj0]
            exact hr1
          · rintro (h | h | h | h)
            · cases h
            · cases h
            · exact absurd ha (h a rfl)
            · exact absurd hb (h b rfl)
        · by_cases hab : a = b
          · exact same (by simp [swap_clients, hab])
              (Or.inr (Or.inr (Or.inr (fun b1 hb1 => by
                injection hb1 with hb1
                rw [← hb1]
                exact hb))))
          · exact same (swap_noop N s _ a b _ hw hreg.below_brk hch (Or.inr hb))
              (Or.inr (Or.inr (Or.inr (fun b1 hb1 => by
                injection hb1 with hb1
                rw [← hb1]
                exact hb))))
      · by_cases hab : a = b
        · exact same (by simp [swap_clients, hab])
            (Or.inr (Or.inr (Or.inl (fun a1 ha1 => by
              injection ha1 with ha1
              rw [← ha1]
              exact ha))))
        · exact same (swap_noop N s _ a b _ hw hreg.below_brk hch (Or.inl ha))
            (Or.inr (Or.inr (Or.inl (fun a1 ha1 => by
              injection ha1 with ha1
              rw [← ha1]
              exact ha))))

/-- C16: on a registry (with a pending swap target that is an allocated client)
`hdl_button_release` returns with `drag_mode = DRAG_NONE` and `drag_client`, `swap_target`
unset.  Unless the mode was `DRAG_SWAP` with a target pending, every workspace still
holds its list; in `DRAG_MOVE` and `DRAG_RESIZE` mode (and without a session) nothing but
the three session variables changes, so lists and geometry are as before.  In `DRAG_SWAP`
mode with a pending target, the subject at position `i` and the target at position `j` of
the active workspace's list are exchanged and all other workspaces keep their lists; when
the subject is unset or one of the two is not on the active list, no list changes. -/
theorem hdl_button_release_spec (N : Nat) (T : Tiler) (s : State) (L : Nat → List Ptr)
    (hreg : Registry N s L) (hcur : CurOK N s)
    (htgt : ∀ t, s.swap_target = some t → ∃ ct, s.heap t = some ct) :
    ∃ s1, hdl_button_release N T s = Except.ok s1 ∧
      s1.drag_mode = DragMode.DRAG_NONE ∧ s1.drag_client = none ∧ s1.swap_target = none ∧
      (¬(s.drag_mode = DragMode.DRAG_SWAP ∧ s.swap_target ≠ none) → Registry N s1 L) ∧
      (s.drag_mode ≠ DragMode.DRAG_SWAP →
        s1 = { s with drag_mode := DragMode.DRAG_NONE, drag_client := none,
                      swap_target := none }) ∧
      (s.drag_mode = DragMode.DRAG_SWAP →
        (∀ a b i j, s.drag_client = some a → s.swap_target = some b →
          (L s.current_ws.toNat)[i]? = some a → (L s.current_ws.toNat)[j]? = some b →
          Registry N s1 (Function.update L s.current_ws.toNat
            (((L s.current_ws.toNat).set i b).set j a))) ∧
        (s.drag_client = none ∨ (∀ a, s.drag_client = some a → a ∉ L s.current_ws.toNat) ∨
          (∀ b, s.swap_target = some b → b ∉ L s.current_ws.toNat) → Registry N s1 L)) := by
  -- clearing the session and retiling keep a registry
  have clear : ∀ (s3 : State) (L3 : Nat → List Ptr), Registry N s3 L3 →
      Registry N { s3 with drag_mode := DragMode.DRAG_NONE, drag_client := none,
                           swap_target := none } L3 :=
    fun s3 L3 h3 => Registry_congr N s3 _ L3 h3 (fun k => by cases k <;> rfl) rfl
  have retile : ∀ (s3 : State) (L3 : Nat → List Ptr), Registry N s3 L3 →
      Registry N (tile T s3) L3 :=
    fun s3 L3 h3 => Registry_congr N s3 _ L3 h3 (load_tile T s3) rfl
  unfold hdl_button_release release_drag
  by_cases hm : s.drag_mode = DragMode.DRAG_SWAP
  · rw [if_pos hm]
    unfold release_swap
    by_cases htn : s.swap_target = none
    · simp only [htn, bind_ok]
      refine ⟨_, rfl, rfl, rfl, rfl, fun _ => clear _ _ (retile _ _ hreg),
        fun h => absurd hm h, fun _ => ⟨?_, fun _ => clear _ _ (retile _ _ hreg)⟩⟩
      intro a b i j _ hb
      cases hb
    · obtain ⟨t, ht⟩ := Option.ne_none_iff_exists'.1 htn
      obtain ⟨ct, hct⟩ := htgt t ht
      obtain ⟨s2, h2, -, hex, hsame⟩ := swap_total N s L s.drag_client s.swap_target hreg hcur
      have hF : (match s.swap_target with
          | some t => do
            let _ ← deref s t
            swap_clients N s s.drag_client s.swap_target
          | none => Except.ok s) = Except.ok s2 := by
        rw [ht] at h2 ⊢
        simp only [deref, hct, bind_ok]
        exact h2
      rw [hF, bind_ok, bind_ok]
      refine ⟨_, rfl, rfl, rfl, rfl, fun h => absurd ⟨hm, htn⟩ h, fun h => absurd hm h,
        fun _ => ⟨?_, ?_⟩⟩
      · intro a b i j ha hb hi hj
        exact clear _ _ (retile _ _ (hex a b i j ha hb hi hj))
      · intro hwhy
        have hs : s2 = s := by
          apply hsame
          rcases hwhy with h | h | h
          · exact Or.inl h
          · exact Or.inr (Or.inr (Or.inl h))
          · exact Or.inr (Or.inr (Or.inr h))
        rw [hs]
        exact clear _ _ (retile _ _ hreg)
  · rw [if_neg hm, bind_ok]
    refine ⟨_, rfl, rfl, rfl, rfl, fun _ => clear _ _ hreg, fun _ => rfl,
      fun h => absurd h hm⟩

/-- A swap drag of A over C in `demo_state`: the release leaves the list C, B, A and no
session. -/
theorem hdl_button_release_spec_witness :
    ∃ s1, hdl_button_release 9 no_tiler demo_swap_state = Except.ok s1 ∧
      s1.drag_mode = DragMode.DRAG_NONE ∧ s1.drag_client = none ∧ s1.swap_target = none ∧
      Chain s1 (Link.head 0) [2, 1, 0] none := by
  have hreg : Registry 9 demo_swap_state demo_lists :=
    Registry_congr 9 demo_state _ demo_lists demo_registry (fun k => by cases k <;> rfl) rfl
  obtain ⟨s1, h1, h2, h3, h4, -, -, h5⟩ :=
    hdl_button_release_spec 9 no_tiler demo_swap_state demo_lists hreg
      (by simp [CurOK, demo_swap_state, demo_state, init])
      (fun t ht => ⟨demo_client 102 none true, by
        injection ht with ht
        subst ht
        rfl⟩)
  refine ⟨s1, h1, h2, h3, h4, ?_⟩
  have hr := (h5 rfl).1 0 2 0 2 rfl rfl rfl rfl
  exact hr.lists 0 (by decide)

/-- C17: on a registry, for a workspace inside the array and a successful `malloc`,
`add_client(w, ws)` returns a new client with window `w`; the list of workspace `ws` is
the old list followed by the new client, every other workspace keeps its list, and
`focused` becomes the new client exactly when `ws` is the active workspace and `focused`
was unset, and is otherwise unchanged. -/
theorem add_client_appends (N : Nat) (s : State) (L : Nat → List Ptr) (env : AddEnv)
    (w : Window) (ws : Int)
    (hreg : Registry N s L) (hws : 0 ≤ ws ∧ ws < N) (hok : env.malloc_ok = true) :
    ∃ s1 c, add_client N s env w ws = Except.ok (s1, some c) ∧
      win_at s1 c = some w ∧
      Registry N s1 (Function.update L ws.toNat (L ws.toNat ++ [c])) ∧
      Chain s1 (Link.head ws.toNat) (L ws.toNat ++ [c]) none ∧
      (∀ j, j < N → j ≠ ws.toNat → Chain s1 (Link.head j) (L j) none) ∧
      (ws = s.current_ws ∧ s.focused = none → s1.focused = some c) ∧
      (¬(ws = s.current_ws ∧ s.focused = none) → s1.focused = s.focused) := by
  obtain ⟨s1, h1, hadd⟩ := add_client_spec N s L env w ws hreg hws hok
  have hwN : ws.toNat < N := by omega
  have hcast : ((ws.toNat : Nat) : Int) = ws := Int.toNat_of_nonneg hws.1
  refine ⟨s1, s.brk, h1, hadd.win_new, hadd.registry, ?_, ?_, ?_, ?_⟩
  · have := hadd.registry.lists ws.toNat hwN
    rwa [Function.update_same] at this
  · intro j hj hne
    have := hadd.registry.lists j hj
    rwa [Function.update_noteq hne] at this
  · intro h
    rw [hadd.focus, hcast, if_pos h]
  · intro h
    rw [hadd.focus, hcast, if_neg h]

/-- Two windows added to workspace 0 of the initial state: the list is the first client
followed by the second, and `focused` is the first. -/
theorem add_client_appends_witness :
    ∃ s1 s2 c1 c2, add_client 9 (init demo_config []) demo_add_env 7 0 = Except.ok (s1, some c1) ∧
      add_client 9 s1 demo_add_env 8 0 = Except.ok (s2, some c2) ∧
      Chain s2 (Link.head 0) [c1, c2] none ∧ win_at s2 c2 = some 8 ∧
      s1.focused = some c1 ∧ s2.focused = some c1 := by
  obtain ⟨s1, c1, h1, -, hreg1, -, -, hf1, -⟩ :=
    add_client_appends 9 (init demo_config []) (fun _ => []) demo_add_env 7 0
      (init_registry 9 demo_config []) (by decide) rfl
  obtain ⟨s2, c2, h2, hw2, -, hch2, -, -, hf2⟩ :=
    add_client_appends 9 s1 _ demo_add_env 8 0 hreg1 (by decide) rfl
  refine ⟨s1, s2, c1, c2, h1, h2, by simpa using hch2, hw2, hf1 ⟨rfl, rfl⟩, ?_⟩
  rw [hf2 (by rw [hf1 ⟨rfl, rfl⟩]; simp), hf1 ⟨rfl, rfl⟩]

theorem Keeps_refl (s : State) : Keeps s s := ⟨fun _ => rfl, rfl, rfl⟩

theorem Keeps_trans {s s1 s2 : State} (h1 : Keeps s s1) (h2 : Keeps s1 s2) : Keeps s s2 :=
  ⟨fun k => by rw [h2.1, h1.1], by rw [h2.2.1, h1.2.1], by rw [h2.2.2, h1.2.2]⟩

theorem Keeps_tile (T : Tiler) (s : State) : Keeps s (tile T s) :=
  ⟨load_tile T s, rfl, rfl⟩

theorem Keeps_put (s : State) (p : Ptr) (c c1 : Client) (hc : s.heap p = some c)
    (hn : c1.next = c.next) : Keeps s (put s p c1) :=
  ⟨load_put s p c c1 hc hn, rfl, rfl⟩

theorem managed_congr (L L1 : Nat → List Ptr) (n : Nat)
    (h : ∀ j, j < n → (L1 j).length = (L j).length) : managed L1 n = managed L n := by
  induction n with
  | zero => rfl
  | succ n ih =>
    simp only [managed]
    rw [ih (fun j hj => h j (Nat.lt_succ_of_lt hj)), h n (Nat.lt_succ_self n)]

theorem managed_update (L : Nat → List Ptr) (ws : Nat) (l : List Ptr) (n : Nat)
    (h : ws < n) :
    managed (Function.update L ws l) n + (L ws).length = managed L n + l.length := by
  induction n with
  | zero => omega
  | succ n ih =>
    simp only [managed]
    by_cases hw : ws = n
    · subst hw
      rw [Function.update_same,
        managed_congr L (Function.update L ws l) ws (fun j hj => by
          rw [Function.update_noteq (Nat.ne_of_lt hj)])]
      omega
    · have := ih (by omega)
      rw [Function.update_noteq (fun e => hw e.symm)]
      omega

theorem Counted_keeps (N : Nat) (M : Int) (s s1 : State) (hk : Keeps s s1)
    (hc : Counted N M s) : Counted N M s1 := by
  obtain ⟨L, hreg, h1, h2⟩ := hc
  exact ⟨L, Registry_congr N s s1 L hreg hk.1 hk.2.1, by rw [hk.2.2]; exact h1,
    by rw [hk.2.2]; exact h2⟩

theorem mark_unmapped_keeps (N : Nat) (s s1 : State) (w : Window)
    (h : mark_unmapped N s w = Except.ok s1) : Keeps s s1 := by
  unfold mark_unmapped at h
  split at h
  · obtain ⟨i, -, h⟩ := bind_eq_ok h
    obtain ⟨found, -, h⟩ := bind_eq_ok h
    cases found with
    | none =>
      injection h with h
      subst h
      exact Keeps_refl s
    | some c =>
      obtain ⟨cc, hcc, h⟩ := bind_eq_ok h
      injection h with h
      subst h
      exact Keeps_put s c cc _ (deref_ok hcc) rfl
  · injection h with h
    subst h
    exact Keeps_refl s

theorem toggle_floating_keeps (T : Tiler) (s s1 : State)
    (h : toggle_floating T s = Except.ok s1) : Keeps s s1 := by
  unfold toggle_floating at h
  cases hf : s.focused with
  | none =>
    simp only [hf] at h
    injection h with h
    subst h
    exact Keeps_refl s
  | some p =>
    simp only [hf] at h
    obtain ⟨c, hc, h⟩ := bind_eq_ok h
    injection h with h
    subst h
    exact Keeps_trans (Keeps_put s p c { c with floating := !c.floating } (deref_ok hc) rfl)
      (Keeps_tile T _)

theorem focus_sets_keep (s : State) (f : Option Ptr) (m : Int) :
    Keeps s { s with focused := f, current_monitor := m } :=
  ⟨fun k => by cases k <;> rfl, rfl, rfl⟩

theorem focus_next_keeps (N : Nat) (s s1 : State) (h : focus_next N s = Except.ok s1) :
    Keeps s s1 := by
  unfold focus_next at h
  obtain ⟨i, -, h⟩ := bind_eq_ok h
  cases hw : s.workspaces i with
  | none =>
    simp only [hw] at h
    injection h with h
    subst h
    exact Keeps_refl s
  | some hd =>
    simp only [hw] at h
    obtain ⟨c, -, h⟩ := bind_eq_ok h
    obtain ⟨cc, -, h⟩ := bind_eq_ok h
    by_cases hm : cc.mapped = false
    · rw [if_pos hm] at h
      injection h with h
      subst h
      exact Keeps_refl s
    · rw [if_neg hm] at h
      injection h with h
      subst h
      exact focus_sets_keep s _ _

theorem focus_prev_keeps (N : Nat) (s s1 : State) (h : focus_prev N s = Except.ok s1) :
    Keeps s s1 := by
  unfold focus_prev at h
  obtain ⟨i, -, h⟩ := bind_eq_ok h
  cases hw : s.workspaces i with
  | none =>
    simp only [hw] at h
    injection h with h
    subst h
    exact Keeps_refl s
  | some hd =>
    simp only [hw] at h
    obtain ⟨c, -, h⟩ := bind_eq_ok h
    obtain ⟨cc, -, h⟩ := bind_eq_ok h
    by_cases hm : cc.mapped = false
    · rw [if_pos hm] at h
      injection h with h
      subst h
      exact Keeps_refl s
    · rw [if_neg hm] at h
      injection h with h
      subst h
      exact focus_sets_keep s _ _

theorem focus_mon_keeps (N : Nat) (s s1 : State) (step : Int → Int)
    (h : focus_mon N s step = Except.ok s1) : Keeps s s1 := by
  unfold focus_mon at h
  by_cases hm : monsn s ≤ 1
  · rw [if_pos hm] at h
    injection h with h
    subst h
    exact Keeps_refl s
  · rw [if_neg hm] at h
    obtain ⟨cm, -, h⟩ := bind_eq_ok h
    obtain ⟨i, -, h⟩ := bind_eq_ok h
    obtain ⟨tc, -, h⟩ := bind_eq_ok h
    cases tc with
    | some c =>
      injection h with h
      subst h
      exact focus_sets_keep s _ _
    | none =>
      obtain ⟨m, -, h⟩ := bind_eq_ok h
      injection h with h
      subst h
      exact ⟨fun k => by cases k <;> rfl, rfl, rfl⟩

theorem change_workspace_keeps (N : Nat) (T : Tiler) (s s1 : State) (L : Nat → List Ptr)
    (ws : Int) (hreg : Registry N s L) (hcur : CurOK N s)
    (h : change_workspace N T s ws = Except.ok s1) : Keeps s s1 := by
  by_cases hg : ws ≥ (N : Int) ∨ ws = s.current_ws
  · simp only [change_workspace, if_pos hg] at h
    injection h with h
    subst h
    exact Keeps_refl s
  · have hlt : ws < N := by
      by_contra hx
      exact hg (Or.inl (by omega))
    have hne : ws ≠ s.current_ws := fun e => hg (Or.inr e)
    by_cases h0 : 0 ≤ ws
    · rw [change_workspace_ok N T s L ws hreg hcur ⟨h0, hlt⟩ hne] at h
      injection h with h
      subst h
      refine ⟨fun k => ?_, rfl, rfl⟩
      have : load ({ tile T { s with in_ws_switch := true, current_ws := ws } with
          focused := (L ws.toNat).head?, in_ws_switch := false } : State) k
          = load (tile T { s with in_ws_switch := true, current_ws := ws }) k := by
        cases k <;> rfl
      rw [this, load_tile]
      cases k <;> rfl
    · exfalso
      obtain ⟨hi, hiN, -⟩ := ws_index_ok N s.current_ws hcur
      have hw1 : walk { s with in_ws_switch := true } (s.brk + 1)
          (s.workspaces s.current_ws.toNat) = Except.ok () := by
        apply walk_spec _ (L s.current_ws.toNat) (Link.head s.current_ws.toNat)
        · exact Chain_congr s _ _ _ _ (fun k => by cases k <;> rfl) (hreg.lists _ hiN)
        · rfl
        · have := Registry_length N s L hreg _ hiN
          show (L s.current_ws.toNat).length ≤ s.brk + 1
          omega
      have hj : ws_index N ws = Except.error (Fault.oob ws) := by
        simp [ws_index, h0]
      simp only [change_workspace, if_neg hg, bind, Except.bind, hi, hw1] at h
      simp only [hj] at h
      cases h

theorem Keeps_of_same {s s1 : State} (h : SameLinks s s1)
    (hc : s1.open_windows = s.open_windows) : Keeps s s1 :=
  ⟨h.1, h.2.1, hc⟩

theorem hdl_unmap_ntf_keeps (N : Nat) (T : Tiler) (s s1 : State) (w : Window)
    (h : hdl_unmap_ntf N T s w = Except.ok s1) : Keeps s s1 := by
  unfold hdl_unmap_ntf at h
  obtain ⟨a, ha, h⟩ := bind_eq_ok h
  injection h with h
  subst h
  exact Keeps_trans (mark_unmapped_keeps N s a w ha) (Keeps_tile T a)

theorem press_float_keeps (T : Tiler) (s s1 : State) (e : ButtonEv) (c : Ptr) (cc : Client)
    (h : press_float T s e c cc = Except.ok s1) : Keeps s s1 := by
  unfold press_float at h
  split at h
  · have h0 : Keeps s { s with focused := some c } := ⟨fun k => by cases k <;> rfl, rfl, rfl⟩
    exact Keeps_trans h0 (toggle_floating_keeps T _ s1 h)
  · injection h with h
    subst h
    exact Keeps_refl s

theorem begin_drag_keeps (s : State) (e : ButtonEv) (c : Ptr) (cc : Client) (mode : DragMode) :
    Keeps s (begin_drag s e c cc mode) :=
  ⟨fun k => by cases k <;> rfl, rfl, rfl⟩

theorem hdl_button_keeps (N : Nat) (T : Tiler) (s s1 : State) (e : ButtonEv)
    (h : hdl_button N T s e = Except.ok s1) : Keeps s s1 := by
  unfold hdl_button at h
  split at h
  · injection h with h
    subst h
    exact Keeps_refl s
  · obtain ⟨i, -, h⟩ := bind_eq_ok h
    obtain ⟨found, -, h⟩ := bind_eq_ok h
    cases found with
    | none =>
      injection h with h
      subst h
      exact Keeps_refl s
    | some c =>
      obtain ⟨cc, hcc, h⟩ := bind_eq_ok h
      split at h
      · injection h with h
        subst h
        exact begin_drag_keeps s e c cc _
      · obtain ⟨s2, hs2, h⟩ := bind_eq_ok h
        have hk := press_float_keeps T s s2 e c cc hs2
        split at h
        · injection h with h
          subst h
          exact Keeps_trans hk ⟨fun k => by cases k <;> rfl, rfl, rfl⟩
        · obtain ⟨c1, -, h⟩ := bind_eq_ok h
          split at h
          · injection h with h
            subst h
            exact hk
          · split at h
            · injection h with h
              subst h
              exact hk
            · injection h with h
              subst h
              exact Keeps_trans hk (begin_drag_keeps s2 e c c1 _)

theorem map_managed_count (s s1 : State) (c : Ptr) (h : map_managed s c = Except.ok s1) :
    s1.open_windows = s.open_windows := by
  unfold map_managed at h
  obtain ⟨cc, hcc, h⟩ := bind_eq_ok h
  by_cases hm : cc.mapped = false <;> by_cases hn : s.user_config.new_win_focus = true
  · simp only [if_pos hm, put_user_config, if_pos hn] at h
    injection h with h
    subst h
    rfl
  · simp only [if_pos hm, put_user_config, if_neg hn] at h
    injection h with h
    subst h
    rfl
  · simp only [if_neg hm, if_pos hn] at h
    injection h with h
    subst h
    rfl
  · simp only [if_neg hm, if_neg hn] at h
    injection h with h
    subst h
    rfl

theorem map_finish_count (T : Tiler) (s2 s5 : State) (c : Ptr) (fl : Bool)
    (h : map_finish T s2 c fl = Except.ok s5) : s5.open_windows = s2.open_windows := by
  unfold map_finish at h
  obtain ⟨c5, hc5, h⟩ := bind_eq_ok h
  by_cases ht : s2.global_floating = false ∧ fl = false <;>
    by_cases hn : s2.user_config.new_win_focus = true
  · simp only [if_pos ht] at hc5 h
    simp only [put_user_config, tile_user_config, if_pos hn] at h
    injection h with h
    subst h
    rfl
  · simp only [if_pos ht] at hc5 h
    simp only [put_user_config, tile_user_config, if_neg hn] at h
    injection h with h
    subst h
    rfl
  · simp only [if_neg ht] at hc5 h
    simp only [put_user_config, if_pos hn] at h
    injection h with h
    subst h
    rfl
  · simp only [if_neg ht] at hc5 h
    simp only [put_user_config, if_neg hn] at h
    injection h with h
    subst h
    rfl

theorem map_new_count (T : Tiler) (s1 s5 : State) (env : MapEnv) (sf : Bool) (c : Ptr)
    (h : map_new T s1 env sf c = Except.ok s5) : s5.open_windows = s1.open_windows := by
  unfold map_new at h
  obtain ⟨c1, hc1, h⟩ := bind_eq_ok h
  obtain ⟨c4, hc4, h⟩ := bind_eq_ok h
  rw [map_finish_count T _ s5 c _ h]
  rfl

/-- The counter and the registry after `swap_clients`: the lists keep their lengths. -/
theorem swap_counted (N : Nat) (M : Int) (s s1 : State) (L : Nat → List Ptr)
    (x y : Option Ptr) (hreg : Registry N s L) (hcur : CurOK N s)
    (h1 : s.open_windows = managed L N) (h2 : s.open_windows ≤ M)
    (h : swap_clients N s x y = Except.ok s1) : Counted N M s1 := by
  obtain ⟨-, hwN, -⟩ := ws_index_ok N s.current_ws hcur
  obtain ⟨s2, hs2, he, hex, hsame⟩ := swap_total N s L x y hreg hcur
  rw [hs2] at h
  injection h with h
  subst h
  have hF := fields_of_erase s s2 he
  have hc : s2.open_windows = s.open_windows := hF.2.2.2.2.2.2.1
  by_cases hm : ∃ (a b : Ptr) (i j : Nat), x = some a ∧ y = some b ∧
      (L s.current_ws.toNat)[i]? = some a ∧ (L s.current_ws.toNat)[j]? = some b
  · obtain ⟨a, b, i, j, hx, hy, hi, hj⟩ := hm
    refine ⟨_, hex a b i j hx hy hi hj, ?_, by rw [hc]; exact h2⟩
    have := managed_update L s.current_ws.toNat
      (((L s.current_ws.toNat).set i b).set j a) N hwN
    simp only [List.length_set] at this
    rw [hc, h1]
    omega
  · have hs : s2 = s := by
      apply hsame
      cases x with
      | none => exact Or.inl rfl
      | some a =>
        cases y with
        | none => exact Or.inr (Or.inl rfl)
        | some b =>
          by_cases ha : a ∈ L s.current_ws.toNat
          · by_cases hb : b ∈ L s.current_ws.toNat
            · exfalso
              obtain ⟨i, hi⟩ := List.mem_iff_getElem?.1 ha
              obtain ⟨j, hj⟩ := List.mem_iff_getElem?.1 hb
              exact hm ⟨a, b, i, j, rfl, rfl, hi, hj⟩
            · refine Or.inr (Or.inr (Or.inr (fun b1 hb1 => ?_)))
              injection hb1 with hb1
              rw [← hb1]
              exact hb
          · refine Or.inr (Or.inr (Or.inl (fun a1 ha1 => ?_)))
            injection ha1 with ha1
            rw [← ha1]
            exact ha
    rw [hs]
    exact ⟨L, hreg, h1, h2⟩

theorem hdl_button_release_counted (N : Nat) (M : Int) (T : Tiler) (s s1 : State)
    (L : Nat → List Ptr) (hreg : Registry N s L) (hcur : CurOK N s)
    (h1 : s.open_windows = managed L N) (h2 : s.open_windows ≤ M)
    (h : hdl_button_release N T s = Except.ok s1) : Counted N M s1 := by
  unfold hdl_button_release at h
  obtain ⟨s2, hs2, h⟩ := bind_eq_ok h
  injection h with h
  subst h
  have key : ∀ s3 : State, Counted N M s3 →
      Counted N M { s3 with drag_mode := DragMode.DRAG_NONE, drag_client := none,
                            swap_target := none } :=
    fun s3 h3 => Counted_keeps N M s3 _ ⟨fun k => by cases k <;> rfl, rfl, rfl⟩ h3
  apply key
  unfold release_drag at hs2
  split at hs2
  · obtain ⟨s3, hs3, hs2⟩ := bind_eq_ok hs2
    injection hs2 with hs2
    subst hs2
    apply Counted_keeps N M s3 _ (Keeps_tile T s3)
    unfold release_swap at hs3
    cases ht : s.swap_target with
    | none =>
      simp only [ht] at hs3
      injection hs3 with hs3
      subst hs3
      exact ⟨L, hreg, h1, h2⟩
    | some t =>
      simp only [ht] at hs3
      obtain ⟨ct, -, hs3⟩ := bind_eq_ok hs3
      exact swap_counted N M s s3 L _ _ hreg hcur h1 h2 hs3
  · injection hs2 with hs2
    subst hs2
    exact ⟨L, hreg, h1, h2⟩

theorem hdl_map_req_counted (N : Nat) (M : Int) (T : Tiler) (s s1 : State)
    (L : Nat → List Ptr) (env : MapEnv) (w : Window)
    (hreg : Registry N s L) (hcur : CurOK N s)
    (h1 : s.open_windows = managed L N) (h2 : s.open_windows ≤ M)
    (h : hdl_map_req N M T s env w = Except.ok s1) : Counted N M s1 := by
  obtain ⟨-, hiN, hcast⟩ := ws_index_ok N s.current_ws hcur
  have stay : (Except.ok s : Except Fault State) = Except.ok s1 → Counted N M s1 := by
    intro h0
    injection h0 with h0
    subst h0
    exact ⟨L, hreg, h1, h2⟩
  unfold hdl_map_req at h
  split at h
  · exact stay h
  · split at h
    · exact stay h
    · obtain ⟨found, hfound, h⟩ := bind_eq_ok h
      cases found with
      | some r =>
        obtain ⟨ws, c⟩ := r
        simp only at h
        split at h
        · exact Counted_keeps N M s s1
            (Keeps_of_same (map_managed_same s s1 c h).1 (map_managed_count s s1 c h))
            ⟨L, hreg, h1, h2⟩
        · exact stay h
      | none =>
        simp only at h
        split at h
        · exact stay h
        · split at h
          · exact stay h
          · rename_i hne
            obtain ⟨r, hr, h⟩ := bind_eq_ok h
            by_cases hm : env.add.malloc_ok = true
            · obtain ⟨sA, hsA, hadd⟩ := add_client_spec N s L env.add w s.current_ws hreg hcur hm
              rw [hsA] at hr
              injection hr with hr
              subst hr
              simp only at h
              apply Counted_keeps N M sA s1
                (Keeps_of_same (map_new_same T sA s1 env _ _ h).1 (map_new_count T sA s1 env _ _ h))
              refine ⟨_, hadd.registry, ?_, ?_⟩
              · have := managed_update L s.current_ws.toNat
                  (L s.current_ws.toNat ++ [s.brk]) N hiN
                simp only [List.length_append, List.length_singleton] at this
                rw [hadd.count, h1]
                omega
              · rw [hadd.count]
                omega
            · have : add_client N s env.add w s.current_ws = Except.ok (s, none) := by
                simp [add_client, hm]
              rw [this] at hr
              injection hr with hr
              subst hr
              exact stay h

theorem hdl_destroy_ntf_counted (N : Nat) (M : Int) (T : Tiler) (s s1 : State)
    (L : Nat → List Ptr) (w : Window) (hreg : Registry N s L)
    (h1 : s.open_windows = managed L N) (h2 : s.open_windows ≤ M)
    (h : hdl_destroy_ntf N T s w = Except.ok s1) : Counted N M s1 := by
  by_cases hex : ∃ j, j < N ∧ ∃ p, p ∈ L j ∧ win_at s p = some w
  · obtain ⟨ws, l1, c, l2, hws, hl, hc, hl1, hlow⟩ := first_owner N s L w hex
    obtain ⟨s2, hs2, hrem⟩ := hdl_destroy_found N T s L w ws l1 c l2 hreg hws hl hc hl1 hlow
    rw [hs2] at h
    injection h with h
    subst h
    refine ⟨_, hrem.registry, ?_, ?_⟩
    · have := managed_update L ws (l1 ++ l2) N hws
      rw [hl] at this
      simp only [List.length_append, List.length_cons] at this
      rw [hrem.count, h1]
      omega
    · rw [hrem.count]
      omega
  · have hno : ∀ j, j < N → ∀ p ∈ L j, win_at s p ≠ some w := by
      intro j hj p hp hw
      exact hex ⟨j, hj, p, hp, hw⟩
    rw [hdl_destroy_absent N T s L w hreg hno] at h
    injection h with h
    subst h
    exact ⟨L, hreg, h1, h2⟩

/-- Every handler keeps the counter equal to the number of clients, and below the cap. -/
theorem handle_counted (N : Nat) (M : Int) (T : Tiler) (s s1 : State) (e : Event)
    (hinv : Inv N s) (hc : Counted N M s) (h : handle N M T s e = Except.ok s1) :
    Counted N M s1 := by
  obtain ⟨L0, -, hcur, -⟩ := hinv
  obtain ⟨L, hreg, h1, h2⟩ := hc
  cases e with
  | map_req env w => exact hdl_map_req_counted N M T s s1 L env w hreg hcur h1 h2 h
  | unmap_ntf w => exact Counted_keeps N M s s1 (hdl_unmap_ntf_keeps N T s s1 w h) ⟨L, hreg, h1, h2⟩
  | destroy_ntf w => exact hdl_destroy_ntf_counted N M T s s1 L w hreg h1 h2 h
  | button e => exact Counted_keeps N M s s1 (hdl_button_keeps N T s s1 e h) ⟨L, hreg, h1, h2⟩
  | button_release => exact hdl_button_release_counted N M T s s1 L hreg hcur h1 h2 h
  | focus_next => exact Counted_keeps N M s s1 (focus_next_keeps N s s1 h) ⟨L, hreg, h1, h2⟩
  | focus_prev => exact Counted_keeps N M s s1 (focus_prev_keeps N s s1 h) ⟨L, hreg, h1, h2⟩
  | focus_next_mon =>
    exact Counted_keeps N M s s1 (focus_mon_keeps N s s1 _ h) ⟨L, hreg, h1, h2⟩
  | focus_prev_mon =>
    exact Counted_keeps N M s s1 (focus_mon_keeps N s s1 _ h) ⟨L, hreg, h1, h2⟩
  | change_workspace ws =>
    exact Counted_keeps N M s s1 (change_workspace_keeps N T s s1 L ws hreg hcur h)
      ⟨L, hreg, h1, h2⟩

theorem run_counted (N : Nat) (M : Int) (T : Tiler) (evs : List Event) (s s1 : State)
    (hinv : Inv N s) (hc : Counted N M s) (h : run N M T s evs = Except.ok s1) :
    Counted N M s1 := by
  induction evs generalizing s with
  | nil =>
    injection h with h
    subst h
    exact hc
  | cons e evs ih =>
    simp only [run] at h
    cases he : handle N M T s e with
    | error f => rw [he] at h; cases h
    | ok s2 =>
      rw [he] at h
      exact ih s2 (handle_inv N M T s s2 e hinv he) (handle_counted N M T s s2 e hinv hc he) h

theorem managed_const_nil (n : Nat) : managed (fun _ => []) n = 0 := by
  induction n with
  | zero => rfl
  | succ n ih => simp [managed, ih]

/-- In a state reached from the initial one, `open_windows` counts the clients of the
registry and is at most the cap. -/
theorem reached_counted (N : Nat) (M : Int) (T : Tiler) (cfg : Config) (mons : List Monitor)
    (evs : List Event) (s : State) (L : Nat → List Ptr) (hN : 0 < N) (hM : 0 ≤ M)
    (hrun : run N M T (init cfg mons) evs = Except.ok s) (hreg : Registry N s L) :
    s.open_windows = managed L N ∧ s.open_windows ≤ M := by
  have h0 : Inv N (init cfg mons) :=
    ⟨fun _ => [], init_registry N cfg mons, ⟨by simp [init], by simp [init]; exact hN⟩,
      fun f hf => by simp [init] at hf⟩
  have hc0 : Counted N M (init cfg mons) :=
    ⟨fun _ => [], init_registry N cfg mons, by rw [managed_const_nil]; rfl, hM⟩
  obtain ⟨L1, hreg1, h1, h2⟩ := run_counted N M T evs _ s h0 hc0 hrun
  refine ⟨?_, h2⟩
  rw [h1, managed_congr L1 L N (fun j hj => by
    rw [Chain_functional s _ _ _ (hreg.lists j hj) (hreg1.lists j hj)])]

/-- C18 as stated fails on the code: after one map request with `MAXCLIENTS = 1` the cap
is reached (one client, `open_windows = 1`); the map request for the unmanaged dock
window 200 is passed through before the cap is looked at, and the window is mapped. -/
theorem dock_mapped_at_cap :
    run 9 1 no_tiler (init demo_config []) [Event.map_req demo_map_env 100] =
      Except.ok demo_one_client ∧
    demo_one_client.open_windows = 1 ∧ clients_of demo_one_client 0 = some [0] ∧
    find_managed demo_one_client 200 (List.range 9) = Except.ok none ∧
    hdl_map_req 9 1 no_tiler demo_one_client demo_dock_env 200 = Except.ok demo_one_client ∧
    hdl_map_req_maps 9 1 no_tiler demo_one_client demo_dock_env 200 = Except.ok true :=
  ⟨rfl, rfl, rfl, rfl, rfl, rfl⟩

/-- C18, amended: in a state reached from the initial one through the handlers, with the
number of clients on the lists at `MAXCLIENTS` or more, a map request for a window that is
on no list makes `hdl_map_req` return the state as it was (no client added, every list,
`open_windows` and `focused` unchanged); the window is mapped only when the request is one
that the handler passes through before it looks at the cap: readable attributes and
override-redirect, a size that is not positive, or a dock type. -/
theorem map_req_refused_at_cap (N : Nat) (M : Int) (T : Tiler) (cfg : Config)
    (mons : List Monitor) (evs : List Event) (s : State) (L : Nat → List Ptr) (env : MapEnv)
    (w : Window) (hN : 0 < N) (hM : 0 ≤ M)
    (hrun : run N M T (init cfg mons) evs = Except.ok s) (hreg : Registry N s L)
    (hcap : M ≤ managed L N) (hnew : ∀ j, j < N → ∀ p ∈ L j, win_at s p ≠ some w) :
    hdl_map_req N M T s env w = Except.ok s ∧
    ∃ b, hdl_map_req_maps N M T s env w = Except.ok b ∧
      (b = true ↔ env.attrs_ok = true ∧
        (env.override_redirect = true ∨ env.width ≤ 0 ∨ env.height ≤ 0 ∨
          ∃ ts, env.types = some ts ∧ scan_types ts = none)) := by
  obtain ⟨h1, h2⟩ := reached_counted N M T cfg mons evs s L hN hM hrun hreg
  have hfull : s.open_windows = M := by omega
  have hfind : find_managed s w (List.range N) = Except.ok none := by
    obtain ⟨r, hr, hspec⟩ := find_managed_spec N s L w hreg (List.range N)
      (fun j hj => List.mem_range.1 hj)
    cases r with
    | none => exact hr
    | some r =>
      obtain ⟨ws, c⟩ := r
      simp only at hspec
      exact absurd hspec.2.2 (hnew ws (List.mem_range.1 hspec.1) c hspec.2.1)
  constructor
  · unfold hdl_map_req
    by_cases ha : env.attrs_ok = false
    · rw [if_pos ha]
    · rw [if_neg ha]
      by_cases ho : env.override_redirect = true ∨ env.width ≤ 0 ∨ env.height ≤ 0
      · rw [if_pos ho]
      · rw [if_neg ho, hfind, bind_ok]
        cases hty : env.types with
        | none => simp only [if_pos hfull]
        | some ts =>
          cases hsc : scan_types ts with
          | none => simp only [hsc]
          | some f0 => simp only [hsc, if_pos hfull]
  · unfold hdl_map_req_maps
    by_cases ha : env.attrs_ok = false
    · rw [if_pos ha]
      exact ⟨false, rfl, by simp [ha]⟩
    · rw [if_neg ha]
      have hat : env.attrs_ok = true := by simpa using ha
      by_cases ho : env.override_redirect = true ∨ env.width ≤ 0 ∨ env.height ≤ 0
      · rw [if_pos ho]
        refine ⟨true, rfl, ?_⟩
        simp only [true_iff]
        refine ⟨hat, ?_⟩
        rcases ho with h | h | h
        · exact Or.inl h
        · exact Or.inr (Or.inl h)
        · exact Or.inr (Or.inr (Or.inl h))
      · rw [if_neg ho, hfind, bind_ok]
        cases hty : env.types with
        | none =>
          refine ⟨false, by simp only [if_pos hfull], ?_⟩
          constructor
          · intro h; cases h
          · rintro ⟨-, h | h | h | ⟨ts, hts, -⟩⟩
            · exact absurd (Or.inl h) ho
            · exact absurd (Or.inr (Or.inl h)) ho
            · exact absurd (Or.inr (Or.inr h)) ho
            · cases hts
        | some ts =>
          cases hsc : scan_types ts with
          | none =>
            refine ⟨true, by simp only [hsc], ?_⟩
            simp only [true_iff]
            exact ⟨hat, Or.inr (Or.inr (Or.inr ⟨ts, rfl, hsc⟩))⟩
          | some f0 =>
            refine ⟨false, by simp only [hsc, if_pos hfull], ?_⟩
            constructor
            · intro h; cases h
            · rintro ⟨-, h | h | h | ⟨ts1, hts, hsc1⟩⟩
              · exact absurd (Or.inl h) ho
              · exact absurd (Or.inr (Or.inl h)) ho
              · exact absurd (Or.inr (Or.inr h)) ho
              · injection hts with hts
                rw [← hts, hsc] at hsc1
                cases hsc1

theorem demo_one_registry : Registry 9 demo_one_client demo_one_list := by
  refine ⟨?_, ?_, ?_⟩
  · intro ws _
    match ws with
    | 0 => exact ⟨rfl, rfl⟩
    | n + 1 => exact rfl
  · intro i j _ _ hij p hp
    match i, j with
    | 0, 0 => exact absurd rfl hij
    | 0, m + 1 => simp [demo_one_list]
    | n + 1, _ => simp [demo_one_list] at hp
  · intro p c h
    match p with
    | 0 => decide
    | n + 1 =>
      have hn : demo_one_client.heap (n + 1) = none := rfl
      rw [hn] at h
      cases h

/-- With `MAXCLIENTS = 1` and one client, the map request for the plain window 200 is
refused: the state stays and the window is not mapped. -/
theorem map_req_refused_at_cap_witness :
    hdl_map_req 9 1 no_tiler demo_one_client demo_map_env 200 = Except.ok demo_one_client ∧
    hdl_map_req_maps 9 1 no_tiler demo_one_client demo_map_env 200 = Except.ok false := by
  obtain ⟨h1, b, h2, h3⟩ :=
    map_req_refused_at_cap 9 1 no_tiler demo_config [] [Event.map_req demo_map_env 100]
      demo_one_client demo_one_list demo_map_env 200 (by decide) (by decide) rfl
      demo_one_registry (by decide)
      (fun j _ p hp => by
        match j with
        | 0 =>
          have hp0 : p = 0 := by simpa [demo_one_list] using hp
          subst hp0
          decide
        | n + 1 => simp [demo_one_list] at hp)
  refine ⟨h1, ?_⟩
  rw [h2]
  cases b with
  | false => rfl
  | true =>
    obtain ⟨-, h | h | h | ⟨ts, hts, -⟩⟩ := h3.1 rfl
    · exact absurd h (by decide)
    · exact absurd h (by decide)
    · exact absurd h (by decide)
    · cases hts

theorem find_bind_new (mods ks : Nat) (bs : List Binding) (i : Nat)
    (h : ∀ b ∈ bs, ¬(b.mods = mods ∧ b.keysym = ks)) : find_bind mods ks bs i = none := by
  induction bs generalizing i with
  | nil => rfl
  | cons b bs ih =>
    simp only [find_bind]
    rw [if_neg (h b (by simp))]
    exact ih (i + 1) (fun x hx => h x (List.mem_cons_of_mem _ hx))

/-- With 256 entries in the table `alloc_bind` returns `NULL` for a new combination. -/
theorem alloc_bind_full (stale : Nat → Binding) (cfg : Config) (mods ks : Nat)
    (hlen : cfg.binds.length ≥ 256)
    (hnew : ∀ b ∈ cfg.binds, ¬(b.mods = mods ∧ b.keysym = ks)) :
    alloc_bind stale cfg mods ks = none := by
  unfold alloc_bind
  rw [find_bind_new mods ks cfg.binds 0 hnew]
  simp only []
  rw [if_pos hlen]

/-- With room in the table `alloc_bind` hands out the next slot for a new combination. -/
theorem alloc_bind_room (stale : Nat → Binding) (cfg : Config) (mods ks : Nat)
    (hlen : cfg.binds.length < 256)
    (hnew : ∀ b ∈ cfg.binds, ¬(b.mods = mods ∧ b.keysym = ks)) :
    alloc_bind stale cfg mods ks = some (cfg.binds.length,
      { cfg with binds :=
          cfg.binds ++ [{ stale cfg.binds.length with mods := mods, keysym := ks }] }) := by
  unfold alloc_bind
  rw [find_bind_new mods ks cfg.binds 0 hnew]
  simp only []
  rw [if_neg (by omega)]

/-- A `bind` or `call` line with a new combination on a full table: `parser` returns `-1`
at once, with the configuration as it is; no later line is read. -/
theorem parser_bind_full (N : Nat) (stale : Nat → Binding) (cfg : Config) (mods ks : Nat)
    (act : RcAct) (rest : List RcLine) (hks : ks ≠ NoSymbol)
    (hlen : cfg.binds.length ≥ 256)
    (hnew : ∀ b ∈ cfg.binds, ¬(b.mods = mods ∧ b.keysym = ks)) :
    parser N stale cfg (RcLine.bind (some (mods, ks)) act :: rest) = (cfg, -1) := by
  simp only [parser, parse_line]
  rw [if_neg hks, alloc_bind_full stale cfg mods ks hlen hnew]

/-- A `workspace` line with a new combination on a full table: `parser` leaves its loop,
removes duplicates and returns `0`; no later line is read. -/
theorem parser_workspace_full (N : Nat) (stale : Nat → Binding) (cfg : Config) (mods ks : Nat)
    (act : RcWsAct) (rest : List RcLine) (hks : ks ≠ NoSymbol)
    (hlen : cfg.binds.length ≥ 256)
    (hnew : ∀ b ∈ cfg.binds, ¬(b.mods = mods ∧ b.keysym = ks)) :
    parser N stale cfg (RcLine.workspace (some (mods, ks)) act :: rest) =
      (remap_and_dedupe_binds cfg, 0) := by
  simp only [parser, parse_line]
  rw [if_neg hks, alloc_bind_full stale cfg mods ks hlen hnew]

/-- With room in the table the same `bind` line is taken in and the line after it is
read. -/
theorem parser_bind_room (N : Nat) (stale : Nat → Binding) (cfg : Config) (mods ks : Nat)
    (n : Int) (hks : ks ≠ NoSymbol) (hlen : cfg.binds.length < 256)
    (hnew : ∀ b ∈ cfg.binds, ¬(b.mods = mods ∧ b.keysym = ks)) :
    (parser N stale cfg [RcLine.bind (some (mods, ks)) RcAct.func, RcLine.gaps n]).1.gaps = n ∧
    (parser N stale cfg [RcLine.bind (some (mods, ks)) RcAct.func, RcLine.gaps n]).2 = 0 := by
  simp only [parser, parse_line]
  rw [if_neg hks, alloc_bind_room stale cfg mods ks hlen hnew]
  exact ⟨rfl, rfl⟩

theorem demo_binds_length (n : Nat) : (demo_binds n).length = n := by
  simp [demo_binds]

theorem demo_binds_new (n : Nat) (ks : Nat) (h : n < ks) :
    ∀ b ∈ demo_binds n, ¬(b.mods = 64 ∧ b.keysym = ks) := by
  intro b hb
  simp only [demo_binds, List.mem_map, List.mem_range] at hb
  obtain ⟨k, hk, rfl⟩ := hb
  simp only [not_and]
  intro _
  show k + 1 ≠ ks
  omega

/-- C19 (the code at the failing input): the table holds 256 bindings; a further `bind`
line with a new combination is followed by the line `gaps : 20`.  `parser` leaves the loop
through `cleanup_file` and returns `-1`, and `gaps` keeps its old value 10.  With a
`workspace` line in place of the `bind` line the loop is left by `break`: `parser` returns
`0`, and `gaps` is not read either.  With 255 bindings in the table the same two lines
are both processed. -/
theorem parser_stops_at_bind_cap :
    demo_full_config.binds.length = 256 ∧
    parser 9 demo_stale demo_full_config
        [RcLine.bind (some (64, 1000)) RcAct.func, RcLine.gaps 20] =
      (demo_full_config, -1) ∧
    (parser 9 demo_stale demo_full_config
        [RcLine.workspace (some (64, 1000)) (RcWsAct.move 1), RcLine.gaps 20]).2 = 0 ∧
    (parser 9 demo_stale demo_full_config
        [RcLine.workspace (some (64, 1000)) (RcWsAct.move 1), RcLine.gaps 20]).1.gaps = 10 ∧
    demo_full_config.gaps = 10 ∧
    (parser 9 demo_stale { demo_config with binds := demo_binds 255 }
        [RcLine.bind (some (64, 1000)) RcAct.func, RcLine.gaps 20]).1.gaps = 20 ∧
    (parser 9 demo_stale { demo_config with binds := demo_binds 255 }
        [RcLine.bind (some (64, 1000)) RcAct.func, RcLine.gaps 20]).2 = 0 := by
  have hlen : demo_full_config.binds.length = 256 := demo_binds_length 256
  have hnew : ∀ b ∈ demo_full_config.binds, ¬(b.mods = 64 ∧ b.keysym = 1000) :=
    demo_binds_new 256 1000 (by decide)
  refine ⟨hlen, ?_, ?_, ?_, rfl,
    parser_bind_room 9 demo_stale { demo_config with binds := demo_binds 255 } 64 1000 20
      (by decide) (by rw [show ({ demo_config with binds := demo_binds 255 } : Config).binds
        = demo_binds 255 from rfl, demo_binds_length]; decide)
      (demo_binds_new 255 1000 (by decide))⟩
  · exact parser_bind_full 9 demo_stale demo_full_config 64 1000 _ _ (by decide)
      (by rw [hlen]) hnew
  · rw [parser_workspace_full 9 demo_stale demo_full_config 64 1000 _ _ (by decide)
      (by rw [hlen]) hnew]
  · rw [parser_workspace_full 9 demo_stale demo_full_config 64 1000 _ _ (by decide)
      (by rw [hlen]) hnew]
    rfl

theorem heap_tile_eq (T : Tiler) (s : State) (p : Ptr) (c : Client) (h : s.heap p = some c) :
    (tile T s).heap p = some (match T s p with
      | none => c
      | some g => { c with x := g.x, y := g.y, w := g.w, h := g.h }) := by
  simp only [tile, h]
  cases T s p <;> rfl

/-- A client that fits the monitor is centred by `recenter` and lies inside it. -/
theorem recenter_fits (m : Monitor) (c : Client) (hw : c.w ≤ m.w) (hh : c.h ≤ m.h) :
    (recenter m c).x = m.x + (m.w - c.w) / 2 ∧ (recenter m c).y = m.y + (m.h - c.h) / 2 ∧
    m.x ≤ (recenter m c).x ∧ (recenter m c).x + c.w ≤ m.x + m.w ∧
    m.y ≤ (recenter m c).y ∧ (recenter m c).y + c.h ≤ m.y + m.h := by
  have hx : Int.tdiv (m.w - c.w) 2 = (m.w - c.w) / 2 := Int.tdiv_eq_ediv (by omega) (by omega)
  have hy : Int.tdiv (m.h - c.h) 2 = (m.h - c.h) / 2 := Int.tdiv_eq_ediv (by omega) (by omega)
  have ex : (recenter m c).x = m.x + (m.w - c.w) / 2 := by
    simp only [recenter, hx]
    rw [if_neg (by omega), if_neg (by omega)]
  have ey : (recenter m c).y = m.y + (m.h - c.h) / 2 := by
    simp only [recenter, hy]
    rw [if_neg (by omega), if_neg (by omega)]
  rw [ex, ey]
  refine ⟨rfl, rfl, ?_, ?_, ?_, ?_⟩ <;> omega

theorem move_recenter_float (s : State) (f : Ptr) (c : Client) (m : Monitor)
    (hfl : c.floating = true) (hm : mon_at s c.mon = Except.ok m) :
    move_recenter s f c = Except.ok (put s f (recenter m c)) := by
  unfold move_recenter
  rw [if_pos hfl, hm, bind_ok]

theorem move_recenter_tiled (s : State) (f : Ptr) (c : Client) (hfl : ¬ c.floating = true) :
    move_recenter s f c = Except.ok s := by
  unfold move_recenter
  rw [if_neg hfl]

/-- The common body of `move_next_mon` and `move_prev_mon` for a focused client and a step
that lands on a monitor. -/
theorem move_mon_spec (T : Tiler) (s : State) (step : Int → Int) (f : Ptr) (cf : Client)
    (hT : SkipsFloating T) (hf : s.focused = some f) (hcf : s.heap f = some cf)
    (hmany : 1 < monsn s) (h0 : 0 ≤ step cf.mon) (h1 : step cf.mon < monsn s) :
    ∃ s1 c1 m, move_mon T s step = Except.ok s1 ∧ s1.heap f = some c1 ∧
      c1.mon = step cf.mon ∧ s1.current_monitor = step cf.mon ∧
      mon_at s (step cf.mon) = Except.ok m ∧
      (cf.floating = true → c1 = recenter m { cf with mon := step cf.mon }) := by
  obtain ⟨m, hm⟩ := mon_at_ok s (step cf.mon) h0 h1
  unfold move_mon
  simp only [hf]
  rw [if_neg (not_le.2 hmany)]
  simp only [deref, hcf, bind_ok]
  obtain ⟨c1, hc1⟩ : ∃ c1 : Client, c1 = { cf with mon := step cf.mon } := ⟨_, rfl⟩
  have hc1f : c1.floating = cf.floating := by rw [hc1]
  have hc1m : c1.mon = step cf.mon := by rw [hc1]
  obtain ⟨s1, hs1⟩ : ∃ s1 : State, s1 = { put s f c1 with current_monitor := step cf.mon } :=
    ⟨_, rfl⟩
  have hs1h : s1.heap f = some c1 := by rw [hs1]; simp [put]
  have hs1m : mon_at s1 c1.mon = Except.ok m := by rw [hc1m, hs1]; exact hm
  rw [← hc1, ← hs1]
  by_cases hfl : cf.floating = true
  · rw [move_recenter_float s1 f c1 m (hc1f.trans hfl) hs1m, bind_ok]
    have hheap : (put s1 f (recenter m c1)).heap f = some (recenter m c1) := by
      simp [put]
    have hskip := hT _ f _ hheap (hc1f.trans hfl)
    refine ⟨_, recenter m c1, m, rfl, ?_, hc1m, ?_, hm, fun _ => rfl⟩
    · rw [heap_tile_eq T _ f _ hheap, hskip]
    · rw [hs1]; rfl
  · rw [move_recenter_tiled s1 f c1 (fun h => hfl (hc1f.symm.trans h)), bind_ok]
    refine ⟨_, _, m, rfl, heap_tile_eq T _ f _ hs1h, ?_, ?_, hm, fun h => absurd h hfl⟩
    · cases T s1 f <;> exact hc1m
    · rw [hs1]; rfl

/-- C20: without a focused client or with at most one monitor `move_next_mon` and
`move_prev_mon` change nothing.  With a focused client on the monitor `mon ≥ 0` and more
than one monitor, `move_next_mon` returns with the client on the monitor
`(mon + 1) mod monitor_count` and `move_prev_mon` with it on
`(mon - 1 + monitor_count) mod monitor_count`, which is `current_monitor` as well; a
floating client keeps its width and height, and when it fits the target monitor it is at
the centred position, inside the monitor's rectangle.  The tiling engine is one that skips
floating clients. -/
theorem move_mon_next_prev (T : Tiler) (s : State) (hT : SkipsFloating T) :
    (s.focused = none ∨ monsn s ≤ 1 →
      move_next_mon T s = Except.ok s ∧ move_prev_mon T s = Except.ok s) ∧
    (∀ f cf, s.focused = some f → s.heap f = some cf → 1 < monsn s → 0 ≤ cf.mon →
      ∀ r target, (r = move_next_mon T s ∧ target = (cf.mon + 1) % monsn s) ∨
          (r = move_prev_mon T s ∧ target = (cf.mon - 1 + monsn s) % monsn s) →
        ∃ s1 c1 m, r = Except.ok s1 ∧ s1.heap f = some c1 ∧
          c1.mon = target ∧ s1.current_monitor = target ∧
          s.mons.get? target.toNat = some m ∧
          (cf.floating = true →
            c1.w = cf.w ∧ c1.h = cf.h ∧
            (cf.w ≤ m.w → cf.h ≤ m.h →
              c1.x = m.x + (m.w - cf.w) / 2 ∧ c1.y = m.y + (m.h - cf.h) / 2 ∧
              m.x ≤ c1.x ∧ c1.x + c1.w ≤ m.x + m.w ∧
              m.y ≤ c1.y ∧ c1.y + c1.h ≤ m.y + m.h))) := by
  constructor
  · intro h
    unfold move_next_mon move_prev_mon move_mon
    cases hf : s.focused with
    | none => exact ⟨rfl, rfl⟩
    | some f =>
      rcases h with h | h
      · rw [hf] at h; cases h
      · simp only [if_pos h]
        exact ⟨trivial, trivial⟩
  · intro f cf hf hcf hmany hm0 r target hr
    -- both steps land on a monitor
    have key : ∀ step : Int → Int, step cf.mon = target → 0 ≤ target → target < monsn s →
        ∃ s1 c1 m, move_mon T s step = Except.ok s1 ∧ s1.heap f = some c1 ∧
          c1.mon = target ∧ s1.current_monitor = target ∧
          s.mons.get? target.toNat = some m ∧
          (cf.floating = true →
            c1.w = cf.w ∧ c1.h = cf.h ∧
            (cf.w ≤ m.w → cf.h ≤ m.h →
              c1.x = m.x + (m.w - cf.w) / 2 ∧ c1.y = m.y + (m.h - cf.h) / 2 ∧
              m.x ≤ c1.x ∧ c1.x + c1.w ≤ m.x + m.w ∧
              m.y ≤ c1.y ∧ c1.y + c1.h ≤ m.y + m.h)) := by
      intro step hstep h0 h1
      obtain ⟨s1, c1, m, hs1, hc1, hmon, hcm, hmat, hfl⟩ :=
        move_mon_spec T s step f cf hT hf hcf hmany (by rw [hstep]; exact h0)
          (by rw [hstep]; exact h1)
      rw [hstep] at hmon hcm hmat hfl
      have hget : s.mons.get? target.toNat = some m := by
        unfold mon_at at hmat
        rw [if_pos h0] at hmat
        cases hg : s.mons.get? target.toNat with
        | none => rw [hg] at hmat; cases hmat
        | some m1 =>
          rw [hg] at hmat
          injection hmat with hmat
          rw [hmat]
      refine ⟨s1, c1, m, hs1, hc1, hmon, hcm, hget, ?_⟩
      intro hfloat
      have hc := hfl hfloat
      refine ⟨by rw [hc]; rfl, by rw [hc]; rfl, ?_⟩
      intro hw hh
      have hfit := recenter_fits m { cf with mon := target } hw hh
      rw [hc]
      exact hfit
    have hn : (0 : Int) < monsn s := by omega
    have hne : (monsn s : Int) ≠ 0 := by omega
    rcases hr with ⟨hr, ht⟩ | ⟨hr, ht⟩
    · have hstep : (fun mon : Int => Int.tmod (mon + 1) (monsn s)) cf.mon = target := by
        rw [ht]
        exact Int.tmod_eq_emod (by omega) (by omega)
      have hk := key (fun mon : Int => Int.tmod (mon + 1) (monsn s)) hstep
        (by rw [ht]; exact Int.emod_nonneg _ hne) (by rw [ht]; exact Int.emod_lt_of_pos _ hn)
      rw [hr]
      exact hk
    · have hstep : (fun mon : Int => Int.tmod (mon - 1 + monsn s) (monsn s)) cf.mon = target := by
        rw [ht]
        exact Int.tmod_eq_emod (by omega) (by omega)
      have hk := key (fun mon : Int => Int.tmod (mon - 1 + monsn s) (monsn s)) hstep
        (by rw [ht]; exact Int.emod_nonneg _ hne) (by rw [ht]; exact Int.emod_lt_of_pos _ hn)
      rw [hr]
      exact hk

/-- The floating 100x100 client on monitor 0 of two 1920x1080 monitors: `move_next_mon`
puts it on monitor 1, centred at (2830, 490); `move_prev_mon` does the same, since
`(0 - 1 + 2) mod 2 = 1`. -/
theorem move_mon_next_prev_witness :
    (∃ s1 c1, move_next_mon no_tiler demo_float_mons = Except.ok s1 ∧ s1.heap 0 = some c1 ∧
      c1.mon = 1 ∧ s1.current_monitor = 1 ∧ c1.x = 2830 ∧ c1.y = 490 ∧ c1.w = 100 ∧
      c1.h = 100) ∧
    (∃ s1 c1, move_prev_mon no_tiler demo_float_mons = Except.ok s1 ∧ s1.heap 0 = some c1 ∧
      c1.mon = 1) := by
  have hT : SkipsFloating no_tiler := fun _ _ _ _ _ => rfl
  have h := (move_mon_next_prev no_tiler demo_float_mons hT).2 0
    { demo_client 100 none true with floating := true } rfl rfl (by decide) (by decide)
  constructor
  · obtain ⟨s1, c1, m, h1, h2, h3, h4, h5, h6⟩ := h _ 1 (Or.inl ⟨rfl, by decide⟩)
    have hm : m = ⟨1920, 0, 1920, 1080⟩ := by
      have : demo_float_mons.mons.get? (1 : Int).toNat = some ⟨1920, 0, 1920, 1080⟩ := rfl
      rw [this] at h5
      injection h5 with h5
      exact h5.symm
    subst hm
    obtain ⟨hw, hh, hpos⟩ := h6 rfl
    obtain ⟨hx, hy, -⟩ := hpos (by decide) (by decide)
    exact ⟨s1, c1, h1, h2, h3, h4, by rw [hx]; decide, by rw [hy]; decide, hw, hh⟩
  · obtain ⟨s1, c1, m, h1, h2, h3, -⟩ := h _ 1 (Or.inr ⟨rfl, by decide⟩)
    exact ⟨s1, c1, h1, h2, h3⟩

theorem demo_distinct : DistinctHandles 9 demo_state demo_lists := by
  intro i j p q _ _ hp hq hw
  have hi : i = 0 := by
    cases i with
    | zero => rfl
    | succ n => simp [demo_lists] at hp
  have hj : j = 0 := by
    cases j with
    | zero => rfl
    | succ n => simp [demo_lists] at hq
  subst hi
  subst hj
  simp only [demo_lists, List.mem_cons, List.mem_singleton, List.not_mem_nil, or_false] at hp hq
  rcases hp with rfl | rfl | rfl <;> rcases hq with rfl | rfl | rfl <;>
    first
    | exact ⟨rfl, rfl⟩
    | exact absurd hw (by decide)

/-- When the handles of the registry are distinct and the first client with window `w` has
been removed, no client with window `w` is left. -/
theorem removed_no_handle (N : Nat) (s s1 : State) (L : Nat → List Ptr) (w : Window) (ws : Nat)
    (l1 : List Ptr) (c : Ptr) (l2 : List Ptr) (hreg : Registry N s L)
    (hd : DistinctHandles N s L) (hws : ws < N) (hl : L ws = l1 ++ c :: l2)
    (hw : win_at s c = some w) (h : Removed N s L ws l1 c l2 s1) :
    ∀ j, j < N → ∀ p ∈ Function.update L ws (l1 ++ l2) j, win_at s1 p ≠ some w := by
  intro j hj p hp hwp
  have hnd : (l1 ++ c :: l2).Nodup := by
    rw [← hl]
    exact Chain_nodup s _ _ (hreg.lists ws hws)
  have hc : c ∈ L ws := by rw [hl]; simp
  by_cases hjw : j = ws
  · subst hjw
    rw [Function.update_same] at hp
    have hpc : p ≠ c := by
      intro e
      subst e
      rw [List.nodup_append] at hnd
      rcases List.mem_append.1 hp with h1 | h2
      · exact hnd.2.2 h1 (List.mem_cons_self _ _)
      · exact (List.nodup_cons.1 hnd.2.1).1 h2
    have hpL : p ∈ L j := by
      rw [hl]
      rcases List.mem_append.1 hp with h1 | h2
      · exact List.mem_append_left _ h1
      · exact List.mem_append_right _ (List.mem_cons_of_mem _ h2)
    rw [h.win p hpc] at hwp
    exact hpc (hd j j p c hj hj hpL hc (hwp.trans hw.symm)).2
  · rw [Function.update_noteq hjw] at hp
    have hpc : p ≠ c := by
      intro e
      subst e
      exact hreg.disjoint j ws hj hws hjw p hp hc
    rw [h.win p hpc] at hwp
    exact hjw (hd j ws p c hj hws hp hc (hwp.trans hw.symm)).1

/-- C21: on a registry, a destroy notification for a window that no client of any workspace
has returns the state as it was: the workspace lists, `open_windows`, `focused` and the drag
session are unchanged.  When no window handle is registered twice, handling the same
notification a second time returns the state that the first handling left. -/
theorem hdl_destroy_ntf_stale (N : Nat) (T : Tiler) (s : State) (L : Nat → List Ptr)
    (w : Window) (hreg : Registry N s L) :
    ((∀ j, j < N → ∀ p ∈ L j, win_at s p ≠ some w) →
      hdl_destroy_ntf N T s w = Except.ok s) ∧
    (DistinctHandles N s L →
      ∃ s1, hdl_destroy_ntf N T s w = Except.ok s1 ∧
        hdl_destroy_ntf N T s1 w = Except.ok s1) := by
  refine ⟨hdl_destroy_absent N T s L w hreg, ?_⟩
  intro hd
  by_cases hex : ∃ j, j < N ∧ ∃ p, p ∈ L j ∧ win_at s p = some w
  · obtain ⟨ws, l1, c, l2, hws, hl, hw, hfirst, hlow⟩ := first_owner N s L w hex
    obtain ⟨s1, hs1, hrem⟩ := hdl_destroy_found N T s L w ws l1 c l2 hreg hws hl hw hfirst hlow
    exact ⟨s1, hs1, hdl_destroy_absent N T s1 _ w hrem.registry
      (removed_no_handle N s s1 L w ws l1 c l2 hreg hd hws hl hw hrem)⟩
  · have hno : ∀ j, j < N → ∀ p ∈ L j, win_at s p ≠ some w :=
      fun j hj p hp hwp => hex ⟨j, hj, p, hp, hwp⟩
    have h := hdl_destroy_absent N T s L w hreg hno
    exact ⟨s, h, h⟩

/-- In `demo_state` no client has window 999: the notification changes nothing; window 101
is B's: the second notification for it finds nothing to remove. -/
theorem hdl_destroy_ntf_stale_witness :
    hdl_destroy_ntf 9 no_tiler demo_state 999 = Except.ok demo_state ∧
    ∃ s1, hdl_destroy_ntf 9 no_tiler demo_state 101 = Except.ok s1 ∧
      hdl_destroy_ntf 9 no_tiler s1 101 = Except.ok s1 ∧ clients_of s1 0 = some [0, 2] := by
  refine ⟨(hdl_destroy_ntf_stale 9 no_tiler demo_state demo_lists 999 demo_registry).1 ?_, ?_⟩
  · intro j _ p hp
    cases j with
    | zero =>
      simp only [demo_lists, List.mem_cons, List.mem_singleton, List.not_mem_nil, or_false] at hp
      rcases hp with rfl | rfl | rfl <;> decide
    | succ n => simp [demo_lists] at hp
  · obtain ⟨s1, h1, h2⟩ :=
      (hdl_destroy_ntf_stale 9 no_tiler demo_state demo_lists 101 demo_registry).2 demo_distinct
    have e : hdl_destroy_ntf 9 no_tiler demo_state 101 = Except.ok _ := rfl
    rw [e] at h1
    injection h1 with h1
    subst h1
    exact ⟨_, e, h2, rfl⟩

theorem map_managed_eval (s : State) (c : Ptr) (cc : Client) (hcc : s.heap c = some cc) :
    map_managed s c = Except.ok
      (if (if cc.mapped = false then put s c { cc with mapped := true } else s).user_config.new_win_focus
        then { (if cc.mapped = false then put s c { cc with mapped := true } else s) with
          focused := some c }
        else (if cc.mapped = false then put s c { cc with mapped := true } else s)) := by
  simp only [map_managed, deref, hcc, bind_ok]

/-- C22: on a registry without a window handle registered twice, a map request for the
window of the client `p` of workspace `ws` returns; the workspace lists are the same lists,
no cell is allocated and `open_windows` is unchanged.  When `ws` is not the active
workspace the state is unchanged.  In every case the state differs from the old one at most
in the cell of `p`, which is the old cell or the old cell with `mapped` set, and in
`focused`, which is the old value or `p`. -/
theorem hdl_map_req_managed (N : Nat) (M : Int) (T : Tiler) (s : State) (L : Nat → List Ptr)
    (env : MapEnv) (w : Window) (ws : Nat) (p : Ptr) (cp : Client)
    (hreg : Registry N s L) (hd : DistinctHandles N s L) (hws : ws < N) (hp : p ∈ L ws)
    (hcp : s.heap p = some cp) (hw : cp.win = w) :
    ∃ s1, hdl_map_req N M T s env w = Except.ok s1 ∧
      Registry N s1 L ∧ s1.brk = s.brk ∧ s1.open_windows = s.open_windows ∧
      ((ws : Int) ≠ s.current_ws → s1 = s) ∧
      { s1 with heap := s.heap, focused := s.focused } = s ∧
      (∀ q, q ≠ p → s1.heap q = s.heap q) ∧
      (s1.heap p = some cp ∨ s1.heap p = some { cp with mapped := true }) ∧
      (s1.focused = s.focused ∨ s1.focused = some p) := by
  have stay : Registry N s L ∧ s.brk = s.brk ∧ s.open_windows = s.open_windows ∧
      ((ws : Int) ≠ s.current_ws → s = s) ∧
      { s with heap := s.heap, focused := s.focused } = s ∧
      (∀ q, q ≠ p → s.heap q = s.heap q) ∧
      (s.heap p = some cp ∨ s.heap p = some { cp with mapped := true }) ∧
      (s.focused = s.focused ∨ s.focused = some p) :=
    ⟨hreg, rfl, rfl, fun _ => rfl, rfl, fun _ _ => rfl, Or.inl hcp, Or.inl rfl⟩
  have hwp : win_at s p = some w := by simp [win_at, hcp, hw]
  unfold hdl_map_req
  by_cases ha : env.attrs_ok = false
  · rw [if_pos ha]
    exact ⟨s, rfl, stay⟩
  rw [if_neg ha]
  by_cases ho : env.override_redirect = true ∨ env.width ≤ 0 ∨ env.height ≤ 0
  · rw [if_pos ho]
    exact ⟨s, rfl, stay⟩
  rw [if_neg ho]
  obtain ⟨r, hr, hspec⟩ := find_managed_spec N s L w hreg (List.range N)
    (fun j hj => List.mem_range.1 hj)
  rw [hr, bind_ok]
  cases r with
  | none =>
    exact absurd hwp (hspec ws (List.mem_range.2 hws) p hp)
  | some r =>
    obtain ⟨ws1, c⟩ := r
    obtain ⟨hws1, hc, hwc⟩ := hspec
    obtain ⟨e1, e2⟩ := hd ws1 ws c p (List.mem_range.1 hws1) hws hc hp (hwc.trans hwp.symm)
    subst e1
    subst e2
    show ∃ s1, (if (ws1 : Int) = s.current_ws then map_managed s c else Except.ok s)
      = Except.ok s1 ∧ _
    by_cases hcur : (ws1 : Int) = s.current_ws
    · rw [if_pos hcur, map_managed_eval s c cp hcp]
      have hput := SameLinks_put s c cp { cp with mapped := true } hcp rfl
      have hregp : Registry N (put s c { cp with mapped := true }) L :=
        Registry_congr N s _ L hreg hput.1 rfl
      have hself : ∀ q, q ≠ c → (put s c { cp with mapped := true }).heap q = s.heap q :=
        fun q hq => by simp [put, Function.update_noteq hq]
      have hat : (put s c { cp with mapped := true }).heap c = some { cp with mapped := true } := by
        simp [put]
      by_cases hm : cp.mapped = false <;> by_cases hn : s.user_config.new_win_focus = true
      · simp only [if_pos hm, put_user_config, if_pos hn]
        exact ⟨_, rfl, Registry_congr N _ _ L hregp (fun k => by cases k <;> rfl) rfl, rfl, rfl,
          fun h => absurd hcur h, rfl, hself, Or.inr hat, Or.inr rfl⟩
      · simp only [if_pos hm, put_user_config, if_neg hn]
        exact ⟨_, rfl, hregp, rfl, rfl, fun h => absurd hcur h, rfl, hself, Or.inr hat,
          Or.inl rfl⟩
      · simp only [if_neg hm, if_pos hn]
        exact ⟨_, rfl, Registry_congr N _ _ L hreg (fun k => by cases k <;> rfl) rfl, rfl, rfl,
          fun h => absurd hcur h, rfl, fun _ _ => rfl, Or.inl hcp, Or.inr rfl⟩
      · simp only [if_neg hm, if_neg hn]
        exact ⟨s, rfl, stay⟩
    · rw [if_neg hcur]
      exact ⟨s, rfl, stay⟩

/-- A second map request for window 101 in `demo_state`, whose client B on the active
workspace is unmapped: B becomes mapped and focused, nothing else changes.  On workspace 1
the same request leaves the state as it is. -/
theorem hdl_map_req_managed_witness :
    (∃ s1, hdl_map_req 9 64 no_tiler demo_state demo_map_env 101 = Except.ok s1 ∧
      clients_of s1 0 = some [0, 1, 2] ∧ s1.open_windows = demo_state.open_windows ∧
      s1.brk = 3) ∧
    hdl_map_req 9 64 no_tiler { demo_state with current_ws := 1 } demo_map_env 101 =
      Except.ok { demo_state with current_ws := 1 } := by
  constructor
  · obtain ⟨s1, h1, -, h3, h4, -⟩ := hdl_map_req_managed 9 64 no_tiler demo_state demo_lists
      demo_map_env 101 0 1 (demo_client 101 (some 2) false) demo_registry demo_distinct
      (by decide) (by simp [demo_lists]) rfl rfl
    have e : hdl_map_req 9 64 no_tiler demo_state demo_map_env 101 = Except.ok _ := rfl
    rw [e] at h1
    injection h1 with h1
    subst h1
    exact ⟨_, e, rfl, h4, h3⟩
  · rfl

/-- One registry operation keeps `open_windows` equal to the number of clients on the
lists. -/
theorem apply_op_counted (N : Nat) (T : Tiler) (s s1 : State) (L : Nat → List Ptr)
    (op : RegOp) (hreg : Registry N s L) (hc : s.open_windows = managed L N)
    (h : apply_op N T s op = Except.ok s1) :
    ∃ L1, Registry N s1 L1 ∧ s1.open_windows = managed L1 N := by
  cases op with
  | add env w ws =>
    simp only [apply_op] at h
    obtain ⟨r, hr, h⟩ := bind_eq_ok h
    injection h with h
    subst h
    by_cases hm : env.malloc_ok = false
    · simp only [add_client, if_pos hm] at hr
      injection hr with hr
      subst hr
      exact ⟨L, hreg, hc⟩
    · by_cases hws : 0 ≤ ws ∧ ws < N
      · obtain ⟨s2, hs2, hadd⟩ := add_client_spec N s L env w ws hreg hws (by simpa using hm)
        rw [hs2] at hr
        injection hr with hr
        subst hr
        refine ⟨_, hadd.registry, ?_⟩
        have hlt : ws.toNat < N := by omega
        have hmu := managed_update L ws.toNat (L ws.toNat ++ [s.brk]) N hlt
        rw [List.length_append, List.length_singleton] at hmu
        show s2.open_windows = _
        rw [hadd.count, hc]
        omega
      · simp only [add_client, if_neg hm, ws_index, if_neg hws] at hr
        cases hr
  | remove w =>
    obtain ⟨L1, h1, h2, -⟩ := hdl_destroy_ntf_counted N s.open_windows T s s1 L w hreg hc
      (le_refl _) h
    exact ⟨L1, h1, h2⟩

theorem run_ops_counted (N : Nat) (T : Tiler) (ops : List RegOp) (s s1 : State)
    (L : Nat → List Ptr) (hreg : Registry N s L) (hc : s.open_windows = managed L N)
    (h : run_ops N T s ops = Except.ok s1) :
    ∃ L1, Registry N s1 L1 ∧ s1.open_windows = managed L1 N := by
  induction ops generalizing s L with
  | nil =>
    simp only [run_ops] at h
    injection h with h
    subst h
    exact ⟨L, hreg, hc⟩
  | cons op ops ih =>
    simp only [run_ops] at h
    cases hop : apply_op N T s op with
    | error f => rw [hop] at h; cases h
    | ok s2 =>
      rw [hop] at h
      obtain ⟨L2, hreg2, hc2⟩ := apply_op_counted N T s s2 L op hreg hc hop
      exact ih s2 L2 hreg2 hc2 h

/-- C24: in every state that a sequence of `add_client` calls and destroy notifications
reaches from an empty registry with `open_windows = 0`, `open_windows` is the number of
clients on the workspace lists, and so is not negative. -/
theorem open_windows_counts_clients (N : Nat) (T : Tiler) (ops : List RegOp) (s0 s : State)
    (hreg : Registry N s0 (fun _ => [])) (h0 : s0.open_windows = 0)
    (hrun : run_ops N T s0 ops = Except.ok s) :
    ∃ L, Registry N s L ∧ s.open_windows = managed L N ∧ 0 ≤ s.open_windows := by
  obtain ⟨L, h1, h2⟩ := run_ops_counted N T ops s0 s (fun _ => []) hreg
    (by rw [h0, managed_const_nil]; rfl) hrun
  exact ⟨L, h1, h2, by rw [h2]; exact Int.natCast_nonneg _⟩

/-- Windows 7 and 8 are added to workspaces 0 and 1, window 7 is destroyed, and a destroy
notification arrives for the unknown window 9: one client is left and `open_windows`
is 1. -/
theorem open_windows_counts_clients_witness :
    ∃ s L, run_ops 9 no_tiler (init demo_config [])
        [RegOp.add demo_add_env 7 0, RegOp.add demo_add_env 8 1, RegOp.remove 7,
          RegOp.remove 9] = Except.ok s ∧
      Registry 9 s L ∧ s.open_windows = managed L 9 ∧ 0 ≤ s.open_windows ∧
      s.open_windows = 1 ∧ clients_of s 0 = some [] ∧ clients_of s 1 = some [1] := by
  have e : run_ops 9 no_tiler (init demo_config [])
      [RegOp.add demo_add_env 7 0, RegOp.add demo_add_env 8 1, RegOp.remove 7,
        RegOp.remove 9] = Except.ok _ := rfl
  obtain ⟨L, h1, h2, h3⟩ := open_windows_counts_clients 9 no_tiler _ (init demo_config []) _
    (init_registry 9 demo_config []) rfl e
  exact ⟨_, L, e, h1, h2, h3, rfl, rfl, rfl⟩

/-- The do-while loops of `focus_next` and `focus_prev`, started at the client `start` of the
list `l1 ++ start :: l2` of workspace `i`, return within as many rounds as the list has
clients. -/
theorem focus_loops_fuel (s : State) (i : Nat) (l1 : List Ptr) (start : Ptr) (l2 : List Ptr)
    (hb : ∀ p c, s.heap p = some c → p < s.brk)
    (h : Chain s (Link.head i) (l1 ++ start :: l2) none) (fuel : Nat)
    (hf : (l1 ++ start :: l2).length ≤ fuel) :
    ∃ hd, s.workspaces i = some hd ∧ (l1 = [] → hd = start) ∧
      focus_next_loop s hd start fuel start =
        Except.ok (((l2 ++ l1 ++ [start]).find? (mapped_at s)).getD start) ∧
      focus_prev_loop s hd start fuel start =
        Except.ok (((l1.reverse ++ (l2.reverse ++ [start])).find? (mapped_at s)).getD start) := by
  have hn := Chain_nodup s _ _ h
  have hall := Chain_allocated s _ _ _ h
  obtain ⟨h1, h2⟩ := (Chain_append s l1 start l2 _ _).1 h
  obtain ⟨hd, hhd, hfirst, hsteps⟩ : ∃ hd, s.workspaces i = some hd ∧
      (l1 = [] → hd = start) ∧ Steps s hd start (l2 ++ l1 ++ [start]) := by
    cases l1 with
    | nil =>
      refine ⟨start, ?_, fun _ => rfl, ?_⟩
      · have := h1
        simp only [Chain, load] at this
        injection this
      · simpa using Steps_wrap s start l2 start h2
    | cons hd l1 =>
      refine ⟨hd, ?_, by simp, ?_⟩
      · have := h1.1
        simp only [load] at this
        injection this
      · have hx : ∃ e, load s (Link.next start) = Except.ok e := by
          cases l2 with
          | nil => exact ⟨_, h2⟩
          | cons r l2 => exact ⟨_, h2.1⟩
        obtain ⟨e, he⟩ := hx
        have h3 : Chain s (Link.next hd) (l1 ++ [start]) e :=
          (Chain_concat s l1 start _ e).2 ⟨h1.2, he⟩
        have h4 := Steps_of_Chain s hd _ _ _ h3
        have h5 := Steps_wrap s hd l2 start h2
        have : l2 ++ hd :: l1 ++ [start] = l2 ++ hd :: (l1 ++ [start]) := by simp
        rw [this]
        exact (Steps_append s hd l2 hd _ start).2 ⟨h5, h4⟩
  refine ⟨hd, hhd, hfirst, ?_, ?_⟩
  · refine focus_next_loop_spec s hd start (l2 ++ l1 ++ [start]) start fuel hsteps ?_ (by simp)
      (fun x hx => hall x (by simp at hx ⊢; tauto)) (by simp at hf ⊢; omega)
    rw [List.dropLast_concat]
    intro x hx hxs
    subst hxs
    simp only [List.nodup_append, List.nodup_cons] at hn
    rcases List.mem_append.1 hx with hx | hx
    · exact hn.2.1.1 hx
    · exact hn.2.2 hx (by simp)
  · refine focus_prev_loop_spec s hd start (l1.reverse ++ (l2.reverse ++ [start])) start fuel
      (Back_round s i hd hb hhd l1 start l2 h) ?_
      (by rw [← List.append_assoc, List.getLast?_concat])
      (fun x hx => hall x (by simp at hx ⊢; tauto)) (by simp at hf ⊢; omega)
    rw [← List.append_assoc, List.dropLast_concat]
    intro x hx hxs
    subst hxs
    simp only [List.nodup_append, List.nodup_cons] at hn
    rcases List.mem_append.1 hx with hx | hx
    · exact hn.2.2 (List.mem_reverse.1 hx) (by simp)
    · exact hn.2.1.1 (List.mem_reverse.1 hx)

/-- The client that a walk of `focus_next` or `focus_prev` stops at is allocated. -/
theorem find_getD_allocated (s : State) (l : List Ptr) (start : Ptr)
    (hall : ∀ x ∈ l, ∃ c, s.heap x = some c) (hs : ∃ c, s.heap start = some c) :
    ∃ c, s.heap ((l.find? (mapped_at s)).getD start) = some c := by
  cases hfind : l.find? (mapped_at s) with
  | none => exact hs
  | some c => exact hall c (List.mem_of_find?_eq_some hfind)

/-- C26: on a registry whose `focused` is unset or a client of the active workspace's list,
`focus_next` and `focus_prev` return, and their do-while loops return within `n` rounds,
`n` being the number of clients on the active workspace's list, whatever the `mapped`
flags are. -/
theorem focus_walks_terminate (N : Nat) (s : State) (L : Nat → List Ptr)
    (hreg : Registry N s L) (hcur : CurOK N s) (hfoc : FocusOK s L) :
    (∃ s1, focus_next N s = Except.ok s1) ∧ (∃ s1, focus_prev N s = Except.ok s1) ∧
    ∀ hd, s.workspaces s.current_ws.toNat = some hd →
      ∃ c1 c2,
        focus_next_loop s hd (match s.focused with
          | some f => f
          | none => hd) (L s.current_ws.toNat).length (match s.focused with
          | some f => f
          | none => hd) = Except.ok c1 ∧
        focus_prev_loop s hd (match s.focused with
          | some f => f
          | none => hd) (L s.current_ws.toNat).length (match s.focused with
          | some f => f
          | none => hd) = Except.ok c2 := by
  obtain ⟨hi, hiN, -⟩ := ws_index_ok N s.current_ws hcur
  have hch := hreg.lists _ hiN
  have hb := hreg.below_brk
  -- the list of the active workspace, split at the client the walk starts from
  have hsplit : ∀ hd, s.workspaces s.current_ws.toNat = some hd →
      ∃ l1 start l2, L s.current_ws.toNat = l1 ++ start :: l2 ∧
        (match s.focused with
          | some f => f
          | none => hd) = start := by
    intro hd hhd
    cases hf : s.focused with
    | some f =>
      obtain ⟨l1, l2, hl⟩ := List.append_of_mem (hfoc f hf)
      exact ⟨l1, f, l2, hl, rfl⟩
    | none =>
      have h1 := Chain_head s _ _ _ hch
      simp only [load, hhd] at h1
      injection h1 with h1
      cases hL : L s.current_ws.toNat with
      | nil => rw [hL] at h1; cases h1
      | cons a tl =>
        rw [hL] at h1
        simp at h1
        exact ⟨[], hd, tl, by rw [h1]; rfl, rfl⟩
  have hloops : ∀ hd, s.workspaces s.current_ws.toNat = some hd → ∀ fuel,
      (L s.current_ws.toNat).length ≤ fuel →
      ∃ c1 c2 cc1 cc2,
        focus_next_loop s hd (match s.focused with
          | some f => f
          | none => hd) fuel (match s.focused with
          | some f => f
          | none => hd) = Except.ok c1 ∧
        focus_prev_loop s hd (match s.focused with
          | some f => f
          | none => hd) fuel (match s.focused with
          | some f => f
          | none => hd) = Except.ok c2 ∧ s.heap c1 = some cc1 ∧ s.heap c2 = some cc2 := by
    intro hd hhd fuel hfuel
    obtain ⟨l1, start, l2, hl, hst⟩ := hsplit hd hhd
    rw [hst]
    rw [hl] at hch hfuel
    have hall := Chain_allocated s _ _ _ hch
    obtain ⟨hd1, hhd1, -, hn, hp⟩ := focus_loops_fuel s _ l1 start l2 hb hch fuel hfuel
    rw [hhd] at hhd1
    injection hhd1 with hhd1
    subst hhd1
    obtain ⟨cc1, hcc1⟩ := find_getD_allocated s (l2 ++ l1 ++ [start]) start
      (fun x hx => hall x (by simp at hx ⊢; tauto)) (hall start (by simp))
    obtain ⟨cc2, hcc2⟩ := find_getD_allocated s (l1.reverse ++ (l2.reverse ++ [start])) start
      (fun x hx => hall x (by simp at hx ⊢; tauto)) (hall start (by simp))
    exact ⟨_, _, cc1, cc2, hn, hp, hcc1, hcc2⟩
  refine ⟨?_, ?_, ?_⟩
  · unfold focus_next
    rw [hi, bind_ok]
    cases hhd : s.workspaces s.current_ws.toNat with
    | none => exact ⟨s, rfl⟩
    | some hd =>
      obtain ⟨c1, -, cc1, -, h1, -, hcc1, -⟩ := hloops hd hhd (s.brk + 1)
        (Nat.le_succ_of_le (Chain_length s _ _ hch hb))
      simp only [h1, bind_ok, deref, hcc1]
      by_cases hm : cc1.mapped = false
      · rw [if_pos hm]; exact ⟨_, rfl⟩
      · rw [if_neg hm]; exact ⟨_, rfl⟩
  · unfold focus_prev
    rw [hi, bind_ok]
    cases hhd : s.workspaces s.current_ws.toNat with
    | none => exact ⟨s, rfl⟩
    | some hd =>
      obtain ⟨-, c2, -, cc2, -, h2, -, hcc2⟩ := hloops hd hhd (s.brk + 1)
        (Nat.le_succ_of_le (Chain_length s _ _ hch hb))
      simp only [h2, bind_ok, deref, hcc2]
      by_cases hm : cc2.mapped = false
      · rw [if_pos hm]; exact ⟨_, rfl⟩
      · rw [if_neg hm]; exact ⟨_, rfl⟩
  · intro hd hhd
    obtain ⟨c1, c2, -, -, h1, h2, -, -⟩ := hloops hd hhd _ (le_refl _)
    exact ⟨c1, c2, h1, h2⟩

theorem demo_hidden_registry : Registry 9 demo_hidden demo_lists := by
  refine Registry_congr 9 demo_state demo_hidden demo_lists demo_registry ?_ rfl
  intro k
  cases k with
  | head ws => rfl
  | next p =>
    simp only [load, demo_hidden]
    cases demo_state.heap p <;> rfl

/-- With A, B and C all unmapped and A focused, both functions return, and both loops
return in the third round, not in the second. -/
theorem focus_walks_terminate_witness :
    (∃ s1, focus_next 9 demo_hidden = Except.ok s1) ∧
    (∃ s1, focus_prev 9 demo_hidden = Except.ok s1) ∧
    (∃ c1 c2, focus_next_loop demo_hidden 0 0 3 0 = Except.ok c1 ∧
      focus_prev_loop demo_hidden 0 0 3 0 = Except.ok c2) ∧
    focus_next_loop demo_hidden 0 0 2 0 = Except.error Fault.hang ∧
    focus_prev_loop demo_hidden 0 0 2 0 = Except.error Fault.hang := by
  obtain ⟨h1, h2, h3⟩ := focus_walks_terminate 9 demo_hidden demo_lists demo_hidden_registry
    ⟨by decide, by decide⟩ (fun f hf => by
      have : f = 0 := by
        have h : demo_hidden.focused = some 0 := rfl
        rw [h] at hf
        injection hf with hf
        exact hf.symm
      subst this
      decide)
  obtain ⟨c1, c2, h4, h5⟩ := h3 0 rfl
  exact ⟨h1, h2, ⟨c1, c2, h4, h5⟩, rfl, rfl⟩

theorem dedupe_row_filter (bi : Binding) (l : List Binding) :
    dedupe_row bi l = l.filter (fun b => decide (combo b ≠ combo bi)) := by
  induction l with
  | nil => rfl
  | cons bj rest ih =>
    by_cases h : bi.mods = bj.mods ∧ bi.keysym = bj.keysym
    · have hc : combo bj = combo bi := by simp [combo, h.1, h.2]
      simp only [dedupe_row, if_pos h, ih]
      rw [List.filter_cons_of_neg (by simp [hc])]
    · have hc : combo bj ≠ combo bi := by
        intro e
        simp only [combo, Prod.mk.injEq] at e
        exact h ⟨e.1.symm, e.2.symm⟩
      simp only [dedupe_row, if_neg h, ih]
      rw [List.filter_cons_of_pos (by simp [hc])]

theorem any_combo (earlier : List Binding) (b : Binding) :
    earlier.any (fun a => decide (combo a = combo b)) = true ↔
      combo b ∈ earlier.map combo := by
  simp only [List.any_eq_true, decide_eq_true_eq, List.mem_map]

/-- The loops of `remap_and_dedupe_binds`, run on the entries whose combination no entry of
`earlier` has, yield the first occurrences behind `earlier`. -/
theorem dedupe_from_first (l : List Binding) (earlier : List Binding) (fuel : Nat)
    (hf : (l.filter (fun b => decide (combo b ∉ earlier.map combo))).length ≤ fuel) :
    dedupe_from fuel (l.filter (fun b => decide (combo b ∉ earlier.map combo))) =
      first_occurrences earlier l := by
  induction l generalizing earlier fuel with
  | nil => cases fuel <;> rfl
  | cons b bs ih =>
    have hfilter : ∀ x : Binding,
        decide (combo x ∉ (earlier ++ [b]).map combo) =
          (decide (combo x ∉ earlier.map combo) && decide (combo x ≠ combo b)) := by
      intro x
      by_cases h1 : combo x ∈ earlier.map combo <;> by_cases h2 : combo x = combo b <;>
        simp [h1, h2]
    by_cases hb : combo b ∈ earlier.map combo
    · have hany := (any_combo earlier b).2 hb
      simp only [first_occurrences, hany, if_true]
      rw [List.filter_cons_of_neg (by simpa using hb)] at hf ⊢
      have hsame : bs.filter (fun x => decide (combo x ∉ (earlier ++ [b]).map combo)) =
          bs.filter (fun x => decide (combo x ∉ earlier.map combo)) := by
        apply List.filter_congr
        intro x _
        rw [hfilter x]
        by_cases h1 : combo x ∈ earlier.map combo
        · simp [h1]
        · have : combo x ≠ combo b := fun e => h1 (e ▸ hb)
          simp [h1, this]
      rw [← hsame] at hf ⊢
      exact ih (earlier ++ [b]) fuel hf
    · have hany : ¬ earlier.any (fun a => decide (combo a = combo b)) = true :=
        fun h => hb ((any_combo earlier b).1 h)
      simp only [first_occurrences, if_neg hany]
      rw [List.filter_cons_of_pos (by simpa using hb)] at hf ⊢
      cases fuel with
      | zero => simp at hf
      | succ fuel =>
        simp only [dedupe_from, dedupe_row_filter, List.filter_filter]
        have hsame : bs.filter (fun x => decide (combo x ∉ (earlier ++ [b]).map combo)) =
            bs.filter (fun a => decide (combo a ≠ combo b) &&
              decide (combo a ∉ earlier.map combo)) := by
          apply List.filter_congr
          intro x _
          rw [hfilter x, Bool.and_comm]
        rw [← hsame]
        congr 1
        apply ih (earlier ++ [b]) fuel
        rw [hsame, ← List.filter_filter]
        have h1 := List.length_filter_le (fun a => decide (combo a ≠ combo b))
          (bs.filter (fun a => decide (combo a ∉ earlier.map combo)))
        simp only [List.length_cons] at hf
        omega

theorem dedupe_from_eq (l : List Binding) (fuel : Nat) (hf : l.length ≤ fuel) :
    dedupe_from fuel l = first_occurrences [] l := by
  have h0 : l.filter (fun b => decide (combo b ∉ ([] : List Binding).map combo)) = l := by
    simp
  have := dedupe_from_first l [] fuel (by rw [h0]; exact hf)
  rw [h0] at this
  exact this

theorem first_occurrences_mem (l : List Binding) (earlier : List Binding) (k : Nat × Nat) :
    k ∈ (first_occurrences earlier l).map combo ↔
      k ∈ l.map combo ∧ k ∉ earlier.map combo := by
  induction l generalizing earlier with
  | nil => simp [first_occurrences]
  | cons b bs ih =>
    by_cases hb : combo b ∈ earlier.map combo
    · have hany := (any_combo earlier b).2 hb
      have hk : k = combo b → k ∈ earlier.map combo := fun e => e ▸ hb
      simp only [first_occurrences, hany, if_true, ih, List.map_append, List.map_cons,
        List.map_nil, List.mem_append, List.mem_cons, List.not_mem_nil, or_false, not_or]
      tauto
    · have hany : ¬ earlier.any (fun a => decide (combo a = combo b)) = true :=
        fun h => hb ((any_combo earlier b).1 h)
      have hk : k = combo b → k ∉ earlier.map combo := fun e => e ▸ hb
      simp only [first_occurrences, if_neg hany, ih, List.map_append, List.map_cons,
        List.map_nil, List.mem_append, List.mem_cons, List.not_mem_nil, or_false, not_or]
      tauto

/-- An entry with no entry of its combination in front of it survives. -/
theorem first_occurrences_keeps (l1 : List Binding) (b : Binding) (l2 : List Binding)
    (earlier : List Binding) (he : combo b ∉ earlier.map combo)
    (h1 : ∀ a ∈ l1, combo a ≠ combo b) :
    b ∈ first_occurrences earlier (l1 ++ b :: l2) := by
  induction l1 generalizing earlier with
  | nil =>
    have hany : ¬ earlier.any (fun a => decide (combo a = combo b)) = true :=
      fun h => he ((any_combo earlier b).1 h)
    simp only [List.nil_append, first_occurrences, if_neg hany]
    exact List.mem_cons_self _ _
  | cons a l1 ih =>
    have hrec : b ∈ first_occurrences (earlier ++ [a]) (l1 ++ b :: l2) := by
      apply ih
      · simp only [List.map_append, List.map_cons, List.map_nil, List.mem_append,
          List.mem_cons, List.not_mem_nil, or_false, not_or]
        exact ⟨he, fun e => h1 a (List.mem_cons_self _ _) e.symm⟩
      · exact fun x hx => h1 x (List.mem_cons_of_mem _ hx)
    by_cases hany : earlier.any (fun x => decide (combo x = combo a)) = true
    · simp only [List.cons_append, first_occurrences, hany, if_true]
      exact hrec
    · simp only [List.cons_append, first_occurrences, if_neg hany]
      exact List.mem_cons_of_mem _ hrec

theorem first_occurrences_nodup (l : List Binding) (earlier : List Binding) :
    ((first_occurrences earlier l).map combo).Nodup := by
  induction l generalizing earlier with
  | nil => simp [first_occurrences]
  | cons b bs ih =>
    by_cases hany : earlier.any (fun a => decide (combo a = combo b)) = true
    · simp only [first_occurrences, hany, if_true]
      exact ih _
    · simp only [first_occurrences, if_neg hany, List.map_cons, List.nodup_cons]
      refine ⟨?_, ih _⟩
      intro h
      have := ((first_occurrences_mem bs (earlier ++ [b]) (combo b)).1 h).2
      simp at this

theorem first_occurrences_sublist (l : List Binding) (earlier : List Binding) :
    (first_occurrences earlier l).Sublist l := by
  induction l generalizing earlier with
  | nil => simp [first_occurrences]
  | cons b bs ih =>
    by_cases hany : earlier.any (fun a => decide (combo a = combo b)) = true
    · simp only [first_occurrences, hany, if_true]
      exact List.Sublist.cons _ (ih _)
    · simp only [first_occurrences, if_neg hany]
      exact List.Sublist.cons₂ _ (ih _)

/-- A table without a repeated combination is its own list of first occurrences. -/
theorem first_occurrences_fixed (l : List Binding) (earlier : List Binding)
    (hn : (l.map combo).Nodup) (hd : ∀ x ∈ l, combo x ∉ earlier.map combo) :
    first_occurrences earlier l = l := by
  induction l generalizing earlier with
  | nil => rfl
  | cons b bs ih =>
    have hany : ¬ earlier.any (fun a => decide (combo a = combo b)) = true :=
      fun h => hd b (List.mem_cons_self _ _) ((any_combo earlier b).1 h)
    simp only [first_occurrences, if_neg hany]
    rw [List.map_cons, List.nodup_cons] at hn
    congr 1
    apply ih _ hn.2
    intro x hx
    simp only [List.map_append, List.map_cons, List.map_nil, List.mem_append,
      List.mem_singleton, not_or]
    refine ⟨hd x (List.mem_cons_of_mem _ hx), ?_⟩
    intro e
    exact hn.1 (e ▸ List.mem_map_of_mem combo hx)

/-- C28: `remap_and_dedupe_binds` leaves a table in which no two entries have the same
`(mods, keysym)` pair; the table is the list of the first occurrences of the pairs of the old
table, in the old order; its length, `bindsn`, is the number of distinct pairs of the old
table; the other fields of the configuration are untouched; and running it a second time
changes nothing. -/
theorem remap_and_dedupe_binds_spec (cfg : Config) :
    ((remap_and_dedupe_binds cfg).binds.map combo).Nodup ∧
    (remap_and_dedupe_binds cfg).binds = first_occurrences [] cfg.binds ∧
    (remap_and_dedupe_binds cfg).binds.Sublist cfg.binds ∧
    (∀ l1 b l2, cfg.binds = l1 ++ b :: l2 → (∀ a ∈ l1, combo a ≠ combo b) →
      b ∈ (remap_and_dedupe_binds cfg).binds) ∧
    (remap_and_dedupe_binds cfg).binds.length = (cfg.binds.map combo).toFinset.card ∧
    { remap_and_dedupe_binds cfg with binds := cfg.binds } = cfg ∧
    remap_and_dedupe_binds (remap_and_dedupe_binds cfg) = remap_and_dedupe_binds cfg := by
  have hb : (remap_and_dedupe_binds cfg).binds = first_occurrences [] cfg.binds :=
    dedupe_from_eq cfg.binds _ (le_refl _)
  have hn := first_occurrences_nodup cfg.binds []
  refine ⟨by rw [hb]; exact hn, hb, by rw [hb]; exact first_occurrences_sublist _ _, ?_, ?_,
    rfl, ?_⟩
  · intro l1 b l2 hl hfirst
    rw [hb, hl]
    exact first_occurrences_keeps l1 b l2 [] (by simp) hfirst
  · have hcard := List.toFinset_card_of_nodup hn
    rw [List.length_map] at hcard
    rw [hb, ← hcard]
    congr 1
    ext k
    rw [List.mem_toFinset, List.mem_toFinset, first_occurrences_mem]
    simp
  · have h2 : dedupe_from (first_occurrences [] cfg.binds).length
        (first_occurrences [] cfg.binds) = first_occurrences [] cfg.binds := by
      rw [dedupe_from_eq _ _ (le_refl _)]
      exact first_occurrences_fixed _ [] hn (by simp)
    show ({ remap_and_dedupe_binds cfg with
      binds := dedupe_from (remap_and_dedupe_binds cfg).binds.length
        (remap_and_dedupe_binds cfg).binds } : Config) = remap_and_dedupe_binds cfg
    rw [hb, h2, ← hb]

/-- Five entries with the combinations p, q, p, r, q: the third and the fifth go, and
`bindsn` is 3. -/
theorem remap_and_dedupe_binds_example :
    (remap_and_dedupe_binds { demo_config with binds :=
      [⟨64, 1, BindType.TYPE_FUNC, 0⟩, ⟨64, 2, BindType.TYPE_FUNC, 0⟩,
        ⟨64, 1, BindType.TYPE_CMD, 0⟩, ⟨65, 1, BindType.TYPE_CWKSP, 3⟩,
        ⟨64, 2, BindType.TYPE_MWKSP, 4⟩] }).binds =
      [⟨64, 1, BindType.TYPE_FUNC, 0⟩, ⟨64, 2, BindType.TYPE_FUNC, 0⟩,
        ⟨65, 1, BindType.TYPE_CWKSP, 3⟩] := by
  decide

/-- C25 (the code at the failing input): for the binding `mod + Return`, `grab_keys` grabs
the key with the modifiers `Mod4Mask | Mod5Mask`, a guard of its list, and `hdl_keypress`
dispatches a press of Return with that state to no binding, because `clean_mask` clears
`Mod3Mask`, not `Mod5Mask`.  The four guards without `Mod5Mask` are dispatched to the
binding, the four with `Mod5Mask` are not. -/
theorem grabbed_mod5_not_dispatched :
    (65293, Mod4Mask ||| Mod5Mask) ∈ grab_keys demo_return_config (fun _ => 36) ∧
    hdl_keypress_select demo_return_config 65293 (Mod4Mask ||| Mod5Mask) = none ∧
    (grab_keys demo_return_config (fun _ => 36)).map
        (fun g => (hdl_keypress_select demo_return_config g.1 g.2).isSome) =
      [true, true, true, true, false, false, false, false] := by
  decide

theorem hdl_motion_zero_throttle (N : Nat) (T : Tiler) (s : State) (e : MotionEv) (c : Ptr)
    (hdc : s.drag_client = some c) (hmode : s.drag_mode ≠ DragMode.DRAG_NONE)
    (hz : s.user_config.motion_throttle = 0) :
    hdl_motion N T s e = Except.error Fault.div_zero := by
  have ht : throttle_ul s = 0 := by
    unfold throttle_ul
    rw [hz]
    rfl
  unfold hdl_motion
  simp only [hdc]
  rw [if_neg hmode, if_pos ht]

/-- C27 (the code at the failing input): `parser` takes the line `motion_throttle : 0` in,
returns `0` and leaves `motion_throttle = 0` in the configuration that `init_defaults`
filled; with that configuration `hdl_motion` divides by zero at the first motion of a drag
session.  With the value 60 of `init_defaults` the same motion is processed. -/
theorem motion_throttle_zero_accepted :
    parser 9 demo_stale init_defaults [RcLine.motion_throttle 0] =
      ({ init_defaults with motion_throttle := 0 }, 0) ∧
    hdl_motion 9 no_tiler
        { demo_move_state with
          user_config := (parser 9 demo_stale init_defaults [RcLine.motion_throttle 0]).1 }
        ⟨100, 815, 0, 0⟩ = Except.error Fault.div_zero ∧
    (hdl_motion 9 no_tiler { demo_move_state with user_config := init_defaults }
        ⟨100, 815, 0, 0⟩).toOption.isSome = true := by
  refine ⟨by decide, hdl_motion_zero_throttle 9 no_tiler _ _ 0 rfl (by decide) rfl, rfl⟩

/-- C23 (the code at the failing input): in a `DRAG_SWAP` session with subject A, a first
processed motion over B's window makes B the pending target and sends B the swap colour; a
second one over C's window makes C the pending target and sends C the swap colour, and
nothing is sent to B: B and C both carry the swap colour, while only C is the candidate.
A third motion over no window clears the pending target and sends nothing, so C keeps the
swap colour as well. -/
theorem swap_highlight_not_restored :
    (hdl_motion 9 no_tiler demo_swap_start ⟨100, 0, 0, 101⟩).toOption.map
        (fun s => (s.swap_target, s.last_motion_time)) = some (some 1, 100) ∧
    motion_swap_borders 9 demo_swap_start ⟨100, 0, 0, 101⟩ =
      Except.ok [(101, BorderCol.border_swap_col)] ∧
    ((hdl_motion 9 no_tiler demo_swap_start ⟨100, 0, 0, 101⟩ >>= fun s1 =>
        hdl_motion 9 no_tiler s1 ⟨200, 0, 0, 102⟩).toOption.map
        (fun s => (s.swap_target, s.last_motion_time))) = some (some 2, 200) ∧
    (hdl_motion 9 no_tiler demo_swap_start ⟨100, 0, 0, 101⟩ >>= fun s1 =>
        motion_swap_borders 9 s1 ⟨200, 0, 0, 102⟩) =
      Except.ok [(102, BorderCol.border_swap_col)] ∧
    border_after [(101, BorderCol.border_swap_col), (102, BorderCol.border_swap_col)] 101
        BorderCol.border_ufoc_col = BorderCol.border_swap_col ∧
    border_after [(101, BorderCol.border_swap_col), (102, BorderCol.border_swap_col)] 102
        BorderCol.border_ufoc_col = BorderCol.border_swap_col ∧
    ((hdl_motion 9 no_tiler demo_swap_start ⟨100, 0, 0, 101⟩ >>= fun s1 =>
        hdl_motion 9 no_tiler s1 ⟨200, 0, 0, 102⟩ >>= fun s2 =>
        hdl_motion 9 no_tiler s2 ⟨300, 0, 0, 0⟩).toOption.map
        (fun s => (s.swap_target, s.last_motion_time))) = some (none, 300) ∧
    (hdl_motion 9 no_tiler demo_swap_start ⟨100, 0, 0, 101⟩ >>= fun s1 =>
        hdl_motion 9 no_tiler s1 ⟨200, 0, 0, 102⟩ >>= fun s2 =>
        motion_swap_borders 9 s2 ⟨300, 0, 0, 0⟩) = Except.ok [] := by
  refine ⟨rfl, rfl, rfl, rfl, rfl, rfl, rfl, rfl⟩

end Sxwm
